import Mathlib

/-!
# Screen-line builder of the text buffer's display layer

A shallow embedding of `src/screen-line-builder.js` (class `ScreenLineBuilder`).

* JavaScript strings are lists of characters (one `Char` per UTF-16 code unit), so
  `s.length` is `List.length` and `a + b` is `++`.
* The mutable locals of `buildScreenLines` together with `this.tagCodes` and
  `this.currentTokenLength` form the record `BuilderState`; every statement of the method
  is a function on that record.
* `hunks` / `hunkIndex` are kept as the list of hunks from `hunkIndex` on, so that
  `hunks[hunkIndex]` is the head of the list and `hunkIndex++` drops it.
* The display layer (buffer accessor, spatial index, configuration) is the record
  `DisplayLayer`; its methods live outside this source file and are taken as fields.
* `tabLength` is a positive integer; for `tabLength = 0` JavaScript computes `NaN`, which
  natural numbers do not represent, so statements about tab stops assume `0 < tabLength`.
-/

namespace ScreenLineBuilder

/-! ## Data model -/

/-- A position `(row, column)` in buffer space or in screen space. -/
structure Point where
  row : Nat
  column : Nat
deriving DecidableEq, Repr

/-- A discontinuity between buffer space (`old`) and screen space (`new`). -/
structure Hunk where
  oldStart : Point
  oldEnd : Point
  newStart : Point
  newEnd : Point
  newText : List Char
deriving DecidableEq, Repr

/-- One entry of a tag stream: a run length, or the number the display layer assigns to
opening or closing a tag (`codeForOpenTag tag`, `codeForCloseTag tag`). The interner that
numbers the tags is outside this source file, so a code is kept as the tag it stands for. -/
inductive TagCode where
  | len (length : Nat)
  | openTag (tag : List Char)
  | closeTag (tag : List Char)
deriving DecidableEq, Repr

/-- The object literal `{id, lineText, tagCodes}` pushed onto `screenLines`. -/
structure ScreenLine where
  id : Nat
  lineText : List Char
  tagCodes : List TagCode
deriving DecidableEq, Repr

/-- The field `displayLayer.invisibles`; an absent glyph (`undefined`, falsy) is `[]`. -/
structure Invisibles where
  space : List Char
  tab : List Char

/-- What `buildScreenLines` reads from `this.displayLayer`. `eolInvisibles` maps a line
ending to its glyph, `[]` when the lookup is `undefined` (falsy, like the empty string). -/
structure DisplayLayer where
  getScreenLineCount : Nat
  translateScreenPosition : Point → Point
  getHunksInNewRange : Point → Point → List Hunk
  lineForRow : Nat → List Char
  lineEndingForRow : Nat → List Char
  findTrailingWhitespaceStartColumn : List Char → Nat
  leadingWhitespaceLengthForSurroundingLines : Nat → Nat
  foldCharacter : List Char
  showIndentGuides : Bool
  tabLength : Nat
  invisibles : Invisibles
  eolInvisibles : List Char → List Char

/-! ## Flags and basic tags -/

def HARD_TAB : Nat := 1 <<< 0
def LEADING_WHITESPACE : Nat := 1 <<< 2
def TRAILING_WHITESPACE : Nat := 1 <<< 3
def INVISIBLE_CHARACTER : Nat := 1 <<< 4
def INDENT_GUIDE : Nat := 1 <<< 5
def LINE_ENDING : Nat := 1 <<< 6
def FOLD : Nat := 1 <<< 7

/-- The method `String.prototype.trim` on the tags built here (blanks at both ends go). -/
def trim (s : List Char) : List Char :=
  ((s.dropWhile Char.isWhitespace).reverse.dropWhile Char.isWhitespace).reverse

/-- The `else` branch of `getBasicTag`: the tag computed from the flags. -/
def computeBasicTag (flags : Nat) : List Char :=
  let tag : List Char := []
  let tag := if flags &&& INVISIBLE_CHARACTER ≠ 0 then tag ++ "invisible-character ".toList else tag
  let tag := if flags &&& HARD_TAB ≠ 0 then tag ++ "hard-tab ".toList else tag
  let tag := if flags &&& LEADING_WHITESPACE ≠ 0 then tag ++ "leading-whitespace ".toList else tag
  let tag := if flags &&& TRAILING_WHITESPACE ≠ 0 then tag ++ "trailing-whitespace ".toList else tag
  let tag := if flags &&& LINE_ENDING ≠ 0 then tag ++ "eol ".toList else tag
  let tag := if flags &&& INDENT_GUIDE ≠ 0 then tag ++ "indent-guide ".toList else tag
  let tag := if flags &&& FOLD ≠ 0 then tag ++ "fold-marker ".toList else tag
  trim tag

/-- The module-level `basicTagCache`, a `Map` from flags to tags (latest entry first). -/
abbrev BasicTagCache := List (Nat × List Char)

/-- The lookup `basicTagCache.get(flags)`. -/
def BasicTagCache.get (cache : BasicTagCache) (flags : Nat) : Option (List Char) :=
  (cache.find? (fun e => e.1 == flags)).map Prod.snd

/-- The method `getBasicTag` with the cache passed explicitly: a cached tag is returned
when it is truthy (non-empty), otherwise the tag is computed and stored. -/
def getBasicTagCached (cache : BasicTagCache) (flags : Nat) : List Char × BasicTagCache :=
  match cache.get flags with
  | some (c :: cs) => (c :: cs, cache)
  | _ => (computeBasicTag flags, (flags, computeBasicTag flags) :: cache)

/-- The value `this.getBasicTag(flags)` as the builder sees it. The cache only ever holds
entries written by `getBasicTag` itself, so the value is the computed tag whatever the
cache holds (`getBasicTagCached_fst`, for a cache that only `getBasicTag` wrote); the
builder is embedded with the cache left out. -/
def getBasicTag (flags : Nat) : List Char :=
  computeBasicTag flags

/-! ## Builder state and tag emission -/

/-- The mutable variables of `buildScreenLines`, `this.tagCodes`,
`this.currentTokenLength` and the module-level `nextScreenLineId`. -/
structure BuilderState where
  screenLines : List ScreenLine
  nextScreenLineId : Nat
  screenRow : Nat
  bufferRow : Nat
  hunks : List Hunk
  screenLineText : List Char
  tagCodes : List TagCode
  currentTokenLength : Nat
  currentTokenFlags : Nat
  previousTokenFlags : Nat
  forceTokenBoundary : Bool
  screenColumn : Nat
  bufferLine : List Char
  lineEnding : List Char
  bufferColumn : Nat
  trailingWhitespaceStartColumn : Nat
  inLeadingWhitespace : Bool
  inTrailingWhitespace : Bool

/-- The statement `if (c) body` with no `else`. -/
def onlyIf (c : Prop) [Decidable c] (body : BuilderState → BuilderState)
    (st : BuilderState) : BuilderState :=
  if c then body st else st

/-- The statement `currentTokenFlags |= flags`. -/
def orFlags (flags : Nat) (st : BuilderState) : BuilderState :=
  { st with currentTokenFlags := st.currentTokenFlags ||| flags }

/-- The statement `this.tagCodes.push(code)`. -/
def pushTagCode (code : TagCode) (st : BuilderState) : BuilderState :=
  { st with tagCodes := st.tagCodes ++ [code] }

/-- The statement `screenLineText += text`. -/
def appendText (text : List Char) (st : BuilderState) : BuilderState :=
  { st with screenLineText := st.screenLineText ++ text }

def emitTokenBoundary (st : BuilderState) : BuilderState :=
  if st.currentTokenLength > 0 then
    { st with tagCodes := st.tagCodes ++ [TagCode.len st.currentTokenLength],
              currentTokenLength := 0 }
  else st

def emitCloseTag (closeTag : List Char) (st : BuilderState) : BuilderState :=
  let st := emitTokenBoundary st
  if closeTag.length > 0 then
    { st with tagCodes := st.tagCodes ++ [TagCode.closeTag closeTag] }
  else st

def emitOpenTag (openTag : List Char) (st : BuilderState) : BuilderState :=
  let st := emitTokenBoundary st
  if openTag.length > 0 then
    { st with tagCodes := st.tagCodes ++ [TagCode.openTag openTag] }
  else st

/-- The statements `screenLines.push({id: nextScreenLineId++, ...}); screenRow++`. -/
def pushScreenLine (st : BuilderState) : BuilderState :=
  { st with
    screenLines := st.screenLines ++
      [{ id := st.nextScreenLineId, lineText := st.screenLineText, tagCodes := st.tagCodes }],
    nextScreenLineId := st.nextScreenLineId + 1,
    screenRow := st.screenRow + 1 }

/-! ## Folds and soft wraps -/

/-- The helper `isEqual` of `point-helpers`. -/
def isEqual (a b : Point) : Bool :=
  a.row == b.row && a.column == b.column

/-- The fold branch (source lines 61-75). -/
def applyFold (dl : DisplayLayer) (nextHunk : Hunk) (st : BuilderState) : BuilderState :=
  let st := onlyIf (st.previousTokenFlags > 0)
    (fun st => emitCloseTag (getBasicTag st.previousTokenFlags) st) st
  let foldCharacter := dl.foldCharacter
  let st := appendText foldCharacter st
  let st := { st with screenColumn := st.screenColumn + foldCharacter.length }
  let st := emitOpenTag (getBasicTag FOLD) st
  let bufferLine := dl.lineForRow nextHunk.oldEnd.row
  { st with previousTokenFlags := FOLD,
            currentTokenLength := foldCharacter.length,
            bufferRow := nextHunk.oldEnd.row,
            bufferColumn := nextHunk.oldEnd.column,
            bufferLine := bufferLine,
            inTrailingWhitespace := false,
            trailingWhitespaceStartColumn := dl.findTrailingWhitespaceStartColumn bufferLine }

/-- One pass of the loop `while (screenColumn < indentLength)` of the soft-wrap branch
(source lines 94-99). -/
def softWrapGuidesStep (dl : DisplayLayer) (st : BuilderState) : BuilderState :=
  let st := onlyIf (st.screenColumn % dl.tabLength = 0)
    (fun st =>
      let st := onlyIf (st.currentTokenLength > 0) (emitCloseTag (getBasicTag INDENT_GUIDE)) st
      emitOpenTag (getBasicTag INDENT_GUIDE) st) st
  { st with screenColumn := st.screenColumn + 1,
            currentTokenLength := st.currentTokenLength + 1 }

/-- The loop `while (screenColumn < indentLength)` of the soft-wrap branch (lines 93-100);
each pass advances `screenColumn` by one, so `indentLength` passes are enough. -/
def softWrapGuides (dl : DisplayLayer) (indentLength : Nat) :
    Nat → BuilderState → BuilderState
  | 0, st => st
  | fuel + 1, st =>
    if st.screenColumn < indentLength then
      softWrapGuides dl indentLength fuel (softWrapGuidesStep dl st)
    else st

/-- The soft-wrap branch (source lines 79-105). -/
def applySoftWrap (dl : DisplayLayer) (nextHunk : Hunk) (st : BuilderState) : BuilderState :=
  let st := emitCloseTag (getBasicTag st.previousTokenFlags) st
  let st := { st with previousTokenFlags := 0 }
  let st := pushScreenLine st
  let indentLength := nextHunk.newEnd.column
  let st := { st with screenLineText := List.replicate indentLength ' ', tagCodes := [] }
  if dl.showIndentGuides = true ∧ indentLength > 0 then
    let st := { st with screenColumn := 0 }
    let st := softWrapGuides dl indentLength indentLength st
    emitCloseTag (getBasicTag INDENT_GUIDE) st
  else
    { st with screenColumn := indentLength, currentTokenLength := indentLength }

/-- The body of the loop at source line 57 for one hunk that starts at the position. -/
def applyHunk (dl : DisplayLayer) (nextHunk : Hunk) (st : BuilderState) : BuilderState :=
  if nextHunk.newText = dl.foldCharacter then applyFold dl nextHunk st
  else if isEqual nextHunk.oldStart nextHunk.oldEnd = true then applySoftWrap dl nextHunk st
  else st

/-- The loop at source lines 57-110: handle every hunk that starts at the current buffer
position, in list order. The first argument is the list of hunks from `hunkIndex` on. -/
def drainHunks (dl : DisplayLayer) : List Hunk → BuilderState → BuilderState
  | [], st => { st with hunks := [] }
  | nextHunk :: rest, st =>
    if nextHunk.oldStart.row = st.bufferRow ∧ nextHunk.oldStart.column = st.bufferColumn then
      drainHunks dl rest (applyHunk dl nextHunk st)
    else { st with hunks := nextHunk :: rest }

/-- The loop at source lines 52-55: skip the hunks that start on an earlier buffer row. -/
def skipHunks (bufferRow : Nat) (hunks : List Hunk) : List Hunk :=
  hunks.dropWhile (fun h => decide (h.oldStart.row < bufferRow))

/-! ## One buffer column -/

/-- Source lines 112-149: the flags of the token the next character belongs to. -/
def classifyCharacter (dl : DisplayLayer) (st : BuilderState) : BuilderState :=
  let st := { st with forceTokenBoundary := false }
  let nextCharacter := st.bufferLine[st.bufferColumn]?
  let st := onlyIf (st.bufferColumn ≥ st.trailingWhitespaceStartColumn)
    (fun st => { st with inTrailingWhitespace := true, inLeadingWhitespace := false }) st
  if nextCharacter = some ' ' ∨ nextCharacter = some '\t' then
    let showIndentGuides : Bool := dl.showIndentGuides &&
      (st.inLeadingWhitespace || decide (st.trailingWhitespaceStartColumn = 0))
    let st := onlyIf (st.inLeadingWhitespace = true) (orFlags LEADING_WHITESPACE) st
    let st := onlyIf (st.inTrailingWhitespace = true) (orFlags TRAILING_WHITESPACE) st
    if nextCharacter = some ' ' then
      let st := onlyIf ((st.inLeadingWhitespace = true ∨ st.inTrailingWhitespace = true) ∧
        dl.invisibles.space ≠ []) (orFlags INVISIBLE_CHARACTER) st
      if showIndentGuides = true then
        let st := orFlags INDENT_GUIDE st
        onlyIf (st.screenColumn % dl.tabLength = 0)
          (fun st => { st with forceTokenBoundary := true }) st
      else st
    else
      let st := orFlags HARD_TAB st
      let st := onlyIf (dl.invisibles.tab ≠ []) (orFlags INVISIBLE_CHARACTER) st
      let st := onlyIf (showIndentGuides = true ∧ st.screenColumn % dl.tabLength = 0)
        (orFlags INDENT_GUIDE) st
      { st with forceTokenBoundary := true }
  else
    { st with inLeadingWhitespace := false }

/-- Source lines 151-154: close the previous token when the flags change or a boundary is
forced. -/
def closePreviousToken (st : BuilderState) : BuilderState :=
  if st.previousTokenFlags > 0 ∧
      (st.currentTokenFlags ≠ st.previousTokenFlags ∨ st.forceTokenBoundary = true) then
    emitCloseTag (getBasicTag st.previousTokenFlags) st
  else st

/-- Source lines 184-194: a new indent-guide run starts at a tab stop of an empty row. -/
def startEmptyRowGuide (st : BuilderState) : BuilderState :=
  let st := onlyIf (st.currentTokenLength > 0)
    (fun st => pushTagCode (TagCode.len st.currentTokenLength) st) st
  let st := onlyIf (st.currentTokenFlags ≠ 0)
    (fun st => pushTagCode (TagCode.closeTag (getBasicTag st.currentTokenFlags)) st) st
  let st := { st with currentTokenFlags := INDENT_GUIDE, currentTokenLength := 0 }
  emitOpenTag (getBasicTag st.currentTokenFlags) st

/-- One pass of the loop `while (screenColumn < whitespaceLength)` of an empty row
(source lines 183-198). -/
def emptyRowGuidesStep (dl : DisplayLayer) (st : BuilderState) : BuilderState :=
  let st := onlyIf (st.screenColumn % dl.tabLength = 0) startEmptyRowGuide st
  let st := appendText [' '] st
  { st with screenColumn := st.screenColumn + 1,
            currentTokenLength := st.currentTokenLength + 1 }

/-- The loop `while (screenColumn < whitespaceLength)` of an empty row (lines 182-199);
each pass advances `screenColumn` by one. -/
def emptyRowGuides (dl : DisplayLayer) (whitespaceLength : Nat) :
    Nat → BuilderState → BuilderState
  | 0, st => st
  | fuel + 1, st =>
    if st.screenColumn < whitespaceLength then
      emptyRowGuides dl whitespaceLength fuel (emptyRowGuidesStep dl st)
    else st

/-- Source lines 167-176: append the end-of-line invisible as a run of its own. -/
def emitEolInvisible (dl : DisplayLayer) (st : BuilderState) : BuilderState :=
  let eolInvisible := dl.eolInvisibles st.lineEnding
  if eolInvisible ≠ [] then
    let st := appendText eolInvisible st
    let st := orFlags (INVISIBLE_CHARACTER ||| LINE_ENDING) st
    let st := onlyIf (st.bufferLine.length = 0 ∧ dl.showIndentGuides = true)
      (orFlags INDENT_GUIDE) st
    let st := emitOpenTag (getBasicTag st.currentTokenFlags) st
    let st := { st with currentTokenLength := eolInvisible.length }
    let st := emitCloseTag (getBasicTag st.currentTokenFlags) st
    { st with screenColumn := st.screenColumn + eolInvisible.length }
  else st

/-- Source lines 178-202: indent guides that extend an empty row. -/
def emitEmptyRowGuides (dl : DisplayLayer) (st : BuilderState) : BuilderState :=
  if st.bufferLine.length = 0 ∧ dl.showIndentGuides = true then
    let st := { st with currentTokenFlags := 0, currentTokenLength := 0 }
    let whitespaceLength := dl.leadingWhitespaceLengthForSurroundingLines st.bufferRow
    let st := emptyRowGuides dl whitespaceLength (whitespaceLength - st.screenColumn) st
    let st := onlyIf (st.currentTokenLength > 0)
      (fun st => pushTagCode (TagCode.len st.currentTokenLength) st) st
    onlyIf (st.currentTokenFlags ≠ 0)
      (fun st => pushTagCode (TagCode.closeTag (getBasicTag st.currentTokenFlags)) st) st
  else st

/-- Source lines 163-206: the end of the buffer row has been reached (the `break` that
follows is the caller's). -/
def endOfRow (dl : DisplayLayer) (st : BuilderState) : BuilderState :=
  let st := onlyIf (st.currentTokenLength > 0)
    (fun st => emitCloseTag (getBasicTag st.previousTokenFlags) st) st
  let st := emitEolInvisible dl st
  let st := emitEmptyRowGuides dl st
  onlyIf (st.tagCodes.length = 0) (pushTagCode (TagCode.len 0)) st

/-- Source lines 217-220: open a token when the flags change or a boundary is forced. -/
def openCurrentToken (st : BuilderState) : BuilderState :=
  if (st.currentTokenFlags > 0 ∧ st.currentTokenFlags ≠ st.previousTokenFlags) ∨
      st.forceTokenBoundary = true then
    emitOpenTag (getBasicTag st.currentTokenFlags) st
  else st

/-- The text `screenLineText += nextCharacter` appends: the character, or the text
`undefined` when the column is past the end of the line. -/
def characterText (nextCharacter : Option Char) : List Char :=
  match nextCharacter with
  | some c => [c]
  | none => "undefined".toList

/-- Source lines 225-235: expand a tab up to the next tab stop. -/
def emitTab (dl : DisplayLayer) (st : BuilderState) : BuilderState :=
  let st := { st with currentTokenLength := 0 }
  let distanceToNextTabStop := dl.tabLength - (st.screenColumn % dl.tabLength)
  let st := if dl.invisibles.tab ≠ [] then
      appendText (List.replicate (distanceToNextTabStop - 1) ' ')
        (appendText dl.invisibles.tab st)
    else
      appendText (List.replicate distanceToNextTabStop ' ') st
  { st with screenColumn := st.screenColumn + distanceToNextTabStop,
            currentTokenLength := st.currentTokenLength + distanceToNextTabStop }

/-- Source lines 237-244: render a character that is not a tab. -/
def emitPlainCharacter (dl : DisplayLayer) (nextCharacter : Option Char)
    (st : BuilderState) : BuilderState :=
  let st := if (st.inLeadingWhitespace = true ∨ st.inTrailingWhitespace = true) ∧
      nextCharacter = some ' ' ∧ dl.invisibles.space ≠ [] then
      appendText dl.invisibles.space st
    else
      appendText (characterText nextCharacter) st
  { st with screenColumn := st.screenColumn + 1,
            currentTokenLength := st.currentTokenLength + 1 }

/-- Source lines 224-246: render the next character and advance the buffer column. -/
def emitCharacter (dl : DisplayLayer) (st : BuilderState) : BuilderState :=
  let nextCharacter := st.bufferLine[st.bufferColumn]?
  let st := if nextCharacter = some '\t' then emitTab dl st
    else emitPlainCharacter dl nextCharacter st
  { st with bufferColumn := st.bufferColumn + 1 }

/-- Source lines 47-154: the first half of a pass of the column loop, up to the close tag
of the previous token. -/
def beginColumn (dl : DisplayLayer) (st : BuilderState) : BuilderState :=
  let st := { st with previousTokenFlags := st.currentTokenFlags, currentTokenFlags := 0 }
  let st := drainHunks dl (skipHunks st.bufferRow st.hunks) st
  let st := classifyCharacter dl st
  closePreviousToken st

/-- One pass of the loop `while (bufferColumn <= bufferLine.length)` (lines 47-246); the
flag says whether the pass ended in `break`. -/
def columnStep (dl : DisplayLayer) (st : BuilderState) : BuilderState × Bool :=
  let st := beginColumn dl st
  if st.bufferColumn = st.bufferLine.length then (endOfRow dl st, true)
  else (emitCharacter dl (openCurrentToken st), false)

/-- The loop `while (bufferColumn <= bufferLine.length)`; `none` when the passes allowed
by the first argument do not reach the end of the loop. -/
def columnLoop (dl : DisplayLayer) : Nat → BuilderState → Option BuilderState
  | 0, _ => none
  | fuel + 1, st =>
    if st.bufferColumn ≤ st.bufferLine.length then
      match columnStep dl st with
      | (st, true) => some st
      | (st, false) => columnLoop dl fuel st
    else some st

/-- The weight of the hunks still to come in the bound on the passes of `columnLoop`: a
fold can land on a line of its own, which the column loop then walks. -/
def hunkWeight (dl : DisplayLayer) (hunks : List Hunk) : Nat :=
  (hunks.map (fun h => (dl.lineForRow h.oldEnd.row).length + 2)).sum

/-- A number of passes that is enough for `columnLoop`: every hunk is handled at most
once, and between two hunks the buffer column only moves forward in its line. -/
def columnFuel (dl : DisplayLayer) (st : BuilderState) : Nat :=
  hunkWeight dl st.hunks + (st.bufferLine.length + 1 - st.bufferColumn) + 1

/-! ## The row loop and `buildScreenLines` -/

/-- Source lines 32-42: the per-row variables at the start of a buffer row. -/
def startRow (dl : DisplayLayer) (st : BuilderState) : BuilderState :=
  let bufferLine := dl.lineForRow st.bufferRow
  { st with screenLineText := [],
            tagCodes := [],
            currentTokenLength := 0,
            currentTokenFlags := 0,
            screenColumn := 0,
            bufferLine := bufferLine,
            lineEnding := dl.lineEndingForRow st.bufferRow,
            bufferColumn := 0,
            trailingWhitespaceStartColumn := dl.findTrailingWhitespaceStartColumn bufferLine,
            inLeadingWhitespace := true,
            inTrailingWhitespace := false }

/-- One pass of the loop `while (screenRow < screenEndRow)` (lines 32-252). -/
def rowStep (dl : DisplayLayer) (st : BuilderState) : Option BuilderState :=
  let st := startRow dl st
  match columnLoop dl (columnFuel dl st) st with
  | none => none
  | some st => some { pushScreenLine st with bufferRow := st.bufferRow + 1 }

/-- The loop `while (screenRow < screenEndRow)`; every pass advances `screenRow`. -/
def rowLoop (dl : DisplayLayer) (screenEndRow : Nat) : Nat → BuilderState → Option BuilderState
  | 0, st => if st.screenRow < screenEndRow then none else some st
  | fuel + 1, st =>
    if st.screenRow < screenEndRow then
      match rowStep dl st with
      | none => none
      | some st => rowLoop dl screenEndRow fuel st
    else some st

/-- The state at source line 31, before the row loop. -/
def initialState (dl : DisplayLayer) (nextScreenLineId screenStartRow screenEndRow : Nat) :
    BuilderState :=
  let screenStart : Point := { row := screenStartRow, column := 0 }
  let screenEnd : Point := { row := screenEndRow, column := 0 }
  { screenLines := [],
    nextScreenLineId := nextScreenLineId,
    screenRow := screenStartRow,
    bufferRow := (dl.translateScreenPosition screenStart).row,
    hunks := dl.getHunksInNewRange screenStart screenEnd,
    screenLineText := [],
    tagCodes := [],
    currentTokenLength := 0,
    currentTokenFlags := 0,
    previousTokenFlags := 0,
    forceTokenBoundary := false,
    screenColumn := 0,
    bufferLine := [],
    lineEnding := [],
    bufferColumn := 0,
    trailingWhitespaceStartColumn := 0,
    inLeadingWhitespace := true,
    inTrailingWhitespace := false }

/-- The method `buildScreenLines`: the value of the module-level counter on entry is the
first argument, and the result is the returned lines with the counter on exit. -/
def buildScreenLines (dl : DisplayLayer) (nextScreenLineId screenStartRow screenEndRow : Nat) :
    Option (List ScreenLine × Nat) :=
  let screenEndRow := min screenEndRow dl.getScreenLineCount
  let st := initialState dl nextScreenLineId screenStartRow screenEndRow
  match rowLoop dl screenEndRow (screenEndRow - screenStartRow) st with
  | none => none
  | some st => some (st.screenLines, st.nextScreenLineId)

/-! ## Vocabulary of the specification -/

/-- The sum of the run-length entries of a tag stream. -/
def sumRuns : List TagCode → Nat
  | [] => 0
  | TagCode.len n :: rest => n + sumRuns rest
  | _ :: rest => sumRuns rest

/-- Replay of a tag stream on a stack of open tags: an open code pushes its tag, a close
code pops the tag on top and must be the close code of that tag; `none` when a close code
finds the stack empty or another tag on top. -/
def replay : List TagCode → List (List Char) → Option (List (List Char))
  | [], stack => some stack
  | TagCode.len _ :: rest, stack => replay rest stack
  | TagCode.openTag tag :: rest, stack => replay rest (tag :: stack)
  | TagCode.closeTag tag :: rest, stack =>
    match stack with
    | top :: below => if top = tag then replay rest below else none
    | [] => none

/-- The codes `emitTokenBoundary` pushes for a token of the given length. -/
def runCodes (length : Nat) : List TagCode :=
  if length > 0 then [TagCode.len length] else []

/-- The codes `emitCloseTag` pushes after the token boundary. -/
def closeCodes (tag : List Char) : List TagCode :=
  if tag.length > 0 then [TagCode.closeTag tag] else []

/-- The codes `emitOpenTag` pushes after the token boundary. -/
def openCodes (tag : List Char) : List TagCode :=
  if tag.length > 0 then [TagCode.openTag tag] else []

/-- The stack of open tags while a token with the given flags is being rendered. -/
def openStack (flags : Nat) : List (List Char) :=
  if (getBasicTag flags).length > 0 then [getBasicTag flags] else []

/-- The lines and the counter of the second state extend those of the first: the new
lines carry consecutive ids from the old counter on, and the counter and the screen row
advance by the number of new lines. -/
def Extends (st st' : BuilderState) : Prop :=
  ∃ lines : List ScreenLine,
    st'.screenLines = st.screenLines ++ lines ∧
    st'.nextScreenLineId = st.nextScreenLineId + lines.length ∧
    st'.screenRow = st.screenRow + lines.length ∧
    lines.map ScreenLine.id = List.range' st.nextScreenLineId lines.length

/-- The second state differs from the first in the rendering variables only. -/
def RenderOnly (st st' : BuilderState) : Prop :=
  ∃ text tc len flags force col inL inT,
    st' = { st with screenLineText := text, tagCodes := tc, currentTokenLength := len,
                    currentTokenFlags := flags, forceTokenBoundary := force,
                    screenColumn := col, inLeadingWhitespace := inL,
                    inTrailingWhitespace := inT }

/-- The second state differs from the first in the flags of the current token, the forced
boundary and the whitespace markers only. -/
def FlagsOnly (st st' : BuilderState) : Prop :=
  ∃ flags force inL inT,
    st' = { st with currentTokenFlags := flags, forceTokenBoundary := force,
                    inLeadingWhitespace := inL, inTrailingWhitespace := inT }

/-- A fold hunk ends inside the buffer row it lands on. -/
def FoldInBounds (dl : DisplayLayer) (h : Hunk) : Prop :=
  h.newText = dl.foldCharacter → h.oldEnd.column ≤ (dl.lineForRow h.oldEnd.row).length

/-- The run lengths pushed so far and the length of the pending token add up to the text
rendered so far. -/
def SumInv (st : BuilderState) : Prop :=
  sumRuns st.tagCodes + st.currentTokenLength = st.screenLineText.length

/-- Every line pushed so far has run lengths that add up to the length of its text. -/
def LinesSummed (lines : List ScreenLine) : Prop :=
  ∀ l ∈ lines, sumRuns l.tagCodes = l.lineText.length

/-- The invariant of the column loop behind the sum of the run lengths: the pending
token is accounted for, the pushed lines add up, the buffer column is inside its line and
the folds still to come end inside their lines. -/
def SumState (dl : DisplayLayer) (st : BuilderState) : Prop :=
  SumInv st ∧ LinesSummed st.screenLines ∧ st.bufferColumn ≤ st.bufferLine.length ∧
    ∀ h ∈ st.hunks, FoldInBounds dl h

/-- The glyphs of the invisibles are one character long where they are configured, and the
tab length is positive. -/
def GlyphsOk (dl : DisplayLayer) : Prop :=
  0 < dl.tabLength ∧ dl.invisibles.space.length ≤ 1 ∧ dl.invisibles.tab.length ≤ 1

/-- Inside the indent of a soft-wrapped line the run lengths follow the screen column. -/
def WrapInv (st : BuilderState) : Prop :=
  sumRuns st.tagCodes + st.currentTokenLength = st.screenColumn

/-- The run lengths of a finished line add up to its text. -/
def SumDone (st : BuilderState) : Prop :=
  sumRuns st.tagCodes = st.screenLineText.length

/-- The tags of the stream so far replay to the stack of a token with the given flags. -/
def OpenIs (flags : Nat) (st : BuilderState) : Prop :=
  replay st.tagCodes [] = some (openStack flags)

/-- Every line pushed so far has a balanced, properly nested tag stream. -/
def LinesBalanced (lines : List ScreenLine) : Prop :=
  ∀ l ∈ lines, replay l.tagCodes [] = some []

/-- The invariant of the soft-wrap indent loop: nothing is rendered yet, or an
indent-guide tag is open over a token that is not empty. -/
def WrapOpen (st : BuilderState) : Prop :=
  (st.screenColumn = 0 ∧ st.tagCodes = [] ∧ st.currentTokenLength = 0) ∨
  (0 < st.screenColumn ∧ 0 < st.currentTokenLength ∧ OpenIs INDENT_GUIDE st)

/-- The invariant of the empty-row guide loop: no tag is open, or an indent-guide tag. -/
def GuideOpen (st : BuilderState) : Prop :=
  (st.currentTokenFlags = 0 ∧ replay st.tagCodes [] = some []) ∨
  (st.currentTokenFlags = INDENT_GUIDE ∧ OpenIs INDENT_GUIDE st)

/-- The invariant of the column loop behind the balance of the tags. -/
def BalanceState (st : BuilderState) : Prop :=
  OpenIs st.currentTokenFlags st ∧ LinesBalanced st.screenLines ∧
    (st.bufferLine.length < st.bufferColumn → st.currentTokenFlags = 0)

/-- Modelled from the spec: `trailingWhitespaceStart(lineText)`, the column at which the
trailing run of spaces and tabs of a line starts. The function of the display layer is
outside this source file; the example display layers below use this one. -/
def trailingWhitespaceStart (lineText : List Char) : Nat :=
  lineText.length - (lineText.reverse.takeWhile (fun c => c == ' ' || c == '\t')).length

/-- A display layer over the given buffer rows with nothing switched on: no hunks, no
invisibles, no indent guides, tab length 4, one screen line per buffer row. -/
def plainLayer (rows : List (List Char)) : DisplayLayer :=
  { getScreenLineCount := rows.length
    translateScreenPosition := fun p => p
    getHunksInNewRange := fun _ _ => []
    lineForRow := fun row => rows.getD row []
    lineEndingForRow := fun _ => ['\n']
    findTrailingWhitespaceStartColumn := trailingWhitespaceStart
    leadingWhitespaceLengthForSurroundingLines := fun _ => 0
    foldCharacter := ['⋯']
    showIndentGuides := false
    tabLength := 4
    invisibles := { space := [], tab := [] }
    eolInvisibles := fun _ => [] }

/-- Three buffer rows with a soft wrap in the first, an empty second row and a fold in
the third, rendered with invisibles, end-of-line glyphs and indent guides. -/
def mixedLayer : DisplayLayer :=
  { plainLayer ["\tab  cd ".toList, [], "    x \t".toList] with
    getScreenLineCount := 4
    getHunksInNewRange := fun _ _ =>
      [{ oldStart := ⟨0, 3⟩, oldEnd := ⟨0, 3⟩, newStart := ⟨0, 6⟩, newEnd := ⟨1, 2⟩,
         newText := [] },
       { oldStart := ⟨2, 1⟩, oldEnd := ⟨2, 3⟩, newStart := ⟨3, 1⟩, newEnd := ⟨3, 2⟩,
         newText := ['⋯'] }]
    leadingWhitespaceLengthForSurroundingLines := fun _ => 4
    showIndentGuides := true
    invisibles := { space := ['·'], tab := ['»'] }
    eolInvisibles := fun _ => ['¬'] }

/-- The buffer row `ab`, soft-wrapped after its first character: two screen lines. -/
def wrappedLayer : DisplayLayer :=
  { plainLayer ["ab".toList] with
    getScreenLineCount := 2
    getHunksInNewRange := fun _ _ =>
      [{ oldStart := ⟨0, 1⟩, oldEnd := ⟨0, 1⟩, newStart := ⟨0, 1⟩, newEnd := ⟨1, 0⟩,
         newText := [] }] }

/-- The buffer row `ab` with a soft wrap at buffer column 0. -/
def wrapAtStartLayer : DisplayLayer :=
  { plainLayer ["ab".toList] with
    getScreenLineCount := 2
    getHunksInNewRange := fun _ _ =>
      [{ oldStart := ⟨0, 0⟩, oldEnd := ⟨0, 0⟩, newStart := ⟨0, 0⟩, newEnd := ⟨1, 0⟩,
         newText := [] }] }

/-- The one-row buffer of the tab example of the specification. -/
def tabRowLayer : DisplayLayer :=
  plainLayer ["  a\tb  ".toList]

/-- A buffer of one empty row. -/
def emptyRowLayer : DisplayLayer :=
  plainLayer [[]]

/-- The state in which the character at the buffer position is classified when no hunk
starts at the position. -/
def shiftTokenFlags (st : BuilderState) : BuilderState :=
  { st with previousTokenFlags := st.currentTokenFlags, currentTokenFlags := 0,
            hunks := skipHunks st.bufferRow st.hunks }

/-- No hunk starts at the buffer position of the state: the first hunk that is not on an
earlier row starts elsewhere. -/
def NoHunkHere (st : BuilderState) : Prop :=
  ∀ x, (skipHunks st.bufferRow st.hunks).head? = some x →
    ¬ (x.oldStart.row = st.bufferRow ∧ x.oldStart.column = st.bufferColumn)

/-- The width the specification gives a tab reached at screen column `C`:
`tabLength - (C mod tabLength)`. -/
def tabStopDistance (tabLength screenColumn : Nat) : Nat :=
  tabLength - screenColumn % tabLength

/-- The indent-guide run that starts at the tab stop `index * tabLength` of an empty row
whose guides extend to column `width`: it ends at the next tab stop or at `width`. -/
def indentGuideRun (tabLength width index : Nat) : List TagCode :=
  [TagCode.openTag "indent-guide".toList,
   TagCode.len (min tabLength (width - index * tabLength)),
   TagCode.closeTag "indent-guide".toList]

/-- The tag stream the specification gives an empty row whose indent guides extend to
column `width`: one indent-guide run for each multiple of `tabLength` below `width`. -/
def indentGuideRuns (tabLength width : Nat) : List TagCode :=
  ((List.range ((width + tabLength - 1) / tabLength)).map
    (indentGuideRun tabLength width)).flatten

/-- The invariant of the guide loop of an empty row that starts at screen column 0:
`done` runs are complete and the next one is open. -/
def GuideProgress (tabLength width : Nat) (st : BuilderState) : Prop :=
  st.screenColumn ≤ width ∧ st.screenLineText = List.replicate st.screenColumn ' ' ∧
  ((st.screenColumn = 0 ∧ st.tagCodes = [] ∧ st.currentTokenLength = 0 ∧
      st.currentTokenFlags = 0) ∨
   ∃ done, done * tabLength < st.screenColumn ∧ st.screenColumn ≤ (done + 1) * tabLength ∧
      st.tagCodes = ((List.range done).map (indentGuideRun tabLength width)).flatten ++
        [TagCode.openTag "indent-guide".toList] ∧
      st.currentTokenLength = st.screenColumn - done * tabLength ∧
      st.currentTokenFlags = INDENT_GUIDE)

/-- A buffer of one empty row whose neighbours are indented by four columns, with indent
guides on. -/
def guidedEmptyRowLayer : DisplayLayer :=
  { plainLayer [[]] with
    leadingWhitespaceLengthForSurroundingLines := fun _ => 4
    showIndentGuides := true }

/-- The tag of a fold marker. -/
def foldMarkerTag : List Char := "fold-marker".toList

/-- A stretch of a tag stream without an open or close code of the fold marker. -/
def NoFoldCodes (codes : List TagCode) : Prop :=
  TagCode.openTag foldMarkerTag ∉ codes ∧ TagCode.closeTag foldMarkerTag ∉ codes

/-- The flags a character other than a tab can get when invisibles and indent guides are
off: leading whitespace, trailing whitespace, both or none. -/
def PlainFlags (flags : Nat) : Prop :=
  flags = 0 ∨ flags = LEADING_WHITESPACE ∨ flags = TRAILING_WHITESPACE ∨
    flags = LEADING_WHITESPACE ||| TRAILING_WHITESPACE

/-- The tag stream of a line with one fold: a stretch without fold codes whose run
lengths add up to `start`, the fold-marker run of the fold character, and a stretch
without fold codes. -/
def FoldShape (foldLength start : Nat) (codes : List TagCode) : Prop :=
  ∃ pre post, codes = pre ++ [TagCode.openTag foldMarkerTag] ++ runCodes foldLength ++
      [TagCode.closeTag foldMarkerTag] ++ post ∧
    sumRuns pre = start ∧ NoFoldCodes pre ∧ NoFoldCodes post

/-- Before the fold of a folded row is reached: the text of the row is copied up to the
buffer column and no fold code has been pushed. -/
def FoldBefore (dl : DisplayLayer) (st : BuilderState) (hk : Hunk) (rest : List Hunk)
    (x : BuilderState) : Prop :=
  x.bufferRow = st.bufferRow ∧ x.bufferLine = dl.lineForRow st.bufferRow ∧
  x.bufferColumn ≤ hk.oldStart.column ∧
  x.screenLineText = (dl.lineForRow st.bufferRow).take x.bufferColumn ∧
  NoFoldCodes x.tagCodes ∧ SumInv x ∧ PlainFlags x.currentTokenFlags ∧
  skipHunks st.bufferRow x.hunks = hk :: rest ∧
  x.screenLines = st.screenLines ∧ x.nextScreenLineId = st.nextScreenLineId

/-- After the fold of a folded row: the column loop walks the row the fold lands on. -/
def FoldAfter (dl : DisplayLayer) (st : BuilderState) (hk : Hunk) (x : BuilderState) : Prop :=
  x.bufferRow = hk.oldEnd.row ∧ x.bufferLine = dl.lineForRow hk.oldEnd.row ∧
  hk.oldEnd.column ≤ x.bufferColumn ∧
  x.bufferColumn ≤ (dl.lineForRow hk.oldEnd.row).length ∧
  x.screenLineText = (dl.lineForRow st.bufferRow).take hk.oldStart.column ++
    dl.foldCharacter ++
    ((dl.lineForRow hk.oldEnd.row).take x.bufferColumn).drop hk.oldEnd.column ∧
  FoldShape dl.foldCharacter.length hk.oldStart.column x.tagCodes ∧ SumInv x ∧
  PlainFlags x.currentTokenFlags ∧
  (∀ h ∈ x.hunks, h.oldStart.row ≠ hk.oldEnd.row) ∧
  x.screenLines = st.screenLines ∧ x.nextScreenLineId = st.nextScreenLineId

/-- The finished line of a folded row. -/
def FoldDone (dl : DisplayLayer) (st : BuilderState) (hk : Hunk) (x : BuilderState) : Prop :=
  x.bufferRow = hk.oldEnd.row ∧
  x.screenLineText = (dl.lineForRow st.bufferRow).take hk.oldStart.column ++
    dl.foldCharacter ++ (dl.lineForRow hk.oldEnd.row).drop hk.oldEnd.column ∧
  FoldShape dl.foldCharacter.length hk.oldStart.column x.tagCodes ∧
  x.screenLines = st.screenLines ∧ x.nextScreenLineId = st.nextScreenLineId

/-- The row `hello world, folks` with columns 5 to 10 folded, and a second row. -/
def foldedRowLayer : DisplayLayer :=
  { plainLayer ["hello world, folks".toList, "next".toList] with
    getHunksInNewRange := fun _ _ =>
      [{ oldStart := ⟨0, 5⟩, oldEnd := ⟨0, 10⟩, newStart := ⟨0, 5⟩, newEnd := ⟨0, 6⟩,
         newText := ['⋯'] }] }

/-- The fold hunk of `foldedRowLayer`. -/
def foldedRowHunk : Hunk :=
  { oldStart := ⟨0, 5⟩, oldEnd := ⟨0, 10⟩, newStart := ⟨0, 5⟩, newEnd := ⟨0, 6⟩,
    newText := ['⋯'] }

/-- Two rows, the first without tabs, folded from column 3 of the first row to column 1
of the second row, where a tab follows. -/
def foldOntoTabLayer : DisplayLayer :=
  { plainLayer ["abcdef".toList, "x\ty".toList] with
    getScreenLineCount := 1
    getHunksInNewRange := fun _ _ =>
      [{ oldStart := ⟨0, 3⟩, oldEnd := ⟨1, 1⟩, newStart := ⟨0, 3⟩, newEnd := ⟨0, 4⟩,
         newText := ['⋯'] }] }

/-- A cache all of whose entries were written by `getBasicTag`: each holds the tag computed
from its key. -/
def CacheSound (cache : BasicTagCache) : Prop :=
  ∀ e ∈ cache, e.2 = computeBasicTag e.1

/-- The variable `screenColumn` is the length of the text rendered so far. -/
def ColInv (st : BuilderState) : Prop :=
  st.screenColumn = st.screenLineText.length

/-- The invariant of the column loop behind `ColInv`: the buffer column is inside its line
and the folds still to come end inside their lines. -/
def ColState (dl : DisplayLayer) (st : BuilderState) : Prop :=
  ColInv st ∧ st.bufferColumn ≤ st.bufferLine.length ∧ ∀ h ∈ st.hunks, FoldInBounds dl h

/-- The names of the attributes set in `flags`, in the fixed order of the specification:
invisible-character, hard-tab, leading-whitespace, trailing-whitespace, eol, indent-guide,
fold-marker. -/
def tagNames (flags : Nat) : List (List Char) :=
  (if flags &&& INVISIBLE_CHARACTER ≠ 0 then ["invisible-character".toList] else []) ++
  (if flags &&& HARD_TAB ≠ 0 then ["hard-tab".toList] else []) ++
  (if flags &&& LEADING_WHITESPACE ≠ 0 then ["leading-whitespace".toList] else []) ++
  (if flags &&& TRAILING_WHITESPACE ≠ 0 then ["trailing-whitespace".toList] else []) ++
  (if flags &&& LINE_ENDING ≠ 0 then ["eol".toList] else []) ++
  (if flags &&& INDENT_GUIDE ≠ 0 then ["indent-guide".toList] else []) ++
  (if flags &&& FOLD ≠ 0 then ["fold-marker".toList] else [])

/-- The basic tag in the words of the specification: the names of the set attributes in
the fixed order, joined by single spaces, with no space at either end. -/
def basicTagSpec (flags : Nat) : List Char :=
  List.intercalate [' '] (tagNames flags)

/-- The module-level cache after the given earlier calls of `getBasicTag`, oldest first,
starting from the empty `Map`. -/
def cacheAfter (calls : List Nat) : BasicTagCache :=
  calls.foldl (fun cache flags => (getBasicTagCached cache flags).2) []

/-- The seven defined flag bits. -/
def definedFlags : Nat :=
  HARD_TAB ||| LEADING_WHITESPACE ||| TRAILING_WHITESPACE ||| INVISIBLE_CHARACTER |||
    INDENT_GUIDE ||| LINE_ENDING ||| FOLD

/-- The attribute a name of a basic tag stands for. -/
def flagOfName (name : List Char) : Nat :=
  if name = "invisible-character".toList then INVISIBLE_CHARACTER
  else if name = "hard-tab".toList then HARD_TAB
  else if name = "leading-whitespace".toList then LEADING_WHITESPACE
  else if name = "trailing-whitespace".toList then TRAILING_WHITESPACE
  else if name = "eol".toList then LINE_ENDING
  else if name = "indent-guide".toList then INDENT_GUIDE
  else if name = "fold-marker".toList then FOLD
  else 0

/-- The words of a tag: the pieces between its spaces; the first argument is the word
read so far. -/
def tagWords : List Char → List Char → List (List Char)
  | word, [] => [word]
  | word, c :: rest => if c = ' ' then word :: tagWords [] rest else tagWords (word ++ [c]) rest

/-- The flags a basic tag was computed from, read back from its names. -/
def flagsOfTag (tag : List Char) : Nat :=
  (tagWords [] tag).foldl (fun flags name => flags ||| flagOfName name) 0

/-- A buffer character as the classifier and the renderer of the specification see it:
the flags of its token, whether a token boundary is forced before it, the screen columns
it takes and the text it is rendered as. -/
structure Cell where
  flags : Nat
  force : Bool
  width : Nat
  glyphs : List Char

/-- A space or a tab. -/
def isBlank (c : Char) : Bool :=
  decide (c = ' ') || decide (c = '\t')

/-- The cell of the character `c` at screen column `sc` of a row whose trailing
whitespace starts at column `tws`, in the words of sections 4.2 and 4.3 of the
specification; `lead` and `trailing` say whether the character is in leading or in
trailing position. -/
def cellOf (dl : DisplayLayer) (tws sc : Nat) (lead trailing : Bool) (c : Char) : Cell :=
  let guides : Bool := dl.showIndentGuides && (lead || decide (tws = 0))
  let flags := 0
  let flags := if lead = true then flags ||| LEADING_WHITESPACE else flags
  let flags := if trailing = true then flags ||| TRAILING_WHITESPACE else flags
  if c = ' ' then
    let flags := if (lead = true ∨ trailing = true) ∧ dl.invisibles.space ≠ [] then
      flags ||| INVISIBLE_CHARACTER else flags
    let flags := if guides = true then flags ||| INDENT_GUIDE else flags
    { flags := flags,
      force := guides && decide (sc % dl.tabLength = 0),
      width := 1,
      glyphs := if (lead = true ∨ trailing = true) ∧ dl.invisibles.space ≠ [] then
          dl.invisibles.space
        else [' '] }
  else if c = '\t' then
    let flags := flags ||| HARD_TAB
    let flags := if dl.invisibles.tab ≠ [] then flags ||| INVISIBLE_CHARACTER else flags
    let flags := if guides = true ∧ sc % dl.tabLength = 0 then flags ||| INDENT_GUIDE
      else flags
    let width := dl.tabLength - sc % dl.tabLength
    { flags := flags,
      force := true,
      width := width,
      glyphs := if dl.invisibles.tab ≠ [] then
          dl.invisibles.tab ++ List.replicate (width - 1) ' '
        else List.replicate width ' ' }
  else
    { flags := 0, force := false, width := 1, glyphs := [c] }

/-- The cells of the characters of a row from buffer column `col` on, the first of them
at screen column `sc`; `lead` says whether every earlier character of the row is a space
or a tab before the trailing whitespace. -/
def rowCells (dl : DisplayLayer) (tws : Nat) : Nat → Nat → Bool → List Char → List Cell
  | _, _, _, [] => []
  | col, sc, lead, c :: rest =>
    let trailing : Bool := decide (tws ≤ col)
    let lead : Bool := lead && !trailing
    let cell := cellOf dl tws sc lead trailing c
    cell :: rowCells dl tws (col + 1) (sc + cell.width) (lead && isBlank c) rest

/-- The runs the cells of a row fall into, each with its flags and its length, when the
run in progress has the given flags and length: a cell with the same flags and no forced
boundary goes on with the run, any other cell ends it and starts the next one. -/
def groupRuns : Nat → Nat → List Cell → List (Nat × Nat)
  | flags, length, [] => [(flags, length)]
  | flags, length, c :: cs =>
    if c.flags = flags ∧ c.force = false then groupRuns flags (length + c.width) cs
    else (flags, length) :: groupRuns c.flags c.width cs

/-- The runs of the cells of a row. -/
def rowRuns : List Cell → List (Nat × Nat)
  | [] => []
  | c :: cs => groupRuns c.flags c.width cs

/-- The codes of one run: the open code of its tag, its length, the close code; a run
without flags has no tag, and a run of length 0 no length entry. -/
def encodeRun (r : Nat × Nat) : List TagCode :=
  openCodes (getBasicTag r.1) ++ runCodes r.2 ++ closeCodes (getBasicTag r.1)

/-- The tag stream of a list of runs. -/
def encodeRuns (runs : List (Nat × Nat)) : List TagCode :=
  (runs.map encodeRun).flatten

/-- The codes still to come for a list of runs whose first run is already open. -/
def finishRuns : List (Nat × Nat) → List TagCode
  | [] => []
  | r :: rs => runCodes r.2 ++ closeCodes (getBasicTag r.1) ++ encodeRuns rs

/-- The flags of the run of an end-of-line glyph: invisible-character and line-ending,
and indent-guide on an empty row when the guides are on. -/
def eolFlags (dl : DisplayLayer) (text : List Char) : Nat :=
  if text.length = 0 ∧ dl.showIndentGuides = true then
    0 ||| (INVISIBLE_CHARACTER ||| LINE_ENDING) ||| INDENT_GUIDE
  else 0 ||| (INVISIBLE_CHARACTER ||| LINE_ENDING)

/-- The run of the end-of-line glyph of a row, if one is configured. -/
def eolRuns (dl : DisplayLayer) (text glyph : List Char) : List (Nat × Nat) :=
  if glyph ≠ [] then [(eolFlags dl text, glyph.length)] else []

/-- The statement `if (this.tagCodes.length === 0) this.tagCodes.push(0)` on a stream. -/
def orZeroRun (codes : List TagCode) : List TagCode :=
  if codes.length = 0 then [TagCode.len 0] else codes

/-- The sum of the lengths of a list of runs. -/
def runsLength (runs : List (Nat × Nat)) : Nat :=
  (runs.map Prod.snd).sum

/-- Every run with the indent-guide flag starts at a screen column that is a multiple of
the tab length; the first run starts at the given column. -/
def RunsOnTicks (tabLength : Nat) : Nat → List (Nat × Nat) → Prop
  | _, [] => True
  | column, r :: rs =>
    (r.1 &&& INDENT_GUIDE ≠ 0 → column % tabLength = 0) ∧
      RunsOnTicks tabLength (column + r.2) rs

/-- The invariant of the guide loop of an empty row that starts at screen column
`start` after the codes `base` and the text `baseText`. -/
def GuideTail (tabLength start : Nat) (base : List TagCode) (baseText : List Char)
    (st : BuilderState) : Prop :=
  start ≤ st.screenColumn ∧
  st.screenLineText = baseText ++ List.replicate (st.screenColumn - start) ' ' ∧
  (st.currentTokenFlags = 0 ∨ st.currentTokenFlags = INDENT_GUIDE) ∧
  (st.currentTokenFlags = INDENT_GUIDE →
    (st.screenColumn - st.currentTokenLength) % tabLength = 0 ∧ 0 < st.currentTokenLength) ∧
  ∃ runs, st.tagCodes = base ++ encodeRuns runs ++
      (if st.currentTokenFlags = INDENT_GUIDE then openCodes (getBasicTag INDENT_GUIDE)
       else []) ∧
    RunsOnTicks tabLength start runs ∧
    (∀ r ∈ runs, (r.1 = 0 ∨ r.1 = INDENT_GUIDE) ∧ 0 < r.2) ∧
    start + runsLength runs + st.currentTokenLength = st.screenColumn

/-- The text the cells of a row are rendered as. -/
def cellsText (cells : List Cell) : List Char :=
  (cells.map Cell.glyphs).flatten

/-- The screen columns the cells of a row take. -/
def cellsWidth (cells : List Cell) : Nat :=
  (cells.map Cell.width).sum

/-- The cells of the characters of the row still to be rendered in a state of the column
loop. -/
def rowRest (dl : DisplayLayer) (x : BuilderState) : List Cell :=
  rowCells dl x.trailingWhitespaceStartColumn x.bufferColumn x.screenColumn
    x.inLeadingWhitespace (x.bufferLine.drop x.bufferColumn)

/-- The invariant of the column loop over a row on which no hunk starts, relative to the
state `x0` the loop is observed from: what is rendered so far together with what the
remaining cells stand for is what it was at `x0`. -/
def RowInv (dl : DisplayLayer) (x0 x : BuilderState) : Prop :=
  x.bufferRow = x0.bufferRow ∧ x.bufferLine = x0.bufferLine ∧
  x.trailingWhitespaceStartColumn = x0.trailingWhitespaceStartColumn ∧
  x.lineEnding = x0.lineEnding ∧ x.screenLines = x0.screenLines ∧
  x.nextScreenLineId = x0.nextScreenLineId ∧ x.screenRow = x0.screenRow ∧
  (x.inTrailingWhitespace = true → x.trailingWhitespaceStartColumn ≤ x.bufferColumn) ∧
  x.bufferColumn ≤ x.bufferLine.length ∧
  (∀ h ∈ x.hunks, h ∈ x0.hunks) ∧
  x.screenLineText ++ cellsText (rowRest dl x) =
    x0.screenLineText ++ cellsText (rowRest dl x0) ∧
  x.tagCodes ++ finishRuns (groupRuns x.currentTokenFlags x.currentTokenLength (rowRest dl x)) =
    x0.tagCodes ++
      finishRuns (groupRuns x0.currentTokenFlags x0.currentTokenLength (rowRest dl x0)) ∧
  x.screenColumn + cellsWidth (rowRest dl x) = x0.screenColumn + cellsWidth (rowRest dl x0)

/-- What the column loop leaves behind on a row on which no hunk starts, observed from
the state `x0`: `tail` are the runs of the guides of an empty row. -/
def RowDone (dl : DisplayLayer) (x0 y : BuilderState) : Prop :=
  y.bufferRow = x0.bufferRow ∧ y.screenLines = x0.screenLines ∧
  y.nextScreenLineId = x0.nextScreenLineId ∧ y.screenRow = x0.screenRow ∧
  (∀ h ∈ y.hunks, h ∈ x0.hunks) ∧
  ∃ tail : List (Nat × Nat),
    y.tagCodes = orZeroRun (x0.tagCodes ++
      finishRuns (groupRuns x0.currentTokenFlags x0.currentTokenLength (rowRest dl x0)) ++
      encodeRuns (eolRuns dl x0.bufferLine (dl.eolInvisibles x0.lineEnding) ++ tail)) ∧
    y.screenLineText = x0.screenLineText ++ cellsText (rowRest dl x0) ++
      dl.eolInvisibles x0.lineEnding ++ List.replicate (runsLength tail) ' ' ∧
    RunsOnTicks dl.tabLength (x0.screenColumn + cellsWidth (rowRest dl x0) +
      (dl.eolInvisibles x0.lineEnding).length) tail ∧
    (∀ r ∈ tail, (r.1 = 0 ∨ r.1 = INDENT_GUIDE) ∧ 0 < r.2) ∧
    (¬ (x0.bufferLine.length = 0 ∧ dl.showIndentGuides = true) → tail = [])

/-- The cells of a buffer row, from its first character at screen column 0. -/
def lineCells (dl : DisplayLayer) (row : Nat) : List Cell :=
  rowCells dl (dl.findTrailingWhitespaceStartColumn (dl.lineForRow row)) 0 0 true
    (dl.lineForRow row)

/-- The flags over every screen column of a list of runs. -/
def spreadRuns (runs : List (Nat × Nat)) : List Nat :=
  (runs.map (fun r => List.replicate r.2 r.1)).flatten

/-- The flags over every screen column of a list of cells. -/
def spreadCells (cells : List Cell) : List Nat :=
  (cells.map (fun c => List.replicate c.width c.flags)).flatten

/-- Every screen column of every cell lies in a run with the flags of the cell: the cell
`i` starts at the screen column that is the width of the cells before it. -/
def Covers (runs : List (Nat × Nat)) (cells : List Cell) : Prop :=
  ∀ i (hi : i < cells.length) k, k < (cells[i]).width →
    (spreadRuns runs)[cellsWidth (cells.take i) + k]? = some (cells[i]).flags

/-- The tag of the run of an end-of-line glyph. -/
def eolTag (dl : DisplayLayer) (text : List Char) : List Char :=
  if text.length = 0 ∧ dl.showIndentGuides = true then
    "invisible-character eol indent-guide".toList
  else "invisible-character eol".toList

/-- A display layer over two rows with an end-of-line glyph for every line ending. -/
def eolGlyphLayer : DisplayLayer :=
  { plainLayer ["ab".toList, []] with eolInvisibles := fun _ => ['¬'] }

/-- A row of two spaces: its trailing whitespace starts at column 0. -/
def blankRowLayer : DisplayLayer :=
  plainLayer ["  ".toList]

/-- A row with leading, interior and trailing spaces. -/
def spacedRowLayer : DisplayLayer :=
  { plainLayer ["  a b  ".toList] with invisibles := { space := ['·'], tab := [] } }

/-- Whether the flags of a run or of a cell include hard-tab. -/
def hasHardTab (flags : Nat) : Bool :=
  decide (flags &&& HARD_TAB ≠ 0)

/-- The runs of the tabs of a row: one for each cell with the hard-tab flag, with the
flags and the width of the cell. -/
def tabRuns (cells : List Cell) : List (Nat × Nat) :=
  (cells.filter (fun c => hasHardTab c.flags)).map (fun c => (c.flags, c.width))

/-- A row with two tabs in a row between two letters, rendered with a tab glyph. -/
def twoTabsLayer : DisplayLayer :=
  { plainLayer ["a\t\tb".toList] with invisibles := { space := [], tab := ['»'] } }

/-- Whether the flags of a run or of a cell include invisible-character. -/
def hasInvisible (flags : Nat) : Bool :=
  decide (flags &&& INVISIBLE_CHARACTER ≠ 0)

/-- Tab expansion in the words of the specification: each tab is replaced by spaces up to
the next multiple of the tab length; the first character is at the given screen column. -/
def expandTabsFrom (tabLength : Nat) : Nat → List Char → List Char
  | _, [] => []
  | column, c :: rest =>
    if c = '\t' then
      List.replicate (tabLength - column % tabLength) ' ' ++
        expandTabsFrom tabLength (column + (tabLength - column % tabLength)) rest
    else c :: expandTabsFrom tabLength (column + 1) rest

/-- The reference tab expansion of a row. -/
def expandTabs (tabLength : Nat) (text : List Char) : List Char :=
  expandTabsFrom tabLength 0 text

/-- The invariant of the row loop over rows without hunks, invisibles and guides: the
lines pushed so far are the tab expansions of the buffer rows from the first one on. -/
def PlainRows (dl : DisplayLayer) (screenStartRow screenEndRow : Nat) (st : BuilderState) :
    Prop :=
  st.hunks = [] ∧ screenStartRow ≤ st.screenRow ∧
  st.screenRow ≤ max screenStartRow screenEndRow ∧
  st.bufferRow = (dl.translateScreenPosition ⟨screenStartRow, 0⟩).row +
    (st.screenRow - screenStartRow) ∧
  st.screenLines.map ScreenLine.lineText =
    (List.range (st.screenRow - screenStartRow)).map (fun i =>
      expandTabs dl.tabLength
        (dl.lineForRow ((dl.translateScreenPosition ⟨screenStartRow, 0⟩).row + i)))

/-- Three rows, two of them with tabs, and nothing switched on. -/
def tabbedRowsLayer : DisplayLayer :=
  plainLayer ["a\tb".toList, "plain text".toList, "\t\tx".toList]

/-- Two rows folded from the start of the first one into the leading spaces of the
second, with the indent guides on. -/
def foldAtStartLayer : DisplayLayer :=
  { plainLayer ["abc".toList, "      y".toList] with
    getScreenLineCount := 1
    showIndentGuides := true
    getHunksInNewRange := fun _ _ =>
      [{ oldStart := ⟨0, 0⟩, oldEnd := ⟨1, 2⟩, newStart := ⟨0, 0⟩, newEnd := ⟨0, 1⟩,
         newText := ['⋯'] }] }

/-- A row of six leading spaces before a letter, with the indent guides on. -/
def guidedRowLayer : DisplayLayer :=
  { plainLayer ["      y".toList] with showIndentGuides := true }

/-- Whether every open code of a tag with the indent-guide name stands at a screen column
that is a multiple of the tab length, in a tag stream that starts at the given column. -/
def guidesOnTicks (tabLength : Nat) : Nat → List TagCode → Bool
  | _, [] => true
  | column, TagCode.len n :: rest => guidesOnTicks tabLength (column + n) rest
  | column, TagCode.openTag tag :: rest =>
    (decide (flagsOfTag tag &&& INDENT_GUIDE = 0) || decide (column % tabLength = 0)) &&
      guidesOnTicks tabLength column rest
  | column, TagCode.closeTag _ :: rest => guidesOnTicks tabLength column rest

/-- Every cell with the indent-guide flag that does not stand at a multiple of the tab
length goes on with the flags of the cell before it; the first cell stands at the given
screen column after a cell with the given flags. -/
def TickChain (tabLength : Nat) : Nat → Nat → List Cell → Prop
  | _, _, [] => True
  | column, flags, c :: cs =>
    (c.flags &&& INDENT_GUIDE ≠ 0 → column % tabLength ≠ 0 →
      c.flags = flags ∧ c.force = false) ∧
    TickChain tabLength (column + c.width) c.flags cs

/-- Two rows with different line endings, each ending with its own end-of-line glyph, and
a fold from column 1 of the first row to column 1 of the second. -/
def foldAcrossEndingsLayer : DisplayLayer :=
  { plainLayer ["ab".toList, "cd".toList] with
    getScreenLineCount := 1
    lineEndingForRow := fun row => if row = 0 then ['\r', '\n'] else ['\n']
    eolInvisibles := fun ending =>
      if ending = ['\r', '\n'] then ['¤'] else if ending = ['\n'] then ['¬'] else []
    getHunksInNewRange := fun _ _ =>
      [{ oldStart := ⟨0, 1⟩, oldEnd := ⟨1, 1⟩, newStart := ⟨0, 1⟩, newEnd := ⟨0, 2⟩,
         newText := ['⋯'] }] }

/-- Where a reader of a tag stream stands: outside every tag, directly after the open
code of a tag, or after the run length that follows the open code of a tag. -/
inductive RunState where
  | idle
  | opened (tag : List Char)
  | counted (tag : List Char)
deriving DecidableEq, Repr

/-- One code of a flat tag stream: outside every tag a positive run length or an open
code; after an open code a positive run length; after that run length the close code of
the same tag. Anything else is refused. -/
def flatStep (s : RunState) (code : TagCode) : Option RunState :=
  match s, code with
  | RunState.idle, TagCode.len n => if 0 < n then some RunState.idle else none
  | RunState.idle, TagCode.openTag t => some (RunState.opened t)
  | RunState.opened t, TagCode.len n => if 0 < n then some (RunState.counted t) else none
  | RunState.counted t, TagCode.closeTag u => if t = u then some RunState.idle else none
  | _, _ => none

/-- Reading a tag stream code by code; `none` when a code is refused. -/
def scanFlat : RunState → List TagCode → Option RunState
  | s, [] => some s
  | s, code :: rest => (flatStep s code).bind (fun s1 => scanFlat s1 rest)

/-- A tag stream is flat: at most one tag is open at any point, every open code is
followed by exactly one run length and then by the close code of its tag, and every run
length is positive. -/
def isFlat (codes : List TagCode) : Bool :=
  decide (scanFlat RunState.idle codes = some RunState.idle)

/-- Where a reader stands while a token with the given flags is being rendered. -/
def openState (flags : Nat) : RunState :=
  if (getBasicTag flags).length > 0 then RunState.opened (getBasicTag flags)
  else RunState.idle

/-- The stream so far is flat up to the open code of the token with the given flags. -/
def ScanOpen (flags : Nat) (st : BuilderState) : Prop :=
  scanFlat RunState.idle st.tagCodes = some (openState flags)

/-- A token with a tag is not empty. -/
def LenPos (flags : Nat) (st : BuilderState) : Prop :=
  (getBasicTag flags).length > 0 → 0 < st.currentTokenLength

/-- Every line pushed so far has a flat tag stream or the stream `[0]`. -/
def LinesFlat (lines : List ScreenLine) : Prop :=
  ∀ l ∈ lines, l.tagCodes = [TagCode.len 0] ∨ isFlat l.tagCodes = true

/-- The invariant of the soft-wrap indent loop behind the flatness of the stream. -/
def WrapFlat (st : BuilderState) : Prop :=
  (st.screenColumn = 0 ∧ st.tagCodes = [] ∧ st.currentTokenLength = 0) ∨
  (0 < st.screenColumn ∧ 0 < st.currentTokenLength ∧ ScanOpen INDENT_GUIDE st)

/-- The invariant of the empty-row guide loop behind the flatness of the stream. -/
def GuideFlat (st : BuilderState) : Prop :=
  (st.currentTokenFlags = 0 ∧ scanFlat RunState.idle st.tagCodes = some RunState.idle) ∨
  (st.currentTokenFlags = INDENT_GUIDE ∧ 0 < st.currentTokenLength ∧
    ScanOpen INDENT_GUIDE st)

/-- The invariant of the column loop behind the flatness of the stream. -/
def FlatInv (st : BuilderState) : Prop :=
  ScanOpen st.currentTokenFlags st ∧ LenPos st.currentTokenFlags st ∧
    LinesFlat st.screenLines ∧
    (st.bufferLine.length < st.bufferColumn → st.currentTokenFlags = 0)

/-- The invariant of the soft-wrap indent loop towards the runs of the specification:
`done` runs are complete and the next one is open. -/
def WrapProgress (tabLength width : Nat) (st : BuilderState) : Prop :=
  st.screenColumn ≤ width ∧
  ((st.screenColumn = 0 ∧ st.tagCodes = [] ∧ st.currentTokenLength = 0) ∨
   ∃ done, done * tabLength < st.screenColumn ∧ st.screenColumn ≤ (done + 1) * tabLength ∧
      st.tagCodes = ((List.range done).map (indentGuideRun tabLength width)).flatten ++
        [TagCode.openTag "indent-guide".toList] ∧
      st.currentTokenLength = st.screenColumn - done * tabLength)

/-- The state of the column loop right after the soft wrap `hk` taken at the state `x`,
with the hunks `rest` still to come: the line so far is closed and pushed, and the next
line starts with the indent. -/
def afterWrap (dl : DisplayLayer) (hk : Hunk) (rest : List Hunk) (x : BuilderState) :
    BuilderState :=
  { x with
    screenLines := x.screenLines ++
      [{ id := x.nextScreenLineId, lineText := x.screenLineText,
         tagCodes := x.tagCodes ++ runCodes x.currentTokenLength ++
           closeCodes (getBasicTag x.currentTokenFlags) }],
    nextScreenLineId := x.nextScreenLineId + 1,
    screenRow := x.screenRow + 1,
    hunks := rest,
    previousTokenFlags := 0,
    currentTokenFlags := 0,
    screenLineText := List.replicate hk.newEnd.column ' ',
    tagCodes := if dl.showIndentGuides = true ∧ hk.newEnd.column > 0 then
        indentGuideRuns dl.tabLength hk.newEnd.column else [],
    screenColumn := hk.newEnd.column,
    currentTokenLength := if dl.showIndentGuides = true ∧ hk.newEnd.column > 0 then 0
      else hk.newEnd.column }

/-- Before the wrap hunk of a soft-wrapped row is reached: the text of the row is copied
up to the buffer column and nothing is pushed. -/
def WrapBefore (dl : DisplayLayer) (st : BuilderState) (hk : Hunk) (rest : List Hunk)
    (x : BuilderState) : Prop :=
  x.bufferRow = st.bufferRow ∧ x.bufferLine = dl.lineForRow st.bufferRow ∧
  x.lineEnding = dl.lineEndingForRow st.bufferRow ∧
  x.bufferColumn ≤ hk.oldStart.column ∧
  x.screenLineText = (dl.lineForRow st.bufferRow).take x.bufferColumn ∧
  skipHunks st.bufferRow x.hunks = hk :: rest ∧
  x.screenLines = st.screenLines ∧ x.nextScreenLineId = st.nextScreenLineId ∧
  x.screenRow = st.screenRow ∧
  (x.inTrailingWhitespace = true → x.trailingWhitespaceStartColumn ≤ x.bufferColumn)

/-- The empty row of a buffer, soft-wrapped at column 0 with an indent of 2, with the
indent guides on and a surrounding leading-whitespace width of 4. -/
def wrappedEmptyRowLayer : DisplayLayer :=
  { plainLayer [[]] with
    getScreenLineCount := 2
    showIndentGuides := true
    leadingWhitespaceLengthForSurroundingLines := fun _ => 4
    getHunksInNewRange := fun _ _ =>
      [{ oldStart := ⟨0, 0⟩, oldEnd := ⟨0, 0⟩, newStart := ⟨0, 0⟩, newEnd := ⟨1, 2⟩,
         newText := [] }] }

/-- A row of 43 characters, soft-wrapped at buffer column 20 with an indent of 4, with
the indent guides on. -/
def wrapAtTwentyLayer : DisplayLayer :=
  { plainLayer ["the quick brown fox jumps over the lazy dog".toList] with
    getScreenLineCount := 2
    showIndentGuides := true
    getHunksInNewRange := fun _ _ =>
      [{ oldStart := ⟨0, 20⟩, oldEnd := ⟨0, 20⟩, newStart := ⟨0, 20⟩, newEnd := ⟨1, 4⟩,
         newText := [] }] }

/-! ## Tag emission in closed form -/

theorem emitTokenBoundary_eq (st : BuilderState) :
    emitTokenBoundary st =
      { st with tagCodes := st.tagCodes ++ runCodes st.currentTokenLength,
                currentTokenLength := 0 } := by
  unfold emitTokenBoundary runCodes
  split
  · rfl
  · have h : st.currentTokenLength = 0 := by omega
    cases st
    simp_all

theorem emitCloseTag_eq (tag : List Char) (st : BuilderState) :
    emitCloseTag tag st =
      { st with tagCodes := st.tagCodes ++ runCodes st.currentTokenLength ++ closeCodes tag,
                currentTokenLength := 0 } := by
  unfold emitCloseTag closeCodes
  simp only [emitTokenBoundary_eq]
  split <;> simp

theorem emitOpenTag_eq (tag : List Char) (st : BuilderState) :
    emitOpenTag tag st =
      { st with tagCodes := st.tagCodes ++ runCodes st.currentTokenLength ++ openCodes tag,
                currentTokenLength := 0 } := by
  unfold emitOpenTag openCodes
  simp only [emitTokenBoundary_eq]
  split <;> simp

@[simp] theorem sumRuns_nil : sumRuns [] = 0 := rfl

@[simp] theorem sumRuns_append (a b : List TagCode) :
    sumRuns (a ++ b) = sumRuns a + sumRuns b := by
  induction a with
  | nil => simp
  | cons c a ih =>
    cases c <;> simp [sumRuns, ih]
    omega

@[simp] theorem sumRuns_runCodes (n : Nat) : sumRuns (runCodes n) = n := by
  unfold runCodes
  split
  · simp [sumRuns]
  · simp
    omega

@[simp] theorem sumRuns_closeCodes (tag : List Char) : sumRuns (closeCodes tag) = 0 := by
  unfold closeCodes
  split <;> simp [sumRuns]

@[simp] theorem sumRuns_openCodes (tag : List Char) : sumRuns (openCodes tag) = 0 := by
  unfold openCodes
  split <;> simp [sumRuns]

theorem replay_append (a b : List TagCode) (stack : List (List Char)) :
    replay (a ++ b) stack = (replay a stack).bind (replay b) := by
  induction a generalizing stack with
  | nil => simp [replay]
  | cons c a ih =>
    cases c with
    | len n => simp [replay, ih]
    | openTag t => simp [replay, ih]
    | closeTag t =>
      cases stack with
      | nil => simp [replay]
      | cons top below =>
        simp only [List.cons_append, replay]
        split
        · exact ih below
        · simp

@[simp] theorem replay_runCodes (n : Nat) (stack : List (List Char)) :
    replay (runCodes n) stack = some stack := by
  unfold runCodes
  split <;> simp [replay]

/-! ## Induction over the loops -/

theorem softWrapGuides_induct {P : BuilderState → Prop} (dl : DisplayLayer) (n : Nat)
    (hstep : ∀ st, P st → st.screenColumn < n → P (softWrapGuidesStep dl st)) :
    ∀ fuel st, P st → P (softWrapGuides dl n fuel st) := by
  intro fuel
  induction fuel with
  | zero => intro st h; simpa [softWrapGuides] using h
  | succ k ih =>
    intro st h
    unfold softWrapGuides
    split
    · exact ih _ (hstep st h (by assumption))
    · exact h

theorem emptyRowGuides_induct {P : BuilderState → Prop} (dl : DisplayLayer) (n : Nat)
    (hstep : ∀ st, P st → st.screenColumn < n → P (emptyRowGuidesStep dl st)) :
    ∀ fuel st, P st → P (emptyRowGuides dl n fuel st) := by
  intro fuel
  induction fuel with
  | zero => intro st h; simpa [emptyRowGuides] using h
  | succ k ih =>
    intro st h
    unfold emptyRowGuides
    split
    · exact ih _ (hstep st h (by assumption))
    · exact h

theorem drainHunks_induct {P : List Hunk → BuilderState → Prop} {Q : BuilderState → Prop}
    (dl : DisplayLayer)
    (hstep : ∀ h rest st, P (h :: rest) st → h.oldStart.row = st.bufferRow →
      h.oldStart.column = st.bufferColumn → P rest (applyHunk dl h st))
    (hdone : ∀ hs st, P hs st → Q { st with hunks := hs }) :
    ∀ hs st, P hs st → Q (drainHunks dl hs st) := by
  intro hs
  induction hs with
  | nil => intro st h; exact hdone [] st h
  | cons x rest ih =>
    intro st h
    unfold drainHunks
    split
    · rename_i hpos
      exact ih _ (hstep x rest st h hpos.1 hpos.2)
    · exact hdone _ st h

theorem columnLoop_induct {P Q : BuilderState → Prop} (dl : DisplayLayer)
    (hcont : ∀ st, P st → st.bufferColumn ≤ st.bufferLine.length →
      (columnStep dl st).2 = false → P (columnStep dl st).1)
    (hbreak : ∀ st, P st → st.bufferColumn ≤ st.bufferLine.length →
      (columnStep dl st).2 = true → Q (columnStep dl st).1)
    (hexit : ∀ st, P st → ¬ st.bufferColumn ≤ st.bufferLine.length → Q st) :
    ∀ fuel st st', P st → columnLoop dl fuel st = some st' → Q st' := by
  intro fuel
  induction fuel with
  | zero => intro st st' _ h; simp [columnLoop] at h
  | succ k ih =>
    intro st st' hP h
    unfold columnLoop at h
    split at h
    · rename_i hguard
      split at h
      · rename_i st1 heq
        have h2 : (columnStep dl st).2 = true := by rw [heq]
        have h1 : (columnStep dl st).1 = st1 := by rw [heq]
        simp only [Option.some.injEq] at h
        subst h
        rw [← h1]
        exact hbreak st hP hguard h2
      · rename_i st1 heq
        have h2 : (columnStep dl st).2 = false := by rw [heq]
        have h1 : (columnStep dl st).1 = st1 := by rw [heq]
        exact ih st1 st' (h1 ▸ hcont st hP hguard h2) h
    · simp only [Option.some.injEq] at h
      subst h
      exact hexit st hP (by assumption)

theorem rowLoop_induct {P : BuilderState → Prop} (dl : DisplayLayer) (screenEndRow : Nat)
    (hstep : ∀ st st', P st → st.screenRow < screenEndRow → rowStep dl st = some st' → P st') :
    ∀ fuel st st', P st → rowLoop dl screenEndRow fuel st = some st' →
      P st' ∧ ¬ st'.screenRow < screenEndRow := by
  intro fuel
  induction fuel with
  | zero =>
    intro st st' hP h
    unfold rowLoop at h
    split at h
    · simp at h
    · simp only [Option.some.injEq] at h
      subst h
      exact ⟨hP, by assumption⟩
  | succ k ih =>
    intro st st' hP h
    unfold rowLoop at h
    split at h
    · rename_i hguard
      split at h
      · simp at h
      · rename_i st1 heq
        exact ih st1 st' (hstep st st1 hP hguard heq) h
    · simp only [Option.some.injEq] at h
      subst h
      exact ⟨hP, by assumption⟩

theorem onlyIf_pos {c : Prop} [Decidable c] (f : BuilderState → BuilderState)
    (st : BuilderState) (h : c) : onlyIf c f st = f st := by
  simp [onlyIf, h]

theorem onlyIf_neg {c : Prop} [Decidable c] (f : BuilderState → BuilderState)
    (st : BuilderState) (h : ¬ c) : onlyIf c f st = st := by
  simp [onlyIf, h]

theorem onlyIf_induct {P : BuilderState → Prop} {c : Prop} [Decidable c]
    (f : BuilderState → BuilderState) (st : BuilderState)
    (h0 : P st) (h1 : c → P (f st)) : P (onlyIf c f st) := by
  unfold onlyIf
  split
  · exact h1 (by assumption)
  · exact h0

theorem renderOnly_refl (st : BuilderState) : RenderOnly st st :=
  ⟨_, _, _, _, _, _, _, _, rfl⟩

theorem renderOnly_update {st x : BuilderState} (h : RenderOnly st x)
    (text : List Char) (tc : List TagCode) (len flags : Nat) (force : Bool) (col : Nat)
    (inL inT : Bool) :
    RenderOnly st
      { x with screenLineText := text, tagCodes := tc, currentTokenLength := len,
               currentTokenFlags := flags, forceTokenBoundary := force,
               screenColumn := col, inLeadingWhitespace := inL,
               inTrailingWhitespace := inT } := by
  obtain ⟨_, _, _, _, _, _, _, _, rfl⟩ := h
  exact ⟨_, _, _, _, _, _, _, _, rfl⟩

theorem renderOnly_trans {a b c : BuilderState} (h1 : RenderOnly a b) (h2 : RenderOnly b c) :
    RenderOnly a c := by
  obtain ⟨_, _, _, _, _, _, _, _, rfl⟩ := h2
  exact renderOnly_update h1 _ _ _ _ _ _ _ _

theorem renderOnly_onlyIf {c : Prop} [Decidable c] {f : BuilderState → BuilderState}
    {st x : BuilderState} (hf : ∀ y, RenderOnly st y → RenderOnly st (f y))
    (h : RenderOnly st x) : RenderOnly st (onlyIf c f x) :=
  onlyIf_induct f x h (fun _ => hf x h)

theorem renderOnly_orFlags {st x : BuilderState} (flags : Nat) (h : RenderOnly st x) :
    RenderOnly st (orFlags flags x) := renderOnly_update h _ _ _ _ _ _ _ _

theorem renderOnly_pushTagCode {st x : BuilderState} (code : TagCode) (h : RenderOnly st x) :
    RenderOnly st (pushTagCode code x) := renderOnly_update h _ _ _ _ _ _ _ _

theorem renderOnly_appendText {st x : BuilderState} (text : List Char)
    (h : RenderOnly st x) : RenderOnly st (appendText text x) :=
  renderOnly_update h _ _ _ _ _ _ _ _

theorem renderOnly_emitCloseTag {st x : BuilderState} (tag : List Char)
    (h : RenderOnly st x) : RenderOnly st (emitCloseTag tag x) := by
  rw [emitCloseTag_eq]; exact renderOnly_update h _ _ _ _ _ _ _ _

theorem renderOnly_emitOpenTag {st x : BuilderState} (tag : List Char)
    (h : RenderOnly st x) : RenderOnly st (emitOpenTag tag x) := by
  rw [emitOpenTag_eq]; exact renderOnly_update h _ _ _ _ _ _ _ _

theorem renderOnly_softWrapGuidesStep {st x : BuilderState} (dl : DisplayLayer)
    (h : RenderOnly st x) : RenderOnly st (softWrapGuidesStep dl x) := by
  unfold softWrapGuidesStep
  simp only []
  apply renderOnly_update
  apply renderOnly_onlyIf _ h
  intro y hy
  exact renderOnly_emitOpenTag _ (renderOnly_onlyIf (fun z hz => renderOnly_emitCloseTag _ hz) hy)

theorem renderOnly_softWrapGuides {st x : BuilderState} (dl : DisplayLayer) (n fuel : Nat)
    (h : RenderOnly st x) : RenderOnly st (softWrapGuides dl n fuel x) :=
  softWrapGuides_induct dl n (fun _ hs _ => renderOnly_softWrapGuidesStep dl hs) fuel x h

theorem flagsOnly_update {st x : BuilderState} (h : FlagsOnly st x)
    (flags : Nat) (force inL inT : Bool) :
    FlagsOnly st
      { x with currentTokenFlags := flags, forceTokenBoundary := force,
               inLeadingWhitespace := inL, inTrailingWhitespace := inT } := by
  obtain ⟨_, _, _, _, rfl⟩ := h
  exact ⟨_, _, _, _, rfl⟩

theorem flagsOnly_onlyIf {c : Prop} [Decidable c] {f : BuilderState → BuilderState}
    {st x : BuilderState} (hf : ∀ y, FlagsOnly st y → FlagsOnly st (f y))
    (h : FlagsOnly st x) : FlagsOnly st (onlyIf c f x) :=
  onlyIf_induct f x h (fun _ => hf x h)

theorem flagsOnly_orFlags {st x : BuilderState} (flags : Nat) (h : FlagsOnly st x) :
    FlagsOnly st (orFlags flags x) := flagsOnly_update h _ _ _ _

theorem flagsOnly_classifyCharacter (dl : DisplayLayer) (st : BuilderState) :
    FlagsOnly st (classifyCharacter dl st) := by
  unfold classifyCharacter
  simp only []
  have h0 := flagsOnly_onlyIf (c := st.bufferColumn ≥ st.trailingWhitespaceStartColumn)
    (f := fun st => { st with inTrailingWhitespace := true, inLeadingWhitespace := false })
    (fun y hy => flagsOnly_update hy _ _ _ _)
    (flagsOnly_update (x := st) ⟨_, _, _, _, rfl⟩ st.currentTokenFlags false
      st.inLeadingWhitespace st.inTrailingWhitespace)
  split
  · split
    · split
      · refine flagsOnly_onlyIf (fun y hy => flagsOnly_update hy _ _ _ _) ?_
        refine flagsOnly_orFlags _ ?_
        refine flagsOnly_onlyIf (fun y hy => flagsOnly_orFlags _ hy) ?_
        refine flagsOnly_onlyIf (fun y hy => flagsOnly_orFlags _ hy) ?_
        exact flagsOnly_onlyIf (fun y hy => flagsOnly_orFlags _ hy) h0
      · refine flagsOnly_onlyIf (fun y hy => flagsOnly_orFlags _ hy) ?_
        refine flagsOnly_onlyIf (fun y hy => flagsOnly_orFlags _ hy) ?_
        exact flagsOnly_onlyIf (fun y hy => flagsOnly_orFlags _ hy) h0
    · refine flagsOnly_update ?_ _ _ _ _
      refine flagsOnly_onlyIf (fun y hy => flagsOnly_orFlags _ hy) ?_
      refine flagsOnly_onlyIf (fun y hy => flagsOnly_orFlags _ hy) ?_
      refine flagsOnly_orFlags _ ?_
      refine flagsOnly_onlyIf (fun y hy => flagsOnly_orFlags _ hy) ?_
      exact flagsOnly_onlyIf (fun y hy => flagsOnly_orFlags _ hy) h0
  · exact flagsOnly_update h0 _ _ _ _

/-- What `classifyCharacter` leaves alone: everything but the flags of the current token,
the forced boundary and the two whitespace markers. -/
theorem classifyCharacter_fields (dl : DisplayLayer) (st : BuilderState) :
    (classifyCharacter dl st).tagCodes = st.tagCodes ∧
    (classifyCharacter dl st).currentTokenLength = st.currentTokenLength ∧
    (classifyCharacter dl st).screenLineText = st.screenLineText ∧
    (classifyCharacter dl st).screenColumn = st.screenColumn ∧
    (classifyCharacter dl st).previousTokenFlags = st.previousTokenFlags ∧
    (classifyCharacter dl st).bufferLine = st.bufferLine ∧
    (classifyCharacter dl st).bufferColumn = st.bufferColumn ∧
    (classifyCharacter dl st).screenLines = st.screenLines ∧
    (classifyCharacter dl st).hunks = st.hunks ∧
    (classifyCharacter dl st).bufferRow = st.bufferRow ∧
    (classifyCharacter dl st).lineEnding = st.lineEnding ∧
    (classifyCharacter dl st).nextScreenLineId = st.nextScreenLineId ∧
    (classifyCharacter dl st).trailingWhitespaceStartColumn =
      st.trailingWhitespaceStartColumn := by
  obtain ⟨_, _, _, _, h⟩ := flagsOnly_classifyCharacter dl st
  rw [h]
  simp

theorem renderOnly_classifyCharacter {st x : BuilderState} (dl : DisplayLayer)
    (h : RenderOnly st x) : RenderOnly st (classifyCharacter dl x) := by
  obtain ⟨_, _, _, _, h2⟩ := flagsOnly_classifyCharacter dl x
  rw [h2]
  exact renderOnly_update h _ _ _ _ _ _ _ _

theorem renderOnly_fields {st st' : BuilderState} (h : RenderOnly st st') :
    st'.screenLines = st.screenLines ∧ st'.nextScreenLineId = st.nextScreenLineId ∧
    st'.screenRow = st.screenRow ∧ st'.bufferRow = st.bufferRow ∧ st'.hunks = st.hunks ∧
    st'.previousTokenFlags = st.previousTokenFlags ∧ st'.bufferLine = st.bufferLine ∧
    st'.lineEnding = st.lineEnding ∧ st'.bufferColumn = st.bufferColumn ∧
    st'.trailingWhitespaceStartColumn = st.trailingWhitespaceStartColumn := by
  obtain ⟨_, _, _, _, _, _, _, _, rfl⟩ := h
  simp

theorem renderOnly_closePreviousToken {st x : BuilderState} (h : RenderOnly st x) :
    RenderOnly st (closePreviousToken x) := by
  unfold closePreviousToken
  split
  · exact renderOnly_emitCloseTag _ h
  · exact h

theorem renderOnly_openCurrentToken {st x : BuilderState} (h : RenderOnly st x) :
    RenderOnly st (openCurrentToken x) := by
  unfold openCurrentToken
  split
  · exact renderOnly_emitOpenTag _ h
  · exact h

theorem renderOnly_startEmptyRowGuide {st x : BuilderState} (h : RenderOnly st x) :
    RenderOnly st (startEmptyRowGuide x) := by
  unfold startEmptyRowGuide
  simp only []
  refine renderOnly_emitOpenTag _ ?_
  refine renderOnly_update ?_ _ _ _ _ _ _ _ _
  refine renderOnly_onlyIf (fun y hy => renderOnly_pushTagCode _ hy) ?_
  exact renderOnly_onlyIf (fun y hy => renderOnly_pushTagCode _ hy) h

theorem renderOnly_emptyRowGuidesStep {st x : BuilderState} (dl : DisplayLayer)
    (h : RenderOnly st x) : RenderOnly st (emptyRowGuidesStep dl x) := by
  unfold emptyRowGuidesStep
  simp only []
  refine renderOnly_update ?_ _ _ _ _ _ _ _ _
  refine renderOnly_appendText _ ?_
  exact renderOnly_onlyIf (fun y hy => renderOnly_startEmptyRowGuide hy) h

theorem renderOnly_emptyRowGuides {st x : BuilderState} (dl : DisplayLayer) (n fuel : Nat)
    (h : RenderOnly st x) : RenderOnly st (emptyRowGuides dl n fuel x) :=
  emptyRowGuides_induct dl n (fun _ hs _ => renderOnly_emptyRowGuidesStep dl hs) fuel x h

theorem renderOnly_emitEolInvisible {st x : BuilderState} (dl : DisplayLayer)
    (h : RenderOnly st x) : RenderOnly st (emitEolInvisible dl x) := by
  unfold emitEolInvisible
  simp only []
  split
  · refine renderOnly_update ?_ _ _ _ _ _ _ _ _
    refine renderOnly_emitCloseTag _ ?_
    refine renderOnly_update ?_ _ _ _ _ _ _ _ _
    refine renderOnly_emitOpenTag _ ?_
    refine renderOnly_onlyIf (fun y hy => renderOnly_orFlags _ hy) ?_
    exact renderOnly_orFlags _ (renderOnly_appendText _ h)
  · exact h

theorem renderOnly_emitEmptyRowGuides {st x : BuilderState} (dl : DisplayLayer)
    (h : RenderOnly st x) : RenderOnly st (emitEmptyRowGuides dl x) := by
  unfold emitEmptyRowGuides
  simp only []
  split
  · refine renderOnly_onlyIf (fun y hy => renderOnly_pushTagCode _ hy) ?_
    refine renderOnly_onlyIf (fun y hy => renderOnly_pushTagCode _ hy) ?_
    refine renderOnly_emptyRowGuides dl _ _ ?_
    exact renderOnly_update h _ _ _ _ _ _ _ _
  · exact h

theorem renderOnly_endOfRow {st x : BuilderState} (dl : DisplayLayer)
    (h : RenderOnly st x) : RenderOnly st (endOfRow dl x) := by
  unfold endOfRow
  simp only []
  refine renderOnly_onlyIf (fun y hy => renderOnly_pushTagCode _ hy) ?_
  refine renderOnly_emitEmptyRowGuides dl ?_
  refine renderOnly_emitEolInvisible dl ?_
  exact renderOnly_onlyIf (fun y hy => renderOnly_emitCloseTag _ hy) h

theorem renderOnly_emitTab {st x : BuilderState} (dl : DisplayLayer)
    (h : RenderOnly st x) : RenderOnly st (emitTab dl x) := by
  unfold emitTab
  simp only []
  refine renderOnly_update ?_ _ _ _ _ _ _ _ _
  split
  · refine renderOnly_appendText _ (renderOnly_appendText _ ?_)
    exact renderOnly_update h _ _ _ _ _ _ _ _
  · refine renderOnly_appendText _ ?_
    exact renderOnly_update h _ _ _ _ _ _ _ _

theorem renderOnly_emitPlainCharacter {st x : BuilderState} (dl : DisplayLayer)
    (c : Option Char) (h : RenderOnly st x) : RenderOnly st (emitPlainCharacter dl c x) := by
  unfold emitPlainCharacter
  simp only []
  refine renderOnly_update ?_ _ _ _ _ _ _ _ _
  split
  · exact renderOnly_appendText _ h
  · exact renderOnly_appendText _ h

/-- What `emitCharacter` leaves alone: everything but the rendering variables and the
buffer column, which advances by one. -/
theorem emitCharacter_fields (dl : DisplayLayer) (st : BuilderState) :
    (emitCharacter dl st).screenLines = st.screenLines ∧
    (emitCharacter dl st).nextScreenLineId = st.nextScreenLineId ∧
    (emitCharacter dl st).screenRow = st.screenRow ∧
    (emitCharacter dl st).bufferRow = st.bufferRow ∧
    (emitCharacter dl st).hunks = st.hunks ∧
    (emitCharacter dl st).previousTokenFlags = st.previousTokenFlags ∧
    (emitCharacter dl st).bufferLine = st.bufferLine ∧
    (emitCharacter dl st).lineEnding = st.lineEnding ∧
    (emitCharacter dl st).bufferColumn = st.bufferColumn + 1 ∧
    (emitCharacter dl st).trailingWhitespaceStartColumn = st.trailingWhitespaceStartColumn ∧
    (emitCharacter dl st).currentTokenFlags = st.currentTokenFlags := by
  unfold emitCharacter
  simp only []
  split
  · have h := (renderOnly_fields (renderOnly_emitTab dl (renderOnly_refl st)))
    have h2 : (emitTab dl st).currentTokenFlags = st.currentTokenFlags := by
      unfold emitTab; simp only []; split <;> simp [appendText]
    simp [h, h2]
  · have h := (renderOnly_fields (renderOnly_emitPlainCharacter dl st.bufferLine[st.bufferColumn]?
      (renderOnly_refl st)))
    have h2 : (emitPlainCharacter dl st.bufferLine[st.bufferColumn]? st).currentTokenFlags =
        st.currentTokenFlags := by
      unfold emitPlainCharacter; simp only []; split <;> simp [appendText]
    simp [h, h2]

/-- The fold branch, field by field. -/
theorem applyFold_fields (dl : DisplayLayer) (h : Hunk) (st : BuilderState) :
    (applyFold dl h st).screenLines = st.screenLines ∧
    (applyFold dl h st).nextScreenLineId = st.nextScreenLineId ∧
    (applyFold dl h st).screenRow = st.screenRow ∧
    (applyFold dl h st).bufferRow = h.oldEnd.row ∧
    (applyFold dl h st).bufferColumn = h.oldEnd.column ∧
    (applyFold dl h st).bufferLine = dl.lineForRow h.oldEnd.row ∧
    (applyFold dl h st).lineEnding = st.lineEnding ∧
    (applyFold dl h st).previousTokenFlags = FOLD ∧
    (applyFold dl h st).currentTokenFlags = st.currentTokenFlags ∧
    (applyFold dl h st).currentTokenLength = dl.foldCharacter.length ∧
    (applyFold dl h st).screenLineText = st.screenLineText ++ dl.foldCharacter ∧
    (applyFold dl h st).screenColumn = st.screenColumn + dl.foldCharacter.length ∧
    (applyFold dl h st).inLeadingWhitespace = st.inLeadingWhitespace ∧
    (applyFold dl h st).tagCodes = st.tagCodes ++ runCodes st.currentTokenLength ++
      (if st.previousTokenFlags > 0 then closeCodes (getBasicTag st.previousTokenFlags)
       else []) ++ openCodes (getBasicTag FOLD) := by
  unfold applyFold onlyIf
  simp only [emitOpenTag_eq, appendText]
  split
  · simp [emitCloseTag_eq, runCodes]
  · simp

/-- The soft-wrap branch: the line is closed and pushed, and what follows touches the
rendering variables only. -/
theorem applySoftWrap_renderOnly (dl : DisplayLayer) (h : Hunk) (st : BuilderState) :
    RenderOnly
      { pushScreenLine (emitCloseTag (getBasicTag st.previousTokenFlags) st) with
        previousTokenFlags := 0 }
      (applySoftWrap dl h st) := by
  unfold applySoftWrap
  simp only []
  split
  · refine renderOnly_emitCloseTag _ ?_
    refine renderOnly_softWrapGuides dl _ _ ?_
    exact renderOnly_update (renderOnly_update (renderOnly_refl _) _ _ _ _ _ _ _ _)
      _ _ _ _ _ _ _ _
  · exact renderOnly_update (renderOnly_update (renderOnly_refl _) _ _ _ _ _ _ _ _)
      _ _ _ _ _ _ _ _

theorem applySoftWrap_fields (dl : DisplayLayer) (h : Hunk) (st : BuilderState) :
    (applySoftWrap dl h st).screenLines = st.screenLines ++
      [{ id := st.nextScreenLineId, lineText := st.screenLineText,
         tagCodes := st.tagCodes ++ runCodes st.currentTokenLength ++
           closeCodes (getBasicTag st.previousTokenFlags) }] ∧
    (applySoftWrap dl h st).nextScreenLineId = st.nextScreenLineId + 1 ∧
    (applySoftWrap dl h st).screenRow = st.screenRow + 1 ∧
    (applySoftWrap dl h st).bufferRow = st.bufferRow ∧
    (applySoftWrap dl h st).bufferColumn = st.bufferColumn ∧
    (applySoftWrap dl h st).bufferLine = st.bufferLine ∧
    (applySoftWrap dl h st).lineEnding = st.lineEnding ∧
    (applySoftWrap dl h st).previousTokenFlags = 0 := by
  have h1 := (renderOnly_fields (applySoftWrap_renderOnly dl h st))
  simp only [emitCloseTag_eq, pushScreenLine] at h1
  simp [h1]

/-! ## The lines pushed so far -/

theorem extends_refl (st : BuilderState) : Extends st st :=
  ⟨[], by simp⟩

theorem extends_of_fields {st st' : BuilderState} (h1 : st'.screenLines = st.screenLines)
    (h2 : st'.nextScreenLineId = st.nextScreenLineId) (h3 : st'.screenRow = st.screenRow) :
    Extends st st' :=
  ⟨[], by simp [h1, h2, h3]⟩

theorem extends_trans {a b c : BuilderState} (h1 : Extends a b) (h2 : Extends b c) :
    Extends a c := by
  obtain ⟨l1, e1, n1, r1, m1⟩ := h1
  obtain ⟨l2, e2, n2, r2, m2⟩ := h2
  refine ⟨l1 ++ l2, ?_, ?_, ?_, ?_⟩
  · rw [e2, e1, List.append_assoc]
  · rw [n2, n1, List.length_append]; omega
  · rw [r2, r1, List.length_append]; omega
  · rw [List.map_append, m1, m2, n1, List.length_append, List.range'_append_1, Nat.add_comm]

theorem extends_renderOnly {a b c : BuilderState} (h1 : Extends a b) (h2 : RenderOnly b c) :
    Extends a c :=
  extends_trans h1 (extends_of_fields (renderOnly_fields h2).1 (renderOnly_fields h2).2.1 (renderOnly_fields h2).2.2.1)

theorem extends_pushScreenLine (st : BuilderState) : Extends st (pushScreenLine st) :=
  ⟨[{ id := st.nextScreenLineId, lineText := st.screenLineText, tagCodes := st.tagCodes }],
    by simp [pushScreenLine, List.range']⟩

theorem extends_applyHunk (dl : DisplayLayer) (h : Hunk) (st : BuilderState) :
    Extends st (applyHunk dl h st) := by
  unfold applyHunk
  split
  · have hf := applyFold_fields dl h st
    exact extends_of_fields hf.1 hf.2.1 hf.2.2.1
  · split
    · have hf := applySoftWrap_fields dl h st
      exact ⟨[_], hf.1, by simp [hf.2.1], by simp [hf.2.2.1], by simp [List.range']⟩
    · exact extends_refl st

theorem extends_drainHunks (dl : DisplayLayer) (hs : List Hunk) (st : BuilderState) :
    Extends st (drainHunks dl hs st) :=
  drainHunks_induct (P := fun _ s => Extends st s) (Q := fun s => Extends st s) dl
    (fun h _ x hx _ _ => extends_trans hx (extends_applyHunk dl h x))
    (fun _ _ hx => extends_trans hx (extends_of_fields rfl rfl rfl)) hs st (extends_refl st)

theorem extends_beginColumn (dl : DisplayLayer) (st : BuilderState) :
    Extends st (beginColumn dl st) := by
  unfold beginColumn
  simp only []
  refine extends_renderOnly ?_ (renderOnly_closePreviousToken
    (renderOnly_classifyCharacter dl (renderOnly_refl _)))
  exact extends_trans (extends_of_fields rfl rfl rfl) (extends_drainHunks dl _ _)

theorem extends_columnStep (dl : DisplayLayer) (st : BuilderState) :
    Extends st (columnStep dl st).1 := by
  unfold columnStep
  simp only []
  split
  · exact extends_renderOnly (extends_beginColumn dl st) (renderOnly_endOfRow dl (renderOnly_refl _))
  · have hf := emitCharacter_fields dl (openCurrentToken (beginColumn dl st))
    refine extends_trans (extends_renderOnly (extends_beginColumn dl st)
      (renderOnly_openCurrentToken (renderOnly_refl _))) ?_
    exact extends_of_fields hf.1 hf.2.1 hf.2.2.1

theorem extends_columnLoop (dl : DisplayLayer) (fuel : Nat) (st st' : BuilderState)
    (h : columnLoop dl fuel st = some st') : Extends st st' :=
  columnLoop_induct (P := Extends st) (Q := Extends st) dl
    (fun s hs _ _ => extends_trans hs (extends_columnStep dl s))
    (fun s hs _ _ => extends_trans hs (extends_columnStep dl s))
    (fun _ hs _ => hs) fuel st st' (extends_refl st) h

/-- A pass of the row loop is the column loop followed by the push of the line. -/
theorem rowStep_eq_some (dl : DisplayLayer) (st st' : BuilderState)
    (h : rowStep dl st = some st') :
    ∃ s, columnLoop dl (columnFuel dl (startRow dl st)) (startRow dl st) = some s ∧
      st' = { pushScreenLine s with bufferRow := s.bufferRow + 1 } := by
  unfold rowStep at h
  simp only [] at h
  split at h
  · simp at h
  · rename_i s hs
    simp only [Option.some.injEq] at h
    exact ⟨s, hs, h.symm⟩

theorem extends_rowStep (dl : DisplayLayer) (st st' : BuilderState)
    (h : rowStep dl st = some st') : Extends st st' ∧ st.screenRow < st'.screenRow := by
  obtain ⟨s, hs, rfl⟩ := rowStep_eq_some dl st st' h
  have h1 : Extends st s :=
    extends_trans (b := startRow dl st) (extends_of_fields rfl rfl rfl)
      (extends_columnLoop dl _ _ _ hs)
  have h2 : Extends s { pushScreenLine s with bufferRow := s.bufferRow + 1 } :=
    extends_trans (extends_pushScreenLine s) (extends_of_fields rfl rfl rfl)
  refine ⟨extends_trans h1 h2, ?_⟩
  obtain ⟨l, _, _, hr, _⟩ := h1
  simp [pushScreenLine, hr]
  omega

theorem extends_rowLoop (dl : DisplayLayer) (e fuel : Nat) (st st' : BuilderState)
    (h : rowLoop dl e fuel st = some st') : Extends st st' ∧ ¬ st'.screenRow < e :=
  rowLoop_induct (P := Extends st) dl e
    (fun s s' hs _ hstep => extends_trans hs (extends_rowStep dl s s' hstep).1)
    fuel st st' (extends_refl st) h

/-! ## Termination -/

theorem hunkWeight_cons (dl : DisplayLayer) (h : Hunk) (hs : List Hunk) :
    hunkWeight dl (h :: hs) = (dl.lineForRow h.oldEnd.row).length + 2 + hunkWeight dl hs := by
  simp [hunkWeight]

theorem hunkWeight_skipHunks (dl : DisplayLayer) (row : Nat) (hs : List Hunk) :
    hunkWeight dl (skipHunks row hs) ≤ hunkWeight dl hs := by
  unfold skipHunks
  induction hs with
  | nil => simp
  | cons h hs ih =>
    rw [List.dropWhile_cons]
    split
    · rw [hunkWeight_cons]; omega
    · exact Nat.le_refl _

theorem applyHunk_position (dl : DisplayLayer) (h : Hunk) (st : BuilderState) :
    ((applyHunk dl h st).bufferLine = st.bufferLine ∧
      (applyHunk dl h st).bufferColumn = st.bufferColumn) ∨
    (applyHunk dl h st).bufferLine = dl.lineForRow h.oldEnd.row := by
  unfold applyHunk
  split
  · exact Or.inr (applyFold_fields dl h st).2.2.2.2.2.1
  · split
    · have hf := applySoftWrap_fields dl h st
      exact Or.inl ⟨hf.2.2.2.2.2.1, hf.2.2.2.2.1⟩
    · exact Or.inl ⟨rfl, rfl⟩

/-- Draining the hunks at a position either leaves the buffer position alone or pays for
the line it lands on with the weight of a hunk. -/
theorem drainHunks_weight (dl : DisplayLayer) (hs : List Hunk) (st : BuilderState) :
    ((drainHunks dl hs st).bufferLine = st.bufferLine ∧
      (drainHunks dl hs st).bufferColumn = st.bufferColumn ∧
      hunkWeight dl (drainHunks dl hs st).hunks ≤ hunkWeight dl hs) ∨
    hunkWeight dl (drainHunks dl hs st).hunks + (drainHunks dl hs st).bufferLine.length + 2 ≤
      hunkWeight dl hs := by
  induction hs generalizing st with
  | nil => left; simp [drainHunks]
  | cons h rest ih =>
    unfold drainHunks
    split
    · rw [hunkWeight_cons]
      rcases ih (applyHunk dl h st) with ⟨e1, e2, e3⟩ | e
      · rcases applyHunk_position dl h st with ⟨p1, p2⟩ | p
        · left; exact ⟨e1.trans p1, e2.trans p2, by omega⟩
        · right; rw [e1, p]; omega
      · right; omega
    · left; simp

theorem beginColumn_fields (dl : DisplayLayer) (st : BuilderState) :
    (beginColumn dl st).bufferLine =
      (drainHunks dl (skipHunks st.bufferRow st.hunks)
        { st with previousTokenFlags := st.currentTokenFlags,
                  currentTokenFlags := 0 }).bufferLine ∧
    (beginColumn dl st).bufferColumn =
      (drainHunks dl (skipHunks st.bufferRow st.hunks)
        { st with previousTokenFlags := st.currentTokenFlags,
                  currentTokenFlags := 0 }).bufferColumn ∧
    (beginColumn dl st).hunks =
      (drainHunks dl (skipHunks st.bufferRow st.hunks)
        { st with previousTokenFlags := st.currentTokenFlags,
                  currentTokenFlags := 0 }).hunks ∧
    (beginColumn dl st).bufferRow =
      (drainHunks dl (skipHunks st.bufferRow st.hunks)
        { st with previousTokenFlags := st.currentTokenFlags,
                  currentTokenFlags := 0 }).bufferRow := by
  unfold beginColumn
  simp only []
  have h := renderOnly_fields (renderOnly_closePreviousToken (renderOnly_classifyCharacter dl
    (renderOnly_refl (drainHunks dl (skipHunks st.bufferRow st.hunks)
      { st with previousTokenFlags := st.currentTokenFlags,
                currentTokenFlags := 0 }))))
  simp only [] at h
  exact ⟨h.2.2.2.2.2.2.1, h.2.2.2.2.2.2.2.2.1, h.2.2.2.2.1, h.2.2.2.1⟩

/-- The bound that decreases with every pass of the column loop. -/
theorem columnStep_decreases (dl : DisplayLayer) (st : BuilderState)
    (hguard : st.bufferColumn ≤ st.bufferLine.length) (hcont : (columnStep dl st).2 = false) :
    columnFuel dl (columnStep dl st).1 < columnFuel dl st := by
  unfold columnStep at hcont ⊢
  simp only [] at hcont ⊢
  split at hcont
  · simp at hcont
  · rename_i hne
    rw [if_neg hne]
    simp only []
    have hb := beginColumn_fields dl st
    have ho := (renderOnly_fields (renderOnly_openCurrentToken (renderOnly_refl (beginColumn dl st))))
    have he := emitCharacter_fields dl (openCurrentToken (beginColumn dl st))
    have hw := drainHunks_weight dl (skipHunks st.bufferRow st.hunks)
      { st with previousTokenFlags := st.currentTokenFlags, currentTokenFlags := 0 }
    have hs := hunkWeight_skipHunks dl st.bufferRow st.hunks
    simp only [columnFuel]
    rw [he.2.2.2.2.1, he.2.2.2.2.2.2.1, he.2.2.2.2.2.2.2.2.1, ho.2.2.2.2.1, ho.2.2.2.2.2.2.1,
      ho.2.2.2.2.2.2.2.2.1]
    rw [hb.1, hb.2.1] at hne
    rw [hb.1, hb.2.1, hb.2.2.1]
    rcases hw with ⟨e1, e2, e3⟩ | e
    · rw [e1, e2] at hne ⊢
      dsimp only at hne ⊢
      omega
    · omega

theorem columnLoop_isSome (dl : DisplayLayer) :
    ∀ fuel st, columnFuel dl st ≤ fuel → ∃ st', columnLoop dl fuel st = some st' := by
  intro fuel
  induction fuel with
  | zero => intro st h; simp [columnFuel] at h
  | succ k ih =>
    intro st h
    unfold columnLoop
    split
    · rename_i hguard
      split
      · exact ⟨_, rfl⟩
      · rename_i s heq
        have h2 : (columnStep dl st).2 = false := by rw [heq]
        have h1 : (columnStep dl st).1 = s := by rw [heq]
        have hd := columnStep_decreases dl st hguard h2
        rw [h1] at hd
        exact ih s (by omega)
    · exact ⟨_, rfl⟩

theorem rowStep_isSome (dl : DisplayLayer) (st : BuilderState) :
    ∃ st', rowStep dl st = some st' := by
  obtain ⟨s, hs⟩ := columnLoop_isSome dl _ (startRow dl st) (Nat.le_refl _)
  unfold rowStep
  simp only []
  rw [hs]
  exact ⟨_, rfl⟩

theorem rowLoop_isSome (dl : DisplayLayer) (e : Nat) :
    ∀ fuel st, e - st.screenRow ≤ fuel → ∃ st', rowLoop dl e fuel st = some st' := by
  intro fuel
  induction fuel with
  | zero =>
    intro st h
    unfold rowLoop
    split
    · omega
    · exact ⟨_, rfl⟩
  | succ k ih =>
    intro st h
    unfold rowLoop
    split
    · obtain ⟨s, hs⟩ := rowStep_isSome dl st
      rw [hs]
      simp only []
      have := (extends_rowStep dl st s hs).2
      exact ih s (by omega)
    · exact ⟨_, rfl⟩

/-- The method returns on every input: the passes allowed to the loops are enough, and
the result is what the row loop leaves in the state. -/
theorem buildScreenLines_eq (dl : DisplayLayer) (nextId s e : Nat) :
    ∃ st, rowLoop dl (min e dl.getScreenLineCount) (min e dl.getScreenLineCount - s)
        (initialState dl nextId s (min e dl.getScreenLineCount)) = some st ∧
      buildScreenLines dl nextId s e = some (st.screenLines, st.nextScreenLineId) := by
  obtain ⟨st, hst⟩ := rowLoop_isSome dl (min e dl.getScreenLineCount)
    (min e dl.getScreenLineCount - s) (initialState dl nextId s (min e dl.getScreenLineCount))
    (by simp [initialState])
  refine ⟨st, hst, ?_⟩
  unfold buildScreenLines
  simp only []
  rw [hst]

/-! ## Closed forms of the token boundaries -/

theorem closePreviousToken_eq (st : BuilderState) :
    closePreviousToken st =
      { st with
        tagCodes := st.tagCodes ++
          (if st.previousTokenFlags > 0 ∧ (st.currentTokenFlags ≠ st.previousTokenFlags ∨
              st.forceTokenBoundary = true)
           then runCodes st.currentTokenLength ++ closeCodes (getBasicTag st.previousTokenFlags)
           else []),
        currentTokenLength :=
          if st.previousTokenFlags > 0 ∧ (st.currentTokenFlags ≠ st.previousTokenFlags ∨
              st.forceTokenBoundary = true)
          then 0 else st.currentTokenLength } := by
  unfold closePreviousToken
  split
  · rename_i h; simp only [emitCloseTag_eq, if_pos h, List.append_assoc]
  · rename_i h; simp only [if_neg h, List.append_nil]

theorem openCurrentToken_eq (st : BuilderState) :
    openCurrentToken st =
      { st with
        tagCodes := st.tagCodes ++
          (if (st.currentTokenFlags > 0 ∧ st.currentTokenFlags ≠ st.previousTokenFlags) ∨
              st.forceTokenBoundary = true
           then runCodes st.currentTokenLength ++ openCodes (getBasicTag st.currentTokenFlags)
           else []),
        currentTokenLength :=
          if (st.currentTokenFlags > 0 ∧ st.currentTokenFlags ≠ st.previousTokenFlags) ∨
              st.forceTokenBoundary = true
          then 0 else st.currentTokenLength } := by
  unfold openCurrentToken
  split
  · rename_i h; simp only [emitOpenTag_eq, if_pos h, List.append_assoc]
  · rename_i h; simp only [if_neg h, List.append_nil]

theorem classifyCharacter_force_tab (dl : DisplayLayer) (st : BuilderState)
    (h : st.bufferLine[st.bufferColumn]? = some '\t') :
    (classifyCharacter dl st).forceTokenBoundary = true := by
  unfold classifyCharacter
  simp only []
  rw [if_pos (Or.inr h), if_neg (by rw [h]; decide)]

theorem classifyCharacter_none (dl : DisplayLayer) (st : BuilderState)
    (h : st.bufferLine[st.bufferColumn]? = none) :
    (classifyCharacter dl st).currentTokenFlags = st.currentTokenFlags := by
  unfold classifyCharacter
  simp only []
  rw [if_neg (by rw [h]; simp)]
  unfold onlyIf
  split <;> rfl

/-! ## Run lengths add up to the text -/

theorem sumInv_emitCloseTag (tag : List Char) (st : BuilderState) (h : SumInv st) :
    SumInv (emitCloseTag tag st) := by
  simp only [SumInv, emitCloseTag_eq, sumRuns_append, sumRuns_runCodes,
    sumRuns_closeCodes] at h ⊢
  omega

theorem sumInv_emitOpenTag (tag : List Char) (st : BuilderState) (h : SumInv st) :
    SumInv (emitOpenTag tag st) := by
  simp only [SumInv, emitOpenTag_eq, sumRuns_append, sumRuns_runCodes,
    sumRuns_openCodes] at h ⊢
  omega

theorem sumInv_closePreviousToken (st : BuilderState) (h : SumInv st) :
    SumInv (closePreviousToken st) := by
  unfold closePreviousToken
  split
  · exact sumInv_emitCloseTag _ _ h
  · exact h

theorem sumInv_openCurrentToken (st : BuilderState) (h : SumInv st) :
    SumInv (openCurrentToken st) := by
  unfold openCurrentToken
  split
  · exact sumInv_emitOpenTag _ _ h
  · exact h

theorem sumInv_applyFold (dl : DisplayLayer) (hk : Hunk) (st : BuilderState) (h : SumInv st) :
    SumInv (applyFold dl hk st) := by
  have hf := applyFold_fields dl hk st
  unfold SumInv at h ⊢
  rw [hf.2.2.2.2.2.2.2.2.2.1, hf.2.2.2.2.2.2.2.2.2.2.1, hf.2.2.2.2.2.2.2.2.2.2.2.2.2]
  simp only [sumRuns_append, sumRuns_runCodes, sumRuns_openCodes, List.length_append]
  split <;> simp <;> omega

theorem wrapInv_softWrapGuidesStep (dl : DisplayLayer) (st : BuilderState) (h : WrapInv st) :
    WrapInv (softWrapGuidesStep dl st) := by
  unfold softWrapGuidesStep onlyIf
  unfold WrapInv at h ⊢
  simp only []
  split
  · split
    · simp only [emitCloseTag_eq, emitOpenTag_eq, sumRuns_append, sumRuns_runCodes,
        sumRuns_openCodes, sumRuns_closeCodes]
      omega
    · simp only [emitOpenTag_eq, sumRuns_append, sumRuns_runCodes, sumRuns_openCodes]
      omega
  · omega

theorem softWrapGuidesStep_screenColumn (dl : DisplayLayer) (st : BuilderState) :
    (softWrapGuidesStep dl st).screenColumn = st.screenColumn + 1 ∧
    (softWrapGuidesStep dl st).screenLineText = st.screenLineText := by
  unfold softWrapGuidesStep onlyIf
  simp only []
  split
  · split <;> simp [emitCloseTag_eq, emitOpenTag_eq]
  · simp

/-- The loop of the soft-wrap indent leaves the screen column at the indent length. -/
theorem softWrapGuides_screenColumn (dl : DisplayLayer) (n : Nat) :
    ∀ fuel st, st.screenColumn ≤ n → n - st.screenColumn ≤ fuel →
      (softWrapGuides dl n fuel st).screenColumn = n ∧
      (softWrapGuides dl n fuel st).screenLineText = st.screenLineText := by
  intro fuel
  induction fuel with
  | zero => intro st h1 h2; simp [softWrapGuides]; omega
  | succ k ih =>
    intro st h1 h2
    unfold softWrapGuides
    split
    · have hs := softWrapGuidesStep_screenColumn dl st
      have := ih (softWrapGuidesStep dl st) (by omega) (by omega)
      rw [this.1, this.2, hs.2]
      exact ⟨rfl, rfl⟩
    · exact ⟨by omega, rfl⟩

theorem softWrapGuides_sum (dl : DisplayLayer) (n : Nat) (st : BuilderState)
    (h1 : st.tagCodes = []) (h2 : st.currentTokenLength = 0) (h3 : st.screenColumn = 0)
    (h4 : st.screenLineText = List.replicate n ' ') :
    SumInv (softWrapGuides dl n n st) := by
  have hw := softWrapGuides_induct (P := WrapInv) dl n
    (fun s hs _ => wrapInv_softWrapGuidesStep dl s hs) n st (by simp [WrapInv, h1, h2, h3])
  have hc := softWrapGuides_screenColumn dl n n st (by omega) (by omega)
  unfold WrapInv at hw
  unfold SumInv
  rw [hw, hc.1, hc.2, h4]
  simp

theorem applySoftWrap_sum (dl : DisplayLayer) (hk : Hunk) (st : BuilderState) :
    SumInv (applySoftWrap dl hk st) := by
  unfold applySoftWrap
  simp only []
  split
  · apply sumInv_emitCloseTag
    apply softWrapGuides_sum
    · rfl
    · simp [pushScreenLine, emitCloseTag_eq]
    · rfl
    · rfl
  · simp [SumInv]

theorem sumInv_applyHunk (dl : DisplayLayer) (hk : Hunk) (st : BuilderState) (h : SumInv st) :
    SumInv (applyHunk dl hk st) := by
  unfold applyHunk
  split
  · exact sumInv_applyFold dl hk st h
  · split
    · exact applySoftWrap_sum dl hk st
    · exact h

theorem linesSummed_applyHunk (dl : DisplayLayer) (hk : Hunk) (st : BuilderState)
    (h : SumInv st) (hl : LinesSummed st.screenLines) :
    LinesSummed (applyHunk dl hk st).screenLines := by
  unfold applyHunk
  split
  · rw [(applyFold_fields dl hk st).1]; exact hl
  · split
    · rw [(applySoftWrap_fields dl hk st).1]
      intro l hmem
      rcases List.mem_append.mp hmem with hm | hm
      · exact hl l hm
      · simp only [List.mem_singleton] at hm
        subst hm
        simp only [sumRuns_append, sumRuns_runCodes, sumRuns_closeCodes]
        unfold SumInv at h
        omega
    · exact hl

theorem applyHunk_inBounds (dl : DisplayLayer) (hk : Hunk) (st : BuilderState)
    (hb : FoldInBounds dl hk) (h : st.bufferColumn ≤ st.bufferLine.length) :
    (applyHunk dl hk st).bufferColumn ≤ (applyHunk dl hk st).bufferLine.length := by
  unfold applyHunk
  split
  · rename_i hfold
    have hf := applyFold_fields dl hk st
    rw [hf.2.2.2.2.1, hf.2.2.2.2.2.1]
    exact hb hfold
  · split
    · have hf := applySoftWrap_fields dl hk st
      rw [hf.2.2.2.2.1, hf.2.2.2.2.2.1]
      exact h
    · exact h

theorem sumState_drainHunks (dl : DisplayLayer) (hs : List Hunk) (st : BuilderState)
    (h : SumInv st ∧ LinesSummed st.screenLines ∧ st.bufferColumn ≤ st.bufferLine.length ∧
      ∀ h ∈ hs, FoldInBounds dl h) :
    SumState dl (drainHunks dl hs st) :=
  drainHunks_induct
    (P := fun hs s => SumInv s ∧ LinesSummed s.screenLines ∧
      s.bufferColumn ≤ s.bufferLine.length ∧ ∀ h ∈ hs, FoldInBounds dl h)
    (Q := SumState dl) dl
    (fun hk _ s hp _ _ =>
      ⟨sumInv_applyHunk dl hk s hp.1, linesSummed_applyHunk dl hk s hp.1 hp.2.1,
        applyHunk_inBounds dl hk s (hp.2.2.2 hk (List.mem_cons_self _ _)) hp.2.2.1,
        fun x hx => hp.2.2.2 x (List.mem_cons_of_mem _ hx)⟩)
    (fun _ _ hp => hp) hs st h

theorem sumState_beginColumn (dl : DisplayLayer) (st : BuilderState) (h : SumState dl st) :
    SumState dl (beginColumn dl st) ∧
    ((beginColumn dl st).bufferLine[(beginColumn dl st).bufferColumn]? = some '\t' →
      (beginColumn dl st).forceTokenBoundary = true) := by
  have hd := sumState_drainHunks dl (skipHunks st.bufferRow st.hunks)
    { st with previousTokenFlags := st.currentTokenFlags, currentTokenFlags := 0 }
    ⟨h.1, h.2.1, h.2.2.1, fun x hx => h.2.2.2 x (List.dropWhile_subset _ hx)⟩
  unfold beginColumn
  simp only []
  generalize drainHunks dl (skipHunks st.bufferRow st.hunks)
    { st with previousTokenFlags := st.currentTokenFlags, currentTokenFlags := 0 } = s at hd ⊢
  have hc := classifyCharacter_fields dl s
  have hcs : SumState dl (classifyCharacter dl s) := by
    unfold SumState SumInv at hd ⊢
    rw [hc.1, hc.2.1, hc.2.2.1, hc.2.2.2.2.2.1, hc.2.2.2.2.2.2.1, hc.2.2.2.2.2.2.2.1,
      hc.2.2.2.2.2.2.2.2.1]
    exact hd
  refine ⟨⟨sumInv_closePreviousToken _ hcs.1, ?_, ?_, ?_⟩, ?_⟩
  · rw [closePreviousToken_eq]; exact hcs.2.1
  · rw [closePreviousToken_eq]; exact hcs.2.2.1
  · rw [closePreviousToken_eq]; exact hcs.2.2.2
  · rw [closePreviousToken_eq]
    simp only [hc.2.2.2.2.2.1, hc.2.2.2.2.2.2.1]
    exact classifyCharacter_force_tab dl s

theorem sumInv_startEmptyRowGuide (st : BuilderState) (h : SumInv st) :
    SumInv (startEmptyRowGuide st) := by
  unfold startEmptyRowGuide onlyIf SumInv at *
  simp only []
  split <;> split <;>
    simp only [emitOpenTag_eq, pushTagCode, sumRuns_append, sumRuns_runCodes,
      sumRuns_openCodes, sumRuns] <;> omega

theorem sumInv_emptyRowGuidesStep (dl : DisplayLayer) (st : BuilderState) (h : SumInv st) :
    SumInv (emptyRowGuidesStep dl st) := by
  unfold emptyRowGuidesStep
  simp only []
  have h2 : SumInv (onlyIf (st.screenColumn % dl.tabLength = 0) startEmptyRowGuide st) :=
    onlyIf_induct _ _ h (fun _ => sumInv_startEmptyRowGuide st h)
  unfold SumInv at h2 ⊢
  simp only [appendText, List.length_append, List.length_singleton]
  omega

theorem sumInv_emitEolInvisible (dl : DisplayLayer) (st : BuilderState) (h : SumInv st)
    (h0 : st.currentTokenLength = 0) :
    SumInv (emitEolInvisible dl st) ∧ (emitEolInvisible dl st).currentTokenLength = 0 := by
  unfold emitEolInvisible
  simp only []
  split
  · unfold SumInv onlyIf at *
    split <;>
      simp only [emitOpenTag_eq, emitCloseTag_eq, appendText, orFlags, sumRuns_append,
        sumRuns_runCodes, sumRuns_openCodes, sumRuns_closeCodes, List.length_append,
        and_true] <;>
      omega
  · exact ⟨h, h0⟩

theorem sumDone_emitEmptyRowGuides (dl : DisplayLayer) (st : BuilderState) (h : SumInv st)
    (h0 : st.currentTokenLength = 0) : SumDone (emitEmptyRowGuides dl st) := by
  unfold emitEmptyRowGuides
  simp only []
  split
  · have hl := emptyRowGuides_induct (P := SumInv) dl
      (dl.leadingWhitespaceLengthForSurroundingLines st.bufferRow)
      (fun s hs _ => sumInv_emptyRowGuidesStep dl s hs)
      (dl.leadingWhitespaceLengthForSurroundingLines st.bufferRow - st.screenColumn)
      { st with currentTokenFlags := 0, currentTokenLength := 0 }
      (by unfold SumInv at h ⊢; simp only []; omega)
    generalize emptyRowGuides dl _ _ _ = s at hl ⊢
    unfold SumInv at hl
    unfold onlyIf SumDone
    split <;> split <;>
      (try simp only [pushTagCode, sumRuns_append, sumRuns, Nat.add_zero]) <;> omega
  · unfold SumInv at h
    unfold SumDone
    omega

theorem sumDone_endOfRow (dl : DisplayLayer) (st : BuilderState) (h : SumInv st) :
    SumDone (endOfRow dl st) := by
  unfold endOfRow
  simp only []
  have h1 : SumInv (onlyIf (st.currentTokenLength > 0)
      (fun st => emitCloseTag (getBasicTag st.previousTokenFlags) st) st) ∧
      (onlyIf (st.currentTokenLength > 0)
        (fun st => emitCloseTag (getBasicTag st.previousTokenFlags) st) st).currentTokenLength
        = 0 := by
    unfold onlyIf
    split
    · exact ⟨sumInv_emitCloseTag _ _ h, by simp [emitCloseTag_eq]⟩
    · exact ⟨h, by omega⟩
  generalize onlyIf (st.currentTokenLength > 0)
      (fun st => emitCloseTag (getBasicTag st.previousTokenFlags) st) st = s1 at h1 ⊢
  have h2 := sumInv_emitEolInvisible dl s1 h1.1 h1.2
  have h3 := sumDone_emitEmptyRowGuides dl _ h2.1 h2.2
  generalize emitEmptyRowGuides dl (emitEolInvisible dl s1) = s3 at h3 ⊢
  unfold onlyIf SumDone at *
  split
  · simp [pushTagCode, sumRuns, h3]
  · exact h3

theorem sumInv_emitCharacter (dl : DisplayLayer) (st : BuilderState) (hg : GlyphsOk dl)
    (h : SumInv st) (hcol : st.bufferColumn < st.bufferLine.length)
    (htab : st.bufferLine[st.bufferColumn]? = some '\t' → st.currentTokenLength = 0) :
    SumInv (emitCharacter dl st) := by
  obtain ⟨ht, hsp, htb⟩ := hg
  have hsome : st.bufferLine[st.bufferColumn]? = some (st.bufferLine[st.bufferColumn]) :=
    List.getElem?_eq_getElem hcol
  have hmod := Nat.mod_lt st.screenColumn ht
  unfold emitCharacter
  simp only []
  split
  · rename_i hc
    have hz := htab hc
    unfold emitTab SumInv at *
    simp only []
    split
    · rename_i hne
      have : dl.invisibles.tab.length = 1 := by
        have := List.length_pos.mpr hne
        omega
      simp only [appendText, List.length_append, List.length_replicate]
      omega
    · simp only [appendText, List.length_append, List.length_replicate]
      omega
  · unfold emitPlainCharacter SumInv at *
    simp only []
    split
    · rename_i hne
      have : dl.invisibles.space.length = 1 := by
        have := List.length_pos.mpr hne.2.2
        omega
      simp only [appendText, List.length_append]
      omega
    · rw [hsome]
      simp only [appendText, characterText, List.length_append, List.length_singleton]
      omega

theorem sumState_columnStep_cont (dl : DisplayLayer) (st : BuilderState) (hg : GlyphsOk dl)
    (h : SumState dl st) (hcont : (columnStep dl st).2 = false) :
    SumState dl (columnStep dl st).1 := by
  have hb := sumState_beginColumn dl st h
  unfold columnStep at hcont ⊢
  simp only [] at hcont ⊢
  split at hcont
  · simp at hcont
  · rename_i hne
    rw [if_neg hne]
    simp only []
    generalize beginColumn dl st = b at hb hne
    obtain ⟨⟨h1, h2, h3, h4⟩, h5⟩ := hb
    have ho : SumInv (openCurrentToken b) := sumInv_openCurrentToken b h1
    have hlt : b.bufferColumn < b.bufferLine.length := by omega
    have hz : (openCurrentToken b).bufferLine[(openCurrentToken b).bufferColumn]? =
        some '\t' → (openCurrentToken b).currentTokenLength = 0 := by
      rw [openCurrentToken_eq]
      simp only []
      intro ht
      rw [if_pos (Or.inr (h5 ht))]
    have he := sumInv_emitCharacter dl (openCurrentToken b) hg ho
      (by rw [openCurrentToken_eq]; exact hlt) hz
    have hf := emitCharacter_fields dl (openCurrentToken b)
    refine ⟨he, ?_, ?_, ?_⟩
    · rw [hf.1, openCurrentToken_eq]; exact h2
    · rw [hf.2.2.2.2.2.2.1, hf.2.2.2.2.2.2.2.2.1, openCurrentToken_eq]
      simp only []
      omega
    · rw [hf.2.2.2.2.1, openCurrentToken_eq]; exact h4

theorem sumState_columnStep_break (dl : DisplayLayer) (st : BuilderState)
    (h : SumState dl st) (hbreak : (columnStep dl st).2 = true) :
    SumDone (columnStep dl st).1 ∧ LinesSummed (columnStep dl st).1.screenLines ∧
      ∀ x ∈ (columnStep dl st).1.hunks, FoldInBounds dl x := by
  have hb := (sumState_beginColumn dl st h).1
  unfold columnStep at hbreak ⊢
  simp only [] at hbreak ⊢
  split at hbreak
  · rename_i heq
    rw [if_pos heq]
    simp only []
    have hf := (renderOnly_fields (renderOnly_endOfRow dl (renderOnly_refl (beginColumn dl st))))
    refine ⟨sumDone_endOfRow dl _ hb.1, ?_, ?_⟩
    · rw [hf.1]; exact hb.2.1
    · rw [hf.2.2.2.2.1]; exact hb.2.2.2
  · simp at hbreak

theorem sumState_columnLoop (dl : DisplayLayer) (hg : GlyphsOk dl) (fuel : Nat)
    (st st' : BuilderState) (h : SumState dl st) (hl : columnLoop dl fuel st = some st') :
    SumDone st' ∧ LinesSummed st'.screenLines ∧ ∀ x ∈ st'.hunks, FoldInBounds dl x :=
  columnLoop_induct (P := SumState dl)
    (Q := fun s => SumDone s ∧ LinesSummed s.screenLines ∧ ∀ x ∈ s.hunks, FoldInBounds dl x)
    dl
    (fun s hs _ hc => sumState_columnStep_cont dl s hg hs hc)
    (fun s hs _ hc => sumState_columnStep_break dl s hs hc)
    (fun _ hs hn => absurd hs.2.2.1 hn) fuel st st' h hl

theorem linesSummed_rowStep (dl : DisplayLayer) (hg : GlyphsOk dl) (st st' : BuilderState)
    (h : LinesSummed st.screenLines ∧ ∀ x ∈ st.hunks, FoldInBounds dl x)
    (hr : rowStep dl st = some st') :
    LinesSummed st'.screenLines ∧ ∀ x ∈ st'.hunks, FoldInBounds dl x := by
  obtain ⟨s, hs, rfl⟩ := rowStep_eq_some dl st st' hr
  have h0 : SumState dl (startRow dl st) :=
    ⟨by simp [SumInv, startRow], h.1, by simp [startRow], h.2⟩
  obtain ⟨h1, h2, h3⟩ := sumState_columnLoop dl hg _ _ s h0 hs
  refine ⟨?_, h3⟩
  intro l hmem
  simp only [pushScreenLine] at hmem
  rcases List.mem_append.mp hmem with hm | hm
  · exact h2 l hm
  · simp only [List.mem_singleton] at hm
    subst hm
    exact h1

theorem linesSummed_buildScreenLines (dl : DisplayLayer) (hg : GlyphsOk dl)
    (nextId s e : Nat)
    (hfold : ∀ h ∈ dl.getHunksInNewRange { row := s, column := 0 }
      { row := min e dl.getScreenLineCount, column := 0 }, FoldInBounds dl h)
    (lines : List ScreenLine) (next : Nat)
    (hb : buildScreenLines dl nextId s e = some (lines, next)) : LinesSummed lines := by
  obtain ⟨st, hst, hbs⟩ := buildScreenLines_eq dl nextId s e
  rw [hbs] at hb
  simp only [Option.some.injEq, Prod.mk.injEq] at hb
  rw [← hb.1]
  exact (rowLoop_induct
    (P := fun x => LinesSummed x.screenLines ∧ ∀ h ∈ x.hunks, FoldInBounds dl h) dl _
    (fun x x' hx _ hstep => linesSummed_rowStep dl hg x x' hx hstep) _ _ st
    ⟨by simp [LinesSummed, initialState], hfold⟩ hst).1.1

theorem buildScreenLines_ids (dl : DisplayLayer) (nextId s e : Nat)
    (lines : List ScreenLine) (next : Nat)
    (hb : buildScreenLines dl nextId s e = some (lines, next)) :
    lines.map ScreenLine.id = List.range' nextId lines.length ∧
      next = nextId + lines.length := by
  obtain ⟨st, hst, hbs⟩ := buildScreenLines_eq dl nextId s e
  rw [hbs] at hb
  simp only [Option.some.injEq, Prod.mk.injEq] at hb
  obtain ⟨ls, h1, h2, _, h4⟩ := (extends_rowLoop dl _ _ _ st hst).1
  simp only [initialState, List.nil_append] at h1 h2 h4
  rw [← hb.1, ← hb.2, h1, h2]
  exact ⟨h4, rfl⟩

theorem openStack_zero : openStack 0 = [] := by decide

theorem indentGuide_tag_pos : (getBasicTag INDENT_GUIDE).length > 0 := by decide

theorem replay_closeCodes (flags : Nat) :
    replay (closeCodes (getBasicTag flags)) (openStack flags) = some [] := by
  unfold closeCodes openStack
  split <;> simp [replay]

theorem replay_openCodes (flags : Nat) :
    replay (openCodes (getBasicTag flags)) [] = some (openStack flags) := by
  unfold openCodes openStack
  split <;> simp [replay]

theorem replay_emitCloseTag (flags : Nat) (st : BuilderState) (h : OpenIs flags st) :
    replay (emitCloseTag (getBasicTag flags) st).tagCodes [] = some [] := by
  unfold OpenIs at h
  simp [emitCloseTag_eq, replay_append, h, replay_closeCodes]

theorem openIs_emitOpenTag (flags : Nat) (st : BuilderState)
    (h : replay st.tagCodes [] = some []) : OpenIs flags (emitOpenTag (getBasicTag flags) st) := by
  unfold OpenIs
  simp [emitOpenTag_eq, replay_append, h, replay_openCodes]

theorem openIs_applyFold (dl : DisplayLayer) (hk : Hunk) (st : BuilderState)
    (h : OpenIs st.previousTokenFlags st) : OpenIs FOLD (applyFold dl hk st) := by
  have hf := applyFold_fields dl hk st
  unfold OpenIs at h ⊢
  rw [hf.2.2.2.2.2.2.2.2.2.2.2.2.2]
  simp only [replay_append, h, Option.some_bind, replay_runCodes]
  split
  · simp only [replay_closeCodes, Option.some_bind]
    exact replay_openCodes FOLD
  · have : st.previousTokenFlags = 0 := by omega
    rw [this, openStack_zero]
    simp only [replay, Option.some_bind]
    exact replay_openCodes FOLD

theorem wrapOpen_softWrapGuidesStep (dl : DisplayLayer) (st : BuilderState)
    (h : WrapOpen st) : WrapOpen (softWrapGuidesStep dl st) := by
  right
  unfold softWrapGuidesStep
  simp only []
  refine ⟨by omega, by omega, ?_⟩
  unfold OpenIs
  simp only []
  rcases h with ⟨h1, h2, h3⟩ | ⟨h1, h2, h3⟩
  · rw [onlyIf_pos _ _ (by rw [h1]; exact Nat.zero_mod _), onlyIf_neg _ _ (by omega)]
    exact openIs_emitOpenTag _ _ (by rw [h2]; rfl)
  · unfold onlyIf
    split
    · dsimp only
      rw [if_pos h2]
      exact openIs_emitOpenTag _ _ (replay_emitCloseTag _ _ h3)
    · exact h3

theorem softWrapGuides_balanced (dl : DisplayLayer) (n : Nat) (st : BuilderState)
    (hn : 0 < n) (h1 : st.tagCodes = []) (h2 : st.currentTokenLength = 0)
    (h3 : st.screenColumn = 0) :
    replay (emitCloseTag (getBasicTag INDENT_GUIDE) (softWrapGuides dl n n st)).tagCodes [] =
      some [] := by
  have hw := softWrapGuides_induct (P := WrapOpen) dl n
    (fun s hs _ => wrapOpen_softWrapGuidesStep dl s hs) n st (Or.inl ⟨h3, h1, h2⟩)
  have hc := (softWrapGuides_screenColumn dl n n st (by omega) (by omega)).1
  rcases hw with ⟨e, _, _⟩ | ⟨_, _, e⟩
  · omega
  · exact replay_emitCloseTag _ _ e

theorem applySoftWrap_balanced (dl : DisplayLayer) (hk : Hunk) (st : BuilderState) :
    replay (applySoftWrap dl hk st).tagCodes [] = some [] := by
  unfold applySoftWrap
  simp only []
  split
  · rename_i hc
    apply softWrapGuides_balanced dl _ _ hc.2
    · rfl
    · simp [pushScreenLine, emitCloseTag_eq]
    · rfl
  · rfl

theorem balance_applyHunk (dl : DisplayLayer) (hk : Hunk) (st : BuilderState)
    (h : OpenIs st.previousTokenFlags st ∧ LinesBalanced st.screenLines) :
    OpenIs (applyHunk dl hk st).previousTokenFlags (applyHunk dl hk st) ∧
      LinesBalanced (applyHunk dl hk st).screenLines := by
  unfold applyHunk
  split
  · have hf := applyFold_fields dl hk st
    rw [hf.1, hf.2.2.2.2.2.2.2.1]
    exact ⟨openIs_applyFold dl hk st h.1, h.2⟩
  · split
    · have hf := applySoftWrap_fields dl hk st
      rw [hf.1, hf.2.2.2.2.2.2.2]
      refine ⟨?_, ?_⟩
      · unfold OpenIs
        rw [openStack_zero]
        exact applySoftWrap_balanced dl hk st
      · intro l hmem
        rcases List.mem_append.mp hmem with hm | hm
        · exact h.2 l hm
        · simp only [List.mem_singleton] at hm
          subst hm
          have := replay_emitCloseTag _ _ h.1
          simpa [emitCloseTag_eq] using this
    · exact h

theorem balance_drainHunks (dl : DisplayLayer) (hs : List Hunk) (st : BuilderState)
    (h : OpenIs st.previousTokenFlags st ∧ LinesBalanced st.screenLines) :
    OpenIs (drainHunks dl hs st).previousTokenFlags (drainHunks dl hs st) ∧
      LinesBalanced (drainHunks dl hs st).screenLines :=
  drainHunks_induct
    (P := fun _ s => OpenIs s.previousTokenFlags s ∧ LinesBalanced s.screenLines)
    (Q := fun s => OpenIs s.previousTokenFlags s ∧ LinesBalanced s.screenLines) dl
    (fun hk _ s hp _ _ => balance_applyHunk dl hk s hp)
    (fun _ _ hp => hp) hs st h

/-- Closing the previous token and opening the current one leaves exactly the tag of the
current token open. -/
theorem openIs_open_close (st : BuilderState) (h : OpenIs st.previousTokenFlags st) :
    OpenIs st.currentTokenFlags (openCurrentToken (closePreviousToken st)) := by
  unfold OpenIs at h ⊢
  rw [openCurrentToken_eq, closePreviousToken_eq]
  simp only [replay_append, h, Option.some_bind]
  by_cases hf : st.forceTokenBoundary = true
  · by_cases hp : st.previousTokenFlags > 0
    · simp [hf, hp, replay_append, replay_closeCodes, replay_openCodes]
    · have : st.previousTokenFlags = 0 := by omega
      simp [hf, this, openStack_zero, replay, replay_append, replay_openCodes]
  · by_cases hp : st.previousTokenFlags > 0
    · by_cases he : st.currentTokenFlags = st.previousTokenFlags
      · simp [hf, he, replay]
      · by_cases hc : st.currentTokenFlags > 0
        · simp [hf, hp, he, hc, replay_append, replay_closeCodes, replay_openCodes]
        · have hz : st.currentTokenFlags = 0 := by omega
          have hn : ¬ (0 = st.previousTokenFlags) := by omega
          simp [hf, hp, hz, hn, replay_append, replay_closeCodes, openStack_zero, replay]
    · have hz : st.previousTokenFlags = 0 := by omega
      by_cases hc : st.currentTokenFlags > 0
      · have : st.currentTokenFlags ≠ 0 := by omega
        simp [hf, hz, hc, this, openStack_zero, replay, replay_append, replay_openCodes]
      · have : st.currentTokenFlags = 0 := by omega
        simp [hf, hz, this, openStack_zero, replay]

theorem softWrapGuides_currentTokenFlags (dl : DisplayLayer) (n fuel : Nat)
    (st : BuilderState) :
    (softWrapGuides dl n fuel st).currentTokenFlags = st.currentTokenFlags :=
  softWrapGuides_induct (P := fun s => s.currentTokenFlags = st.currentTokenFlags) dl n
    (fun s hs _ => by
      rw [← hs]
      unfold softWrapGuidesStep onlyIf
      dsimp only
      split
      · split <;> simp [emitCloseTag_eq, emitOpenTag_eq]
      · rfl) fuel st rfl

theorem applyHunk_currentTokenFlags (dl : DisplayLayer) (hk : Hunk) (st : BuilderState) :
    (applyHunk dl hk st).currentTokenFlags = st.currentTokenFlags := by
  unfold applyHunk
  split
  · exact (applyFold_fields dl hk st).2.2.2.2.2.2.2.2.1
  · split
    · unfold applySoftWrap
      dsimp only
      split
      · simp [emitCloseTag_eq, softWrapGuides_currentTokenFlags, pushScreenLine]
      · simp [emitCloseTag_eq, pushScreenLine]
    · rfl

theorem drainHunks_currentTokenFlags (dl : DisplayLayer) (hs : List Hunk)
    (st : BuilderState) :
    (drainHunks dl hs st).currentTokenFlags = st.currentTokenFlags :=
  drainHunks_induct (P := fun _ s => s.currentTokenFlags = st.currentTokenFlags)
    (Q := fun s => s.currentTokenFlags = st.currentTokenFlags) dl
    (fun hk _ s hp _ _ => by dsimp only at hp ⊢; rw [applyHunk_currentTokenFlags]; exact hp)
    (fun _ _ hp => hp) hs st rfl

theorem emitCharacter_tagCodes (dl : DisplayLayer) (st : BuilderState) :
    (emitCharacter dl st).tagCodes = st.tagCodes := by
  unfold emitCharacter emitTab emitPlainCharacter
  dsimp only
  split
  · split <;> rfl
  · split <;> rfl

/-- The state of the column loop after classification: the previous token is still open
and, past the end of the line, the current token carries no flags. -/
theorem balance_beginColumn (dl : DisplayLayer) (st : BuilderState) (h : BalanceState st) :
    ∃ c, beginColumn dl st = closePreviousToken c ∧ OpenIs c.previousTokenFlags c ∧
      LinesBalanced c.screenLines ∧
      (c.bufferLine[c.bufferColumn]? = none → c.currentTokenFlags = 0) := by
  refine ⟨classifyCharacter dl (drainHunks dl (skipHunks st.bufferRow st.hunks)
    { st with previousTokenFlags := st.currentTokenFlags, currentTokenFlags := 0 }), rfl, ?_⟩
  have hd := balance_drainHunks dl (skipHunks st.bufferRow st.hunks)
    { st with previousTokenFlags := st.currentTokenFlags, currentTokenFlags := 0 }
    ⟨h.1, h.2.1⟩
  have hz := drainHunks_currentTokenFlags dl (skipHunks st.bufferRow st.hunks)
    { st with previousTokenFlags := st.currentTokenFlags, currentTokenFlags := 0 }
  generalize drainHunks dl (skipHunks st.bufferRow st.hunks)
    { st with previousTokenFlags := st.currentTokenFlags, currentTokenFlags := 0 } = d
    at hd hz ⊢
  have hc := classifyCharacter_fields dl d
  refine ⟨?_, ?_, ?_⟩
  · unfold OpenIs at hd ⊢
    rw [hc.1, hc.2.2.2.2.1]
    exact hd.1
  · rw [hc.2.2.2.2.2.2.2.1]
    exact hd.2
  · rw [hc.2.2.2.2.2.1, hc.2.2.2.2.2.2.1]
    intro hn
    rw [classifyCharacter_none dl d hn]
    exact hz

theorem guideOpen_startEmptyRowGuide (st : BuilderState) (h : GuideOpen st) :
    GuideOpen (startEmptyRowGuide st) := by
  right
  unfold startEmptyRowGuide
  dsimp only
  refine ⟨by simp [emitOpenTag_eq], ?_⟩
  apply openIs_emitOpenTag
  dsimp only
  unfold onlyIf
  rcases h with ⟨h1, h2⟩ | ⟨h1, h2⟩
  · split <;> simp [pushTagCode, h1, replay_append, h2, replay]
  · have hne : INDENT_GUIDE ≠ 0 := by decide
    unfold OpenIs at h2
    split <;> simp [pushTagCode, h1, hne, replay_append, h2, replay, openStack,
      indentGuide_tag_pos]

theorem guideOpen_emptyRowGuidesStep (dl : DisplayLayer) (st : BuilderState)
    (h : GuideOpen st) : GuideOpen (emptyRowGuidesStep dl st) := by
  have h2 : GuideOpen (onlyIf (st.screenColumn % dl.tabLength = 0) startEmptyRowGuide st) :=
    onlyIf_induct _ _ h (fun _ => guideOpen_startEmptyRowGuide st h)
  unfold emptyRowGuidesStep
  exact h2

theorem balanced_emitEmptyRowGuides (dl : DisplayLayer) (st : BuilderState)
    (h : replay st.tagCodes [] = some []) :
    replay (emitEmptyRowGuides dl st).tagCodes [] = some [] := by
  unfold emitEmptyRowGuides
  dsimp only
  split
  · have hl := emptyRowGuides_induct (P := GuideOpen) dl
      (dl.leadingWhitespaceLengthForSurroundingLines st.bufferRow)
      (fun s hs _ => guideOpen_emptyRowGuidesStep dl s hs)
      (dl.leadingWhitespaceLengthForSurroundingLines st.bufferRow - st.screenColumn)
      { st with currentTokenFlags := 0, currentTokenLength := 0 }
      (Or.inl ⟨rfl, h⟩)
    generalize emptyRowGuides dl _ _ _ = s at hl ⊢
    have hne : INDENT_GUIDE ≠ 0 := by decide
    unfold onlyIf
    rcases hl with ⟨h1, h2⟩ | ⟨h1, h2⟩
    · split <;> simp [pushTagCode, h1, replay_append, h2, replay]
    · unfold OpenIs at h2
      split <;> simp [pushTagCode, h1, hne, replay_append, h2, replay, openStack,
        indentGuide_tag_pos]
  · exact h

theorem balanced_emitEolInvisible (dl : DisplayLayer) (st : BuilderState)
    (h : replay st.tagCodes [] = some []) :
    replay (emitEolInvisible dl st).tagCodes [] = some [] := by
  unfold emitEolInvisible
  dsimp only
  split
  · have hx : (onlyIf ((orFlags (INVISIBLE_CHARACTER ||| LINE_ENDING)
        (appendText (dl.eolInvisibles st.lineEnding) st)).bufferLine.length = 0 ∧
          dl.showIndentGuides = true) (orFlags INDENT_GUIDE)
        (orFlags (INVISIBLE_CHARACTER ||| LINE_ENDING)
          (appendText (dl.eolInvisibles st.lineEnding) st))).tagCodes = st.tagCodes := by
      unfold onlyIf
      split <;> rfl
    generalize onlyIf ((orFlags (INVISIBLE_CHARACTER ||| LINE_ENDING)
        (appendText (dl.eolInvisibles st.lineEnding) st)).bufferLine.length = 0 ∧
          dl.showIndentGuides = true) (orFlags INDENT_GUIDE)
        (orFlags (INVISIBLE_CHARACTER ||| LINE_ENDING)
          (appendText (dl.eolInvisibles st.lineEnding) st)) = x at hx ⊢
    simp [emitCloseTag_eq, emitOpenTag_eq, replay_append, hx, h, replay_openCodes,
      replay_closeCodes]
  · exact h

theorem balanced_endOfRow (dl : DisplayLayer) (st : BuilderState)
    (h : replay st.tagCodes [] = some [])
    (h0 : 0 < st.currentTokenLength → getBasicTag st.previousTokenFlags = []) :
    replay (endOfRow dl st).tagCodes [] = some [] := by
  unfold endOfRow
  dsimp only
  have h1 : replay (onlyIf (st.currentTokenLength > 0)
      (fun st => emitCloseTag (getBasicTag st.previousTokenFlags) st) st).tagCodes [] =
      some [] := by
    unfold onlyIf
    split
    · rename_i hp
      dsimp only
      rw [h0 hp]
      simp [emitCloseTag_eq, replay_append, h, closeCodes, replay]
    · exact h
  generalize onlyIf (st.currentTokenLength > 0)
      (fun st => emitCloseTag (getBasicTag st.previousTokenFlags) st) st = s1 at h1 ⊢
  have h3 := balanced_emitEmptyRowGuides dl _ (balanced_emitEolInvisible dl s1 h1)
  generalize emitEmptyRowGuides dl (emitEolInvisible dl s1) = s3 at h3 ⊢
  unfold onlyIf
  split
  · simp [pushTagCode, replay_append, h3, replay]
  · exact h3

theorem basicTag_zero : getBasicTag 0 = [] := by decide

theorem balance_columnStep_cont (dl : DisplayLayer) (st : BuilderState)
    (h : BalanceState st) (hcont : (columnStep dl st).2 = false) :
    BalanceState (columnStep dl st).1 := by
  obtain ⟨c, hb, h1, h2, h3⟩ := balance_beginColumn dl st h
  unfold columnStep at hcont ⊢
  rw [hb] at hcont ⊢
  dsimp only at hcont ⊢
  split at hcont
  · simp at hcont
  · rename_i hne
    rw [if_neg hne]
    dsimp only
    rw [closePreviousToken_eq] at hne
    dsimp only at hne
    have hf := emitCharacter_fields dl (openCurrentToken (closePreviousToken c))
    have ht := emitCharacter_tagCodes dl (openCurrentToken (closePreviousToken c))
    have ho := openIs_open_close c h1
    have hcur : (openCurrentToken (closePreviousToken c)).currentTokenFlags =
        c.currentTokenFlags := by
      rw [openCurrentToken_eq, closePreviousToken_eq]
    have hline : (openCurrentToken (closePreviousToken c)).bufferLine = c.bufferLine := by
      rw [openCurrentToken_eq, closePreviousToken_eq]
    have hcol : (openCurrentToken (closePreviousToken c)).bufferColumn = c.bufferColumn := by
      rw [openCurrentToken_eq, closePreviousToken_eq]
    have hlines : (openCurrentToken (closePreviousToken c)).screenLines = c.screenLines := by
      rw [openCurrentToken_eq, closePreviousToken_eq]
    refine ⟨?_, ?_, ?_⟩
    · unfold OpenIs at ho ⊢
      rw [ht, hf.2.2.2.2.2.2.2.2.2.2, hcur]
      exact ho
    · rw [hf.1, hlines]
      exact h2
    · rw [hf.2.2.2.2.2.2.1, hf.2.2.2.2.2.2.2.2.1, hf.2.2.2.2.2.2.2.2.2.2, hcur, hline, hcol]
      intro hlt
      exact h3 (List.getElem?_eq_none (by omega))

theorem balance_columnStep_break (dl : DisplayLayer) (st : BuilderState)
    (h : BalanceState st) (hbreak : (columnStep dl st).2 = true) :
    replay (columnStep dl st).1.tagCodes [] = some [] ∧
      LinesBalanced (columnStep dl st).1.screenLines := by
  obtain ⟨c, hb, h1, h2, h3⟩ := balance_beginColumn dl st h
  unfold columnStep at hbreak ⊢
  rw [hb] at hbreak ⊢
  dsimp only at hbreak ⊢
  split at hbreak
  · rename_i heq
    rw [if_pos heq]
    dsimp only
    rw [closePreviousToken_eq] at heq
    dsimp only at heq
    have hz : c.currentTokenFlags = 0 := h3 (List.getElem?_eq_none (by omega))
    have hf := (renderOnly_fields (renderOnly_endOfRow dl (renderOnly_refl (closePreviousToken c))))
    refine ⟨?_, ?_⟩
    · apply balanced_endOfRow
      · unfold OpenIs at h1
        rw [closePreviousToken_eq]
        dsimp only
        by_cases hp : c.previousTokenFlags > 0
        · have hn : ¬ (0 = c.previousTokenFlags) := by omega
          simp [hp, hz, hn, replay_append, h1, replay_closeCodes]
        · have hp0 : c.previousTokenFlags = 0 := by omega
          rw [hp0, openStack_zero] at h1
          simp [hp0, h1]
      · rw [closePreviousToken_eq]
        dsimp only
        by_cases hp : c.previousTokenFlags > 0
        · have hn : ¬ (0 = c.previousTokenFlags) := by omega
          simp [hp, hz, hn]
        · have hp0 : c.previousTokenFlags = 0 := by omega
          intro _
          rw [hp0]
          exact basicTag_zero
    · rw [hf.1, closePreviousToken_eq]
      exact h2
  · simp at hbreak

theorem balance_columnLoop (dl : DisplayLayer) (fuel : Nat) (st st' : BuilderState)
    (h : BalanceState st) (hl : columnLoop dl fuel st = some st') :
    replay st'.tagCodes [] = some [] ∧ LinesBalanced st'.screenLines :=
  columnLoop_induct (P := BalanceState)
    (Q := fun s => replay s.tagCodes [] = some [] ∧ LinesBalanced s.screenLines) dl
    (fun s hs _ hc => balance_columnStep_cont dl s hs hc)
    (fun s hs _ hc => balance_columnStep_break dl s hs hc)
    (fun s hs hn => by
      have hz := hs.2.2 (by omega)
      have h1 := hs.1
      unfold OpenIs at h1
      rw [hz, openStack_zero] at h1
      exact ⟨h1, hs.2.1⟩) fuel st st' h hl

theorem linesBalanced_rowStep (dl : DisplayLayer) (st st' : BuilderState)
    (h : LinesBalanced st.screenLines) (hr : rowStep dl st = some st') :
    LinesBalanced st'.screenLines := by
  obtain ⟨s, hs, rfl⟩ := rowStep_eq_some dl st st' hr
  have h0 : BalanceState (startRow dl st) :=
    ⟨by unfold OpenIs; exact (congrArg some openStack_zero).symm, h, fun _ => rfl⟩
  obtain ⟨h1, h2⟩ := balance_columnLoop dl _ _ s h0 hs
  intro l hmem
  simp only [pushScreenLine] at hmem
  rcases List.mem_append.mp hmem with hm | hm
  · exact h2 l hm
  · simp only [List.mem_singleton] at hm
    subst hm
    exact h1

theorem linesBalanced_buildScreenLines (dl : DisplayLayer) (nextId s e : Nat)
    (lines : List ScreenLine) (next : Nat)
    (hb : buildScreenLines dl nextId s e = some (lines, next)) : LinesBalanced lines := by
  obtain ⟨st, hst, hbs⟩ := buildScreenLines_eq dl nextId s e
  rw [hbs] at hb
  simp only [Option.some.injEq, Prod.mk.injEq] at hb
  rw [← hb.1]
  exact (rowLoop_induct (P := fun x => LinesBalanced x.screenLines) dl _
    (fun x x' hx _ hstep => linesBalanced_rowStep dl x x' hx hstep) _ _ st
    (by simp [LinesBalanced, initialState]) hst).1

/-- C1: when the space and tab invisibles are at most one character long (absent or a
single character), the tab length is positive and every fold hunk ends inside the buffer
row it lands on, `buildScreenLines` returns, and in every line it returns the run-length
entries of `tagCodes` add up to the length of `lineText`. -/
theorem runLengths_sum_to_lineText (dl : DisplayLayer)
    (nextScreenLineId screenStartRow screenEndRow : Nat)
    (htab : 0 < dl.tabLength)
    (hspace : dl.invisibles.space.length ≤ 1)
    (htabGlyph : dl.invisibles.tab.length ≤ 1)
    (hfold : ∀ h ∈ dl.getHunksInNewRange { row := screenStartRow, column := 0 }
        { row := min screenEndRow dl.getScreenLineCount, column := 0 },
      h.newText = dl.foldCharacter →
        h.oldEnd.column ≤ (dl.lineForRow h.oldEnd.row).length) :
    ∃ lines next,
      buildScreenLines dl nextScreenLineId screenStartRow screenEndRow = some (lines, next) ∧
      ∀ line ∈ lines, sumRuns line.tagCodes = line.lineText.length := by
  obtain ⟨st, _, hbs⟩ := buildScreenLines_eq dl nextScreenLineId screenStartRow screenEndRow
  exact ⟨_, _, hbs, linesSummed_buildScreenLines dl ⟨htab, hspace, htabGlyph⟩
    nextScreenLineId screenStartRow screenEndRow hfold _ _ hbs⟩

theorem runLengths_sum_to_lineText_witness :
    (0 < mixedLayer.tabLength ∧ mixedLayer.invisibles.space.length ≤ 1 ∧
      mixedLayer.invisibles.tab.length ≤ 1) ∧
    ∃ lines next, buildScreenLines mixedLayer 1 0 4 = some (lines, next) ∧
      ∀ line ∈ lines, sumRuns line.tagCodes = line.lineText.length :=
  ⟨by decide, runLengths_sum_to_lineText mixedLayer 1 0 4 (by decide) (by decide) (by decide)
    (by decide)⟩

/-- C2: for a positive tab length `buildScreenLines` returns, and in every line it returns
the open and close codes are balanced and properly nested: the replay of `tagCodes` on an
empty stack never pops an empty stack, pops only the tag opened last, and ends with an
empty stack. -/
theorem tagCodes_balanced (dl : DisplayLayer)
    (nextScreenLineId screenStartRow screenEndRow : Nat) (htab : 0 < dl.tabLength) :
    ∃ lines next,
      buildScreenLines dl nextScreenLineId screenStartRow screenEndRow = some (lines, next) ∧
      ∀ line ∈ lines, replay line.tagCodes [] = some [] := by
  have _ := htab
  obtain ⟨st, _, hbs⟩ := buildScreenLines_eq dl nextScreenLineId screenStartRow screenEndRow
  exact ⟨_, _, hbs, linesBalanced_buildScreenLines dl nextScreenLineId screenStartRow
    screenEndRow _ _ hbs⟩

theorem tagCodes_balanced_witness :
    0 < mixedLayer.tabLength ∧
    ∃ lines next, buildScreenLines mixedLayer 1 0 4 = some (lines, next) ∧
      ∀ line ∈ lines, replay line.tagCodes [] = some [] :=
  ⟨by decide, tagCodes_balanced mixedLayer 1 0 4 (by decide)⟩

/-- C3 (the code at the failing input): one screen line is requested of a buffer row that
a wrap hunk breaks in two, and `buildScreenLines` returns two lines. -/
theorem softWrap_in_last_row_returns_extra_line :
    min 1 wrappedLayer.getScreenLineCount - 0 = 1 ∧
    buildScreenLines wrappedLayer 1 0 1 =
      some ([{ id := 1, lineText := ['a'], tagCodes := [TagCode.len 1] },
             { id := 2, lineText := ['b'], tagCodes := [TagCode.len 1] }], 3) := by
  decide

/-- C4: `buildScreenLines` returns; the ids of the returned lines, in list order, are the
consecutive integers from the value of the counter on entry; the counter on exit is its
value on entry plus the number of lines; and every line of a later call, which starts
from a counter at least as large, has an id greater than every id of this call. -/
theorem screenLine_ids_consecutive (dl : DisplayLayer)
    (nextScreenLineId screenStartRow screenEndRow : Nat) :
    ∃ lines next,
      buildScreenLines dl nextScreenLineId screenStartRow screenEndRow = some (lines, next) ∧
      lines.map ScreenLine.id = List.range' nextScreenLineId lines.length ∧
      next = nextScreenLineId + lines.length ∧
      ∀ (dl2 : DisplayLayer) (later start2 end2 : Nat) (lines2 : List ScreenLine)
        (next2 : Nat), next ≤ later →
        buildScreenLines dl2 later start2 end2 = some (lines2, next2) →
        ∀ l1 ∈ lines, ∀ l2 ∈ lines2, l1.id < l2.id := by
  obtain ⟨st, _, hbs⟩ := buildScreenLines_eq dl nextScreenLineId screenStartRow screenEndRow
  have h1 := buildScreenLines_ids dl nextScreenLineId screenStartRow screenEndRow _ _ hbs
  refine ⟨_, _, hbs, h1.1, h1.2, ?_⟩
  intro dl2 later start2 end2 lines2 next2 hle hb2 l1 hl1 l2 hl2
  have h2 := buildScreenLines_ids dl2 later start2 end2 _ _ hb2
  have m1 : l1.id ∈ List.range' nextScreenLineId st.screenLines.length := by
    rw [← h1.1]; exact List.mem_map_of_mem _ hl1
  have m2 : l2.id ∈ List.range' later lines2.length := by
    rw [← h2.1]; exact List.mem_map_of_mem _ hl2
  rw [List.mem_range'_1] at m1 m2
  omega

theorem screenLine_ids_consecutive_witness :
    ∃ lines next, buildScreenLines mixedLayer 7 0 4 = some (lines, next) ∧
      lines.map ScreenLine.id = List.range' 7 lines.length ∧
      next = 7 + lines.length ∧
      ∀ (dl2 : DisplayLayer) (later start2 end2 : Nat) (lines2 : List ScreenLine)
        (next2 : Nat), next ≤ later →
        buildScreenLines dl2 later start2 end2 = some (lines2, next2) →
        ∀ l1 ∈ lines, ∀ l2 ∈ lines2, l1.id < l2.id :=
  screenLine_ids_consecutive mixedLayer 7 0 4

/-- C5 (the code at the failing input): a wrap hunk at buffer column 0 finalises a screen
line whose `tagCodes` is empty. -/
theorem softWrap_at_column_zero_pushes_empty_tagCodes :
    buildScreenLines wrapAtStartLayer 1 0 2 =
      some ([{ id := 1, lineText := [], tagCodes := [] },
             { id := 2, lineText := ['a', 'b'], tagCodes := [TagCode.len 2] }], 3) := by
  decide

/-- C8: the row of two spaces, `a`, a tab, `b` and two spaces, with tab length 4 and
nothing else switched on, is rendered as one line of text `  a b  ` whose tag stream is
leading-whitespace (2), plain (1), hard-tab (1), plain (1), trailing-whitespace (2). -/
theorem tab_row_example :
    trailingWhitespaceStart "  a\tb  ".toList = 5 ∧
    buildScreenLines tabRowLayer 1 0 1 =
      some ([{ id := 1,
               lineText := "  a b  ".toList,
               tagCodes :=
                 [TagCode.openTag "leading-whitespace".toList, TagCode.len 2,
                  TagCode.closeTag "leading-whitespace".toList, TagCode.len 1,
                  TagCode.openTag "hard-tab".toList, TagCode.len 1,
                  TagCode.closeTag "hard-tab".toList, TagCode.len 1,
                  TagCode.openTag "trailing-whitespace".toList, TagCode.len 2,
                  TagCode.closeTag "trailing-whitespace".toList] }], 2) := by
  decide

theorem drainHunks_of_head (dl : DisplayLayer) (hs : List Hunk) (st : BuilderState)
    (h : ∀ x, hs.head? = some x →
      ¬ (x.oldStart.row = st.bufferRow ∧ x.oldStart.column = st.bufferColumn)) :
    drainHunks dl hs st = { st with hunks := hs } := by
  cases hs with
  | nil => rfl
  | cons x rest =>
    unfold drainHunks
    rw [if_neg (h x rfl)]

theorem skipHunks_head_row (row : Nat) (hs : List Hunk) (x : Hunk)
    (h : (skipHunks row hs).head? = some x) : x ∈ hs ∧ row ≤ x.oldStart.row := by
  unfold skipHunks at h
  have hmem : x ∈ List.dropWhile (fun h => decide (h.oldStart.row < row)) hs :=
    List.mem_of_mem_head? h
  refine ⟨List.dropWhile_subset _ hmem, ?_⟩
  have := List.head?_dropWhile_not (fun h : Hunk => decide (h.oldStart.row < row)) hs
  rw [h] at this
  simp at this
  exact this

theorem classifyCharacter_none_force (dl : DisplayLayer) (st : BuilderState)
    (h : st.bufferLine[st.bufferColumn]? = none) :
    (classifyCharacter dl st).forceTokenBoundary = false := by
  unfold classifyCharacter
  simp only []
  rw [if_neg (by rw [h]; simp)]
  unfold onlyIf
  split <;> rfl

theorem emitEmptyRowGuides_off (dl : DisplayLayer) (st : BuilderState)
    (h : dl.showIndentGuides = false ∨ st.bufferLine.length ≠ 0 ∨
      dl.leadingWhitespaceLengthForSurroundingLines st.bufferRow ≤ st.screenColumn) :
    (emitEmptyRowGuides dl st).tagCodes = st.tagCodes ∧
      (emitEmptyRowGuides dl st).screenLineText = st.screenLineText := by
  unfold emitEmptyRowGuides
  dsimp only
  split
  · rename_i hc
    have hle : dl.leadingWhitespaceLengthForSurroundingLines st.bufferRow ≤ st.screenColumn := by
      rcases h with h | h | h
      · rw [h] at hc; simp at hc
      · exact absurd hc.1 h
      · exact h
    rw [Nat.sub_eq_zero_of_le hle]
    simp [emptyRowGuides, onlyIf]
  · exact ⟨rfl, rfl⟩

/-- The end-of-row branch when no end-of-line glyph is configured and no indent guide
extends the row: the pending token is closed and an empty stream gets its zero run. -/
theorem endOfRow_plain (dl : DisplayLayer) (st : BuilderState)
    (heol : dl.eolInvisibles st.lineEnding = [])
    (h : dl.showIndentGuides = false ∨ st.bufferLine.length ≠ 0 ∨
      dl.leadingWhitespaceLengthForSurroundingLines st.bufferRow ≤ st.screenColumn) :
    (endOfRow dl st).screenLineText = st.screenLineText ∧
    (endOfRow dl st).tagCodes =
      (if (st.tagCodes ++ (if st.currentTokenLength > 0 then
            runCodes st.currentTokenLength ++ closeCodes (getBasicTag st.previousTokenFlags)
          else [])).length = 0 then [TagCode.len 0]
       else st.tagCodes ++ (if st.currentTokenLength > 0 then
            runCodes st.currentTokenLength ++ closeCodes (getBasicTag st.previousTokenFlags)
          else [])) := by
  unfold endOfRow
  dsimp only
  have h1 : (onlyIf (st.currentTokenLength > 0)
      (fun st => emitCloseTag (getBasicTag st.previousTokenFlags) st) st) =
      { st with
        tagCodes := st.tagCodes ++ (if st.currentTokenLength > 0 then
            runCodes st.currentTokenLength ++ closeCodes (getBasicTag st.previousTokenFlags)
          else []),
        currentTokenLength := if st.currentTokenLength > 0 then 0
          else st.currentTokenLength } := by
    unfold onlyIf
    split
    · rename_i hp; simp only [emitCloseTag_eq, if_pos hp, List.append_assoc]
    · rename_i hp; simp only [if_neg hp, List.append_nil]
  rw [h1]
  generalize (st.tagCodes ++ (if st.currentTokenLength > 0 then
      runCodes st.currentTokenLength ++ closeCodes (getBasicTag st.previousTokenFlags)
    else [])) = tc
  generalize (if st.currentTokenLength > 0 then 0 else st.currentTokenLength) = len
  have h2 : emitEolInvisible dl { st with tagCodes := tc, currentTokenLength := len } =
      { st with tagCodes := tc, currentTokenLength := len } := by
    unfold emitEolInvisible
    dsimp only
    rw [if_neg (by simp [heol])]
  rw [h2]
  have h3 := emitEmptyRowGuides_off dl { st with tagCodes := tc, currentTokenLength := len } h
  dsimp only at h3
  unfold onlyIf
  rw [h3.1]
  split
  · rename_i hz
    have : tc = [] := List.length_eq_zero.mp hz
    subst this
    simp [pushTagCode, h3.1, h3.2]
  · exact ⟨h3.2, h3.1⟩

theorem beginColumn_noHunk (dl : DisplayLayer) (st : BuilderState) (h : NoHunkHere st) :
    beginColumn dl st = closePreviousToken (classifyCharacter dl (shiftTokenFlags st)) := by
  unfold beginColumn
  dsimp only
  have hd := drainHunks_of_head dl (skipHunks st.bufferRow st.hunks)
    { st with previousTokenFlags := st.currentTokenFlags, currentTokenFlags := 0 } h
  rw [hd]
  rfl

theorem noHunkHere_of_row_ne (st : BuilderState)
    (h : ∀ x ∈ st.hunks, x.oldStart.row ≠ st.bufferRow) : NoHunkHere st :=
  fun y hy hc => h y (skipHunks_head_row _ _ y hy).1 hc.1

/-- C6: an empty buffer row on which no hunk starts, with no end-of-line glyph for its
line ending and with indent guides off or a surrounding leading-whitespace width of 0, is
rendered by one pass of the row loop as one screen line with empty text whose `tagCodes`
is exactly `[0]`. -/
theorem emptyRow_renders_single_zero_run (dl : DisplayLayer) (st : BuilderState)
    (hrow : dl.lineForRow st.bufferRow = [])
    (hhunks : ∀ h ∈ st.hunks, h.oldStart.row ≠ st.bufferRow)
    (heol : dl.eolInvisibles (dl.lineEndingForRow st.bufferRow) = [])
    (hguides : dl.showIndentGuides = false ∨
      dl.leadingWhitespaceLengthForSurroundingLines st.bufferRow = 0) :
    ∃ st', rowStep dl st = some st' ∧
      st'.screenLines = st.screenLines ++
        [{ id := st.nextScreenLineId, lineText := [], tagCodes := [TagCode.len 0] }] := by
  obtain ⟨st', hst'⟩ := rowStep_isSome dl st
  refine ⟨st', hst', ?_⟩
  obtain ⟨s, hs, rfl⟩ := rowStep_eq_some dl st st' hst'
  have hno : NoHunkHere (startRow dl st) := noHunkHere_of_row_ne _ hhunks
  have hb := beginColumn_noHunk dl (startRow dl st) hno
  have hf := classifyCharacter_fields dl (shiftTokenFlags (startRow dl st))
  generalize classifyCharacter dl (shiftTokenFlags (startRow dl st)) = c at hb hf
  simp only [startRow, shiftTokenFlags, hrow] at hf
  have hnext : c.nextScreenLineId = st.nextScreenLineId := hf.2.2.2.2.2.2.2.2.2.2.2.1
  have hcp : closePreviousToken c = c := by
    unfold closePreviousToken
    rw [if_neg (by rw [hf.2.2.2.2.1]; simp)]
  rw [hcp] at hb
  have hbreak : columnStep dl (startRow dl st) = (endOfRow dl c, true) := by
    unfold columnStep
    dsimp only
    rw [hb, if_pos (by rw [hf.2.2.2.2.2.1, hf.2.2.2.2.2.2.1]; rfl)]
  have key : s.screenLineText = [] ∧ s.tagCodes = [TagCode.len 0] ∧
      s.screenLines = st.screenLines ∧ s.nextScreenLineId = st.nextScreenLineId := by
    refine columnLoop_induct (P := fun x => x = startRow dl st)
      (Q := fun x => x.screenLineText = [] ∧ x.tagCodes = [TagCode.len 0] ∧
        x.screenLines = st.screenLines ∧ x.nextScreenLineId = st.nextScreenLineId) dl
      ?_ ?_ ?_ _ _ s rfl hs
    · intro x hx _ hcont
      subst hx
      rw [hbreak] at hcont
      simp at hcont
    · intro x hx _ _
      subst hx
      rw [hbreak]
      dsimp only
      have he := endOfRow_plain dl c (by rw [hf.2.2.2.2.2.2.2.2.2.2.1]; exact heol)
        (by
          rcases hguides with hg | hg
          · exact Or.inl hg
          · right; right; rw [hf.2.2.2.2.2.2.2.2.2.1, hg]; exact Nat.zero_le _)
      have hr := renderOnly_fields (renderOnly_endOfRow dl (renderOnly_refl c))
      rw [hf.1, hf.2.1, hf.2.2.1] at he
      refine ⟨he.1, ?_, ?_, ?_⟩
      · rw [he.2]; rfl
      · rw [hr.1, hf.2.2.2.2.2.2.2.1]
      · rw [hr.2.1, hnext]
    · intro x hx hn
      subst hx
      exact absurd (Nat.zero_le _) hn
  simp [pushScreenLine, key.1, key.2.1, key.2.2.1, key.2.2.2]

theorem emptyRow_renders_single_zero_run_witness :
    emptyRowLayer.lineForRow (initialState emptyRowLayer 1 0 1).bufferRow = [] ∧
    ∃ st', rowStep emptyRowLayer (initialState emptyRowLayer 1 0 1) = some st' ∧
      st'.screenLines = (initialState emptyRowLayer 1 0 1).screenLines ++
        [{ id := (initialState emptyRowLayer 1 0 1).nextScreenLineId, lineText := [],
           tagCodes := [TagCode.len 0] }] :=
  ⟨by decide, emptyRow_renders_single_zero_run emptyRowLayer (initialState emptyRowLayer 1 0 1)
    (by decide) (by decide) (by decide) (by decide)⟩

/-- C7: for a positive tab length, rendering a tab reached at screen column `C` appends
the tab glyph followed by `width - 1` spaces when a glyph is configured and `width`
spaces otherwise, where `width = tabLength - (C mod tabLength)`; the width is between 1
and `tabLength`; with a glyph of at most one character exactly `width` characters are
appended; the screen column advances by `width` to a multiple of `tabLength`; and the
pending token has length `width`, which is the run length the next token boundary
pushes. -/
theorem tab_expands_to_next_tab_stop (dl : DisplayLayer) (st : BuilderState)
    (htab : 0 < dl.tabLength) (hchar : st.bufferLine[st.bufferColumn]? = some '\t') :
    1 ≤ tabStopDistance dl.tabLength st.screenColumn ∧
    tabStopDistance dl.tabLength st.screenColumn ≤ dl.tabLength ∧
    (emitCharacter dl st).screenLineText = st.screenLineText ++
      (if dl.invisibles.tab ≠ [] then
        dl.invisibles.tab ++
          List.replicate (tabStopDistance dl.tabLength st.screenColumn - 1) ' '
       else List.replicate (tabStopDistance dl.tabLength st.screenColumn) ' ') ∧
    (dl.invisibles.tab.length ≤ 1 →
      (emitCharacter dl st).screenLineText.length =
        st.screenLineText.length + tabStopDistance dl.tabLength st.screenColumn) ∧
    (emitCharacter dl st).screenColumn =
      st.screenColumn + tabStopDistance dl.tabLength st.screenColumn ∧
    (emitCharacter dl st).screenColumn % dl.tabLength = 0 ∧
    (emitCharacter dl st).currentTokenLength = tabStopDistance dl.tabLength st.screenColumn ∧
    (emitTokenBoundary (emitCharacter dl st)).tagCodes =
      st.tagCodes ++ [TagCode.len (tabStopDistance dl.tabLength st.screenColumn)] := by
  have hlt := Nat.mod_lt st.screenColumn htab
  have hdm := Nat.div_add_mod st.screenColumn dl.tabLength
  have hw1 : 1 ≤ tabStopDistance dl.tabLength st.screenColumn := by
    unfold tabStopDistance; omega
  have hstop : (st.screenColumn + tabStopDistance dl.tabLength st.screenColumn) %
      dl.tabLength = 0 := by
    have : st.screenColumn + tabStopDistance dl.tabLength st.screenColumn =
        dl.tabLength * (st.screenColumn / dl.tabLength) + dl.tabLength := by
      unfold tabStopDistance; omega
    rw [this, Nat.add_mod_right, Nat.mul_mod_right]
  have he : emitCharacter dl st = { emitTab dl st with bufferColumn := st.bufferColumn + 1 } := by
    unfold emitCharacter
    dsimp only
    rw [if_pos hchar]
    have := (renderOnly_fields (renderOnly_emitTab dl (renderOnly_refl st))).2.2.2.2.2.2.2.2.1
    rw [this]
  have ht : (emitTab dl st).screenLineText = st.screenLineText ++
      (if dl.invisibles.tab ≠ [] then
        dl.invisibles.tab ++
          List.replicate (tabStopDistance dl.tabLength st.screenColumn - 1) ' '
       else List.replicate (tabStopDistance dl.tabLength st.screenColumn) ' ') ∧
      (emitTab dl st).screenColumn =
        st.screenColumn + tabStopDistance dl.tabLength st.screenColumn ∧
      (emitTab dl st).currentTokenLength = tabStopDistance dl.tabLength st.screenColumn ∧
      (emitTab dl st).tagCodes = st.tagCodes := by
    unfold emitTab tabStopDistance
    dsimp only
    split <;> simp [appendText]
  rw [he]
  dsimp only
  refine ⟨hw1, by unfold tabStopDistance; omega, ht.1, ?_, ht.2.1, ?_, ht.2.2.1, ?_⟩
  · intro hg
    rw [ht.1]
    split
    · rename_i hne
      have : dl.invisibles.tab.length = 1 := by
        have := List.length_pos.mpr hne
        omega
      simp only [List.length_append, List.length_replicate]
      omega
    · simp
  · rw [ht.2.1]; exact hstop
  · rw [emitTokenBoundary_eq]
    dsimp only
    rw [ht.2.2.1, ht.2.2.2]
    unfold runCodes
    rw [if_pos (by omega)]

theorem tab_expands_to_next_tab_stop_witness :
    (0 < tabRowLayer.tabLength ∧
      (startRow tabRowLayer (initialState tabRowLayer 1 0 1)).bufferLine[3]? = some '\t') ∧
    (emitCharacter tabRowLayer
      { startRow tabRowLayer (initialState tabRowLayer 1 0 1) with
        bufferColumn := 3, screenColumn := 3 }).screenColumn = 3 + tabStopDistance 4 3 :=
  ⟨by decide, (tab_expands_to_next_tab_stop tabRowLayer
    { startRow tabRowLayer (initialState tabRowLayer 1 0 1) with
      bufferColumn := 3, screenColumn := 3 } (by decide) (by decide)).2.2.2.2.1⟩

theorem indentGuide_tag : getBasicTag INDENT_GUIDE = "indent-guide".toList := by decide

theorem startEmptyRowGuide_eq (st : BuilderState) :
    startEmptyRowGuide st =
      { st with
        tagCodes := st.tagCodes ++ runCodes st.currentTokenLength ++
          (if st.currentTokenFlags ≠ 0 then
            [TagCode.closeTag (getBasicTag st.currentTokenFlags)] else []) ++
          [TagCode.openTag "indent-guide".toList],
        currentTokenFlags := INDENT_GUIDE,
        currentTokenLength := 0 } := by
  unfold startEmptyRowGuide onlyIf
  dsimp only
  rw [emitOpenTag_eq]
  dsimp only
  rw [indentGuide_tag]
  split <;> split <;> simp_all [pushTagCode, runCodes, openCodes]

theorem tick_iff (t c done : Nat) (h1 : done * t < c) (h2 : c ≤ (done + 1) * t) :
    c % t = 0 ↔ c = (done + 1) * t := by
  constructor
  · intro hm
    by_contra hne
    have hlt : c < (done + 1) * t := by omega
    have hd := Nat.div_eq_of_lt_le (Nat.le_of_lt h1) hlt
    have := Nat.div_add_mod c t
    rw [hd, hm, Nat.mul_comm] at this
    omega
  · intro he
    rw [he]
    exact Nat.mul_mod_left _ _

theorem guideProgress_step (dl : DisplayLayer) (width : Nat) (st : BuilderState)
    (htab : 0 < dl.tabLength) (h : GuideProgress dl.tabLength width st)
    (hlt : st.screenColumn < width) :
    GuideProgress dl.tabLength width (emptyRowGuidesStep dl st) := by
  obtain ⟨_, htext, hcase⟩ := h
  unfold emptyRowGuidesStep onlyIf
  dsimp only
  rcases hcase with ⟨hc, htc, hlen, hfl⟩ | ⟨done, hlo, hhi, htc, hlen, hfl⟩
  · rw [if_pos (by rw [hc]; exact Nat.zero_mod _), startEmptyRowGuide_eq]
    refine ⟨by simp only [appendText]; omega, ?_, Or.inr ⟨0, ?_, ?_, ?_, ?_, ?_⟩⟩
    · simp [appendText, htext, hc]
    · simp [appendText]
    · simp only [appendText]; omega
    · simp [appendText, htc, hlen, hfl, runCodes]
    · simp [appendText, hc]
    · simp [appendText]
  · have hsucc : (done + 1) * dl.tabLength = done * dl.tabLength + dl.tabLength :=
      Nat.succ_mul _ _
    have hsucc2 : (done + 1 + 1) * dl.tabLength =
        done * dl.tabLength + dl.tabLength + dl.tabLength := by
      rw [Nat.succ_mul, Nat.succ_mul]
    by_cases htick : st.screenColumn % dl.tabLength = 0
    · have hcol := (tick_iff _ _ _ hlo hhi).mp htick
      rw [if_pos htick, startEmptyRowGuide_eq]
      refine ⟨by simp only [appendText]; omega, ?_, Or.inr ⟨done + 1, ?_, ?_, ?_, ?_, ?_⟩⟩
      · simp [appendText, htext, List.replicate_succ']
      · simp only [appendText]; omega
      · simp only [appendText]; omega
      · have hne : INDENT_GUIDE ≠ 0 := by decide
        have hmin : min dl.tabLength (width - done * dl.tabLength) = dl.tabLength := by
          omega
        have hl : st.currentTokenLength = dl.tabLength := by omega
        simp [appendText, htc, hl, hfl, hne, runCodes, htab, List.range_succ, indentGuideRun,
          hmin, indentGuide_tag, Nat.pos_iff_ne_zero.mp htab]
      · simp only [appendText]; omega
      · simp [appendText]
    · have hcol : st.screenColumn ≠ (done + 1) * dl.tabLength :=
        fun hc => htick ((tick_iff _ _ _ hlo hhi).mpr hc)
      rw [if_neg htick]
      refine ⟨by simp only [appendText]; omega, ?_, Or.inr ⟨done, ?_, ?_, ?_, ?_, ?_⟩⟩
      · simp [appendText, htext, List.replicate_succ']
      · simp only [appendText]; omega
      · simp only [appendText]; omega
      · simp [appendText, htc]
      · simp only [appendText]; omega
      · simp [appendText, hfl]

theorem emptyRowGuidesStep_screenColumn (dl : DisplayLayer) (st : BuilderState) :
    (emptyRowGuidesStep dl st).screenColumn = st.screenColumn + 1 := by
  unfold emptyRowGuidesStep onlyIf
  dsimp only
  split <;> simp [appendText, startEmptyRowGuide_eq]

theorem guideProgress_loop (dl : DisplayLayer) (width : Nat) (htab : 0 < dl.tabLength) :
    ∀ fuel st, GuideProgress dl.tabLength width st → width - st.screenColumn ≤ fuel →
      GuideProgress dl.tabLength width (emptyRowGuides dl width fuel st) ∧
      (emptyRowGuides dl width fuel st).screenColumn = width := by
  intro fuel
  induction fuel with
  | zero =>
    intro st h hf
    have := h.1
    exact ⟨h, by simp only [emptyRowGuides]; omega⟩
  | succ k ih =>
    intro st h hf
    unfold emptyRowGuides
    split
    · rename_i hlt
      exact ih _ (guideProgress_step dl width st htab h hlt)
        (by rw [emptyRowGuidesStep_screenColumn]; omega)
    · have := h.1
      exact ⟨h, by omega⟩

theorem indentGuideRuns_of_progress (t width done : Nat) (h1 : done * t < width)
    (h2 : width ≤ (done + 1) * t) :
    ((List.range done).map (indentGuideRun t width)).flatten ++
      [TagCode.openTag "indent-guide".toList, TagCode.len (width - done * t),
       TagCode.closeTag "indent-guide".toList] = indentGuideRuns t width := by
  have hsucc : (done + 1) * t = done * t + t := Nat.succ_mul _ _
  have hsucc2 : (done + 1 + 1) * t = done * t + t + t := by
    rw [Nat.succ_mul, Nat.succ_mul]
  have hd : (width + t - 1) / t = done + 1 :=
    Nat.div_eq_of_lt_le (by omega) (by omega)
  have hmin : min t (width - done * t) = width - done * t := by omega
  unfold indentGuideRuns
  rw [hd, List.range_succ, List.map_append, List.flatten_append]
  simp [indentGuideRun, hmin]

theorem emitEmptyRowGuides_runs (dl : DisplayLayer) (st : BuilderState)
    (htab : 0 < dl.tabLength) (hline : st.bufferLine.length = 0)
    (hguides : dl.showIndentGuides = true) (hcol : st.screenColumn = 0)
    (htc : st.tagCodes = []) (htext : st.screenLineText = [])
    (hw : 0 < dl.leadingWhitespaceLengthForSurroundingLines st.bufferRow) :
    (emitEmptyRowGuides dl st).tagCodes =
      indentGuideRuns dl.tabLength (dl.leadingWhitespaceLengthForSurroundingLines st.bufferRow) ∧
    (emitEmptyRowGuides dl st).screenLineText =
      List.replicate (dl.leadingWhitespaceLengthForSurroundingLines st.bufferRow) ' ' := by
  unfold emitEmptyRowGuides
  rw [if_pos ⟨hline, hguides⟩]
  dsimp only
  have h0 : GuideProgress dl.tabLength
      (dl.leadingWhitespaceLengthForSurroundingLines st.bufferRow)
      { st with currentTokenFlags := 0, currentTokenLength := 0 } :=
    ⟨by dsimp only; omega, by simp [htext, hcol], Or.inl ⟨hcol, htc, rfl, rfl⟩⟩
  obtain ⟨hp, hc⟩ := guideProgress_loop dl _ htab
    (dl.leadingWhitespaceLengthForSurroundingLines st.bufferRow - st.screenColumn)
    { st with currentTokenFlags := 0, currentTokenLength := 0 } h0 (Nat.le_refl _)
  generalize emptyRowGuides dl _ _ _ = r at hp hc ⊢
  obtain ⟨_, hrt, hcase⟩ := hp
  rcases hcase with ⟨hz, _, _, _⟩ | ⟨done, hlo, hhi, hrc, hrl, hrf⟩
  · omega
  · have hne : INDENT_GUIDE ≠ 0 := by decide
    rw [hc] at hlo hhi hrl hrt
    have hpos : r.currentTokenLength > 0 := by rw [hrl]; exact Nat.sub_pos_of_lt hlo
    have e1 : onlyIf (r.currentTokenLength > 0)
        (fun st => pushTagCode (TagCode.len st.currentTokenLength) st) r =
        pushTagCode (TagCode.len r.currentTokenLength) r := onlyIf_pos _ _ hpos
    rw [e1]
    have e2 : onlyIf ((pushTagCode (TagCode.len r.currentTokenLength) r).currentTokenFlags ≠ 0)
        (fun st => pushTagCode (TagCode.closeTag (getBasicTag st.currentTokenFlags)) st)
        (pushTagCode (TagCode.len r.currentTokenLength) r) =
        pushTagCode (TagCode.closeTag (getBasicTag r.currentTokenFlags))
          (pushTagCode (TagCode.len r.currentTokenLength) r) :=
      onlyIf_pos _ _ (by simp [pushTagCode, hrf, hne])
    rw [e2]
    refine ⟨?_, ?_⟩
    · simp only [pushTagCode, hrc, hrl, hrf, indentGuide_tag, List.append_assoc,
        List.singleton_append]
      exact indentGuideRuns_of_progress _ _ _ hlo hhi
    · simp only [pushTagCode, hrt]

/-- C9: an empty buffer row with no hunk on it and no end-of-line glyph, rendered with
indent guides on, a positive tab length `t` and a positive surrounding leading-whitespace
width `w`, becomes one screen line whose text is `w` spaces and whose `tagCodes` is the
sequence of indent-guide runs of the specification: one run starting at each multiple of
`t` below `w`, of length `t` or, for the last, `w` minus its start column. For
`w = t = 4` that is one indent-guide run of length 4. -/
theorem emptyRow_indentGuide_runs (dl : DisplayLayer) (st : BuilderState)
    (htab : 0 < dl.tabLength)
    (hrow : dl.lineForRow st.bufferRow = [])
    (hhunks : ∀ h ∈ st.hunks, h.oldStart.row ≠ st.bufferRow)
    (heol : dl.eolInvisibles (dl.lineEndingForRow st.bufferRow) = [])
    (hguides : dl.showIndentGuides = true)
    (hw : 0 < dl.leadingWhitespaceLengthForSurroundingLines st.bufferRow) :
    (∃ st', rowStep dl st = some st' ∧
      st'.screenLines = st.screenLines ++
        [{ id := st.nextScreenLineId,
           lineText :=
             List.replicate (dl.leadingWhitespaceLengthForSurroundingLines st.bufferRow) ' ',
           tagCodes := indentGuideRuns dl.tabLength
             (dl.leadingWhitespaceLengthForSurroundingLines st.bufferRow) }]) ∧
    indentGuideRuns 4 4 =
      [TagCode.openTag "indent-guide".toList, TagCode.len 4,
       TagCode.closeTag "indent-guide".toList] := by
  refine ⟨?_, by decide⟩
  obtain ⟨st', hst'⟩ := rowStep_isSome dl st
  refine ⟨st', hst', ?_⟩
  obtain ⟨s, hs, rfl⟩ := rowStep_eq_some dl st st' hst'
  have hno : NoHunkHere (startRow dl st) := noHunkHere_of_row_ne _ hhunks
  have hb := beginColumn_noHunk dl (startRow dl st) hno
  have hf := classifyCharacter_fields dl (shiftTokenFlags (startRow dl st))
  generalize classifyCharacter dl (shiftTokenFlags (startRow dl st)) = c at hb hf
  simp only [startRow, shiftTokenFlags, hrow] at hf
  have hcp : closePreviousToken c = c := by
    unfold closePreviousToken
    rw [if_neg (by rw [hf.2.2.2.2.1]; simp)]
  rw [hcp] at hb
  have hbreak : columnStep dl (startRow dl st) = (endOfRow dl c, true) := by
    unfold columnStep
    dsimp only
    rw [hb, if_pos (by rw [hf.2.2.2.2.2.1, hf.2.2.2.2.2.2.1]; rfl)]
  have hend : (endOfRow dl c).tagCodes = indentGuideRuns dl.tabLength
        (dl.leadingWhitespaceLengthForSurroundingLines st.bufferRow) ∧
      (endOfRow dl c).screenLineText =
        List.replicate (dl.leadingWhitespaceLengthForSurroundingLines st.bufferRow) ' ' := by
    unfold endOfRow
    dsimp only
    have h1 : onlyIf (c.currentTokenLength > 0)
        (fun st => emitCloseTag (getBasicTag st.previousTokenFlags) st) c = c :=
      onlyIf_neg _ _ (by rw [hf.2.1]; simp)
    rw [h1]
    have he : emitEolInvisible dl c = c := by
      unfold emitEolInvisible
      dsimp only
      rw [if_neg (by rw [hf.2.2.2.2.2.2.2.2.2.2.1]; simp [heol])]
    rw [he]
    have hr := emitEmptyRowGuides_runs dl c htab (by rw [hf.2.2.2.2.2.1]; rfl) hguides
      hf.2.2.2.1 hf.1 hf.2.2.1 (by rw [hf.2.2.2.2.2.2.2.2.2.1]; exact hw)
    rw [hf.2.2.2.2.2.2.2.2.2.1] at hr
    have hne : ¬ (emitEmptyRowGuides dl c).tagCodes.length = 0 := by
      rw [hr.1]
      obtain ⟨done, h1, h2⟩ : ∃ done, done * dl.tabLength <
          dl.leadingWhitespaceLengthForSurroundingLines st.bufferRow ∧
          dl.leadingWhitespaceLengthForSurroundingLines st.bufferRow ≤
            (done + 1) * dl.tabLength := by
        refine ⟨(dl.leadingWhitespaceLengthForSurroundingLines st.bufferRow - 1) /
          dl.tabLength, ?_, ?_⟩
        · have := Nat.div_mul_le_self
            (dl.leadingWhitespaceLengthForSurroundingLines st.bufferRow - 1) dl.tabLength
          omega
        · have := Nat.lt_mul_div_succ
            (dl.leadingWhitespaceLengthForSurroundingLines st.bufferRow - 1) htab
          rw [Nat.mul_comm] at this
          omega
      rw [← indentGuideRuns_of_progress _ _ done h1 h2]
      simp
    have e3 : onlyIf ((emitEmptyRowGuides dl c).tagCodes.length = 0)
        (pushTagCode (TagCode.len 0)) (emitEmptyRowGuides dl c) = emitEmptyRowGuides dl c :=
      onlyIf_neg _ _ hne
    rw [e3]
    exact hr
  have key : s.screenLineText =
        List.replicate (dl.leadingWhitespaceLengthForSurroundingLines st.bufferRow) ' ' ∧
      s.tagCodes = indentGuideRuns dl.tabLength
        (dl.leadingWhitespaceLengthForSurroundingLines st.bufferRow) ∧
      s.screenLines = st.screenLines ∧ s.nextScreenLineId = st.nextScreenLineId := by
    refine columnLoop_induct (P := fun x => x = startRow dl st)
      (Q := fun x => x.screenLineText =
          List.replicate (dl.leadingWhitespaceLengthForSurroundingLines st.bufferRow) ' ' ∧
        x.tagCodes = indentGuideRuns dl.tabLength
          (dl.leadingWhitespaceLengthForSurroundingLines st.bufferRow) ∧
        x.screenLines = st.screenLines ∧ x.nextScreenLineId = st.nextScreenLineId) dl
      ?_ ?_ ?_ _ _ s rfl hs
    · intro x hx _ hcont
      subst hx
      rw [hbreak] at hcont
      simp at hcont
    · intro x hx _ _
      subst hx
      rw [hbreak]
      dsimp only
      have hr := renderOnly_fields (renderOnly_endOfRow dl (renderOnly_refl c))
      refine ⟨hend.2, hend.1, ?_, ?_⟩
      · rw [hr.1, hf.2.2.2.2.2.2.2.1]
      · rw [hr.2.1, hf.2.2.2.2.2.2.2.2.2.2.2.1]
    · intro x hx hn
      subst hx
      exact absurd (Nat.zero_le _) hn
  simp [pushScreenLine, key.1, key.2.1, key.2.2.1, key.2.2.2]

theorem emptyRow_indentGuide_runs_witness :
    (0 < guidedEmptyRowLayer.tabLength ∧
      guidedEmptyRowLayer.leadingWhitespaceLengthForSurroundingLines
        (initialState guidedEmptyRowLayer 1 0 1).bufferRow = 4) ∧
    ∃ st', rowStep guidedEmptyRowLayer (initialState guidedEmptyRowLayer 1 0 1) = some st' ∧
      st'.screenLines = (initialState guidedEmptyRowLayer 1 0 1).screenLines ++
        [{ id := (initialState guidedEmptyRowLayer 1 0 1).nextScreenLineId,
           lineText := List.replicate
             (guidedEmptyRowLayer.leadingWhitespaceLengthForSurroundingLines
               (initialState guidedEmptyRowLayer 1 0 1).bufferRow) ' ',
           tagCodes := indentGuideRuns guidedEmptyRowLayer.tabLength
             (guidedEmptyRowLayer.leadingWhitespaceLengthForSurroundingLines
               (initialState guidedEmptyRowLayer 1 0 1).bufferRow) }] :=
  ⟨by decide, (emptyRow_indentGuide_runs guidedEmptyRowLayer
    (initialState guidedEmptyRowLayer 1 0 1) (by decide) (by decide) (by decide) (by decide)
    (by decide) (by decide)).1⟩

theorem noFoldCodes_nil : NoFoldCodes [] := by simp [NoFoldCodes]

theorem noFoldCodes_append {a b : List TagCode} (ha : NoFoldCodes a) (hb : NoFoldCodes b) :
    NoFoldCodes (a ++ b) := by
  unfold NoFoldCodes at *
  simp only [List.mem_append, not_or]
  exact ⟨⟨ha.1, hb.1⟩, ⟨ha.2, hb.2⟩⟩

theorem noFoldCodes_runCodes (n : Nat) : NoFoldCodes (runCodes n) := by
  unfold NoFoldCodes runCodes
  split <;> simp

theorem plainFlags_tag (flags : Nat) (h : PlainFlags flags) :
    getBasicTag flags ≠ foldMarkerTag := by
  rcases h with h | h | h | h <;> subst h <;> decide

theorem noFoldCodes_closeCodes (flags : Nat) (h : PlainFlags flags) :
    NoFoldCodes (closeCodes (getBasicTag flags)) := by
  have := (plainFlags_tag flags h).symm
  unfold NoFoldCodes closeCodes
  split <;> simp [this]

theorem noFoldCodes_openCodes (flags : Nat) (h : PlainFlags flags) :
    NoFoldCodes (openCodes (getBasicTag flags)) := by
  have := (plainFlags_tag flags h).symm
  unfold NoFoldCodes openCodes
  split <;> simp [this]

theorem noFoldCodes_ite (p : Prop) [Decidable p] (a : List TagCode) (h : NoFoldCodes a) :
    NoFoldCodes (if p then a else []) := by
  split
  · exact h
  · exact noFoldCodes_nil

theorem foldTag_eq : getBasicTag FOLD = foldMarkerTag := by decide

theorem plainFlags_ne_fold (flags : Nat) (h : PlainFlags flags) : flags ≠ FOLD := by
  rcases h with h | h | h | h <;> subst h <;> decide

/-- With space invisibles and indent guides off, a character that is not a tab gets plain
flags and forces no token boundary. -/
theorem classifyCharacter_plain (dl : DisplayLayer) (st : BuilderState)
    (hflags : st.currentTokenFlags = 0)
    (hchar : st.bufferLine[st.bufferColumn]? ≠ some '\t')
    (hspace : dl.invisibles.space = []) (hguides : dl.showIndentGuides = false) :
    PlainFlags (classifyCharacter dl st).currentTokenFlags ∧
      (classifyCharacter dl st).forceTokenBoundary = false := by
  unfold classifyCharacter
  dsimp only
  split
  · rename_i hws
    have hsp : st.bufferLine[st.bufferColumn]? = some ' ' := by
      rcases hws with h | h
      · exact h
      · exact absurd h hchar
    rw [if_pos hsp, hguides]
    simp only [Bool.false_and, Bool.false_eq_true, if_false]
    unfold onlyIf orFlags PlainFlags
    simp only [hspace, ne_eq, not_true_eq_false, and_false, if_false]
    split <;> split <;> split <;> simp_all
  · unfold onlyIf PlainFlags
    split <;> simp [hflags]

/-- What a pass of the column loop does with a character that is not a tab when no hunk
starts at the position and invisibles and indent guides are off. -/
theorem columnStep_plain (dl : DisplayLayer) (st : BuilderState)
    (hno : NoHunkHere st) (hcol : st.bufferColumn < st.bufferLine.length)
    (hchar : st.bufferLine[st.bufferColumn]? ≠ some '\t')
    (hflags : PlainFlags st.currentTokenFlags)
    (hspace : dl.invisibles.space = []) (hguides : dl.showIndentGuides = false)
    (hsum : SumInv st) :
    (columnStep dl st).2 = false ∧
    (columnStep dl st).1.bufferRow = st.bufferRow ∧
    (columnStep dl st).1.bufferLine = st.bufferLine ∧
    (columnStep dl st).1.bufferColumn = st.bufferColumn + 1 ∧
    (columnStep dl st).1.screenLineText =
      st.screenLineText ++ [st.bufferLine[st.bufferColumn]] ∧
    (∃ extra, (columnStep dl st).1.tagCodes = st.tagCodes ++ extra ∧ NoFoldCodes extra) ∧
    SumInv (columnStep dl st).1 ∧
    PlainFlags (columnStep dl st).1.currentTokenFlags ∧
    (columnStep dl st).1.hunks = skipHunks st.bufferRow st.hunks ∧
    (columnStep dl st).1.screenLines = st.screenLines ∧
    (columnStep dl st).1.nextScreenLineId = st.nextScreenLineId := by
  have hb := beginColumn_noHunk dl st hno
  have hf := classifyCharacter_fields dl (shiftTokenFlags st)
  have hp := classifyCharacter_plain dl (shiftTokenFlags st) rfl hchar hspace hguides
  generalize classifyCharacter dl (shiftTokenFlags st) = c at hb hf hp
  simp only [shiftTokenFlags] at hf
  obtain ⟨hf1, hf2, hf3, hf4, hf5, hf6, hf7, hf8, hf9, hf10, hf11, hf12, hf13⟩ := hf
  have hsome : st.bufferLine[st.bufferColumn]? = some (st.bufferLine[st.bufferColumn]) :=
    List.getElem?_eq_getElem hcol
  have hsc : SumInv c := by
    unfold SumInv at hsum ⊢
    rw [hf1, hf2, hf3]
    exact hsum
  have hso := sumInv_openCurrentToken _ (sumInv_closePreviousToken c hsc)
  unfold columnStep
  dsimp only
  rw [hb, if_neg (by rw [closePreviousToken_eq]; dsimp only; rw [hf6, hf7]; omega)]
  dsimp only
  generalize ho : openCurrentToken (closePreviousToken c) = o at hso
  have hoe : o = { c with
      tagCodes := c.tagCodes ++
        (if c.previousTokenFlags > 0 ∧ c.currentTokenFlags ≠ c.previousTokenFlags then
          runCodes c.currentTokenLength ++ closeCodes (getBasicTag c.previousTokenFlags)
         else []) ++
        (if c.currentTokenFlags > 0 ∧ c.currentTokenFlags ≠ c.previousTokenFlags then
          runCodes (if c.previousTokenFlags > 0 ∧ c.currentTokenFlags ≠ c.previousTokenFlags
            then 0 else c.currentTokenLength) ++ openCodes (getBasicTag c.currentTokenFlags)
         else []),
      currentTokenLength :=
        if c.currentTokenFlags > 0 ∧ c.currentTokenFlags ≠ c.previousTokenFlags then 0
        else if c.previousTokenFlags > 0 ∧ c.currentTokenFlags ≠ c.previousTokenFlags
          then 0 else c.currentTokenLength } := by
    rw [← ho, openCurrentToken_eq, closePreviousToken_eq]
    simp [hp.2]
  have hextra : NoFoldCodes
      ((if c.previousTokenFlags > 0 ∧ c.currentTokenFlags ≠ c.previousTokenFlags then
          runCodes c.currentTokenLength ++ closeCodes (getBasicTag c.previousTokenFlags)
         else []) ++
        (if c.currentTokenFlags > 0 ∧ c.currentTokenFlags ≠ c.previousTokenFlags then
          runCodes (if c.previousTokenFlags > 0 ∧ c.currentTokenFlags ≠ c.previousTokenFlags
            then 0 else c.currentTokenLength) ++ openCodes (getBasicTag c.currentTokenFlags)
         else [])) := by
    apply noFoldCodes_append
    · split
      · exact noFoldCodes_append (noFoldCodes_runCodes _)
          (noFoldCodes_closeCodes _ (by rw [hf5]; exact hflags))
      · exact noFoldCodes_nil
    · split
      · exact noFoldCodes_append (noFoldCodes_runCodes _) (noFoldCodes_openCodes _ hp.1)
      · exact noFoldCodes_nil
  have hline : o.bufferLine = st.bufferLine := by rw [hoe]; exact hf6
  have hbc : o.bufferColumn = st.bufferColumn := by rw [hoe]; exact hf7
  have hne : o.bufferLine[o.bufferColumn]? ≠ some '\t' := by rw [hline, hbc]; exact hchar
  have hef := emitCharacter_fields dl o
  have het := emitCharacter_tagCodes dl o
  have hec : emitCharacter dl o =
      { emitPlainCharacter dl o.bufferLine[o.bufferColumn]? o with
        bufferColumn := o.bufferColumn + 1 } := by
    unfold emitCharacter
    dsimp only
    rw [if_neg hne]
    have := (renderOnly_fields (renderOnly_emitPlainCharacter dl
      o.bufferLine[o.bufferColumn]? (renderOnly_refl o))).2.2.2.2.2.2.2.2.1
    rw [this]
  have hpl : (emitPlainCharacter dl o.bufferLine[o.bufferColumn]? o).screenLineText =
        o.screenLineText ++ [st.bufferLine[st.bufferColumn]] ∧
      (emitPlainCharacter dl o.bufferLine[o.bufferColumn]? o).currentTokenLength =
        o.currentTokenLength + 1 ∧
      (emitPlainCharacter dl o.bufferLine[o.bufferColumn]? o).tagCodes = o.tagCodes := by
    unfold emitPlainCharacter
    dsimp only
    rw [if_neg (by simp [hspace])]
    simp only [appendText, hline, hbc, hsome, characterText, and_self]
  refine ⟨rfl, ?_, ?_, ?_, ?_, ⟨_, ?_, hextra⟩, ?_, ?_, ?_, ?_, ?_⟩
  · rw [hef.2.2.2.1, hoe]; exact hf10
  · rw [hef.2.2.2.2.2.2.1, hline]
  · rw [hef.2.2.2.2.2.2.2.2.1, hbc]
  · rw [hec]; dsimp only; rw [hpl.1, hoe]; dsimp only; rw [hf3]
  · rw [het, hoe]; dsimp only; rw [hf1, List.append_assoc]
  · unfold SumInv at hso ⊢
    rw [hec]
    dsimp only
    rw [hpl.1, hpl.2.1, hpl.2.2, List.length_append, List.length_singleton]
    omega
  · rw [hef.2.2.2.2.2.2.2.2.2.2, hoe]; exact hp.1
  · rw [hef.2.2.2.2.1, hoe]; exact hf9
  · rw [hef.1, hoe]; exact hf8
  · rw [hef.2.1, hoe]; exact hf12

/-- The second half of a pass of the column loop for a character that is not a tab, with
space invisibles off and no forced boundary: the token of the character is opened when its
plain flags differ from the previous ones, and the character is copied. -/
theorem finishColumn_plain (dl : DisplayLayer) (b : BuilderState)
    (hcol : b.bufferColumn < b.bufferLine.length)
    (hchar : b.bufferLine[b.bufferColumn]? ≠ some '\t')
    (hflags : PlainFlags b.currentTokenFlags) (hforce : b.forceTokenBoundary = false)
    (hspace : dl.invisibles.space = []) (hsum : SumInv b) :
    (emitCharacter dl (openCurrentToken b)).bufferRow = b.bufferRow ∧
    (emitCharacter dl (openCurrentToken b)).bufferLine = b.bufferLine ∧
    (emitCharacter dl (openCurrentToken b)).bufferColumn = b.bufferColumn + 1 ∧
    (emitCharacter dl (openCurrentToken b)).screenLineText =
      b.screenLineText ++ [b.bufferLine[b.bufferColumn]] ∧
    (∃ extra, (emitCharacter dl (openCurrentToken b)).tagCodes = b.tagCodes ++ extra ∧
      NoFoldCodes extra) ∧
    SumInv (emitCharacter dl (openCurrentToken b)) ∧
    (emitCharacter dl (openCurrentToken b)).currentTokenFlags = b.currentTokenFlags ∧
    (emitCharacter dl (openCurrentToken b)).hunks = b.hunks ∧
    (emitCharacter dl (openCurrentToken b)).screenLines = b.screenLines ∧
    (emitCharacter dl (openCurrentToken b)).nextScreenLineId = b.nextScreenLineId := by
  have hsome : b.bufferLine[b.bufferColumn]? = some (b.bufferLine[b.bufferColumn]) :=
    List.getElem?_eq_getElem hcol
  have hso := sumInv_openCurrentToken b hsum
  generalize ho : openCurrentToken b = o at hso
  have hoe : o = { b with
      tagCodes := b.tagCodes ++
        (if b.currentTokenFlags > 0 ∧ b.currentTokenFlags ≠ b.previousTokenFlags then
          runCodes b.currentTokenLength ++ openCodes (getBasicTag b.currentTokenFlags)
         else []),
      currentTokenLength :=
        if b.currentTokenFlags > 0 ∧ b.currentTokenFlags ≠ b.previousTokenFlags then 0
        else b.currentTokenLength } := by
    rw [← ho, openCurrentToken_eq]
    simp [hforce]
  have hextra : NoFoldCodes
      (if b.currentTokenFlags > 0 ∧ b.currentTokenFlags ≠ b.previousTokenFlags then
          runCodes b.currentTokenLength ++ openCodes (getBasicTag b.currentTokenFlags)
         else []) := by
    split
    · exact noFoldCodes_append (noFoldCodes_runCodes _) (noFoldCodes_openCodes _ hflags)
    · exact noFoldCodes_nil
  have hline : o.bufferLine = b.bufferLine := by rw [hoe]
  have hbc : o.bufferColumn = b.bufferColumn := by rw [hoe]
  have hne : o.bufferLine[o.bufferColumn]? ≠ some '\t' := by rw [hline, hbc]; exact hchar
  have hef := emitCharacter_fields dl o
  have het := emitCharacter_tagCodes dl o
  have hec : emitCharacter dl o =
      { emitPlainCharacter dl o.bufferLine[o.bufferColumn]? o with
        bufferColumn := o.bufferColumn + 1 } := by
    unfold emitCharacter
    dsimp only
    rw [if_neg hne]
    have := (renderOnly_fields (renderOnly_emitPlainCharacter dl
      o.bufferLine[o.bufferColumn]? (renderOnly_refl o))).2.2.2.2.2.2.2.2.1
    rw [this]
  have hpl : (emitPlainCharacter dl o.bufferLine[o.bufferColumn]? o).screenLineText =
        o.screenLineText ++ [b.bufferLine[b.bufferColumn]] ∧
      (emitPlainCharacter dl o.bufferLine[o.bufferColumn]? o).currentTokenLength =
        o.currentTokenLength + 1 ∧
      (emitPlainCharacter dl o.bufferLine[o.bufferColumn]? o).tagCodes = o.tagCodes := by
    unfold emitPlainCharacter
    dsimp only
    rw [if_neg (by simp [hspace])]
    simp only [appendText, hline, hbc, hsome, characterText, and_self]
  refine ⟨?_, ?_, ?_, ?_, ⟨_, ?_, hextra⟩, ?_, ?_, ?_, ?_, ?_⟩
  · rw [hef.2.2.2.1, hoe]
  · rw [hef.2.2.2.2.2.2.1, hline]
  · rw [hef.2.2.2.2.2.2.2.2.1, hbc]
  · rw [hec]; dsimp only; rw [hpl.1, hoe]
  · rw [het, hoe]
  · unfold SumInv at hso ⊢
    rw [hec]
    dsimp only
    rw [hpl.1, hpl.2.1, hpl.2.2, List.length_append, List.length_singleton]
    omega
  · rw [hef.2.2.2.2.2.2.2.2.2.2, hoe]
  · rw [hef.2.2.2.2.1, hoe]
  · rw [hef.1, hoe]
  · rw [hef.2.1, hoe]

/-- What the pass of the column loop that reaches the end of the buffer row does when no
hunk starts there and end-of-line glyphs and indent guides are off. -/
theorem columnStep_end (dl : DisplayLayer) (st : BuilderState)
    (hno : NoHunkHere st) (hcol : st.bufferColumn = st.bufferLine.length)
    (hflags : PlainFlags st.currentTokenFlags)
    (heol : ∀ e, dl.eolInvisibles e = []) (hguides : dl.showIndentGuides = false) :
    (columnStep dl st).2 = true ∧
    (columnStep dl st).1.bufferRow = st.bufferRow ∧
    (columnStep dl st).1.screenLineText = st.screenLineText ∧
    (∃ extra, (columnStep dl st).1.tagCodes = st.tagCodes ++ extra ∧ NoFoldCodes extra) ∧
    (columnStep dl st).1.screenLines = st.screenLines ∧
    (columnStep dl st).1.nextScreenLineId = st.nextScreenLineId := by
  have hb := beginColumn_noHunk dl st hno
  have hf := classifyCharacter_fields dl (shiftTokenFlags st)
  have hnone : (shiftTokenFlags st).bufferLine[(shiftTokenFlags st).bufferColumn]? = none :=
    List.getElem?_eq_none (by simp only [shiftTokenFlags]; omega)
  have hz := classifyCharacter_none dl (shiftTokenFlags st) hnone
  have hfo := classifyCharacter_none_force dl (shiftTokenFlags st) hnone
  generalize classifyCharacter dl (shiftTokenFlags st) = c at hb hf hz hfo
  simp only [shiftTokenFlags] at hf hz
  obtain ⟨hf1, hf2, hf3, hf4, hf5, hf6, hf7, hf8, hf9, hf10, hf11, hf12, hf13⟩ := hf
  unfold columnStep
  dsimp only
  rw [hb, if_pos (by rw [closePreviousToken_eq]; dsimp only; rw [hf6, hf7]; exact hcol)]
  dsimp only
  have hr := renderOnly_fields (renderOnly_endOfRow dl
    (renderOnly_closePreviousToken (renderOnly_refl c)))
  have he := endOfRow_plain dl (closePreviousToken c) (heol _) (Or.inl hguides)
  refine ⟨rfl, ?_, ?_, ?_, ?_, ?_⟩
  · rw [hr.2.2.2.1, hf10]
  · rw [he.1, closePreviousToken_eq]; exact hf3
  · rw [he.2]
    rw [closePreviousToken_eq]
    dsimp only
    rw [hf1, hf5]
    have hA : NoFoldCodes (if st.currentTokenFlags > 0 ∧
          (c.currentTokenFlags ≠ st.currentTokenFlags ∨ c.forceTokenBoundary = true) then
        runCodes c.currentTokenLength ++ closeCodes (getBasicTag st.currentTokenFlags)
        else []) := by
      split
      · exact noFoldCodes_append (noFoldCodes_runCodes _) (noFoldCodes_closeCodes _ hflags)
      · exact noFoldCodes_nil
    generalize (if st.currentTokenFlags > 0 ∧
          (c.currentTokenFlags ≠ st.currentTokenFlags ∨ c.forceTokenBoundary = true) then
        runCodes c.currentTokenLength ++ closeCodes (getBasicTag st.currentTokenFlags)
        else []) = A at hA
    have hB : NoFoldCodes (if (if st.currentTokenFlags > 0 ∧
          (c.currentTokenFlags ≠ st.currentTokenFlags ∨ c.forceTokenBoundary = true) then 0
          else c.currentTokenLength) > 0 then
        runCodes (if st.currentTokenFlags > 0 ∧
          (c.currentTokenFlags ≠ st.currentTokenFlags ∨ c.forceTokenBoundary = true) then 0
          else c.currentTokenLength) ++ closeCodes (getBasicTag st.currentTokenFlags)
        else []) :=
      noFoldCodes_ite _ _
        (noFoldCodes_append (noFoldCodes_runCodes _) (noFoldCodes_closeCodes _ hflags))
    generalize (if (if st.currentTokenFlags > 0 ∧
          (c.currentTokenFlags ≠ st.currentTokenFlags ∨ c.forceTokenBoundary = true) then 0
          else c.currentTokenLength) > 0 then
        runCodes (if st.currentTokenFlags > 0 ∧
          (c.currentTokenFlags ≠ st.currentTokenFlags ∨ c.forceTokenBoundary = true) then 0
          else c.currentTokenLength) ++ closeCodes (getBasicTag st.currentTokenFlags)
        else []) = B at hB
    split
    · rename_i hzero
      have hnil := List.length_eq_zero.mp hzero
      simp only [List.append_eq_nil] at hnil
      refine ⟨[TagCode.len 0], by rw [hnil.1.1]; rfl, ?_⟩
      simp [NoFoldCodes]
    · exact ⟨A ++ B, by rw [List.append_assoc], noFoldCodes_append hA hB⟩
  · rw [hr.1, hf8]
  · rw [hr.2.1, hf12]

theorem foldCodes_eq :
    openCodes (getBasicTag FOLD) = [TagCode.openTag foldMarkerTag] ∧
    closeCodes (getBasicTag FOLD) = [TagCode.closeTag foldMarkerTag] := by decide

/-- The first half of the pass of the column loop at which a fold starts, when nothing
else starts where the fold lands and the character there is not a tab. -/
theorem beginColumn_fold (dl : DisplayLayer) (st : BuilderState) (hk : Hunk)
    (rest : List Hunk)
    (hskip : skipHunks st.bufferRow st.hunks = hk :: rest)
    (hrow : hk.oldStart.row = st.bufferRow) (hcolumn : hk.oldStart.column = st.bufferColumn)
    (hfold : hk.newText = dl.foldCharacter)
    (hrest : ∀ h ∈ rest, h.oldStart.row ≠ hk.oldEnd.row)
    (hchar : (dl.lineForRow hk.oldEnd.row)[hk.oldEnd.column]? ≠ some '\t')
    (hflags : PlainFlags st.currentTokenFlags)
    (hspace : dl.invisibles.space = []) (hguides : dl.showIndentGuides = false) :
    (beginColumn dl st).bufferRow = hk.oldEnd.row ∧
    (beginColumn dl st).bufferLine = dl.lineForRow hk.oldEnd.row ∧
    (beginColumn dl st).bufferColumn = hk.oldEnd.column ∧
    (beginColumn dl st).screenLineText = st.screenLineText ++ dl.foldCharacter ∧
    (∃ pre, (beginColumn dl st).tagCodes = st.tagCodes ++ pre ++
        [TagCode.openTag foldMarkerTag] ++ runCodes dl.foldCharacter.length ++
        [TagCode.closeTag foldMarkerTag] ∧
      sumRuns pre = st.currentTokenLength ∧ NoFoldCodes pre) ∧
    (beginColumn dl st).currentTokenLength = 0 ∧
    PlainFlags (beginColumn dl st).currentTokenFlags ∧
    (beginColumn dl st).forceTokenBoundary = false ∧
    (beginColumn dl st).previousTokenFlags = FOLD ∧
    (beginColumn dl st).hunks = rest ∧
    (beginColumn dl st).screenLines = st.screenLines ∧
    (beginColumn dl st).nextScreenLineId = st.nextScreenLineId ∧
    (beginColumn dl st).lineEnding = st.lineEnding := by
  have hf := applyFold_fields dl hk
    { st with previousTokenFlags := st.currentTokenFlags, currentTokenFlags := 0 }
  have hfn : (applyFold dl hk
      { st with previousTokenFlags := st.currentTokenFlags,
                currentTokenFlags := 0 }).nextScreenLineId = st.nextScreenLineId := hf.2.1
  have hb : beginColumn dl st = closePreviousToken (classifyCharacter dl
      { applyFold dl hk
          { st with previousTokenFlags := st.currentTokenFlags, currentTokenFlags := 0 } with
        hunks := rest }) := by
    unfold beginColumn
    dsimp only
    rw [hskip]
    unfold drainHunks
    rw [if_pos ⟨hrow, hcolumn⟩]
    unfold applyHunk
    rw [if_pos hfold]
    rw [drainHunks_of_head dl rest _ (fun y hy hc => by
      rw [hf.2.2.2.1] at hc
      exact hrest y (List.mem_of_mem_head? hy) hc.1)]
  generalize applyFold dl hk
    { st with previousTokenFlags := st.currentTokenFlags, currentTokenFlags := 0 } = y
    at hf hfn hb
  dsimp only at hf
  obtain ⟨y1, _, _, y4, y5, y6, y7, y8, y9, y10, y11, _, _, y14⟩ := hf
  have hcf := classifyCharacter_fields dl { y with hunks := rest }
  have hcp := classifyCharacter_plain dl { y with hunks := rest } y9
    (by dsimp only; rw [y6, y5]; exact hchar) hspace hguides
  generalize classifyCharacter dl { y with hunks := rest } = c at hb hcf hcp
  dsimp only at hcf
  obtain ⟨c1, c2, c3, _, c5, c6, c7, c8, c9, c10, c11, c12, _⟩ := hcf
  have hne := plainFlags_ne_fold _ hcp.1
  have hcl : closePreviousToken c = emitCloseTag (getBasicTag c.previousTokenFlags) c := by
    unfold closePreviousToken
    rw [if_pos ⟨by rw [c5, y8]; decide, Or.inl (by rw [c5, y8]; exact hne)⟩]
  rw [hb, hcl, emitCloseTag_eq]
  dsimp only
  refine ⟨by rw [c10, y4], by rw [c6, y6], by rw [c7, y5], by rw [c3, y11], ?_, rfl, hcp.1,
    hcp.2, by rw [c5, y8], c9, by rw [c8, y1], by rw [c12, hfn], by rw [c11, y7]⟩
  refine ⟨runCodes st.currentTokenLength ++
    (if st.currentTokenFlags > 0 then closeCodes (getBasicTag st.currentTokenFlags) else []),
    ?_, ?_, ?_⟩
  · rw [c1, c2, c5, y14, y10, y8, foldCodes_eq.1, foldCodes_eq.2]
    simp only [List.append_assoc]
  · rw [sumRuns_append, sumRuns_runCodes]
    split <;> simp
  · exact noFoldCodes_append (noFoldCodes_runCodes _)
      (noFoldCodes_ite _ _ (noFoldCodes_closeCodes _ hflags))

theorem skipHunks_cons_self (row : Nat) (hk : Hunk) (rest : List Hunk)
    (h : hk.oldStart.row = row) : skipHunks row (hk :: rest) = hk :: rest := by
  unfold skipHunks
  rw [List.dropWhile_cons, if_neg (by simp [h])]

theorem getElem?_ne_tab (text : List Char) (index : Nat) (h : '\t' ∉ text) :
    text[index]? ≠ some '\t' := by
  intro hc
  exact h (List.getElem?_mem hc)

theorem getElem?_ne_tab_of_drop (text : List Char) (i j : Nat) (hij : i ≤ j)
    (h : '\t' ∉ text.drop i) : text[j]? ≠ some '\t' := by
  intro hc
  apply h
  have : (text.drop i)[j - i]? = some '\t' := by
    rw [List.getElem?_drop]
    rw [Nat.add_sub_cancel' hij]
    exact hc
  exact List.getElem?_mem this

theorem foldShape_append {n a : Nat} {codes extra : List TagCode}
    (h : FoldShape n a codes) (he : NoFoldCodes extra) : FoldShape n a (codes ++ extra) := by
  obtain ⟨pre, post, hc, hs, h1, h2⟩ := h
  exact ⟨pre, post ++ extra, by rw [hc]; simp only [List.append_assoc], hs, h1,
    noFoldCodes_append h2 he⟩

/-- C10 (amended): a buffer row whose only hunk is a fold hunk from column `a` of the row
to column `b` of row `r2`, where the row has no tabs, the part of row `r2` from column `b`
on has no tabs, no further hunk starts on row `r2`, and space invisibles, end-of-line
glyphs and indent guides are off: the row is rendered as one screen line whose text is the
first `a` characters of the row, the fold character and the characters of row `r2` from
column `b` on; its `tagCodes` holds exactly one fold-marker run, which starts at screen
column `a` and has the length of the fold character; and the row loop goes on with buffer
row `r2 + 1`. -/
theorem fold_renders_one_marker_run (dl : DisplayLayer) (st : BuilderState) (hk : Hunk)
    (rest : List Hunk)
    (hskip : skipHunks st.bufferRow st.hunks = hk :: rest)
    (hrow : hk.oldStart.row = st.bufferRow)
    (hfold : hk.newText = dl.foldCharacter)
    (hstart : hk.oldStart.column ≤ (dl.lineForRow st.bufferRow).length)
    (hend : hk.oldEnd.column ≤ (dl.lineForRow hk.oldEnd.row).length)
    (hrest : ∀ h ∈ rest, h.oldStart.row ≠ hk.oldEnd.row)
    (htabs : '\t' ∉ dl.lineForRow st.bufferRow)
    (htabs2 : '\t' ∉ (dl.lineForRow hk.oldEnd.row).drop hk.oldEnd.column)
    (hspace : dl.invisibles.space = [])
    (heol : ∀ e, dl.eolInvisibles e = [])
    (hguides : dl.showIndentGuides = false) :
    ∃ st' pre post, rowStep dl st = some st' ∧
      st'.bufferRow = hk.oldEnd.row + 1 ∧
      st'.screenLines = st.screenLines ++
        [{ id := st.nextScreenLineId,
           lineText := (dl.lineForRow st.bufferRow).take hk.oldStart.column ++
             dl.foldCharacter ++ (dl.lineForRow hk.oldEnd.row).drop hk.oldEnd.column,
           tagCodes := pre ++ [TagCode.openTag foldMarkerTag] ++
             runCodes dl.foldCharacter.length ++ [TagCode.closeTag foldMarkerTag] ++ post }] ∧
      sumRuns pre = hk.oldStart.column ∧ NoFoldCodes pre ∧ NoFoldCodes post := by
  obtain ⟨st', hst'⟩ := rowStep_isSome dl st
  obtain ⟨s, hs, rfl⟩ := rowStep_eq_some dl st st' hst'
  have hinit : FoldBefore dl st hk rest (startRow dl st) ∨ FoldAfter dl st hk (startRow dl st) :=
    Or.inl ⟨rfl, rfl, Nat.zero_le _, rfl, noFoldCodes_nil, by simp [SumInv, startRow],
      Or.inl rfl, hskip, rfl, rfl⟩
  have hstepB : ∀ x, FoldBefore dl st hk rest x → x.bufferColumn < hk.oldStart.column →
      (columnStep dl x).2 = false ∧ FoldBefore dl st hk rest (columnStep dl x).1 := by
    intro x ⟨b1, b2, b3, b4, b5, b6, b7, b8, b9, b10⟩ hlt
    have hno : NoHunkHere x := by
      intro y hy hc
      rw [b1, b8] at hy
      simp only [List.head?_cons, Option.some.injEq] at hy
      subst hy
      omega
    have hp := columnStep_plain dl x hno (by rw [b2]; omega)
      (by rw [b2]; exact getElem?_ne_tab _ _ htabs) b7 hspace hguides b6
    obtain ⟨p1, p2, p3, p4, p5, ⟨extra, p6, p6'⟩, p7, p8, p9, p10, p11⟩ := hp
    refine ⟨p1, by rw [p2, b1], by rw [p3, b2], by rw [p4]; omega, ?_, ?_, p7, p8, ?_,
      by rw [p10, b9], by rw [p11, b10]⟩
    · rw [p5, p4, b4, List.take_succ]
      have hlt2 : x.bufferColumn < (dl.lineForRow st.bufferRow).length := by omega
      simp only [b2, List.getElem?_eq_getElem hlt2, Option.toList]
    · rw [p6]; exact noFoldCodes_append b5 p6'
    · rw [p9, b1, b8]; exact skipHunks_cons_self _ _ _ hrow
  have hstepA : ∀ x, FoldAfter dl st hk x →
      x.bufferColumn < (dl.lineForRow hk.oldEnd.row).length →
      (columnStep dl x).2 = false ∧ FoldAfter dl st hk (columnStep dl x).1 := by
    intro x ⟨a1, a2, a3, a4, a5, a6, a7, a8, a9, a10, a11⟩ hlt
    have hno : NoHunkHere x := by
      intro y hy hc
      exact a9 y (skipHunks_head_row _ _ y hy).1 (by rw [hc.1, a1])
    have hp := columnStep_plain dl x hno (by rw [a2]; exact hlt)
      (by rw [a2]; exact getElem?_ne_tab_of_drop _ _ _ a3 htabs2) a8 hspace hguides a7
    obtain ⟨p1, p2, p3, p4, p5, ⟨extra, p6, p6'⟩, p7, p8, p9, p10, p11⟩ := hp
    refine ⟨p1, by rw [p2, a1], by rw [p3, a2], by rw [p4]; omega, by rw [p4]; omega, ?_,
      ?_, p7, p8, ?_, by rw [p10, a10], by rw [p11, a11]⟩
    · rw [p5, p4, a5, List.take_succ, List.drop_append_of_le_length
        (by rw [List.length_take]; omega)]
      simp only [a2, List.getElem?_eq_getElem hlt, Option.toList, List.append_assoc]
    · rw [p6]; exact foldShape_append a6 p6'
    · intro y hy
      rw [p9] at hy
      exact a9 y (List.dropWhile_subset _ hy)
  have hendA : ∀ x, FoldAfter dl st hk x →
      x.bufferColumn = (dl.lineForRow hk.oldEnd.row).length →
      (columnStep dl x).2 = true ∧ FoldDone dl st hk (columnStep dl x).1 := by
    intro x ⟨a1, a2, a3, a4, a5, a6, a7, a8, a9, a10, a11⟩ heq
    have hno : NoHunkHere x := by
      intro y hy hc
      exact a9 y (skipHunks_head_row _ _ y hy).1 (by rw [hc.1, a1])
    obtain ⟨e1, e2, e3, ⟨extra, e4, e4'⟩, e5, e6⟩ :=
      columnStep_end dl x hno (by rw [a2]; exact heq) a8 heol hguides
    refine ⟨e1, by rw [e2, a1], ?_, by rw [e4]; exact foldShape_append a6 e4',
      by rw [e5, a10], by rw [e6, a11]⟩
    rw [e3, a5, heq, List.take_length]
  have hfoldStep : ∀ x, FoldBefore dl st hk rest x → x.bufferColumn = hk.oldStart.column →
      ((columnStep dl x).2 = false → FoldAfter dl st hk (columnStep dl x).1) ∧
      ((columnStep dl x).2 = true → FoldDone dl st hk (columnStep dl x).1) := by
    intro x ⟨b1, b2, b3, b4, b5, b6, b7, b8, b9, b10⟩ heq
    have hb := beginColumn_fold dl x hk rest (by rw [b1]; exact b8) (by rw [b1]; exact hrow)
      heq.symm hfold hrest (getElem?_ne_tab_of_drop _ _ _ (Nat.le_refl _) htabs2) b7
      hspace hguides
    obtain ⟨f1, f2, f3, f4, ⟨pre, f5, f5s, f5n⟩, f6, f7, f8, f9, f10, f11, f12, f13⟩ := hb
    have hshape : FoldShape dl.foldCharacter.length hk.oldStart.column
        (beginColumn dl x).tagCodes := by
      refine ⟨x.tagCodes ++ pre, [], by rw [f5]; simp only [List.append_nil], ?_,
        noFoldCodes_append b5 f5n, noFoldCodes_nil⟩
      unfold SumInv at b6
      rw [sumRuns_append, f5s, b6, b4, List.length_take, heq]
      omega
    have hsumB : SumInv (beginColumn dl x) := by
      unfold SumInv at b6 ⊢
      rw [f5, f6, f4]
      simp only [sumRuns_append, sumRuns_runCodes, sumRuns, List.length_append, f5s]
      omega
    unfold columnStep
    dsimp only
    by_cases hlast : (beginColumn dl x).bufferColumn = (beginColumn dl x).bufferLine.length
    · rw [if_pos hlast]
      refine ⟨fun h => by simp at h, fun _ => ?_⟩
      dsimp only
      have hr := renderOnly_fields (renderOnly_endOfRow dl (renderOnly_refl (beginColumn dl x)))
      have he := endOfRow_plain dl (beginColumn dl x) (heol _) (Or.inl hguides)
      rw [f6] at he
      simp only [gt_iff_lt, Nat.lt_irrefl, if_false, List.append_nil] at he
      have hne : ¬ (beginColumn dl x).tagCodes.length = 0 := by
        rw [f5]; simp
      rw [if_neg hne] at he
      refine ⟨by rw [hr.2.2.2.1, f1], ?_, by rw [he.2]; exact hshape, by rw [hr.1, f11, b9],
        by rw [hr.2.1, f12, b10]⟩
      rw [he.1, f4, b4, heq]
      rw [f3, f2] at hlast
      rw [List.drop_eq_nil_of_le (by omega)]
      simp
    · rw [if_neg hlast]
      refine ⟨fun _ => ?_, fun h => by simp at h⟩
      dsimp only
      rw [f3, f2] at hlast
      have hfin := finishColumn_plain dl (beginColumn dl x) (by rw [f3, f2]; omega)
        (by rw [f3, f2]; exact getElem?_ne_tab_of_drop _ _ _ (Nat.le_refl _) htabs2)
        f7 f8 hspace hsumB
      obtain ⟨g1, g2, g3, g4, ⟨extra, g5, g5'⟩, g6, g7, g8, g9, g10⟩ := hfin
      have hlt : hk.oldEnd.column < (dl.lineForRow hk.oldEnd.row).length := by omega
      refine ⟨by rw [g1, f1], by rw [g2, f2], by rw [g3, f3]; omega, by rw [g3, f3]; omega,
        ?_, by rw [g5]; exact foldShape_append hshape g5', g6, by rw [g7]; exact f7, ?_,
        by rw [g9, f11, b9], by rw [g10, f12, b10]⟩
      · have hone : List.drop hk.oldEnd.column
            (List.take (hk.oldEnd.column + 1) (dl.lineForRow hk.oldEnd.row)) =
            [(dl.lineForRow hk.oldEnd.row)[hk.oldEnd.column]] := by
          rw [List.take_succ, List.drop_append_of_le_length (by rw [List.length_take]; omega),
            List.drop_eq_nil_of_le (by rw [List.length_take]; omega),
            List.getElem?_eq_getElem hlt]
          rfl
        rw [g4, g3, f4, b4, heq]
        simp only [f3, f2]
        rw [hone]
      · rw [g8, f10]; exact hrest
  have hdone : FoldDone dl st hk s := by
    refine columnLoop_induct
      (P := fun x => FoldBefore dl st hk rest x ∨ FoldAfter dl st hk x)
      (Q := FoldDone dl st hk) dl ?_ ?_ ?_ _ _ s hinit hs
    · intro x hx _ hcont
      rcases hx with hB | hA
      · by_cases hlt : x.bufferColumn < hk.oldStart.column
        · exact Or.inl (hstepB x hB hlt).2
        · exact Or.inr ((hfoldStep x hB (by have := hB.2.2.1; omega)).1 hcont)
      · by_cases hlt : x.bufferColumn < (dl.lineForRow hk.oldEnd.row).length
        · exact Or.inr (hstepA x hA hlt).2
        · have := (hendA x hA (by have := hA.2.2.2.1; omega)).1
          rw [this] at hcont
          simp at hcont
    · intro x hx _ hbreak
      rcases hx with hB | hA
      · by_cases hlt : x.bufferColumn < hk.oldStart.column
        · have := (hstepB x hB hlt).1
          rw [this] at hbreak
          simp at hbreak
        · exact (hfoldStep x hB (by have := hB.2.2.1; omega)).2 hbreak
      · by_cases hlt : x.bufferColumn < (dl.lineForRow hk.oldEnd.row).length
        · have := (hstepA x hA hlt).1
          rw [this] at hbreak
          simp at hbreak
        · exact (hendA x hA (by have := hA.2.2.2.1; omega)).2
    · intro x hx hn
      rcases hx with hB | hA
      · have h1 := hB.2.1
        have h2 := hB.2.2.1
        rw [h1] at hn
        omega
      · have h1 := hA.2.1
        have h2 := hA.2.2.2.1
        rw [h1] at hn
        omega
  obtain ⟨d1, d2, ⟨pre, post, d3, d4, d5, d6⟩, d7, d8⟩ := hdone
  refine ⟨_, pre, post, hst', ?_, ?_, d4, d5, d6⟩
  · simp [pushScreenLine, d1]
  · simp [pushScreenLine, d2, d3, d7, d8]

theorem fold_renders_one_marker_run_witness :
    skipHunks (initialState foldedRowLayer 1 0 2).bufferRow
        (initialState foldedRowLayer 1 0 2).hunks = [foldedRowHunk] ∧
    ∃ st' pre post, rowStep foldedRowLayer (initialState foldedRowLayer 1 0 2) = some st' ∧
      st'.bufferRow = foldedRowHunk.oldEnd.row + 1 ∧
      st'.screenLines = (initialState foldedRowLayer 1 0 2).screenLines ++
        [{ id := (initialState foldedRowLayer 1 0 2).nextScreenLineId,
           lineText :=
             (foldedRowLayer.lineForRow (initialState foldedRowLayer 1 0 2).bufferRow).take
                 foldedRowHunk.oldStart.column ++
               foldedRowLayer.foldCharacter ++
               (foldedRowLayer.lineForRow foldedRowHunk.oldEnd.row).drop
                 foldedRowHunk.oldEnd.column,
           tagCodes := pre ++ [TagCode.openTag foldMarkerTag] ++
             runCodes foldedRowLayer.foldCharacter.length ++
             [TagCode.closeTag foldMarkerTag] ++ post }] ∧
      sumRuns pre = foldedRowHunk.oldStart.column ∧ NoFoldCodes pre ∧ NoFoldCodes post :=
  ⟨by decide, fold_renders_one_marker_run foldedRowLayer (initialState foldedRowLayer 1 0 2)
    foldedRowHunk [] (by decide) (by decide) (by decide) (by decide) (by decide)
    (by simp) (by decide) (by decide) (by decide) (fun _ => rfl) (by decide)⟩

/-- C10 (as stated): a fold hunk from column 3 of row 0 to column 1 of row 1 is the only
hunk, row 0 holds no tab, and invisibles, end-of-line glyphs and indent guides are off;
the tab of row 1 that follows the fold is expanded to four spaces, so the text of the
screen line is not the first 3 characters of row 0, the fold character and the
characters of row 1 from column 1 on. -/
theorem fold_onto_tab_row_expands_tab :
    '\t' ∉ foldOntoTabLayer.lineForRow 0 ∧
    foldOntoTabLayer.getHunksInNewRange ⟨0, 0⟩ ⟨1, 0⟩ =
      [{ oldStart := ⟨0, 3⟩, oldEnd := ⟨1, 1⟩, newStart := ⟨0, 3⟩, newEnd := ⟨0, 4⟩,
         newText := foldOntoTabLayer.foldCharacter }] ∧
    foldOntoTabLayer.invisibles.space = [] ∧ foldOntoTabLayer.invisibles.tab = [] ∧
    foldOntoTabLayer.eolInvisibles (foldOntoTabLayer.lineEndingForRow 0) = [] ∧
    foldOntoTabLayer.eolInvisibles (foldOntoTabLayer.lineEndingForRow 1) = [] ∧
    foldOntoTabLayer.showIndentGuides = false ∧
    buildScreenLines foldOntoTabLayer 1 0 1 =
      some ([{ id := 1,
               lineText := ['a', 'b', 'c', '⋯', ' ', ' ', ' ', ' ', 'y'],
               tagCodes := [TagCode.len 3, TagCode.openTag foldMarkerTag, TagCode.len 1,
                 TagCode.closeTag foldMarkerTag, TagCode.openTag "hard-tab".toList,
                 TagCode.len 4, TagCode.closeTag "hard-tab".toList, TagCode.len 1] }], 2) ∧
    (foldOntoTabLayer.lineForRow 0).take 3 ++ foldOntoTabLayer.foldCharacter ++
        (foldOntoTabLayer.lineForRow 1).drop 1 = ['a', 'b', 'c', '⋯', '\t', 'y'] := by
  decide

theorem cacheSound_get (cache : BasicTagCache) (flags : Nat) (tag : List Char)
    (h : CacheSound cache) (hget : cache.get flags = some tag) :
    tag = computeBasicTag flags := by
  unfold BasicTagCache.get at hget
  cases hf : cache.find? (fun e => e.1 == flags) with
  | none => rw [hf] at hget; simp at hget
  | some e =>
    rw [hf] at hget
    simp only [Option.map, Option.some.injEq] at hget
    have hmem := List.mem_of_find?_eq_some hf
    have hkey := List.find?_some hf
    simp only [beq_iff_eq] at hkey
    rw [← hget, h e hmem, hkey]

theorem getBasicTagCached_fst (cache : BasicTagCache) (flags : Nat) (h : CacheSound cache) :
    (getBasicTagCached cache flags).1 = getBasicTag flags ∧
      CacheSound (getBasicTagCached cache flags).2 := by
  unfold getBasicTagCached getBasicTag
  split
  · next c cs hget =>
    exact ⟨cacheSound_get cache flags _ h hget, h⟩
  · refine ⟨rfl, ?_⟩
    intro e he
    rcases List.mem_cons.mp he with rfl | he
    · rfl
    · exact h e he

theorem colInv_applyHunk (dl : DisplayLayer) (hk : Hunk) (st : BuilderState) (h : ColInv st) :
    ColInv (applyHunk dl hk st) := by
  unfold applyHunk
  split
  · have hf := applyFold_fields dl hk st
    unfold ColInv at h ⊢
    rw [hf.2.2.2.2.2.2.2.2.2.2.1, hf.2.2.2.2.2.2.2.2.2.2.2.1, List.length_append, h]
  · split
    · unfold applySoftWrap
      simp only []
      split
      · rename_i hg
        have hc := softWrapGuides_screenColumn dl hk.newEnd.column hk.newEnd.column
          { ({ pushScreenLine { emitCloseTag (getBasicTag st.previousTokenFlags) st with
                previousTokenFlags := 0 } with
              screenLineText := List.replicate hk.newEnd.column ' ', tagCodes := [] } :
              BuilderState) with screenColumn := 0 } (Nat.zero_le _) (by simp)
        unfold ColInv
        simp only [emitCloseTag_eq] at hc ⊢
        rw [hc.1, hc.2]
        simp
      · simp [ColInv]
    · exact h

theorem colState_drainHunks (dl : DisplayLayer) (hs : List Hunk) (st : BuilderState)
    (h : ColInv st ∧ st.bufferColumn ≤ st.bufferLine.length ∧ ∀ h ∈ hs, FoldInBounds dl h) :
    ColState dl (drainHunks dl hs st) :=
  drainHunks_induct
    (P := fun hs s => ColInv s ∧ s.bufferColumn ≤ s.bufferLine.length ∧
      ∀ h ∈ hs, FoldInBounds dl h)
    (Q := ColState dl) dl
    (fun hk _ s hp _ _ =>
      ⟨colInv_applyHunk dl hk s hp.1,
        applyHunk_inBounds dl hk s (hp.2.2 hk (List.mem_cons_self _ _)) hp.2.1,
        fun x hx => hp.2.2 x (List.mem_cons_of_mem _ hx)⟩)
    (fun _ _ hp => hp) hs st h

theorem colState_beginColumn (dl : DisplayLayer) (st : BuilderState) (h : ColState dl st) :
    ColState dl (beginColumn dl st) := by
  have hd := colState_drainHunks dl (skipHunks st.bufferRow st.hunks)
    { st with previousTokenFlags := st.currentTokenFlags, currentTokenFlags := 0 }
    ⟨h.1, h.2.1, fun x hx => h.2.2 x (List.dropWhile_subset _ hx)⟩
  unfold beginColumn
  simp only []
  generalize drainHunks dl (skipHunks st.bufferRow st.hunks)
    { st with previousTokenFlags := st.currentTokenFlags, currentTokenFlags := 0 } = s at hd ⊢
  have hc := classifyCharacter_fields dl s
  unfold ColState ColInv at hd ⊢
  rw [closePreviousToken_eq]
  simp only []
  rw [hc.2.2.1, hc.2.2.2.1, hc.2.2.2.2.2.1, hc.2.2.2.2.2.2.1, hc.2.2.2.2.2.2.2.2.1]
  exact hd

theorem colInv_emitCharacter (dl : DisplayLayer) (st : BuilderState) (hg : GlyphsOk dl)
    (h : ColInv st) (hcol : st.bufferColumn < st.bufferLine.length) :
    ColInv (emitCharacter dl st) := by
  obtain ⟨ht, hsp, htb⟩ := hg
  have hsome : st.bufferLine[st.bufferColumn]? = some (st.bufferLine[st.bufferColumn]) :=
    List.getElem?_eq_getElem hcol
  have hmod := Nat.mod_lt st.screenColumn ht
  unfold emitCharacter
  simp only []
  split
  · unfold emitTab ColInv at *
    simp only []
    split
    · rename_i hne
      have : dl.invisibles.tab.length = 1 := by
        have := List.length_pos.mpr hne
        omega
      simp only [appendText, List.length_append, List.length_replicate]
      omega
    · simp only [appendText, List.length_append, List.length_replicate]
      omega
  · unfold emitPlainCharacter ColInv at *
    simp only []
    split
    · rename_i hne
      have : dl.invisibles.space.length = 1 := by
        have := List.length_pos.mpr hne.2.2
        omega
      simp only [appendText, List.length_append]
      omega
    · rw [hsome]
      simp only [appendText, characterText, List.length_append, List.length_singleton]
      omega

/-- The column loop starts a row with `ColState`. -/
theorem colState_startRow (dl : DisplayLayer) (st : BuilderState)
    (h : ∀ x ∈ st.hunks, FoldInBounds dl x) : ColState dl (startRow dl st) :=
  ⟨rfl, Nat.zero_le _, h⟩

/-- Where the column loop renders a character, the screen column is the length of the
text rendered so far; a pass of the loop that renders a character keeps `ColState`. -/
theorem colState_columnStep (dl : DisplayLayer) (st : BuilderState) (hg : GlyphsOk dl)
    (h : ColState dl st) (hcont : (columnStep dl st).2 = false) :
    ColInv (openCurrentToken (beginColumn dl st)) ∧ ColState dl (columnStep dl st).1 := by
  have hb := colState_beginColumn dl st h
  obtain ⟨ht, hsp, htb⟩ := hg
  unfold columnStep at hcont ⊢
  simp only [] at hcont ⊢
  split at hcont
  · simp at hcont
  · rename_i hne
    rw [if_neg hne]
    simp only []
    generalize beginColumn dl st = b at hb hne
    obtain ⟨h1, h2, h3⟩ := hb
    have ho : ColInv (openCurrentToken b) := by
      unfold ColInv at h1 ⊢
      rw [openCurrentToken_eq]
      exact h1
    have hlt : b.bufferColumn < b.bufferLine.length := by omega
    have hf := emitCharacter_fields dl (openCurrentToken b)
    refine ⟨ho, ?_, ?_, ?_⟩
    · exact colInv_emitCharacter dl (openCurrentToken b) ⟨ht, hsp, htb⟩ ho
        (by rw [openCurrentToken_eq]; exact hlt)
    · rw [hf.2.2.2.2.2.2.1, hf.2.2.2.2.2.2.2.2.1, openCurrentToken_eq]
      simp only []
      omega
    · rw [hf.2.2.2.2.1, openCurrentToken_eq]; exact h3

theorem computeBasicTag_eq_spec (flags : Nat) : computeBasicTag flags = basicTagSpec flags := by
  unfold computeBasicTag basicTagSpec tagNames
  by_cases h1 : flags &&& INVISIBLE_CHARACTER = 0 <;>
  by_cases h2 : flags &&& HARD_TAB = 0 <;>
  by_cases h3 : flags &&& LEADING_WHITESPACE = 0 <;>
  by_cases h4 : flags &&& TRAILING_WHITESPACE = 0 <;>
  by_cases h5 : flags &&& LINE_ENDING = 0 <;>
  by_cases h6 : flags &&& INDENT_GUIDE = 0 <;>
  by_cases h7 : flags &&& FOLD = 0 <;>
  simp only [h1, h2, h3, h4, h5, h6, h7, ne_eq, not_true_eq_false, not_false_eq_true,
    if_true, if_false] <;>
  decide

theorem cacheSound_foldl (calls : List Nat) :
    ∀ cache, CacheSound cache →
      CacheSound (calls.foldl (fun cache flags => (getBasicTagCached cache flags).2) cache) := by
  induction calls with
  | nil => intro cache h; exact h
  | cons flags rest ih =>
    intro cache h
    exact ih _ (getBasicTagCached_fst cache flags h).2

theorem cacheSound_cacheAfter (calls : List Nat) : CacheSound (cacheAfter calls) :=
  cacheSound_foldl calls [] (fun _ h => absurd h (List.not_mem_nil _))

set_option maxRecDepth 100000 in
theorem flagsOfTag_computeBasicTag :
    ∀ flags, flags < 254 → flags &&& definedFlags = flags →
      flagsOfTag (computeBasicTag flags) = flags := by
  decide

/-- C12: `getBasicTag` is a function of its flags alone. Whatever calls came before (the
cache they leave is the argument), the call returns the tag of the specification: the
names of the set flags in the fixed order invisible-character, hard-tab,
leading-whitespace, trailing-whitespace, eol, indent-guide, fold-marker, joined by single
spaces. After a call with flags 0 the cache holds the empty string for 0, and the tag is
computed again. Two flag sets over the seven defined bits with the same tag are equal. -/
theorem getBasicTag_is_fixed_order_join :
    (∀ calls flags,
      (getBasicTagCached (cacheAfter calls) flags).1 = basicTagSpec flags) ∧
    (∀ flags, getBasicTag flags = basicTagSpec flags) ∧
    ((cacheAfter [0]).get 0 = some [] ∧
      (getBasicTagCached (cacheAfter [0]) 0).1 = []) ∧
    (∀ calls1 calls2 flags1 flags2,
      flags1 &&& definedFlags = flags1 → flags2 &&& definedFlags = flags2 →
      (getBasicTagCached (cacheAfter calls1) flags1).1 =
        (getBasicTagCached (cacheAfter calls2) flags2).1 →
      flags1 = flags2) := by
  have hspec : ∀ calls flags,
      (getBasicTagCached (cacheAfter calls) flags).1 = computeBasicTag flags :=
    fun calls flags => (getBasicTagCached_fst _ flags (cacheSound_cacheAfter calls)).1
  refine ⟨fun calls flags => ?_, fun flags => computeBasicTag_eq_spec flags, by decide, ?_⟩
  · rw [hspec, computeBasicTag_eq_spec]
  · intro calls1 calls2 flags1 flags2 h1 h2 heq
    rw [hspec, hspec] at heq
    have b1 : flags1 < 254 := by
      have := @Nat.and_le_right flags1 definedFlags
      rw [h1] at this
      exact Nat.lt_of_le_of_lt this (by decide)
    have b2 : flags2 < 254 := by
      have := @Nat.and_le_right flags2 definedFlags
      rw [h2] at this
      exact Nat.lt_of_le_of_lt this (by decide)
    rw [← flagsOfTag_computeBasicTag flags1 b1 h1, ← flagsOfTag_computeBasicTag flags2 b2 h2,
      heq]

theorem getBasicTag_is_fixed_order_join_witness :
    (getBasicTagCached (cacheAfter [48, 0]) 48).1 = basicTagSpec 48 ∧
    (48 &&& definedFlags = 48 ∧
      (getBasicTagCached (cacheAfter []) 48).1 = (getBasicTagCached (cacheAfter [48, 0]) 48).1) ∧
    48 = 48 :=
  ⟨getBasicTag_is_fixed_order_join.1 [48, 0] 48, by decide,
    getBasicTag_is_fixed_order_join.2.2.2 [] [48, 0] 48 48 (by decide) (by decide) (by decide)⟩

theorem onlyIf_orFlags_mk (c : Prop) [Decidable c] (bit : Nat) (st : BuilderState) :
    onlyIf c (orFlags bit) st =
      { st with currentTokenFlags := if c then st.currentTokenFlags ||| bit
          else st.currentTokenFlags } := by
  unfold onlyIf orFlags
  split <;> rfl

theorem classifyCharacter_space (dl : DisplayLayer) (b s1 : BuilderState)
    (hc : b.bufferLine[b.bufferColumn]? = some ' ')
    (h1 : onlyIf (b.bufferColumn ≥ b.trailingWhitespaceStartColumn)
      (fun st => { st with inTrailingWhitespace := true, inLeadingWhitespace := false })
      { b with forceTokenBoundary := false } = s1)
    (hflags : s1.currentTokenFlags = 0) (hforce : s1.forceTokenBoundary = false) :
    classifyCharacter dl b =
      { s1 with
        forceTokenBoundary :=
          (cellOf dl s1.trailingWhitespaceStartColumn s1.screenColumn
            s1.inLeadingWhitespace s1.inTrailingWhitespace ' ').force,
        currentTokenFlags :=
          (cellOf dl s1.trailingWhitespaceStartColumn s1.screenColumn
            s1.inLeadingWhitespace s1.inTrailingWhitespace ' ').flags } := by
  unfold classifyCharacter
  simp only [h1, hc, true_or, if_true]
  simp only [onlyIf_orFlags_mk, hflags]
  unfold cellOf onlyIf orFlags
  simp only [if_true]
  split
  · split <;> simp_all
  · simp_all

theorem classifyCharacter_tab (dl : DisplayLayer) (b s1 : BuilderState)
    (hc : b.bufferLine[b.bufferColumn]? = some '\t')
    (h1 : onlyIf (b.bufferColumn ≥ b.trailingWhitespaceStartColumn)
      (fun st => { st with inTrailingWhitespace := true, inLeadingWhitespace := false })
      { b with forceTokenBoundary := false } = s1)
    (hflags : s1.currentTokenFlags = 0) :
    classifyCharacter dl b =
      { s1 with
        forceTokenBoundary :=
          (cellOf dl s1.trailingWhitespaceStartColumn s1.screenColumn
            s1.inLeadingWhitespace s1.inTrailingWhitespace '\t').force,
        currentTokenFlags :=
          (cellOf dl s1.trailingWhitespaceStartColumn s1.screenColumn
            s1.inLeadingWhitespace s1.inTrailingWhitespace '\t').flags } := by
  have hne : ¬ (some '\t' = some ' ') := by decide
  have hne2 : ¬ ('\t' = ' ') := by decide
  unfold classifyCharacter
  simp only [h1, hc, or_true, if_true, if_neg hne]
  simp only [onlyIf_orFlags_mk, hflags]
  unfold cellOf orFlags
  simp only [if_true, if_neg hne2, onlyIf_orFlags_mk]

theorem classifyCharacter_other (dl : DisplayLayer) (b s1 : BuilderState) (c : Char)
    (hc : b.bufferLine[b.bufferColumn]? = some c) (hsp : c ≠ ' ') (htab : c ≠ '\t')
    (h1 : onlyIf (b.bufferColumn ≥ b.trailingWhitespaceStartColumn)
      (fun st => { st with inTrailingWhitespace := true, inLeadingWhitespace := false })
      { b with forceTokenBoundary := false } = s1) :
    classifyCharacter dl b = { s1 with inLeadingWhitespace := false } := by
  unfold classifyCharacter
  simp only [h1, hc, Option.some.injEq, hsp, htab, or_self, if_false]

theorem classifyCharacter_cell (dl : DisplayLayer) (x : BuilderState) (c : Char)
    (hc : x.bufferLine[x.bufferColumn]? = some c)
    (htr : x.inTrailingWhitespace = true →
      x.trailingWhitespaceStartColumn ≤ x.bufferColumn) :
    classifyCharacter dl (shiftTokenFlags x) =
      { shiftTokenFlags x with
        forceTokenBoundary :=
          (cellOf dl x.trailingWhitespaceStartColumn x.screenColumn
            (x.inLeadingWhitespace && !decide (x.trailingWhitespaceStartColumn ≤ x.bufferColumn))
            (decide (x.trailingWhitespaceStartColumn ≤ x.bufferColumn)) c).force,
        currentTokenFlags :=
          (cellOf dl x.trailingWhitespaceStartColumn x.screenColumn
            (x.inLeadingWhitespace && !decide (x.trailingWhitespaceStartColumn ≤ x.bufferColumn))
            (decide (x.trailingWhitespaceStartColumn ≤ x.bufferColumn)) c).flags,
        inLeadingWhitespace :=
          (x.inLeadingWhitespace && !decide (x.trailingWhitespaceStartColumn ≤ x.bufferColumn))
            && isBlank c,
        inTrailingWhitespace := decide (x.trailingWhitespaceStartColumn ≤ x.bufferColumn) } := by
  have h1 : onlyIf ((shiftTokenFlags x).bufferColumn ≥
        (shiftTokenFlags x).trailingWhitespaceStartColumn)
      (fun st => { st with inTrailingWhitespace := true, inLeadingWhitespace := false })
      { shiftTokenFlags x with forceTokenBoundary := false } =
      { shiftTokenFlags x with
        forceTokenBoundary := false,
        inLeadingWhitespace :=
          x.inLeadingWhitespace && !decide (x.trailingWhitespaceStartColumn ≤ x.bufferColumn),
        inTrailingWhitespace := decide (x.trailingWhitespaceStartColumn ≤ x.bufferColumn) } := by
    unfold onlyIf shiftTokenFlags
    by_cases hle : x.trailingWhitespaceStartColumn ≤ x.bufferColumn
    · simp [hle]
    · have : x.inTrailingWhitespace = false := by
        cases h : x.inTrailingWhitespace
        · rfl
        · exact absurd (htr h) hle
      simp [hle, this]
  by_cases hsp : c = ' '
  · subst hsp
    rw [classifyCharacter_space dl (shiftTokenFlags x) _ hc h1 rfl rfl]
    simp [isBlank, shiftTokenFlags]
  · by_cases htab : c = '\t'
    · subst htab
      rw [classifyCharacter_tab dl (shiftTokenFlags x) _ hc h1 rfl]
      simp [isBlank, shiftTokenFlags]
    · rw [classifyCharacter_other dl (shiftTokenFlags x) _ c hc hsp htab h1]
      simp [cellOf, isBlank, hsp, htab, shiftTokenFlags]

/-- Rendering the next character, in terms of its cell. -/
theorem emitCharacter_cell (dl : DisplayLayer) (o : BuilderState) (c : Char) (tws : Nat)
    (hc : o.bufferLine[o.bufferColumn]? = some c) :
    emitCharacter dl o =
      { o with
        screenLineText := o.screenLineText ++
          (cellOf dl tws o.screenColumn o.inLeadingWhitespace o.inTrailingWhitespace c).glyphs,
        screenColumn := o.screenColumn +
          (cellOf dl tws o.screenColumn o.inLeadingWhitespace o.inTrailingWhitespace c).width,
        currentTokenLength := (if c = '\t' then 0 else o.currentTokenLength) +
          (cellOf dl tws o.screenColumn o.inLeadingWhitespace o.inTrailingWhitespace c).width,
        bufferColumn := o.bufferColumn + 1 } := by
  unfold emitCharacter
  dsimp only
  rw [hc]
  by_cases htab : c = '\t'
  · subst htab
    have hne : ¬ ('\t' = ' ') := by decide
    rw [if_pos rfl]
    unfold emitTab cellOf appendText
    simp only [if_neg hne, if_true]
    split <;> simp
  · rw [if_neg (by simpa using htab)]
    unfold emitPlainCharacter cellOf appendText characterText
    by_cases hsp : c = ' '
    · subst hsp
      simp only [if_true, true_and]
      split <;> simp
    · simp [hsp, htab]

theorem cellOf_render (dl : DisplayLayer) (tws sc : Nat) (lead trailing : Bool) (c : Char) :
    (cellOf dl tws sc (lead && isBlank c) trailing c).glyphs =
      (cellOf dl tws sc lead trailing c).glyphs ∧
    (cellOf dl tws sc (lead && isBlank c) trailing c).width =
      (cellOf dl tws sc lead trailing c).width ∧
    (c = '\t' → (cellOf dl tws sc lead trailing c).force = true) := by
  unfold cellOf isBlank
  by_cases hsp : c = ' '
  · subst hsp
    simp
  · by_cases htab : c = '\t'
    · subst htab
      simp
    · simp [hsp, htab]

/-- One pass of the column loop over a character at which no hunk starts, in terms of the
cell of the character: the token of the previous character goes on when the flags are the
same and no boundary is forced, and is closed and a new one opened otherwise. -/
theorem columnStep_cell (dl : DisplayLayer) (x : BuilderState) (c : Char)
    (hno : NoHunkHere x) (hc : x.bufferLine[x.bufferColumn]? = some c)
    (htr : x.inTrailingWhitespace = true →
      x.trailingWhitespaceStartColumn ≤ x.bufferColumn)
    (cell : Cell)
    (hcell : cell = cellOf dl x.trailingWhitespaceStartColumn x.screenColumn
      (x.inLeadingWhitespace && !decide (x.trailingWhitespaceStartColumn ≤ x.bufferColumn))
      (decide (x.trailingWhitespaceStartColumn ≤ x.bufferColumn)) c) :
    columnStep dl x =
      ({ x with
          previousTokenFlags := x.currentTokenFlags,
          hunks := skipHunks x.bufferRow x.hunks,
          forceTokenBoundary := cell.force,
          currentTokenFlags := cell.flags,
          inLeadingWhitespace :=
            (x.inLeadingWhitespace &&
              !decide (x.trailingWhitespaceStartColumn ≤ x.bufferColumn)) && isBlank c,
          inTrailingWhitespace := decide (x.trailingWhitespaceStartColumn ≤ x.bufferColumn),
          tagCodes := x.tagCodes ++
            (if cell.flags = x.currentTokenFlags ∧ cell.force = false then []
             else runCodes x.currentTokenLength ++ closeCodes (getBasicTag x.currentTokenFlags)
               ++ openCodes (getBasicTag cell.flags)),
          currentTokenLength :=
            (if cell.flags = x.currentTokenFlags ∧ cell.force = false then x.currentTokenLength
             else 0) + cell.width,
          screenLineText := x.screenLineText ++ cell.glyphs,
          screenColumn := x.screenColumn + cell.width,
          bufferColumn := x.bufferColumn + 1 }, false) := by
  have hlt : x.bufferColumn < x.bufferLine.length := by
    by_contra hge
    rw [List.getElem?_eq_none (by omega)] at hc
    exact absurd hc (by simp)
  have hr := cellOf_render dl x.trailingWhitespaceStartColumn x.screenColumn
    (x.inLeadingWhitespace && !decide (x.trailingWhitespaceStartColumn ≤ x.bufferColumn))
    (decide (x.trailingWhitespaceStartColumn ≤ x.bufferColumn)) c
  rw [← hcell] at hr
  unfold columnStep
  dsimp only
  rw [beginColumn_noHunk dl x hno, classifyCharacter_cell dl x c hc htr, ← hcell,
    closePreviousToken_eq]
  dsimp only [shiftTokenFlags]
  rw [if_neg (by omega), openCurrentToken_eq]
  dsimp only
  rw [emitCharacter_cell dl _ c x.trailingWhitespaceStartColumn (by exact hc)]
  dsimp only
  rw [hr.1, hr.2.1]
  obtain ⟨F, f, w, g⟩ := cell
  dsimp only at hr ⊢
  have hzero : getBasicTag 0 = [] := basicTag_zero
  by_cases hF : F = x.currentTokenFlags
  · cases f
    · simp [hF]
      intro htab
      have := hr.2.2 htab
      simp at this
    · by_cases hp : x.currentTokenFlags > 0
      · simp [hF, hp, runCodes]
      · have hz : x.currentTokenFlags = 0 := by omega
        simp [hF, hz, hzero, closeCodes, openCodes, runCodes]
  · by_cases hp : x.currentTokenFlags > 0
    · by_cases hq : F > 0
      · cases f <;> simp [hF, hp, hq, runCodes]
      · have hz : F = 0 := by omega
        subst hz
        cases f
        · simp [hp, hzero, openCodes, runCodes]
          intro htab
          have := hr.2.2 htab
          simp at this
        · simp [hp, hzero, openCodes, runCodes]
    · have hz : x.currentTokenFlags = 0 := by omega
      have hq : F > 0 := by omega
      have hq0 : ¬ F = 0 := by omega
      cases f <;> simp [hF, hz, hq, hq0, hzero, closeCodes, runCodes]

theorem encodeRuns_nil : encodeRuns [] = [] := rfl

theorem encodeRuns_cons (r : Nat × Nat) (rs : List (Nat × Nat)) :
    encodeRuns (r :: rs) = encodeRun r ++ encodeRuns rs := by
  simp [encodeRuns]

theorem encodeRuns_append (a b : List (Nat × Nat)) :
    encodeRuns (a ++ b) = encodeRuns a ++ encodeRuns b := by
  simp [encodeRuns]

theorem groupRuns_ne_nil (flags length : Nat) (cells : List Cell) :
    ∃ n rest, groupRuns flags length cells = (flags, n) :: rest := by
  induction cells generalizing length with
  | nil => exact ⟨length, [], rfl⟩
  | cons c cs ih =>
    unfold groupRuns
    split
    · exact ih _
    · exact ⟨length, _, rfl⟩

/-- A list of runs from `groupRuns` is encoded as the open code of its first run followed
by the codes still to come. -/
theorem encodeRuns_groupRuns (flags length : Nat) (cells : List Cell) :
    encodeRuns (groupRuns flags length cells) =
      openCodes (getBasicTag flags) ++ finishRuns (groupRuns flags length cells) := by
  obtain ⟨n, rest, h⟩ := groupRuns_ne_nil flags length cells
  rw [h, encodeRuns_cons]
  simp [finishRuns, encodeRun]

theorem openCodes_zero : openCodes (getBasicTag 0) = [] := by
  rw [basicTag_zero]; rfl

theorem closeCodes_zero : closeCodes (getBasicTag 0) = [] := by
  rw [basicTag_zero]; rfl

/-- From the start of a row, where no run is in progress, the codes still to come are
the encoding of the runs of the row. -/
theorem finishRuns_start (cells : List Cell) :
    finishRuns (groupRuns 0 0 cells) = encodeRuns (rowRuns cells) := by
  cases cells with
  | nil => simp [groupRuns, finishRuns, rowRuns, encodeRuns, runCodes, closeCodes_zero]
  | cons c cs =>
    unfold groupRuns rowRuns
    split
    · rename_i h
      rw [Nat.zero_add, encodeRuns_groupRuns, h.1, openCodes_zero, List.nil_append]
    · simp [finishRuns, runCodes, closeCodes_zero]

/-- One more cell: the codes pushed before it and the codes still to come after it make
up the codes still to come before it. -/
theorem finishRuns_cons (flags length : Nat) (c : Cell) (cs : List Cell) :
    finishRuns (groupRuns flags length (c :: cs)) =
      (if c.flags = flags ∧ c.force = false then []
       else runCodes length ++ closeCodes (getBasicTag flags) ++
         openCodes (getBasicTag c.flags)) ++
      finishRuns (groupRuns c.flags
        ((if c.flags = flags ∧ c.force = false then length else 0) + c.width) cs) := by
  have e : groupRuns flags length (c :: cs) =
      if c.flags = flags ∧ c.force = false then groupRuns flags (length + c.width) cs
      else (flags, length) :: groupRuns c.flags c.width cs := rfl
  rw [e]
  by_cases h : c.flags = flags ∧ c.force = false
  · rw [if_pos h, if_pos h, if_pos h, List.nil_append, h.1]
  · simp only [if_neg h, Nat.zero_add, finishRuns, encodeRuns_groupRuns, List.append_assoc]

/-- The end-of-line glyph in closed form. -/
theorem emitEolInvisible_eq (dl : DisplayLayer) (e : BuilderState)
    (hg : dl.eolInvisibles e.lineEnding ≠ []) :
    emitEolInvisible dl e =
      { e with
        screenLineText := e.screenLineText ++ dl.eolInvisibles e.lineEnding,
        currentTokenFlags :=
          if e.bufferLine.length = 0 ∧ dl.showIndentGuides = true then
            e.currentTokenFlags ||| (INVISIBLE_CHARACTER ||| LINE_ENDING) ||| INDENT_GUIDE
          else e.currentTokenFlags ||| (INVISIBLE_CHARACTER ||| LINE_ENDING),
        tagCodes := e.tagCodes ++ runCodes e.currentTokenLength ++
          openCodes (getBasicTag
            (if e.bufferLine.length = 0 ∧ dl.showIndentGuides = true then
              e.currentTokenFlags ||| (INVISIBLE_CHARACTER ||| LINE_ENDING) ||| INDENT_GUIDE
            else e.currentTokenFlags ||| (INVISIBLE_CHARACTER ||| LINE_ENDING))) ++
          runCodes (dl.eolInvisibles e.lineEnding).length ++
          closeCodes (getBasicTag
            (if e.bufferLine.length = 0 ∧ dl.showIndentGuides = true then
              e.currentTokenFlags ||| (INVISIBLE_CHARACTER ||| LINE_ENDING) ||| INDENT_GUIDE
            else e.currentTokenFlags ||| (INVISIBLE_CHARACTER ||| LINE_ENDING))),
        currentTokenLength := 0,
        screenColumn := e.screenColumn + (dl.eolInvisibles e.lineEnding).length } := by
  unfold emitEolInvisible
  dsimp only
  rw [if_pos hg]
  unfold onlyIf orFlags appendText
  dsimp only
  split <;> simp [emitCloseTag_eq, emitOpenTag_eq]

/-- The first half of the last pass of the column loop over a row: the token in progress
is closed. -/
theorem beginColumn_atEnd (dl : DisplayLayer) (x : BuilderState)
    (hno : NoHunkHere x) (hnone : x.bufferLine[x.bufferColumn]? = none) :
    (beginColumn dl x).tagCodes = x.tagCodes ++
      (if x.currentTokenFlags > 0 then
        runCodes x.currentTokenLength ++ closeCodes (getBasicTag x.currentTokenFlags)
       else []) ∧
    (beginColumn dl x).currentTokenLength =
      (if x.currentTokenFlags > 0 then 0 else x.currentTokenLength) ∧
    (beginColumn dl x).currentTokenFlags = 0 ∧
    (beginColumn dl x).previousTokenFlags = x.currentTokenFlags ∧
    (beginColumn dl x).screenLineText = x.screenLineText ∧
    (beginColumn dl x).screenColumn = x.screenColumn ∧
    (beginColumn dl x).bufferLine = x.bufferLine ∧
    (beginColumn dl x).bufferColumn = x.bufferColumn ∧
    (beginColumn dl x).bufferRow = x.bufferRow ∧
    (beginColumn dl x).lineEnding = x.lineEnding ∧
    (beginColumn dl x).screenLines = x.screenLines ∧
    (beginColumn dl x).nextScreenLineId = x.nextScreenLineId ∧
    (beginColumn dl x).hunks = skipHunks x.bufferRow x.hunks := by
  have hf := classifyCharacter_fields dl (shiftTokenFlags x)
  have h0 := classifyCharacter_none dl (shiftTokenFlags x) hnone
  have hfo := classifyCharacter_none_force dl (shiftTokenFlags x) hnone
  rw [beginColumn_noHunk dl x hno, closePreviousToken_eq]
  generalize classifyCharacter dl (shiftTokenFlags x) = k at hf h0 hfo
  simp only [shiftTokenFlags] at hf h0
  obtain ⟨f1, f2, f3, f4, f5, f6, f7, f8, f9, f10, f11, f12, f13⟩ := hf
  dsimp only
  rw [f1, f2, f3, f4, f5, f6, f7, f8, f9, f10, f11, f12, h0, hfo]
  refine ⟨?_, ?_, rfl, rfl, rfl, rfl, rfl, rfl, rfl, rfl, rfl, rfl, rfl⟩
  · by_cases hp : x.currentTokenFlags > 0
    · have : 0 ≠ x.currentTokenFlags := by omega
      simp [hp, this]
    · simp [hp]
  · by_cases hp : x.currentTokenFlags > 0
    · have : 0 ≠ x.currentTokenFlags := by omega
      simp [hp, this]
    · simp [hp]

theorem runsLength_append (a b : List (Nat × Nat)) :
    runsLength (a ++ b) = runsLength a + runsLength b := by
  simp [runsLength]

theorem runsLength_cons (r : Nat × Nat) (rs : List (Nat × Nat)) :
    runsLength (r :: rs) = r.2 + runsLength rs := by
  simp [runsLength]

theorem runsLength_single (r : Nat × Nat) : runsLength [r] = r.2 := by
  simp [runsLength]

theorem runsOnTicks_append (t : Nat) (a b : List (Nat × Nat)) :
    ∀ column, RunsOnTicks t column (a ++ b) ↔
      RunsOnTicks t column a ∧ RunsOnTicks t (column + runsLength a) b := by
  induction a with
  | nil => intro column; simp [RunsOnTicks, runsLength]
  | cons r rs ih =>
    intro column
    rw [List.cons_append, runsLength_cons, ← Nat.add_assoc]
    simp only [RunsOnTicks]
    rw [ih, and_assoc]

theorem encodeRun_plain (n : Nat) : encodeRun (0, n) = runCodes n := by
  simp [encodeRun, openCodes_zero, closeCodes_zero]

theorem guideTail_step (dl : DisplayLayer) (start : Nat) (base : List TagCode)
    (baseText : List Char) (st : BuilderState)
    (h : GuideTail dl.tabLength start base baseText st) :
    GuideTail dl.tabLength start base baseText (emptyRowGuidesStep dl st) := by
  obtain ⟨h1, h2, h3, h4, runs, h5, h6, h7, h8⟩ := h
  have hig : INDENT_GUIDE ≠ 0 := by decide
  have hopen : openCodes (getBasicTag INDENT_GUIDE) =
      [TagCode.openTag "indent-guide".toList] := by
    rw [indentGuide_tag]; rfl
  have hclose : closeCodes (getBasicTag INDENT_GUIDE) =
      [TagCode.closeTag (getBasicTag INDENT_GUIDE)] := by
    rw [indentGuide_tag]; rfl
  unfold emptyRowGuidesStep onlyIf
  dsimp only
  by_cases htick : st.screenColumn % dl.tabLength = 0
  · rw [if_pos htick, startEmptyRowGuide_eq]
    unfold GuideTail appendText
    dsimp only
    refine ⟨by omega, ?_, Or.inr rfl, fun _ => ⟨by simpa using htick, by omega⟩, ?_⟩
    · rw [h2, List.append_assoc, ← List.replicate_succ', ← Nat.sub_add_comm h1]
    · rcases h3 with h0 | hg
      · by_cases hp : st.currentTokenLength > 0
        · refine ⟨runs ++ [(0, st.currentTokenLength)], ?_, ?_, ?_, ?_⟩
          · rw [h5, h0, if_neg hig.symm, if_pos rfl, encodeRuns_append, encodeRuns_cons,
              encodeRuns_nil, encodeRun_plain, hopen]
            simp
          · rw [runsOnTicks_append]
            exact ⟨h6, by simp [RunsOnTicks, INDENT_GUIDE]⟩
          · intro r hr
            rcases List.mem_append.mp hr with hr | hr
            · exact h7 r hr
            · simp only [List.mem_singleton] at hr
              subst hr
              exact ⟨Or.inl rfl, hp⟩
          · rw [runsLength_append, runsLength_single]
            dsimp only
            omega
        · have hz : st.currentTokenLength = 0 := by omega
          refine ⟨runs, ?_, h6, h7, by omega⟩
          rw [h5, h0, if_neg hig.symm, if_pos rfl, hz, hopen]
          simp [runCodes]
      · obtain ⟨h41, h42⟩ := h4 hg
        refine ⟨runs ++ [(INDENT_GUIDE, st.currentTokenLength)], ?_, ?_, ?_, ?_⟩
        · rw [h5, hg, if_pos rfl, if_pos hig, encodeRuns_append, encodeRuns_cons,
            encodeRuns_nil]
          simp only [encodeRun, hopen, hclose, List.append_assoc, List.append_nil]
        · rw [runsOnTicks_append]
          refine ⟨h6, ?_⟩
          simp only [RunsOnTicks, and_true]
          intro _
          have : start + runsLength runs = st.screenColumn - st.currentTokenLength := by omega
          rw [this]
          exact h41
        · intro r hr
          rcases List.mem_append.mp hr with hr | hr
          · exact h7 r hr
          · simp only [List.mem_singleton] at hr
            subst hr
            exact ⟨Or.inr rfl, h42⟩
        · rw [runsLength_append, runsLength_single]
          dsimp only
          omega
  · rw [if_neg htick]
    unfold GuideTail appendText
    dsimp only
    refine ⟨by omega, ?_, h3, fun hg => ?_, runs, h5, h6, h7, by omega⟩
    · rw [h2, List.append_assoc, ← List.replicate_succ', ← Nat.sub_add_comm h1]
    · obtain ⟨h41, h42⟩ := h4 hg
      refine ⟨?_, by omega⟩
      have : st.screenColumn + 1 - (st.currentTokenLength + 1) =
          st.screenColumn - st.currentTokenLength := by omega
      rw [this]
      exact h41

/-- The guides of an empty row, whatever the screen column they start from: the codes
pushed are the encoding of runs that are untagged or indent guides, the indent guides
start at multiples of the tab length, and the text grows by one space for each column of
the runs. -/
theorem emitEmptyRowGuides_tail (dl : DisplayLayer) (e : BuilderState) :
    ∃ runs : List (Nat × Nat),
      (emitEmptyRowGuides dl e).tagCodes = e.tagCodes ++ encodeRuns runs ∧
      (emitEmptyRowGuides dl e).screenLineText =
        e.screenLineText ++ List.replicate (runsLength runs) ' ' ∧
      RunsOnTicks dl.tabLength e.screenColumn runs ∧
      (∀ r ∈ runs, (r.1 = 0 ∨ r.1 = INDENT_GUIDE) ∧ 0 < r.2) ∧
      (¬ (e.bufferLine.length = 0 ∧ dl.showIndentGuides = true) → runs = []) := by
  unfold emitEmptyRowGuides
  dsimp only
  split
  · rename_i hc
    have h0 : GuideTail dl.tabLength e.screenColumn e.tagCodes e.screenLineText
        { e with currentTokenFlags := 0, currentTokenLength := 0 } := by
      refine ⟨Nat.le_refl _, by simp, Or.inl rfl, fun h => ?_, [], ?_, trivial, ?_, ?_⟩
      · exact absurd (show (0 : Nat) = INDENT_GUIDE from h) (by decide)
      · simp [encodeRuns, INDENT_GUIDE]
      · intro r hr; exact absurd hr (List.not_mem_nil _)
      · simp [runsLength]
    have hl := emptyRowGuides_induct
      (P := GuideTail dl.tabLength e.screenColumn e.tagCodes e.screenLineText) dl
      (dl.leadingWhitespaceLengthForSurroundingLines e.bufferRow)
      (fun st hst _ => guideTail_step dl _ _ _ st hst)
      (dl.leadingWhitespaceLengthForSurroundingLines e.bufferRow - e.screenColumn) _ h0
    generalize emptyRowGuides dl (dl.leadingWhitespaceLengthForSurroundingLines e.bufferRow)
      (dl.leadingWhitespaceLengthForSurroundingLines e.bufferRow - e.screenColumn)
      { e with currentTokenFlags := 0, currentTokenLength := 0 } = g at hl
    obtain ⟨h1, h2, h3, h4, runs, h5, h6, h7, h8⟩ := hl
    have hig : INDENT_GUIDE ≠ 0 := by decide
    have hclose : closeCodes (getBasicTag INDENT_GUIDE) =
        [TagCode.closeTag (getBasicTag INDENT_GUIDE)] := by
      rw [indentGuide_tag]; rfl
    unfold onlyIf pushTagCode
    dsimp only
    rcases h3 with hz | hg
    · by_cases hp : g.currentTokenLength > 0
      · refine ⟨runs ++ [(0, g.currentTokenLength)], ?_, ?_, ?_, ?_, fun hn => absurd hc hn⟩
        · simp [hp, hz, h5, hig.symm, encodeRuns_append, encodeRuns_cons, encodeRuns_nil,
            encodeRun_plain, runCodes]
        · simp only [hp, hz, if_true, ne_eq, not_true_eq_false, if_false]
          rw [h2, runsLength_append, runsLength_single]
          dsimp only
          congr 2
          omega
        · rw [runsOnTicks_append]
          exact ⟨h6, by simp [RunsOnTicks, INDENT_GUIDE]⟩
        · intro r hr
          rcases List.mem_append.mp hr with hr | hr
          · exact h7 r hr
          · simp only [List.mem_singleton] at hr
            subst hr
            exact ⟨Or.inl rfl, hp⟩
      · have hp0 : g.currentTokenLength = 0 := by omega
        refine ⟨runs, ?_, ?_, h6, h7, fun hn => absurd hc hn⟩
        · simp [hp, hz, h5, hig.symm]
        · simp only [hp, hz, if_false, ne_eq, not_true_eq_false]
          rw [h2]
          congr 2
          omega
    · obtain ⟨h41, h42⟩ := h4 hg
      refine ⟨runs ++ [(INDENT_GUIDE, g.currentTokenLength)], ?_, ?_, ?_, ?_,
        fun hn => absurd hc hn⟩
      · simp only [h42, hg, hig, h5, if_true, ne_eq, not_false_eq_true, encodeRuns_append,
          encodeRuns_cons, encodeRuns_nil, encodeRun, hclose, runCodes, gt_iff_lt,
          List.append_assoc, List.append_nil]
      · simp only [h42, hg, hig, if_true, ne_eq, not_false_eq_true, gt_iff_lt]
        rw [h2, runsLength_append, runsLength_single]
        dsimp only
        congr 2
        omega
      · rw [runsOnTicks_append]
        refine ⟨h6, ?_⟩
        simp only [RunsOnTicks, and_true]
        intro _
        have : e.screenColumn + runsLength runs = g.screenColumn - g.currentTokenLength := by
          omega
        rw [this]
        exact h41
      · intro r hr
        rcases List.mem_append.mp hr with hr | hr
        · exact h7 r hr
        · simp only [List.mem_singleton] at hr
          subst hr
          exact ⟨Or.inr rfl, h42⟩
  · rename_i hc
    exact ⟨[], by simp [encodeRuns], by simp [runsLength], trivial,
      fun r hr => absurd hr (List.not_mem_nil _), fun _ => rfl⟩

theorem orZeroRun_onlyIf (st : BuilderState) :
    (onlyIf (st.tagCodes.length = 0) (pushTagCode (TagCode.len 0)) st).tagCodes =
      orZeroRun st.tagCodes ∧
    (onlyIf (st.tagCodes.length = 0) (pushTagCode (TagCode.len 0)) st).screenLineText =
      st.screenLineText := by
  unfold onlyIf orZeroRun pushTagCode
  split
  · rename_i hz
    simp [List.length_eq_zero.mp hz]
  · exact ⟨rfl, rfl⟩

/-- The end-of-row branch from a state in which no token is being classified: the token
in progress is closed, the end-of-line glyph gets a run of its own, the guides of an empty
row follow, and an empty stream gets its zero run. -/
theorem endOfRow_runs (dl : DisplayLayer) (b : BuilderState) (hflags : b.currentTokenFlags = 0) :
    ∃ tail : List (Nat × Nat),
      (endOfRow dl b).tagCodes =
        orZeroRun (b.tagCodes ++
          (if b.currentTokenLength > 0 then
            runCodes b.currentTokenLength ++ closeCodes (getBasicTag b.previousTokenFlags)
           else []) ++
          encodeRuns (eolRuns dl b.bufferLine (dl.eolInvisibles b.lineEnding) ++ tail)) ∧
      (endOfRow dl b).screenLineText =
        b.screenLineText ++ dl.eolInvisibles b.lineEnding ++
          List.replicate (runsLength tail) ' ' ∧
      RunsOnTicks dl.tabLength (b.screenColumn + (dl.eolInvisibles b.lineEnding).length) tail ∧
      (∀ r ∈ tail, (r.1 = 0 ∨ r.1 = INDENT_GUIDE) ∧ 0 < r.2) ∧
      (¬ (b.bufferLine.length = 0 ∧ dl.showIndentGuides = true) → tail = []) := by
  unfold endOfRow
  dsimp only
  have h1 : (onlyIf (b.currentTokenLength > 0)
      (fun st => emitCloseTag (getBasicTag st.previousTokenFlags) st) b) =
      { b with
        tagCodes := b.tagCodes ++ (if b.currentTokenLength > 0 then
            runCodes b.currentTokenLength ++ closeCodes (getBasicTag b.previousTokenFlags)
          else []),
        currentTokenLength := 0 } := by
    unfold onlyIf
    split
    · rename_i hp; simp only [emitCloseTag_eq, if_pos hp, List.append_assoc]
    · rename_i hp
      have : b.currentTokenLength = 0 := by omega
      simp only [if_neg hp, List.append_nil]
      cases b
      simp_all
  rw [h1]
  generalize (b.tagCodes ++ (if b.currentTokenLength > 0 then
      runCodes b.currentTokenLength ++ closeCodes (getBasicTag b.previousTokenFlags)
    else [])) = tc
  by_cases hg : dl.eolInvisibles b.lineEnding = []
  · have h2 : emitEolInvisible dl { b with tagCodes := tc, currentTokenLength := 0 } =
        { b with tagCodes := tc, currentTokenLength := 0 } := by
      unfold emitEolInvisible
      dsimp only
      rw [if_neg (by simp [hg])]
    rw [h2]
    obtain ⟨tail, t1, t2, t3, t4, t5⟩ :=
      emitEmptyRowGuides_tail dl { b with tagCodes := tc, currentTokenLength := 0 }
    dsimp only at t1 t2 t3 t4 t5
    generalize emitEmptyRowGuides dl { b with tagCodes := tc, currentTokenLength := 0 } = gs
      at t1 t2 ⊢
    refine ⟨tail, ?_, ?_, ?_, t4, t5⟩
    · rw [(orZeroRun_onlyIf gs).1, t1, hg]
      simp only [eolRuns, ne_eq, not_true_eq_false, if_false, List.nil_append]
    · rw [(orZeroRun_onlyIf gs).2, t2, hg, List.append_nil]
    · rw [hg]; exact t3
  · have h2 := emitEolInvisible_eq dl { b with tagCodes := tc, currentTokenLength := 0 } hg
    dsimp only at h2
    rw [h2, hflags]
    rw [show (if b.bufferLine.length = 0 ∧ dl.showIndentGuides = true then
        0 ||| (INVISIBLE_CHARACTER ||| LINE_ENDING) ||| INDENT_GUIDE
      else 0 ||| (INVISIBLE_CHARACTER ||| LINE_ENDING)) = eolFlags dl b.bufferLine from rfl]
    obtain ⟨tail, t1, t2, t3, t4, t5⟩ := emitEmptyRowGuides_tail dl
      { b with
        screenLineText := b.screenLineText ++ dl.eolInvisibles b.lineEnding,
        currentTokenFlags := eolFlags dl b.bufferLine,
        tagCodes := tc ++ runCodes 0 ++ openCodes (getBasicTag (eolFlags dl b.bufferLine)) ++
          runCodes (dl.eolInvisibles b.lineEnding).length ++
          closeCodes (getBasicTag (eolFlags dl b.bufferLine)),
        currentTokenLength := 0,
        screenColumn := b.screenColumn + (dl.eolInvisibles b.lineEnding).length }
    dsimp only at t1 t2 t3 t4 t5
    have hcodes : tc ++ runCodes 0 ++ openCodes (getBasicTag (eolFlags dl b.bufferLine)) ++
          runCodes (dl.eolInvisibles b.lineEnding).length ++
          closeCodes (getBasicTag (eolFlags dl b.bufferLine)) ++ encodeRuns tail =
        tc ++ encodeRuns (eolRuns dl b.bufferLine (dl.eolInvisibles b.lineEnding) ++ tail) := by
      simp [eolRuns, hg, encodeRuns_append, encodeRuns_cons, encodeRuns_nil, encodeRun,
        runCodes]
    generalize emitEmptyRowGuides dl
      { b with
        screenLineText := b.screenLineText ++ dl.eolInvisibles b.lineEnding,
        currentTokenFlags := eolFlags dl b.bufferLine,
        tagCodes := tc ++ runCodes 0 ++ openCodes (getBasicTag (eolFlags dl b.bufferLine)) ++
          runCodes (dl.eolInvisibles b.lineEnding).length ++
          closeCodes (getBasicTag (eolFlags dl b.bufferLine)),
        currentTokenLength := 0,
        screenColumn := b.screenColumn + (dl.eolInvisibles b.lineEnding).length } = gs
      at t1 t2 ⊢
    refine ⟨tail, ?_, ?_, t3, t4, t5⟩
    · rw [(orZeroRun_onlyIf gs).1, t1, hcodes]
    · rw [(orZeroRun_onlyIf gs).2, t2]

theorem rowRest_cons (dl : DisplayLayer) (x : BuilderState)
    (hlt : x.bufferColumn < x.bufferLine.length) :
    rowRest dl x =
      cellOf dl x.trailingWhitespaceStartColumn x.screenColumn
        (x.inLeadingWhitespace && !decide (x.trailingWhitespaceStartColumn ≤ x.bufferColumn))
        (decide (x.trailingWhitespaceStartColumn ≤ x.bufferColumn))
        (x.bufferLine[x.bufferColumn]) ::
      rowCells dl x.trailingWhitespaceStartColumn (x.bufferColumn + 1)
        (x.screenColumn + (cellOf dl x.trailingWhitespaceStartColumn x.screenColumn
          (x.inLeadingWhitespace && !decide (x.trailingWhitespaceStartColumn ≤ x.bufferColumn))
          (decide (x.trailingWhitespaceStartColumn ≤ x.bufferColumn))
          (x.bufferLine[x.bufferColumn])).width)
        ((x.inLeadingWhitespace && !decide (x.trailingWhitespaceStartColumn ≤ x.bufferColumn))
          && isBlank (x.bufferLine[x.bufferColumn]))
        (x.bufferLine.drop (x.bufferColumn + 1)) := by
  unfold rowRest
  rw [List.drop_eq_getElem_cons hlt]
  rfl

theorem rowRest_atEnd (dl : DisplayLayer) (x : BuilderState)
    (h : x.bufferColumn = x.bufferLine.length) : rowRest dl x = [] := by
  unfold rowRest
  rw [h, List.drop_length]
  rfl

theorem columnStep_atEnd (dl : DisplayLayer) (x : BuilderState) (hno : NoHunkHere x)
    (h : x.bufferColumn = x.bufferLine.length) :
    columnStep dl x = (endOfRow dl (beginColumn dl x), true) := by
  have hnone : x.bufferLine[x.bufferColumn]? = none := by
    rw [h]; exact List.getElem?_eq_none (Nat.le_refl _)
  have hb := beginColumn_atEnd dl x hno hnone
  unfold columnStep
  dsimp only
  rw [if_pos (by rw [hb.2.2.2.2.2.2.2.1, hb.2.2.2.2.2.2.1]; exact h)]

theorem noHunkHere_of_rowInv (dl : DisplayLayer) (x0 x : BuilderState)
    (hhunks : ∀ h ∈ x0.hunks, h.oldStart.row ≠ x0.bufferRow) (hx : RowInv dl x0 x) :
    NoHunkHere x :=
  noHunkHere_of_row_ne x (fun h hh => by rw [hx.1]; exact hhunks h (hx.2.2.2.2.2.2.2.2.2.1 h hh))

theorem rowInv_refl (dl : DisplayLayer) (x : BuilderState)
    (htr : x.inTrailingWhitespace = true → x.trailingWhitespaceStartColumn ≤ x.bufferColumn)
    (hcol : x.bufferColumn ≤ x.bufferLine.length) : RowInv dl x x :=
  ⟨rfl, rfl, rfl, rfl, rfl, rfl, rfl, htr, hcol, fun _ h => h, rfl, rfl, rfl⟩

theorem cellsText_cons (c : Cell) (cs : List Cell) :
    cellsText (c :: cs) = c.glyphs ++ cellsText cs := by
  simp [cellsText]

theorem cellsWidth_cons (c : Cell) (cs : List Cell) :
    cellsWidth (c :: cs) = c.width + cellsWidth cs := by
  simp [cellsWidth]

/-- A pass of the column loop over a character of a row without hunks keeps `RowInv`. -/
theorem rowInv_step (dl : DisplayLayer) (x0 x : BuilderState)
    (hhunks : ∀ h ∈ x0.hunks, h.oldStart.row ≠ x0.bufferRow) (hx : RowInv dl x0 x)
    (hlt : x.bufferColumn < x.bufferLine.length) :
    (columnStep dl x).2 = false ∧ RowInv dl x0 (columnStep dl x).1 := by
  have hno := noHunkHere_of_rowInv dl x0 x hhunks hx
  obtain ⟨h1, h2, h3, h4, h5, h6, h7, h8, h9, h10, h11, h12, h13⟩ := hx
  have hc : x.bufferLine[x.bufferColumn]? = some (x.bufferLine[x.bufferColumn]) :=
    List.getElem?_eq_getElem hlt
  have hstep := columnStep_cell dl x _ hno hc h8 _ rfl
  have hrest := rowRest_cons dl x hlt
  generalize hcell : cellOf dl x.trailingWhitespaceStartColumn x.screenColumn
      (x.inLeadingWhitespace && !decide (x.trailingWhitespaceStartColumn ≤ x.bufferColumn))
      (decide (x.trailingWhitespaceStartColumn ≤ x.bufferColumn))
      (x.bufferLine[x.bufferColumn]) = cell at hstep hrest
  rw [hstep]
  refine ⟨rfl, h1, h2, h3, h4, h5, h6, h7, ?_, ?_, ?_, ?_, ?_, ?_⟩
  · intro ht
    dsimp only at ht ⊢
    have := of_decide_eq_true ht
    omega
  · dsimp only; omega
  · intro h hh
    exact h10 h (List.dropWhile_subset _ hh)
  · rw [← h11, hrest, cellsText_cons, ← List.append_assoc]
    rfl
  · rw [← h12, hrest, finishRuns_cons, ← List.append_assoc]
    rfl
  · rw [← h13, hrest, cellsWidth_cons, ← Nat.add_assoc]
    rfl

/-- The last pass of the column loop over a row without hunks. -/
theorem rowInv_break (dl : DisplayLayer) (x0 x : BuilderState)
    (hhunks : ∀ h ∈ x0.hunks, h.oldStart.row ≠ x0.bufferRow) (hx : RowInv dl x0 x)
    (hend : x.bufferColumn = x.bufferLine.length) :
    (columnStep dl x).2 = true ∧ RowDone dl x0 (columnStep dl x).1 := by
  have hno := noHunkHere_of_rowInv dl x0 x hhunks hx
  obtain ⟨h1, h2, h3, h4, h5, h6, h7, h8, h9, h10, h11, h12, h13⟩ := hx
  have hnone : x.bufferLine[x.bufferColumn]? = none := by
    rw [hend]; exact List.getElem?_eq_none (Nat.le_refl _)
  obtain ⟨b1, b2, b3, b4, b5, b6, b7, b8, b9, b10, b11, b12, b13⟩ :=
    beginColumn_atEnd dl x hno hnone
  rw [columnStep_atEnd dl x hno hend]
  refine ⟨rfl, ?_⟩
  dsimp only
  have hr := renderOnly_fields (renderOnly_endOfRow dl (renderOnly_refl (beginColumn dl x)))
  obtain ⟨tail, t1, t2, t3, t4, t5⟩ := endOfRow_runs dl (beginColumn dl x) b3
  have hrest := rowRest_atEnd dl x hend
  rw [hrest] at h11 h12 h13
  have e1 : cellsText ([] : List Cell) = [] := rfl
  have e2 : cellsWidth ([] : List Cell) = 0 := rfl
  rw [e1, List.append_nil] at h11
  rw [e2, Nat.add_zero] at h13
  have hcodes : (beginColumn dl x).tagCodes ++
      (if (beginColumn dl x).currentTokenLength > 0 then
        runCodes (beginColumn dl x).currentTokenLength ++
          closeCodes (getBasicTag (beginColumn dl x).previousTokenFlags)
       else []) =
      x.tagCodes ++ finishRuns (groupRuns x.currentTokenFlags x.currentTokenLength []) := by
    rw [b1, b2, b4]
    simp only [groupRuns, finishRuns, encodeRuns_nil, List.append_nil]
    by_cases hp : x.currentTokenFlags > 0
    · simp [hp]
    · have hz : x.currentTokenFlags = 0 := by omega
      by_cases hq : x.currentTokenLength > 0
      · simp [hz, hq]
      · have hq0 : x.currentTokenLength = 0 := by omega
        simp [hz, hq0, runCodes, closeCodes_zero]
  refine ⟨by rw [hr.2.2.2.1, b9, h1], by rw [hr.1, b11, h5], by rw [hr.2.1, b12, h6],
    ?_, ?_, tail, ?_, ?_, ?_, t4, ?_⟩
  · rw [hr.2.2.1, ← h7, beginColumn_noHunk dl x hno, closePreviousToken_eq]
    obtain ⟨_, _, _, _, hk⟩ := flagsOnly_classifyCharacter dl (shiftTokenFlags x)
    rw [hk]
    rfl
  · intro h hh
    rw [hr.2.2.2.2.1, b13] at hh
    exact h10 h (List.dropWhile_subset _ hh)
  · rw [t1, hcodes, h12, b7, b10, h2, h4]
  · rw [t2, b5, b10, h11, h4]
  · rw [b6, b10, h13, h4] at t3
    exact t3
  · rw [b7, h2] at t5
    exact t5

/-- The column loop over the rest of a row on which no hunk starts. -/
theorem columnLoop_noHunk (dl : DisplayLayer) (x0 : BuilderState)
    (hhunks : ∀ h ∈ x0.hunks, h.oldStart.row ≠ x0.bufferRow)
    (htr : x0.inTrailingWhitespace = true →
      x0.trailingWhitespaceStartColumn ≤ x0.bufferColumn)
    (hcol : x0.bufferColumn ≤ x0.bufferLine.length) (fuel : Nat) (y : BuilderState)
    (hl : columnLoop dl fuel x0 = some y) : RowDone dl x0 y := by
  refine columnLoop_induct (P := RowInv dl x0) (Q := RowDone dl x0) dl ?_ ?_ ?_ fuel x0 y
    (rowInv_refl dl x0 htr hcol) hl
  · intro x hx _ hc
    by_cases hlt : x.bufferColumn < x.bufferLine.length
    · exact (rowInv_step dl x0 x hhunks hx hlt).2
    · have hend : x.bufferColumn = x.bufferLine.length := by
        have := hx.2.2.2.2.2.2.2.2.1
        omega
      rw [(rowInv_break dl x0 x hhunks hx hend).1] at hc
      exact absurd hc (by simp)
  · intro x hx _ hc
    by_cases hlt : x.bufferColumn < x.bufferLine.length
    · rw [(rowInv_step dl x0 x hhunks hx hlt).1] at hc
      exact absurd hc (by simp)
    · have hend : x.bufferColumn = x.bufferLine.length := by
        have := hx.2.2.2.2.2.2.2.2.1
        omega
      exact (rowInv_break dl x0 x hhunks hx hend).2
  · intro x hx hn
    exact absurd hx.2.2.2.2.2.2.2.2.1 hn

/-- One pass of the row loop over a buffer row on which no hunk starts: the screen line
it pushes has the text of the cells of the row, the end-of-line glyph and the spaces of
the guides of an empty row, and its tag stream is the encoding of the runs of the cells,
the run of the glyph and the runs `tail` of those guides. -/
theorem rowStep_noHunk (dl : DisplayLayer) (st : BuilderState)
    (hhunks : ∀ h ∈ st.hunks, h.oldStart.row ≠ st.bufferRow) :
    ∃ st' tail, rowStep dl st = some st' ∧
      st'.bufferRow = st.bufferRow + 1 ∧ st'.screenRow = st.screenRow + 1 ∧
      st'.nextScreenLineId = st.nextScreenLineId + 1 ∧
      (∀ h ∈ st'.hunks, h ∈ st.hunks) ∧
      st'.screenLines = st.screenLines ++
        [{ id := st.nextScreenLineId,
           lineText := cellsText (lineCells dl st.bufferRow) ++
             dl.eolInvisibles (dl.lineEndingForRow st.bufferRow) ++
             List.replicate (runsLength tail) ' ',
           tagCodes := orZeroRun (encodeRuns (rowRuns (lineCells dl st.bufferRow) ++
             eolRuns dl (dl.lineForRow st.bufferRow)
               (dl.eolInvisibles (dl.lineEndingForRow st.bufferRow)) ++ tail)) }] ∧
      RunsOnTicks dl.tabLength (cellsWidth (lineCells dl st.bufferRow) +
        (dl.eolInvisibles (dl.lineEndingForRow st.bufferRow)).length) tail ∧
      (∀ r ∈ tail, (r.1 = 0 ∨ r.1 = INDENT_GUIDE) ∧ 0 < r.2) ∧
      (¬ ((dl.lineForRow st.bufferRow).length = 0 ∧ dl.showIndentGuides = true) →
        tail = []) := by
  obtain ⟨st', hst'⟩ := rowStep_isSome dl st
  obtain ⟨s, hs, rfl⟩ := rowStep_eq_some dl st st' hst'
  have hd := columnLoop_noHunk dl (startRow dl st) hhunks (fun h => absurd h (by simp [startRow]))
    (Nat.zero_le _) _ s hs
  obtain ⟨d1, d2, d3, d4, d5, tail, d6, d7, d8, d9, d10⟩ := hd
  have hrest : rowRest dl (startRow dl st) = lineCells dl st.bufferRow := rfl
  rw [hrest] at d6 d7 d8
  refine ⟨_, tail, hst', ?_, ?_, ?_, ?_, ?_, ?_, d9, d10⟩
  · simp [pushScreenLine, d1, startRow]
  · simp [pushScreenLine, d4, startRow]
  · simp [pushScreenLine, d3, startRow]
  · intro h hh
    exact d5 h hh
  · simp only [pushScreenLine, d2, d3, d6, d7]
    simp only [startRow, List.nil_append, finishRuns_start, ← encodeRuns_append,
      List.append_assoc]
  · simpa [startRow] using d8

theorem spreadRuns_append (a b : List (Nat × Nat)) :
    spreadRuns (a ++ b) = spreadRuns a ++ spreadRuns b := by
  simp [spreadRuns]

theorem spreadRuns_cons (r : Nat × Nat) (rs : List (Nat × Nat)) :
    spreadRuns (r :: rs) = List.replicate r.2 r.1 ++ spreadRuns rs := by
  simp [spreadRuns]

theorem spreadCells_cons (c : Cell) (cs : List Cell) :
    spreadCells (c :: cs) = List.replicate c.width c.flags ++ spreadCells cs := by
  simp [spreadCells]

theorem spreadRuns_groupRuns (cells : List Cell) :
    ∀ flags length, spreadRuns (groupRuns flags length cells) =
      List.replicate length flags ++ spreadCells cells := by
  induction cells with
  | nil => intro flags length; simp [groupRuns, spreadRuns, spreadCells]
  | cons c cs ih =>
    intro flags length
    have e : groupRuns flags length (c :: cs) =
        if c.flags = flags ∧ c.force = false then groupRuns flags (length + c.width) cs
        else (flags, length) :: groupRuns c.flags c.width cs := rfl
    rw [e, spreadCells_cons]
    split
    · rename_i h
      rw [ih, h.1, List.replicate_add, List.append_assoc]
    · rw [spreadRuns_cons, ih]

theorem spreadRuns_rowRuns (cells : List Cell) :
    spreadRuns (rowRuns cells) = spreadCells cells := by
  cases cells with
  | nil => rfl
  | cons c cs => rw [rowRuns, spreadRuns_groupRuns, spreadCells_cons]

theorem spreadCells_length (cells : List Cell) :
    (spreadCells cells).length = cellsWidth cells := by
  induction cells with
  | nil => rfl
  | cons c cs ih => rw [spreadCells_cons, cellsWidth_cons, List.length_append, ih]; simp

theorem spreadCells_getElem (cells : List Cell) :
    ∀ i (hi : i < cells.length) k, k < (cells[i]).width →
      (spreadCells cells)[cellsWidth (cells.take i) + k]? = some (cells[i]).flags := by
  induction cells with
  | nil => intro i hi; exact absurd hi (Nat.not_lt_zero _)
  | cons c cs ih =>
    intro i hi k hk
    cases i with
    | zero =>
      simp only [List.take_zero, List.getElem_cons_zero] at hk ⊢
      rw [spreadCells_cons, show cellsWidth ([] : List Cell) = 0 from rfl, Nat.zero_add,
        List.getElem?_append_left (by simpa using hk)]
      simp [List.getElem?_replicate, hk]
    | succ j =>
      simp only [List.take_succ_cons, List.getElem_cons_succ] at hk ⊢
      rw [spreadCells_cons, cellsWidth_cons, Nat.add_assoc,
        List.getElem?_append_right (by simp)]
      simp only [List.length_replicate, Nat.add_sub_cancel_left]
      exact ih j (by simpa using hi) k hk

/-- The runs of a row cover its cells, whatever runs follow them. -/
theorem covers_rowRuns (cells : List Cell) (rest : List (Nat × Nat)) :
    Covers (rowRuns cells ++ rest) cells := by
  intro i hi k hk
  have hlt : cellsWidth (cells.take i) + k < (spreadCells cells).length := by
    have h := spreadCells_getElem cells i hi k hk
    by_contra hge
    rw [List.getElem?_eq_none (by omega)] at h
    exact absurd h (by simp)
  rw [spreadRuns_append, spreadRuns_rowRuns, List.getElem?_append_left hlt]
  exact spreadCells_getElem cells i hi k hk

theorem rowCells_length (dl : DisplayLayer) (tws : Nat) (text : List Char) :
    ∀ col sc lead, (rowCells dl tws col sc lead text).length = text.length := by
  induction text with
  | nil => intro col sc lead; rfl
  | cons c cs ih =>
    intro col sc lead
    simp only [rowCells, List.length_cons, ih]

/-- The cell of the character at index `i` of the rest of a row: it starts at the screen
column behind the cells before it, it is in leading position when every character before
it is a space or a tab and the trailing whitespace has not started, and in trailing
position when it has. -/
theorem rowCells_getElem (dl : DisplayLayer) (tws : Nat) (text : List Char) :
    ∀ col sc lead i (hi : i < text.length),
      (rowCells dl tws col sc lead text)[i]? =
        some (cellOf dl tws (sc + cellsWidth ((rowCells dl tws col sc lead text).take i))
          (lead && (text.take i).all isBlank && !decide (tws ≤ col + i))
          (decide (tws ≤ col + i)) (text[i])) := by
  induction text with
  | nil => intro col sc lead i hi; exact absurd hi (Nat.not_lt_zero _)
  | cons c cs ih =>
    intro col sc lead i hi
    cases i with
    | zero =>
      simp [rowCells, cellsWidth]
    | succ j =>
      have hj : j < cs.length := by simpa using hi
      simp only [rowCells, List.getElem?_cons_succ, List.take_succ_cons, List.getElem_cons_succ,
        List.all_cons, cellsWidth_cons]
      rw [ih _ _ _ j hj]
      have hb : ((lead && !decide (tws ≤ col)) && isBlank c && (cs.take j).all isBlank &&
          !decide (tws ≤ col + 1 + j)) =
          (lead && (isBlank c && (cs.take j).all isBlank) && !decide (tws ≤ col + (j + 1))) := by
        have e : col + 1 + j = col + (j + 1) := by omega
        rw [e]
        by_cases h : tws ≤ col + (j + 1)
        · simp [h]
        · have h2 : ¬ tws ≤ col := by omega
          simp [h, h2, Bool.and_assoc]
      have e2 : col + 1 + j = col + (j + 1) := by omega
      rw [hb, e2, Nat.add_assoc]

theorem lineCells_length (dl : DisplayLayer) (row : Nat) :
    (lineCells dl row).length = (dl.lineForRow row).length :=
  rowCells_length dl _ _ 0 0 true

theorem lineCells_getElem (dl : DisplayLayer) (row i : Nat)
    (hi : i < (dl.lineForRow row).length) :
    (lineCells dl row)[i]? =
      some (cellOf dl (dl.findTrailingWhitespaceStartColumn (dl.lineForRow row))
        (cellsWidth ((lineCells dl row).take i))
        (((dl.lineForRow row).take i).all isBlank &&
          !decide (dl.findTrailingWhitespaceStartColumn (dl.lineForRow row) ≤ i))
        (decide (dl.findTrailingWhitespaceStartColumn (dl.lineForRow row) ≤ i))
        ((dl.lineForRow row)[i])) := by
  have h := rowCells_getElem dl (dl.findTrailingWhitespaceStartColumn (dl.lineForRow row))
    (dl.lineForRow row) 0 0 true i hi
  simp only [Nat.zero_add, Bool.true_and] at h
  exact h

theorem cellOf_space (dl : DisplayLayer) (tws sc : Nat) (lead trailing : Bool) :
    ((cellOf dl tws sc lead trailing ' ').flags &&& LEADING_WHITESPACE ≠ 0 ↔ lead = true) ∧
    ((cellOf dl tws sc lead trailing ' ').flags &&& TRAILING_WHITESPACE ≠ 0 ↔
      trailing = true) ∧
    (cellOf dl tws sc lead trailing ' ').flags &&& HARD_TAB = 0 ∧
    ((cellOf dl tws sc lead trailing ' ').flags &&& INVISIBLE_CHARACTER ≠ 0 ↔
      (lead = true ∨ trailing = true) ∧ dl.invisibles.space ≠ []) ∧
    ((cellOf dl tws sc lead trailing ' ').flags &&& INDENT_GUIDE ≠ 0 ↔
      dl.showIndentGuides = true ∧ (lead = true ∨ tws = 0)) ∧
    (cellOf dl tws sc lead trailing ' ').flags &&& LINE_ENDING = 0 ∧
    (cellOf dl tws sc lead trailing ' ').flags &&& FOLD = 0 ∧
    (cellOf dl tws sc lead trailing ' ').flags &&& definedFlags =
      (cellOf dl tws sc lead trailing ' ').flags ∧
    ((cellOf dl tws sc lead trailing ' ').force = true ↔
      (dl.showIndentGuides = true ∧ (lead = true ∨ tws = 0)) ∧ sc % dl.tabLength = 0) ∧
    (cellOf dl tws sc lead trailing ' ').width = 1 ∧
    (cellOf dl tws sc lead trailing ' ').glyphs =
      (if (lead = true ∨ trailing = true) ∧ dl.invisibles.space ≠ [] then dl.invisibles.space
       else [' ']) := by
  unfold cellOf
  simp only [if_true]
  cases lead <;> cases trailing <;> cases hg : dl.showIndentGuides <;>
    by_cases hz : tws = 0 <;> by_cases hi : dl.invisibles.space = [] <;>
    simp [hz, hi] <;> decide

theorem cellOf_tab (dl : DisplayLayer) (tws sc : Nat) (lead trailing : Bool) :
    ((cellOf dl tws sc lead trailing '\t').flags &&& LEADING_WHITESPACE ≠ 0 ↔ lead = true) ∧
    ((cellOf dl tws sc lead trailing '\t').flags &&& TRAILING_WHITESPACE ≠ 0 ↔
      trailing = true) ∧
    (cellOf dl tws sc lead trailing '\t').flags &&& HARD_TAB ≠ 0 ∧
    ((cellOf dl tws sc lead trailing '\t').flags &&& INVISIBLE_CHARACTER ≠ 0 ↔
      dl.invisibles.tab ≠ []) ∧
    ((cellOf dl tws sc lead trailing '\t').flags &&& INDENT_GUIDE ≠ 0 ↔
      (dl.showIndentGuides = true ∧ (lead = true ∨ tws = 0)) ∧ sc % dl.tabLength = 0) ∧
    (cellOf dl tws sc lead trailing '\t').flags &&& LINE_ENDING = 0 ∧
    (cellOf dl tws sc lead trailing '\t').flags &&& FOLD = 0 ∧
    (cellOf dl tws sc lead trailing '\t').flags &&& definedFlags =
      (cellOf dl tws sc lead trailing '\t').flags ∧
    (cellOf dl tws sc lead trailing '\t').force = true ∧
    (cellOf dl tws sc lead trailing '\t').width = dl.tabLength - sc % dl.tabLength ∧
    (cellOf dl tws sc lead trailing '\t').glyphs =
      (if dl.invisibles.tab ≠ [] then
        dl.invisibles.tab ++ List.replicate (dl.tabLength - sc % dl.tabLength - 1) ' '
       else List.replicate (dl.tabLength - sc % dl.tabLength) ' ') := by
  have hne : ¬ ('\t' = ' ') := by decide
  unfold cellOf
  simp only [if_neg hne, if_true]
  cases lead <;> cases trailing <;> cases hg : dl.showIndentGuides <;>
    by_cases hz : tws = 0 <;> by_cases hi : dl.invisibles.tab = [] <;>
    by_cases hm : sc % dl.tabLength = 0 <;>
    simp [hz, hi, hm] <;> decide

theorem cellOf_other (dl : DisplayLayer) (tws sc : Nat) (lead trailing : Bool) (c : Char)
    (hsp : c ≠ ' ') (htab : c ≠ '\t') :
    cellOf dl tws sc lead trailing c = { flags := 0, force := false, width := 1, glyphs := [c] } := by
  unfold cellOf
  simp only [if_neg hsp, if_neg htab]

/-- No cell carries the line-ending or the fold flag, and a cell carries the hard-tab
flag exactly when its character is a tab. -/
theorem cellOf_synthetic (dl : DisplayLayer) (tws sc : Nat) (lead trailing : Bool) (c : Char) :
    (cellOf dl tws sc lead trailing c).flags &&& LINE_ENDING = 0 ∧
    (cellOf dl tws sc lead trailing c).flags &&& FOLD = 0 ∧
    ((cellOf dl tws sc lead trailing c).flags &&& HARD_TAB ≠ 0 ↔ c = '\t') ∧
    (c = '\t' → (cellOf dl tws sc lead trailing c).force = true) ∧
    (cellOf dl tws sc lead trailing c).flags &&& definedFlags =
      (cellOf dl tws sc lead trailing c).flags := by
  by_cases hsp : c = ' '
  · subst hsp
    have h := cellOf_space dl tws sc lead trailing
    have hne : ¬ (' ' = '\t') := by decide
    exact ⟨h.2.2.2.2.2.1, h.2.2.2.2.2.2.1, by simp [h.2.2.1, hne], fun e => absurd e hne,
      h.2.2.2.2.2.2.2.1⟩
  · by_cases htab : c = '\t'
    · subst htab
      have h := cellOf_tab dl tws sc lead trailing
      exact ⟨h.2.2.2.2.2.1, h.2.2.2.2.2.2.1, by simp [h.2.2.1], fun _ => h.2.2.2.2.2.2.2.2.1,
        h.2.2.2.2.2.2.2.1⟩
    · rw [cellOf_other dl tws sc lead trailing c hsp htab]
      dsimp only
      exact ⟨by decide, by decide, by simp [htab], fun e => absurd e htab, by decide⟩

theorem groupRuns_flags (cells : List Cell) :
    ∀ flags length, ∀ r ∈ groupRuns flags length cells,
      r.1 = flags ∨ ∃ c ∈ cells, r.1 = c.flags := by
  induction cells with
  | nil =>
    intro flags length r hr
    simp only [groupRuns, List.mem_singleton] at hr
    exact Or.inl (by rw [hr])
  | cons c cs ih =>
    intro flags length r hr
    have e : groupRuns flags length (c :: cs) =
        if c.flags = flags ∧ c.force = false then groupRuns flags (length + c.width) cs
        else (flags, length) :: groupRuns c.flags c.width cs := rfl
    rw [e] at hr
    split at hr
    · rcases ih _ _ r hr with h | ⟨d, hd, h⟩
      · exact Or.inl h
      · exact Or.inr ⟨d, List.mem_cons_of_mem _ hd, h⟩
    · rcases List.mem_cons.mp hr with h | h
      · exact Or.inl (by rw [h])
      · rcases ih _ _ r h with h | ⟨d, hd, h⟩
        · exact Or.inr ⟨c, List.mem_cons_self _ _, h⟩
        · exact Or.inr ⟨d, List.mem_cons_of_mem _ hd, h⟩

theorem rowRuns_flags (cells : List Cell) :
    ∀ r ∈ rowRuns cells, ∃ c ∈ cells, r.1 = c.flags := by
  cases cells with
  | nil => intro r hr; exact absurd hr (List.not_mem_nil _)
  | cons c cs =>
    intro r hr
    rcases groupRuns_flags cs _ _ r hr with h | ⟨d, hd, h⟩
    · exact ⟨c, List.mem_cons_self _ _, h⟩
    · exact ⟨d, List.mem_cons_of_mem _ hd, h⟩

theorem rowCells_mem (dl : DisplayLayer) (tws : Nat) (text : List Char) :
    ∀ col sc lead, ∀ c ∈ rowCells dl tws col sc lead text,
      ∃ sc1 lead1 trailing1 ch, c = cellOf dl tws sc1 lead1 trailing1 ch := by
  induction text with
  | nil => intro col sc lead c hc; exact absurd hc (List.not_mem_nil _)
  | cons ch rest ih =>
    intro col sc lead c hc
    simp only [rowCells, List.mem_cons] at hc
    rcases hc with h | h
    · exact ⟨_, _, _, _, h⟩
    · exact ih _ _ _ c h

/-- No run of the characters of a row carries the line-ending or the fold flag. -/
theorem rowRuns_synthetic (dl : DisplayLayer) (row : Nat) :
    ∀ r ∈ rowRuns (lineCells dl row), r.1 &&& LINE_ENDING = 0 ∧ r.1 &&& FOLD = 0 := by
  intro r hr
  obtain ⟨c, hc, h⟩ := rowRuns_flags _ r hr
  obtain ⟨sc1, lead1, trailing1, ch, rfl⟩ := rowCells_mem dl _ _ _ _ _ c hc
  rw [h]
  exact ⟨(cellOf_synthetic dl _ sc1 lead1 trailing1 ch).1,
    (cellOf_synthetic dl _ sc1 lead1 trailing1 ch).2.1⟩

theorem eolTag_eq (dl : DisplayLayer) (text : List Char) :
    getBasicTag (eolFlags dl text) = eolTag dl text := by
  unfold eolFlags eolTag
  split <;> decide

theorem orZeroRun_of_ne_nil (codes : List TagCode) (h : codes ≠ []) :
    orZeroRun codes = codes := by
  unfold orZeroRun
  rw [if_neg (by simpa [List.length_eq_zero] using h)]

/-- C14: on a buffer row on which no hunk starts, a configured end-of-line glyph `g` is
appended to the text directly after the rendered characters of the row, and the tag
stream holds for it, after the runs of the characters, a run of its own
`open(T), length(g), close(T)`, where `T` is `invisible-character eol`, or
`invisible-character eol indent-guide` on an empty row with indent guides on; only the
guides of such an empty row follow. No other run carries the line-ending flag, so with no
glyph configured no run has `eol` in its tag. -/
theorem eol_glyph_gets_own_run (dl : DisplayLayer) (st : BuilderState)
    (hhunks : ∀ h ∈ st.hunks, h.oldStart.row ≠ st.bufferRow) :
    ∃ st' tail, rowStep dl st = some st' ∧
      (dl.eolInvisibles (dl.lineEndingForRow st.bufferRow) ≠ [] →
        st'.screenLines = st.screenLines ++
          [{ id := st.nextScreenLineId,
             lineText := cellsText (lineCells dl st.bufferRow) ++
               dl.eolInvisibles (dl.lineEndingForRow st.bufferRow) ++
               List.replicate (runsLength tail) ' ',
             tagCodes := encodeRuns (rowRuns (lineCells dl st.bufferRow)) ++
               [TagCode.openTag (eolTag dl (dl.lineForRow st.bufferRow)),
                TagCode.len (dl.eolInvisibles (dl.lineEndingForRow st.bufferRow)).length,
                TagCode.closeTag (eolTag dl (dl.lineForRow st.bufferRow))] ++
               encodeRuns tail }]) ∧
      (dl.eolInvisibles (dl.lineEndingForRow st.bufferRow) = [] →
        st'.screenLines = st.screenLines ++
          [{ id := st.nextScreenLineId,
             lineText := cellsText (lineCells dl st.bufferRow) ++
               List.replicate (runsLength tail) ' ',
             tagCodes :=
               orZeroRun (encodeRuns (rowRuns (lineCells dl st.bufferRow) ++ tail)) }]) ∧
      (∀ r ∈ rowRuns (lineCells dl st.bufferRow) ++ tail, r.1 &&& LINE_ENDING = 0) ∧
      (¬ ((dl.lineForRow st.bufferRow).length = 0 ∧ dl.showIndentGuides = true) →
        tail = []) := by
  obtain ⟨st', tail, h1, _, _, _, _, h6, _, h8, h9⟩ := rowStep_noHunk dl st hhunks
  refine ⟨st', tail, h1, fun hg => ?_, fun hg => ?_, ?_, h9⟩
  · rw [h6]
    have htag : eolTag dl (dl.lineForRow st.bufferRow) ≠ [] := by
      unfold eolTag; split <;> decide
    have hlen : (eolTag dl (dl.lineForRow st.bufferRow)).length > 0 :=
      List.length_pos.mpr htag
    have hglen : (dl.eolInvisibles (dl.lineEndingForRow st.bufferRow)).length > 0 :=
      List.length_pos.mpr hg
    have hcodes : encodeRuns (rowRuns (lineCells dl st.bufferRow) ++
        eolRuns dl (dl.lineForRow st.bufferRow)
          (dl.eolInvisibles (dl.lineEndingForRow st.bufferRow)) ++ tail) =
        encodeRuns (rowRuns (lineCells dl st.bufferRow)) ++
          [TagCode.openTag (eolTag dl (dl.lineForRow st.bufferRow)),
           TagCode.len (dl.eolInvisibles (dl.lineEndingForRow st.bufferRow)).length,
           TagCode.closeTag (eolTag dl (dl.lineForRow st.bufferRow))] ++
          encodeRuns tail := by
      simp only [encodeRuns_append, eolRuns, if_pos hg, encodeRuns_cons, encodeRuns_nil,
        encodeRun, eolTag_eq, openCodes, closeCodes, runCodes, if_pos hlen, if_pos hglen,
        List.append_nil, List.append_assoc, List.cons_append, List.nil_append]
    rw [hcodes, orZeroRun_of_ne_nil _ (by simp)]
  · rw [h6, hg]
    simp only [eolRuns, ne_eq, not_true_eq_false, if_false, List.append_nil]
  · intro r hr
    rcases List.mem_append.mp hr with h | h
    · exact (rowRuns_synthetic dl _ r h).1
    · rcases (h8 r h).1 with h0 | h0 <;> rw [h0] <;> decide

theorem eol_glyph_gets_own_run_witness :
    ∃ st' tail, rowStep eolGlyphLayer (initialState eolGlyphLayer 1 0 2) = some st' ∧
      st'.screenLines = (initialState eolGlyphLayer 1 0 2).screenLines ++
        [{ id := 1,
           lineText := cellsText (lineCells eolGlyphLayer 0) ++ ['¬'] ++
             List.replicate (runsLength tail) ' ',
           tagCodes := encodeRuns (rowRuns (lineCells eolGlyphLayer 0)) ++
             [TagCode.openTag "invisible-character eol".toList, TagCode.len 1,
              TagCode.closeTag "invisible-character eol".toList] ++ encodeRuns tail }] := by
  obtain ⟨st', tail, h1, h2, _⟩ := eol_glyph_gets_own_run eolGlyphLayer
    (initialState eolGlyphLayer 1 0 2) (fun _ h => absurd h (List.not_mem_nil _))
  exact ⟨st', tail, h1, h2 (by decide)⟩

theorem cellOf_leading (dl : DisplayLayer) (tws sc : Nat) (lead trailing : Bool) (c : Char) :
    (cellOf dl tws sc lead trailing c).flags &&& LEADING_WHITESPACE ≠ 0 ↔
      (isBlank c = true ∧ lead = true) := by
  by_cases hsp : c = ' '
  · subst hsp
    rw [(cellOf_space dl tws sc lead trailing).1]
    simp [isBlank]
  · by_cases htab : c = '\t'
    · subst htab
      rw [(cellOf_tab dl tws sc lead trailing).1]
      simp [isBlank]
    · rw [cellOf_other dl tws sc lead trailing c hsp htab]
      simp [isBlank, hsp, htab]

theorem cellOf_width_pos (dl : DisplayLayer) (tws sc : Nat) (lead trailing : Bool) (c : Char)
    (ht : 0 < dl.tabLength) : 0 < (cellOf dl tws sc lead trailing c).width := by
  by_cases hsp : c = ' '
  · subst hsp
    rw [(cellOf_space dl tws sc lead trailing).2.2.2.2.2.2.2.2.2.1]
    exact Nat.one_pos
  · by_cases htab : c = '\t'
    · subst htab
      rw [(cellOf_tab dl tws sc lead trailing).2.2.2.2.2.2.2.2.2.1]
      have := Nat.mod_lt sc ht
      omega
    · rw [cellOf_other dl tws sc lead trailing c hsp htab]
      exact Nat.one_pos

theorem all_take_succ (text : List Char) (i : Nat) (hi : i < text.length) :
    (text.take (i + 1)).all isBlank = ((text.take i).all isBlank && isBlank (text[i])) := by
  have e : text.take (i + 1) = text.take i ++ [text[i]] := by
    rw [List.take_succ, List.getElem?_eq_getElem hi]
    rfl
  rw [e, List.all_append]
  simp

/-- The cell at index `i` of a row, taken from the list of its cells. -/
theorem lineCells_get (dl : DisplayLayer) (row i : Nat)
    (hi : i < (lineCells dl row).length) :
    ∃ (ht : i < (dl.lineForRow row).length),
      (lineCells dl row)[i] =
        cellOf dl (dl.findTrailingWhitespaceStartColumn (dl.lineForRow row))
          (cellsWidth ((lineCells dl row).take i))
          (((dl.lineForRow row).take i).all isBlank &&
            !decide (dl.findTrailingWhitespaceStartColumn (dl.lineForRow row) ≤ i))
          (decide (dl.findTrailingWhitespaceStartColumn (dl.lineForRow row) ≤ i))
          ((dl.lineForRow row)[i]) := by
  have ht : i < (dl.lineForRow row).length := by rw [← lineCells_length]; exact hi
  refine ⟨ht, ?_⟩
  have h := lineCells_getElem dl row i ht
  rw [List.getElem?_eq_getElem hi] at h
  exact Option.some.inj h

/-- C15 (as stated): in a row of two spaces every character lies before the first
non-whitespace character, and the only run of the line is tagged trailing-whitespace. -/
theorem blank_row_is_trailing_whitespace :
    (blankRowLayer.lineForRow 0).all isBlank = true ∧
    buildScreenLines blankRowLayer 1 0 1 =
      some ([{ id := 1, lineText := [' ', ' '],
               tagCodes := [TagCode.openTag "trailing-whitespace".toList, TagCode.len 2,
                 TagCode.closeTag "trailing-whitespace".toList] }], 2) := by
  decide

/-- C15 (amended): on a buffer row on which no hunk starts, the tag stream is the
encoding of a list of runs such that every screen column of every character lies in a run
with the flags of the character, and the flags of the character at column `i` include
leading-whitespace exactly when the characters up to and including it are all spaces or
tabs and `i` is before the trailing-whitespace start column of the row. -/
theorem leadingWhitespace_before_first_text (dl : DisplayLayer) (st : BuilderState)
    (hhunks : ∀ h ∈ st.hunks, h.oldStart.row ≠ st.bufferRow) (htab : 0 < dl.tabLength) :
    ∃ st' line runs, rowStep dl st = some st' ∧
      st'.screenLines = st.screenLines ++ [line] ∧
      line.tagCodes = orZeroRun (encodeRuns runs) ∧
      Covers runs (lineCells dl st.bufferRow) ∧
      (lineCells dl st.bufferRow).length = (dl.lineForRow st.bufferRow).length ∧
      ∀ i (hi : i < (lineCells dl st.bufferRow).length),
        0 < ((lineCells dl st.bufferRow)[i]).width ∧
        (((lineCells dl st.bufferRow)[i]).flags &&& LEADING_WHITESPACE ≠ 0 ↔
          (((dl.lineForRow st.bufferRow).take (i + 1)).all isBlank = true ∧
            i < dl.findTrailingWhitespaceStartColumn (dl.lineForRow st.bufferRow))) := by
  obtain ⟨st', tail, h1, _, _, _, _, h6, _, _, _⟩ := rowStep_noHunk dl st hhunks
  refine ⟨st', _, _, h1, h6, rfl, ?_, lineCells_length dl _, ?_⟩
  · rw [List.append_assoc]
    exact covers_rowRuns _ _
  · intro i hi
    obtain ⟨ht, hcell⟩ := lineCells_get dl st.bufferRow i hi
    rw [hcell]
    refine ⟨cellOf_width_pos dl _ _ _ _ _ htab, ?_⟩
    rw [cellOf_leading, all_take_succ _ i ht]
    simp only [Bool.and_eq_true, Bool.not_eq_true', decide_eq_false_iff_not, Nat.not_le]
    constructor
    · rintro ⟨hb, ha, hlt⟩
      exact ⟨⟨ha, hb⟩, hlt⟩
    · rintro ⟨⟨ha, hb⟩, hlt⟩
      exact ⟨hb, ha, hlt⟩

theorem leadingWhitespace_before_first_text_witness :
    0 < spacedRowLayer.tabLength ∧
    ∃ st' line runs, rowStep spacedRowLayer (initialState spacedRowLayer 1 0 1) = some st' ∧
      st'.screenLines = (initialState spacedRowLayer 1 0 1).screenLines ++ [line] ∧
      line.tagCodes = orZeroRun (encodeRuns runs) ∧
      Covers runs (lineCells spacedRowLayer 0) :=
  ⟨by decide, by
    obtain ⟨st', line, runs, h1, h2, h3, h4, _⟩ :=
      leadingWhitespace_before_first_text spacedRowLayer (initialState spacedRowLayer 1 0 1)
        (fun _ h => absurd h (List.not_mem_nil _)) (by decide)
    exact ⟨st', line, runs, h1, h2, h3, h4⟩⟩

theorem tabRuns_cons (c : Cell) (cs : List Cell) :
    tabRuns (c :: cs) =
      (if hasHardTab c.flags = true then [(c.flags, c.width)] else []) ++ tabRuns cs := by
  unfold tabRuns
  rw [List.filter_cons]
  split <;> simp

/-- The runs with the hard-tab flag among the runs of a list of cells whose tabs force a
boundary: the run in progress if it is one, and one run for each tab. -/
theorem filter_groupRuns (cells : List Cell)
    (hforce : ∀ c ∈ cells, hasHardTab c.flags = true → c.force = true) :
    ∀ flags length,
      (groupRuns flags length cells).filter (fun r => hasHardTab r.1) =
        (if hasHardTab flags = true then [(flags, length)] else []) ++ tabRuns cells := by
  induction cells with
  | nil =>
    intro flags length
    simp only [groupRuns, tabRuns, List.filter_nil, List.map_nil, List.append_nil,
      List.filter_cons]
  | cons c cs ih =>
    intro flags length
    have hcs : ∀ d ∈ cs, hasHardTab d.flags = true → d.force = true :=
      fun d hd => hforce d (List.mem_cons_of_mem _ hd)
    have e : groupRuns flags length (c :: cs) =
        if c.flags = flags ∧ c.force = false then groupRuns flags (length + c.width) cs
        else (flags, length) :: groupRuns c.flags c.width cs := rfl
    rw [e, tabRuns_cons]
    by_cases hm : c.flags = flags ∧ c.force = false
    · rw [if_pos hm, ih hcs]
      have hno : ¬ hasHardTab c.flags = true := by
        intro h
        have := hforce c (List.mem_cons_self _ _) h
        rw [hm.2] at this
        exact absurd this (by decide)
      have hno2 : ¬ hasHardTab flags = true := by rw [← hm.1]; exact hno
      rw [if_neg hno, if_neg hno2, if_neg hno2]
      rfl
    · rw [if_neg hm, List.filter_cons, ih hcs]
      split <;> simp

theorem filter_rowRuns (cells : List Cell)
    (hforce : ∀ c ∈ cells, hasHardTab c.flags = true → c.force = true) :
    (rowRuns cells).filter (fun r => hasHardTab r.1) = tabRuns cells := by
  cases cells with
  | nil => rfl
  | cons c cs =>
    rw [rowRuns, filter_groupRuns cs (fun d hd => hforce d (List.mem_cons_of_mem _ hd)),
      tabRuns_cons]

theorem rowCells_tabs (dl : DisplayLayer) (tws : Nat) (text : List Char) :
    ∀ col sc lead,
      ((rowCells dl tws col sc lead text).filter (fun c => hasHardTab c.flags)).length =
        text.count '\t' := by
  induction text with
  | nil => intro col sc lead; rfl
  | cons ch rest ih =>
    intro col sc lead
    simp only [rowCells, List.filter_cons, List.count_cons]
    have h := (cellOf_synthetic dl tws sc (lead && !decide (tws ≤ col)) (decide (tws ≤ col))
      ch).2.2.1
    by_cases htab : ch = '\t'
    · have : hasHardTab (cellOf dl tws sc (lead && !decide (tws ≤ col)) (decide (tws ≤ col))
          ch).flags = true := by
        unfold hasHardTab
        exact decide_eq_true (h.mpr htab)
      rw [if_pos this, List.length_cons, ih]
      simp [htab]
    · have : ¬ hasHardTab (cellOf dl tws sc (lead && !decide (tws ≤ col)) (decide (tws ≤ col))
          ch).flags = true := by
        unfold hasHardTab
        intro hh
        exact htab (h.mp (of_decide_eq_true hh))
      rw [if_neg this, ih]
      simp [htab]

/-- C16: on a buffer row on which no hunk starts, the tag stream is the encoding of a
list of runs that cover the characters of the row; the runs with the hard-tab flag are, in
order, one run for each tab of the row, with the width of that tab alone, so that their
number is the number of tabs and two tabs in a row are never merged; and the flags of a
character include hard-tab exactly when it is a tab. -/
theorem every_tab_is_its_own_run (dl : DisplayLayer) (st : BuilderState)
    (hhunks : ∀ h ∈ st.hunks, h.oldStart.row ≠ st.bufferRow) (htab : 0 < dl.tabLength) :
    ∃ st' line runs, rowStep dl st = some st' ∧
      st'.screenLines = st.screenLines ++ [line] ∧
      line.tagCodes = orZeroRun (encodeRuns runs) ∧
      Covers runs (lineCells dl st.bufferRow) ∧
      runs.filter (fun r => hasHardTab r.1) = tabRuns (lineCells dl st.bufferRow) ∧
      (runs.filter (fun r => hasHardTab r.1)).length = (dl.lineForRow st.bufferRow).count '\t' ∧
      ∀ i (hi : i < (lineCells dl st.bufferRow).length),
        0 < ((lineCells dl st.bufferRow)[i]).width ∧
        (hasHardTab ((lineCells dl st.bufferRow)[i]).flags = true ↔
          (dl.lineForRow st.bufferRow)[i]? = some '\t') ∧
        (hasHardTab ((lineCells dl st.bufferRow)[i]).flags = true →
          ((lineCells dl st.bufferRow)[i]).width =
            dl.tabLength - cellsWidth ((lineCells dl st.bufferRow).take i) % dl.tabLength) := by
  obtain ⟨st', tail, h1, _, _, _, _, h6, _, h8, _⟩ := rowStep_noHunk dl st hhunks
  have hforce : ∀ c ∈ lineCells dl st.bufferRow, hasHardTab c.flags = true → c.force = true := by
    intro c hc hh
    obtain ⟨sc1, lead1, trailing1, ch, rfl⟩ := rowCells_mem dl _ _ _ _ _ c hc
    have hs := cellOf_synthetic dl (dl.findTrailingWhitespaceStartColumn
      (dl.lineForRow st.bufferRow)) sc1 lead1 trailing1 ch
    exact hs.2.2.2.1 (hs.2.2.1.mp (of_decide_eq_true hh))
  have hfilter : (rowRuns (lineCells dl st.bufferRow) ++
      eolRuns dl (dl.lineForRow st.bufferRow)
        (dl.eolInvisibles (dl.lineEndingForRow st.bufferRow)) ++ tail).filter
        (fun r => hasHardTab r.1) = tabRuns (lineCells dl st.bufferRow) := by
    rw [List.filter_append, List.filter_append, filter_rowRuns _ hforce]
    have he : (eolRuns dl (dl.lineForRow st.bufferRow)
        (dl.eolInvisibles (dl.lineEndingForRow st.bufferRow))).filter
        (fun r => hasHardTab r.1) = [] := by
      have hef : hasHardTab (eolFlags dl (dl.lineForRow st.bufferRow)) = false := by
        unfold eolFlags; split <;> decide
      unfold eolRuns
      split
      · simp [hef]
      · rfl
    have htl : tail.filter (fun r => hasHardTab r.1) = [] := by
      rw [List.filter_eq_nil_iff]
      intro r hr
      rcases (h8 r hr).1 with h0 | h0 <;> rw [h0] <;> decide
    rw [he, htl, List.append_nil, List.append_nil]
  refine ⟨st', _, _, h1, h6, rfl, ?_, hfilter, ?_, ?_⟩
  · rw [List.append_assoc]
    exact covers_rowRuns _ _
  · rw [hfilter]
    unfold tabRuns
    rw [List.length_map]
    exact rowCells_tabs dl _ _ 0 0 true
  · intro i hi
    obtain ⟨ht, hcell⟩ := lineCells_get dl st.bufferRow i hi
    rw [hcell]
    have hs := cellOf_synthetic dl (dl.findTrailingWhitespaceStartColumn
      (dl.lineForRow st.bufferRow)) (cellsWidth ((lineCells dl st.bufferRow).take i))
      (((dl.lineForRow st.bufferRow).take i).all isBlank &&
        !decide (dl.findTrailingWhitespaceStartColumn (dl.lineForRow st.bufferRow) ≤ i))
      (decide (dl.findTrailingWhitespaceStartColumn (dl.lineForRow st.bufferRow) ≤ i))
      ((dl.lineForRow st.bufferRow)[i])
    refine ⟨cellOf_width_pos dl _ _ _ _ _ htab, ?_, ?_⟩
    · unfold hasHardTab
      rw [decide_eq_true_iff, hs.2.2.1, List.getElem?_eq_getElem ht]
      simp
    · intro hh
      have hc : (dl.lineForRow st.bufferRow)[i] = '\t' :=
        hs.2.2.1.mp (of_decide_eq_true hh)
      rw [hc]
      exact (cellOf_tab dl _ _ _ _).2.2.2.2.2.2.2.2.2.1

theorem every_tab_is_its_own_run_witness :
    0 < twoTabsLayer.tabLength ∧
    ∃ st' line runs, rowStep twoTabsLayer (initialState twoTabsLayer 1 0 1) = some st' ∧
      st'.screenLines = (initialState twoTabsLayer 1 0 1).screenLines ++ [line] ∧
      line.tagCodes = orZeroRun (encodeRuns runs) ∧
      (runs.filter (fun r => hasHardTab r.1)).length = 2 :=
  ⟨by decide, by
    obtain ⟨st', line, runs, h1, h2, h3, _, _, h6, _⟩ :=
      every_tab_is_its_own_run twoTabsLayer (initialState twoTabsLayer 1 0 1)
        (fun _ h => absurd h (List.not_mem_nil _)) (by decide)
    exact ⟨st', line, runs, h1, h2, h3, h6⟩⟩

/-- C18: on a buffer row on which no hunk starts, whose trailing whitespace (from the
trailing-whitespace start column on) holds only spaces and tabs, the text of the line
starts with the renderings of the characters of the row, in order, and the tag stream is
the encoding of runs that cover the characters with their flags. With a space glyph
configured, a space before the first non-whitespace character or at or after the
trailing-whitespace start column is rendered as the glyph and its flags include
invisible-character; a space with a non-whitespace character before it and one after it
is rendered as a space and has no flags. A character that is neither a space nor a tab is
rendered as itself. With no space glyph configured, a space is rendered as a space and
its flags do not include invisible-character. -/
theorem spaces_render_as_glyph_or_space (dl : DisplayLayer) (st : BuilderState)
    (hhunks : ∀ h ∈ st.hunks, h.oldStart.row ≠ st.bufferRow)
    (htws : ∀ j (hj : j < (dl.lineForRow st.bufferRow).length),
      dl.findTrailingWhitespaceStartColumn (dl.lineForRow st.bufferRow) ≤ j →
      isBlank ((dl.lineForRow st.bufferRow)[j]) = true) :
    ∃ st' line runs rest, rowStep dl st = some st' ∧
      st'.screenLines = st.screenLines ++ [line] ∧
      line.lineText = cellsText (lineCells dl st.bufferRow) ++ rest ∧
      line.tagCodes = orZeroRun (encodeRuns runs) ∧
      Covers runs (lineCells dl st.bufferRow) ∧
      ∀ i (hi : i < (lineCells dl st.bufferRow).length)
        (ht : i < (dl.lineForRow st.bufferRow).length),
        ((dl.lineForRow st.bufferRow)[i] = ' ' →
          (((dl.lineForRow st.bufferRow).take i).all isBlank = true ∨
            dl.findTrailingWhitespaceStartColumn (dl.lineForRow st.bufferRow) ≤ i) →
          dl.invisibles.space ≠ [] →
          ((lineCells dl st.bufferRow)[i]).glyphs = dl.invisibles.space ∧
          hasInvisible ((lineCells dl st.bufferRow)[i]).flags = true) ∧
        ((dl.lineForRow st.bufferRow)[i] = ' ' →
          ((dl.lineForRow st.bufferRow).take i).all isBlank = false →
          (∃ j, i < j ∧ ∃ hj : j < (dl.lineForRow st.bufferRow).length,
            isBlank ((dl.lineForRow st.bufferRow)[j]) = false) →
          ((lineCells dl st.bufferRow)[i]).glyphs = [' '] ∧
          ((lineCells dl st.bufferRow)[i]).flags = 0) ∧
        ((dl.lineForRow st.bufferRow)[i] ≠ ' ' → (dl.lineForRow st.bufferRow)[i] ≠ '\t' →
          ((lineCells dl st.bufferRow)[i]).glyphs = [(dl.lineForRow st.bufferRow)[i]]) ∧
        ((dl.lineForRow st.bufferRow)[i] = ' ' → dl.invisibles.space = [] →
          ((lineCells dl st.bufferRow)[i]).glyphs = [' '] ∧
          hasInvisible ((lineCells dl st.bufferRow)[i]).flags = false) := by
  obtain ⟨st', tail, h1, _, _, _, _, h6, _, _, _⟩ := rowStep_noHunk dl st hhunks
  refine ⟨st', _, _, dl.eolInvisibles (dl.lineEndingForRow st.bufferRow) ++
    List.replicate (runsLength tail) ' ', h1, h6, ?_, rfl, ?_, ?_⟩
  · exact List.append_assoc _ _ _
  · rw [List.append_assoc]
    exact covers_rowRuns _ _
  · intro i hi ht
    obtain ⟨_, hcell⟩ := lineCells_get dl st.bufferRow i hi
    rw [hcell]
    generalize hA : ((dl.lineForRow st.bufferRow).take i).all isBlank = A
    generalize hsc : cellsWidth ((lineCells dl st.bufferRow).take i) = sc
    refine ⟨?_, ?_, ?_, ?_⟩
    · intro hc hpos hg
      rw [hc]
      have hs := cellOf_space dl (dl.findTrailingWhitespaceStartColumn
        (dl.lineForRow st.bufferRow)) sc
        (A && !decide (dl.findTrailingWhitespaceStartColumn (dl.lineForRow st.bufferRow) ≤ i))
        (decide (dl.findTrailingWhitespaceStartColumn (dl.lineForRow st.bufferRow) ≤ i))
      have hcond : ((A && !decide (dl.findTrailingWhitespaceStartColumn
            (dl.lineForRow st.bufferRow) ≤ i)) = true ∨
          decide (dl.findTrailingWhitespaceStartColumn (dl.lineForRow st.bufferRow) ≤ i) = true)
          ∧ dl.invisibles.space ≠ [] := by
        refine ⟨?_, hg⟩
        by_cases hle : dl.findTrailingWhitespaceStartColumn (dl.lineForRow st.bufferRow) ≤ i
        · exact Or.inr (decide_eq_true hle)
        · rcases hpos with h | h
          · exact Or.inl (by simp [h, hle])
          · exact absurd h hle
      refine ⟨?_, ?_⟩
      · rw [hs.2.2.2.2.2.2.2.2.2.2, if_pos hcond]
      · unfold hasInvisible
        exact decide_eq_true (hs.2.2.2.1.mpr hcond)
    · rintro hc hnA ⟨j, hij, hj, hjb⟩
      rw [hc]
      have hlt : ¬ dl.findTrailingWhitespaceStartColumn (dl.lineForRow st.bufferRow) ≤ i := by
        intro hle
        have := htws j hj (by omega)
        rw [hjb] at this
        exact absurd this (by decide)
      have hz : ¬ dl.findTrailingWhitespaceStartColumn (dl.lineForRow st.bufferRow) = 0 := by
        omega
      unfold cellOf
      simp [hnA, hlt, hz]
    · intro hsp htab
      rw [cellOf_other dl _ _ _ _ _ hsp htab]
    · intro hc hg
      rw [hc]
      have hs := cellOf_space dl (dl.findTrailingWhitespaceStartColumn
        (dl.lineForRow st.bufferRow)) sc
        (A && !decide (dl.findTrailingWhitespaceStartColumn (dl.lineForRow st.bufferRow) ≤ i))
        (decide (dl.findTrailingWhitespaceStartColumn (dl.lineForRow st.bufferRow) ≤ i))
      refine ⟨?_, ?_⟩
      · rw [hs.2.2.2.2.2.2.2.2.2.2, if_neg (fun h => h.2 hg)]
      · unfold hasInvisible
        rw [decide_eq_false_iff_not, hs.2.2.2.1]
        exact fun h => h.2 hg

theorem spaces_render_as_glyph_or_space_witness :
    ∃ st' line runs rest,
      rowStep spacedRowLayer (initialState spacedRowLayer 1 0 1) = some st' ∧
      st'.screenLines = (initialState spacedRowLayer 1 0 1).screenLines ++ [line] ∧
      line.lineText = cellsText (lineCells spacedRowLayer 0) ++ rest ∧
      line.tagCodes = orZeroRun (encodeRuns runs) ∧
      Covers runs (lineCells spacedRowLayer 0) := by
  obtain ⟨st', line, runs, rest, h1, h2, h3, h4, h5, _⟩ :=
    spaces_render_as_glyph_or_space spacedRowLayer (initialState spacedRowLayer 1 0 1)
      (fun _ h => absurd h (List.not_mem_nil _)) (by decide)
  exact ⟨st', line, runs, rest, h1, h2, h3, h4, h5⟩

theorem cellsText_plain (dl : DisplayLayer) (tws : Nat) (text : List Char)
    (hsp : dl.invisibles.space = []) (htb : dl.invisibles.tab = []) :
    ∀ col sc lead, cellsText (rowCells dl tws col sc lead text) =
      expandTabsFrom dl.tabLength sc text := by
  induction text with
  | nil => intro col sc lead; rfl
  | cons c rest ih =>
    intro col sc lead
    simp only [rowCells, cellsText_cons, expandTabsFrom, ih]
    by_cases htab : c = '\t'
    · subst htab
      have h := cellOf_tab dl tws sc (lead && !decide (tws ≤ col)) (decide (tws ≤ col))
      rw [h.2.2.2.2.2.2.2.2.2.2, h.2.2.2.2.2.2.2.2.2.1, if_neg (by simp [htb]), if_pos rfl]
    · rw [if_neg htab]
      by_cases hs : c = ' '
      · subst hs
        have h := cellOf_space dl tws sc (lead && !decide (tws ≤ col)) (decide (tws ≤ col))
        rw [h.2.2.2.2.2.2.2.2.2.2, h.2.2.2.2.2.2.2.2.2.1, if_neg (by simp [hsp])]
        rfl
      · rw [cellOf_other dl tws sc _ _ c hs htab]
        rfl

theorem expandTabsFrom_of_no_tab (tabLength : Nat) (text : List Char) (h : '\t' ∉ text) :
    ∀ column, expandTabsFrom tabLength column text = text := by
  induction text with
  | nil => intro column; rfl
  | cons c rest ih =>
    intro column
    have hc : c ≠ '\t' := fun e => h (by rw [e]; exact List.mem_cons_self _ _)
    have hr : '\t' ∉ rest := fun e => h (List.mem_cons_of_mem _ e)
    simp only [expandTabsFrom, if_neg hc, ih hr]

theorem plainRows_rowStep (dl : DisplayLayer) (s e : Nat)
    (hsp : dl.invisibles.space = []) (htb : dl.invisibles.tab = [])
    (heol : ∀ ending, dl.eolInvisibles ending = []) (hguides : dl.showIndentGuides = false)
    (st st' : BuilderState) (hP : PlainRows dl s e st) (hlt : st.screenRow < e)
    (hstep : rowStep dl st = some st') : PlainRows dl s e st' := by
  obtain ⟨p1, p2, p3, p4, p5⟩ := hP
  obtain ⟨st2, tail, h1, h2, h3, _, h5, h6, _, _, h9⟩ :=
    rowStep_noHunk dl st (fun h hh => by rw [p1] at hh; exact absurd hh (List.not_mem_nil _))
  rw [hstep] at h1
  have hst : st' = st2 := Option.some.inj h1
  subst hst
  have htail : tail = [] := h9 (by simp [hguides])
  refine ⟨?_, by omega, by omega, by omega, ?_⟩
  · cases hh : st'.hunks with
    | nil => rfl
    | cons x xs =>
      have := h5 x (by rw [hh]; exact List.mem_cons_self _ _)
      rw [p1] at this
      exact absurd this (List.not_mem_nil _)
  · have hk : st'.screenRow - s = (st.screenRow - s) + 1 := by omega
    rw [h6, hk, List.range_succ, List.map_append, List.map_append, p5, htail, heol]
    simp only [List.map_cons, List.map_nil, runsLength, List.sum_nil, List.replicate_zero,
      List.append_nil]
    rw [← p4]
    unfold lineCells expandTabs
    rw [cellsText_plain dl _ _ hsp htb]

/-- C19: with no hunks, no space, tab or end-of-line glyphs and indent guides off,
`buildScreenLines` returns `min(screenEndRow, getScreenLineCount()) - screenStartRow`
lines, and the text of line `i` is the reference tab expansion of buffer row `b + i`,
where `b` is the buffer row of the first screen row; a row without tabs is its own tab
expansion. -/
theorem plain_rows_are_tab_expanded (dl : DisplayLayer)
    (nextScreenLineId screenStartRow screenEndRow : Nat)
    (htab : 0 < dl.tabLength)
    (hhunks : dl.getHunksInNewRange ⟨screenStartRow, 0⟩
      ⟨min screenEndRow dl.getScreenLineCount, 0⟩ = [])
    (hsp : dl.invisibles.space = []) (htb : dl.invisibles.tab = [])
    (heol : ∀ ending, dl.eolInvisibles ending = []) (hguides : dl.showIndentGuides = false) :
    ∃ lines next,
      buildScreenLines dl nextScreenLineId screenStartRow screenEndRow = some (lines, next) ∧
      lines.length = min screenEndRow dl.getScreenLineCount - screenStartRow ∧
      lines.map ScreenLine.lineText =
        (List.range (min screenEndRow dl.getScreenLineCount - screenStartRow)).map (fun i =>
          expandTabs dl.tabLength
            (dl.lineForRow ((dl.translateScreenPosition ⟨screenStartRow, 0⟩).row + i))) ∧
      ∀ text : List Char, '\t' ∉ text → expandTabs dl.tabLength text = text := by
  have _ := htab
  obtain ⟨st, hloop, hbs⟩ :=
    buildScreenLines_eq dl nextScreenLineId screenStartRow screenEndRow
  have h0 : PlainRows dl screenStartRow (min screenEndRow dl.getScreenLineCount)
      (initialState dl nextScreenLineId screenStartRow
        (min screenEndRow dl.getScreenLineCount)) := by
    refine ⟨hhunks, Nat.le_refl _, Nat.le_max_left _ _, ?_, ?_⟩
    · simp [initialState]
    · simp [initialState]
  obtain ⟨⟨p1, p2, p3, p4, p5⟩, hn⟩ := rowLoop_induct
    (P := PlainRows dl screenStartRow (min screenEndRow dl.getScreenLineCount)) dl _
    (fun a b hP hlt hs => plainRows_rowStep dl _ _ hsp htb heol hguides a b hP hlt hs)
    _ _ st h0 hloop
  have hk : st.screenRow - screenStartRow =
      min screenEndRow dl.getScreenLineCount - screenStartRow := by
    omega
  rw [hk] at p5
  refine ⟨_, _, hbs, ?_, p5, fun text h => expandTabsFrom_of_no_tab _ text h 0⟩
  have := congrArg List.length p5
  simpa using this

theorem plain_rows_are_tab_expanded_witness :
    0 < tabbedRowsLayer.tabLength ∧
    ∃ lines next, buildScreenLines tabbedRowsLayer 1 0 3 = some (lines, next) ∧
      lines.length = 3 ∧
      lines.map ScreenLine.lineText =
        (List.range 3).map (fun i =>
          expandTabs tabbedRowsLayer.tabLength (tabbedRowsLayer.lineForRow (0 + i))) :=
  ⟨by decide, by
    obtain ⟨lines, next, h1, h2, h3, _⟩ := plain_rows_are_tab_expanded tabbedRowsLayer 1 0 3
      (by decide) (by decide) (by decide) (by decide) (fun _ => rfl) (by decide)
    exact ⟨lines, next, h1, h2, h3⟩⟩

theorem tab_stop_mod (t sc : Nat) (ht : 0 < t) : (sc + (t - sc % t)) % t = 0 := by
  have h1 := Nat.div_add_mod sc t
  have h2 := Nat.mod_lt sc ht
  have h3 : sc + (t - sc % t) = t * (sc / t + 1) := by
    rw [Nat.mul_add, Nat.mul_one]
    omega
  rw [h3]
  exact Nat.mul_mod_right _ _

theorem cellOf_space_flags (dl : DisplayLayer) (tws sc sc1 : Nat) (lead trailing : Bool) :
    (cellOf dl tws sc lead trailing ' ').flags = (cellOf dl tws sc1 lead trailing ' ').flags := by
  unfold cellOf
  simp only [if_true]

theorem cellOf_guide (dl : DisplayLayer) (tws sc : Nat) (lead trailing : Bool) (c : Char)
    (h : (cellOf dl tws sc lead trailing c).flags &&& INDENT_GUIDE ≠ 0) :
    (lead = true ∨ tws = 0) ∧
    (sc % dl.tabLength ≠ 0 → c = ' ' ∧ (cellOf dl tws sc lead trailing c).force = false) := by
  by_cases hsp : c = ' '
  · subst hsp
    have hs := cellOf_space dl tws sc lead trailing
    refine ⟨(hs.2.2.2.2.1.mp h).2, fun hm => ⟨rfl, ?_⟩⟩
    cases hf : (cellOf dl tws sc lead trailing ' ').force
    · rfl
    · exact absurd (hs.2.2.2.2.2.2.2.2.1.mp hf).2 hm
  · by_cases htab : c = '\t'
    · subst htab
      have hs := cellOf_tab dl tws sc lead trailing
      have hg := hs.2.2.2.2.1.mp h
      exact ⟨hg.1.2, fun hm => absurd hg.2 hm⟩
    · rw [cellOf_other dl tws sc lead trailing c hsp htab] at h
      exact absurd (show (0 : Nat) &&& INDENT_GUIDE = 0 by decide) h

theorem cell_after_cell (dl : DisplayLayer) (tws col sc : Nat) (lead : Bool) (c ch : Char)
    (ht : 0 < dl.tabLength) (hb : tws = 0 → isBlank c = true)
    (hg : (cellOf dl tws
      (sc + (cellOf dl tws sc (lead && !decide (tws ≤ col)) (decide (tws ≤ col)) c).width)
      (((lead && !decide (tws ≤ col)) && isBlank c) && !decide (tws ≤ col + 1))
      (decide (tws ≤ col + 1)) ch).flags &&& INDENT_GUIDE ≠ 0)
    (hm : (sc + (cellOf dl tws sc (lead && !decide (tws ≤ col)) (decide (tws ≤ col)) c).width) %
      dl.tabLength ≠ 0) :
    (cellOf dl tws
      (sc + (cellOf dl tws sc (lead && !decide (tws ≤ col)) (decide (tws ≤ col)) c).width)
      (((lead && !decide (tws ≤ col)) && isBlank c) && !decide (tws ≤ col + 1))
      (decide (tws ≤ col + 1)) ch).flags =
      (cellOf dl tws sc (lead && !decide (tws ≤ col)) (decide (tws ≤ col)) c).flags ∧
    (cellOf dl tws
      (sc + (cellOf dl tws sc (lead && !decide (tws ≤ col)) (decide (tws ≤ col)) c).width)
      (((lead && !decide (tws ≤ col)) && isBlank c) && !decide (tws ≤ col + 1))
      (decide (tws ≤ col + 1)) ch).force = false := by
  obtain ⟨h1, h2⟩ := cellOf_guide dl tws _ _ _ ch hg
  obtain ⟨hch, hforce⟩ := h2 hm
  refine ⟨?_, hforce⟩
  subst hch
  have hblank : isBlank c = true := by
    rcases h1 with h | h
    · simp only [Bool.and_eq_true] at h
      exact h.1.2
    · exact hb h
  have hc : c = ' ' := by
    unfold isBlank at hblank
    simp only [Bool.or_eq_true, decide_eq_true_eq] at hblank
    rcases hblank with h | h
    · exact h
    · subst h
      rw [(cellOf_tab dl tws sc _ _).2.2.2.2.2.2.2.2.2.1] at hm
      exact absurd (tab_stop_mod dl.tabLength sc ht) hm
  subst hc
  have hlt : (lead && !decide (tws ≤ col) && isBlank ' ' && !decide (tws ≤ col + 1)) =
        (lead && !decide (tws ≤ col)) ∧ decide (tws ≤ col + 1) = decide (tws ≤ col) := by
    rcases h1 with h | h
    · simp only [Bool.and_eq_true, Bool.not_eq_true', decide_eq_false_iff_not] at h
      have h3 : ¬ tws ≤ col := by omega
      simp [h.1.1.1, h.2, h3, isBlank]
    · subst h
      simp
  rw [hlt.1, hlt.2]
  exact cellOf_space_flags dl tws _ _ _ _

theorem tickChain_rowCells (dl : DisplayLayer) (tws : Nat) (ht : 0 < dl.tabLength)
    (text : List Char) (hb : tws = 0 → ∀ c ∈ text, isBlank c = true) :
    ∀ col sc lead flags,
      (∀ ch, (cellOf dl tws sc (lead && !decide (tws ≤ col)) (decide (tws ≤ col)) ch).flags &&&
          INDENT_GUIDE ≠ 0 → sc % dl.tabLength ≠ 0 →
        (cellOf dl tws sc (lead && !decide (tws ≤ col)) (decide (tws ≤ col)) ch).flags = flags ∧
        (cellOf dl tws sc (lead && !decide (tws ≤ col)) (decide (tws ≤ col)) ch).force = false) →
      TickChain dl.tabLength sc flags (rowCells dl tws col sc lead text) := by
  induction text with
  | nil => intro col sc lead flags _; exact True.intro
  | cons c rest ih =>
    intro col sc lead flags h0
    have e : rowCells dl tws col sc lead (c :: rest) =
        cellOf dl tws sc (lead && !decide (tws ≤ col)) (decide (tws ≤ col)) c ::
          rowCells dl tws (col + 1)
            (sc + (cellOf dl tws sc (lead && !decide (tws ≤ col)) (decide (tws ≤ col)) c).width)
            ((lead && !decide (tws ≤ col)) && isBlank c) rest := rfl
    rw [e]
    refine ⟨h0 c, ?_⟩
    apply ih (fun hz ch hch => hb hz ch (List.mem_cons_of_mem _ hch))
    intro ch hg hm
    exact cell_after_cell dl tws col sc lead c ch ht
      (fun hz => hb hz c (List.mem_cons_self _ _)) hg hm

theorem runsOnTicks_groupRuns (t : Nat) (cells : List Cell) :
    ∀ start flags length, TickChain t (start + length) flags cells →
      (flags &&& INDENT_GUIDE ≠ 0 → start % t = 0) →
      RunsOnTicks t start (groupRuns flags length cells) := by
  induction cells with
  | nil =>
    intro start flags length _ h
    exact ⟨h, True.intro⟩
  | cons c cs ih =>
    intro start flags length hc h
    have e : groupRuns flags length (c :: cs) =
        if c.flags = flags ∧ c.force = false then groupRuns flags (length + c.width) cs
        else (flags, length) :: groupRuns c.flags c.width cs := rfl
    rw [e]
    obtain ⟨hc1, hc2⟩ := hc
    split
    · rename_i hm
      apply ih start flags (length + c.width) _ h
      rw [← Nat.add_assoc, ← hm.1]
      exact hc2
    · rename_i hm
      refine ⟨h, ?_⟩
      apply ih (start + length) c.flags c.width hc2
      intro hg
      by_contra hne
      exact hm (hc1 hg hne)

theorem runsLength_groupRuns (cells : List Cell) :
    ∀ flags length, runsLength (groupRuns flags length cells) = length + cellsWidth cells := by
  induction cells with
  | nil => intro flags length; simp [groupRuns, runsLength, cellsWidth]
  | cons c cs ih =>
    intro flags length
    have e : groupRuns flags length (c :: cs) =
        if c.flags = flags ∧ c.force = false then groupRuns flags (length + c.width) cs
        else (flags, length) :: groupRuns c.flags c.width cs := rfl
    rw [e, cellsWidth_cons]
    split
    · rw [ih]; omega
    · rw [runsLength_cons, ih]

theorem runsLength_rowRuns (cells : List Cell) :
    runsLength (rowRuns cells) = cellsWidth cells := by
  cases cells with
  | nil => rfl
  | cons c cs =>
    rw [cellsWidth_cons]
    exact runsLength_groupRuns cs _ _

theorem runsOnTicks_lineCells (dl : DisplayLayer) (row : Nat) (ht : 0 < dl.tabLength)
    (hb : dl.findTrailingWhitespaceStartColumn (dl.lineForRow row) = 0 →
      ∀ c ∈ dl.lineForRow row, isBlank c = true) :
    RunsOnTicks dl.tabLength 0 (rowRuns (lineCells dl row)) := by
  unfold lineCells
  cases htext : dl.lineForRow row with
  | nil => exact True.intro
  | cons c rest =>
    rw [htext] at hb
    generalize dl.findTrailingWhitespaceStartColumn (c :: rest) = tws at hb
    have e : rowCells dl tws 0 0 true (c :: rest) =
        cellOf dl tws 0 (true && !decide (tws ≤ 0)) (decide (tws ≤ 0)) c ::
          rowCells dl tws (0 + 1)
            (0 + (cellOf dl tws 0 (true && !decide (tws ≤ 0)) (decide (tws ≤ 0)) c).width)
            ((true && !decide (tws ≤ 0)) && isBlank c) rest := rfl
    rw [e]
    apply runsOnTicks_groupRuns dl.tabLength _ 0 _ _ _ (fun _ => Nat.zero_mod _)
    apply tickChain_rowCells dl tws ht rest
      (fun hz ch hch => hb hz ch (List.mem_cons_of_mem _ hch))
    intro ch hg hm
    exact cell_after_cell dl tws 0 0 true c ch ht
      (fun hz => hb hz c (List.mem_cons_self _ _)) hg hm

theorem flagsOfTag_getBasicTag (flags : Nat) (h : flags &&& definedFlags = flags) :
    flagsOfTag (getBasicTag flags) = flags := by
  have hlt : flags < 254 := by
    have := @Nat.and_le_right flags definedFlags
    rw [h] at this
    have e : definedFlags = 253 := by decide
    omega
  exact flagsOfTag_computeBasicTag flags hlt h

theorem guidesOnTicks_encodeRun (t column : Nat) (r : Nat × Nat) (rest : List TagCode)
    (hr : r.1 &&& definedFlags = r.1) (ht : r.1 &&& INDENT_GUIDE ≠ 0 → column % t = 0) :
    guidesOnTicks t column (encodeRun r ++ rest) = guidesOnTicks t (column + r.2) rest := by
  have hf := flagsOfTag_getBasicTag r.1 hr
  unfold encodeRun openCodes closeCodes runCodes
  by_cases hl : (getBasicTag r.1).length > 0 <;> by_cases hn : r.2 > 0
  · rw [if_pos hl, if_pos hn, if_pos hl]
    simp only [List.append_assoc, List.singleton_append, List.cons_append, List.nil_append,
      guidesOnTicks, hf]
    by_cases hg : r.1 &&& INDENT_GUIDE = 0
    · simp [hg]
    · simp [ht hg]
  · rw [if_pos hl, if_neg hn, if_pos hl]
    have h0 : r.2 = 0 := by omega
    simp only [List.append_assoc, List.singleton_append, List.cons_append, List.nil_append,
      guidesOnTicks, hf, h0, Nat.add_zero]
    by_cases hg : r.1 &&& INDENT_GUIDE = 0
    · simp [hg]
    · simp [ht hg]
  · rw [if_neg hl, if_pos hn, if_neg hl]
    simp only [List.append_assoc, List.singleton_append, List.cons_append, List.nil_append,
      List.append_nil, guidesOnTicks]
    rfl
  · rw [if_neg hl, if_neg hn, if_neg hl]
    have h0 : r.2 = 0 := by omega
    simp only [List.nil_append, h0, Nat.add_zero]

theorem guidesOnTicks_encodeRuns (t : Nat) (runs : List (Nat × Nat)) :
    ∀ column rest, (∀ r ∈ runs, r.1 &&& definedFlags = r.1) → RunsOnTicks t column runs →
      guidesOnTicks t column (encodeRuns runs ++ rest) =
        guidesOnTicks t (column + runsLength runs) rest := by
  induction runs with
  | nil => intro column rest _ _; rfl
  | cons r rs ih =>
    intro column rest hr ht
    rw [encodeRuns_cons, List.append_assoc,
      guidesOnTicks_encodeRun t column r _ (hr r (List.mem_cons_self _ _)) ht.1,
      ih _ _ (fun q hq => hr q (List.mem_cons_of_mem _ hq)) ht.2, runsLength_cons,
      Nat.add_assoc]

theorem guidesOnTicks_orZeroRun (t : Nat) (runs : List (Nat × Nat))
    (hr : ∀ r ∈ runs, r.1 &&& definedFlags = r.1) (ht : RunsOnTicks t 0 runs) :
    guidesOnTicks t 0 (orZeroRun (encodeRuns runs)) = true := by
  unfold orZeroRun
  split
  · rfl
  · have h := guidesOnTicks_encodeRuns t runs 0 [] hr ht
    rw [List.append_nil] at h
    rw [h]
    rfl

/-- C17 (counterexample): with a fold from the start of a row into the leading spaces of
the next row, tab length 4 and the indent guides on, the line is the fold glyph and the
remaining spaces, and the run of the first three of them has the indent-guide tag and
starts at screen column 1. -/
theorem guide_run_after_fold_starts_off_tick :
    foldAtStartLayer.tabLength = 4 ∧ foldAtStartLayer.showIndentGuides = true ∧
    buildScreenLines foldAtStartLayer 0 0 1 =
      some ([{ id := 0, lineText := "⋯    y".toList,
               tagCodes := [TagCode.openTag "fold-marker".toList, TagCode.len 1,
                 TagCode.closeTag "fold-marker".toList,
                 TagCode.openTag "leading-whitespace indent-guide".toList, TagCode.len 3,
                 TagCode.closeTag "leading-whitespace indent-guide".toList,
                 TagCode.openTag "leading-whitespace indent-guide".toList, TagCode.len 1,
                 TagCode.closeTag "leading-whitespace indent-guide".toList,
                 TagCode.len 1] }], 1) ∧
    guidesOnTicks 4 0 [TagCode.openTag "fold-marker".toList, TagCode.len 1,
      TagCode.closeTag "fold-marker".toList,
      TagCode.openTag "leading-whitespace indent-guide".toList, TagCode.len 3,
      TagCode.closeTag "leading-whitespace indent-guide".toList,
      TagCode.openTag "leading-whitespace indent-guide".toList, TagCode.len 1,
      TagCode.closeTag "leading-whitespace indent-guide".toList,
      TagCode.len 1] = false := by
  decide

/-- C17 (amended): on a buffer row on which no hunk starts, with a positive tab length
and a trailing-whitespace start column that is 0 only for a row of spaces and tabs, the
tag stream is the encoding of a list of runs that cover the characters of the row, and
every run whose flags include indent-guide starts at a screen column that is a multiple
of the tab length; read on the stream itself, every open code of a tag with the
indent-guide name stands at a multiple of the tab length. -/
theorem guide_runs_start_on_ticks (dl : DisplayLayer) (st : BuilderState)
    (hhunks : ∀ h ∈ st.hunks, h.oldStart.row ≠ st.bufferRow) (htab : 0 < dl.tabLength)
    (hblank : dl.findTrailingWhitespaceStartColumn (dl.lineForRow st.bufferRow) = 0 →
      ∀ c ∈ dl.lineForRow st.bufferRow, isBlank c = true) :
    ∃ st' line runs, rowStep dl st = some st' ∧
      st'.screenLines = st.screenLines ++ [line] ∧
      line.tagCodes = orZeroRun (encodeRuns runs) ∧
      Covers runs (lineCells dl st.bufferRow) ∧
      RunsOnTicks dl.tabLength 0 runs ∧
      guidesOnTicks dl.tabLength 0 line.tagCodes = true := by
  obtain ⟨st', tail, h1, _, _, _, _, h6, h7, h8, h9⟩ := rowStep_noHunk dl st hhunks
  have hticks : RunsOnTicks dl.tabLength 0 (rowRuns (lineCells dl st.bufferRow) ++
      eolRuns dl (dl.lineForRow st.bufferRow)
        (dl.eolInvisibles (dl.lineEndingForRow st.bufferRow)) ++ tail) := by
    rw [List.append_assoc, runsOnTicks_append]
    refine ⟨runsOnTicks_lineCells dl st.bufferRow htab hblank, ?_⟩
    rw [Nat.zero_add, runsLength_rowRuns]
    unfold eolRuns
    split
    · rw [List.singleton_append]
      refine ⟨?_, h7⟩
      intro hg
      have hempty : (dl.lineForRow st.bufferRow).length = 0 := by
        unfold eolFlags at hg
        split at hg
        · rename_i hc; exact hc.1
        · exact absurd (show (0 ||| (INVISIBLE_CHARACTER ||| LINE_ENDING)) &&& INDENT_GUIDE = 0
            by decide) hg
      have hnil : lineCells dl st.bufferRow = [] := by
        unfold lineCells
        rw [List.length_eq_zero.mp hempty]
        rfl
      rw [hnil]
      exact Nat.zero_mod _
    · rename_i hne
      rw [List.nil_append]
      have hz : (dl.eolInvisibles (dl.lineEndingForRow st.bufferRow)).length = 0 := by
        rw [List.length_eq_zero]
        exact not_not.mp hne
      rw [hz, Nat.add_zero] at h7
      exact h7
  have hdef : ∀ r ∈ rowRuns (lineCells dl st.bufferRow) ++
      eolRuns dl (dl.lineForRow st.bufferRow)
        (dl.eolInvisibles (dl.lineEndingForRow st.bufferRow)) ++ tail,
      r.1 &&& definedFlags = r.1 := by
    intro r hr
    rcases List.mem_append.mp hr with hr | hr
    · rcases List.mem_append.mp hr with hr | hr
      · obtain ⟨c, hc, e⟩ := rowRuns_flags _ r hr
        obtain ⟨sc1, lead1, trailing1, ch, rfl⟩ := rowCells_mem dl _ _ _ _ _ c hc
        rw [e]
        exact (cellOf_synthetic dl _ sc1 lead1 trailing1 ch).2.2.2.2
      · unfold eolRuns at hr
        split at hr
        · rw [List.mem_singleton.mp hr]
          dsimp only
          unfold eolFlags
          split <;> decide
        · exact absurd hr (List.not_mem_nil _)
    · rcases (h8 r hr).1 with h0 | h0 <;> rw [h0] <;> decide
  refine ⟨st', _, _, h1, h6, rfl, ?_, hticks, guidesOnTicks_orZeroRun _ _ hdef hticks⟩
  rw [List.append_assoc]
  exact covers_rowRuns _ _

theorem guide_runs_start_on_ticks_witness :
    0 < guidedRowLayer.tabLength ∧
    ∃ st' line runs, rowStep guidedRowLayer (initialState guidedRowLayer 1 0 1) = some st' ∧
      st'.screenLines = (initialState guidedRowLayer 1 0 1).screenLines ++ [line] ∧
      line.tagCodes = orZeroRun (encodeRuns runs) ∧
      RunsOnTicks guidedRowLayer.tabLength 0 runs ∧
      guidesOnTicks guidedRowLayer.tabLength 0 line.tagCodes = true :=
  ⟨by decide, by
    obtain ⟨st', line, runs, h1, h2, h3, _, h5, h6⟩ :=
      guide_runs_start_on_ticks guidedRowLayer (initialState guidedRowLayer 1 0 1)
        (fun _ h => absurd h (List.not_mem_nil _)) (by decide)
        (fun h => absurd h (by decide))
    exact ⟨st', line, runs, h1, h2, h3, h5, h6⟩⟩

/-- C13 (the code at the failing input): a fold starts on row 0, whose line ending has
the glyph `¤`, and ends on row 1, whose line ending has the glyph `¬`; the screen line
ends with `¤`, the glyph of the line ending of the row the fold started on. -/
theorem fold_keeps_lineEnding_of_start_row :
    foldAcrossEndingsLayer.eolInvisibles (foldAcrossEndingsLayer.lineEndingForRow 0) = ['¤'] ∧
    foldAcrossEndingsLayer.eolInvisibles (foldAcrossEndingsLayer.lineEndingForRow 1) = ['¬'] ∧
    buildScreenLines foldAcrossEndingsLayer 1 0 1 =
      some ([{ id := 1, lineText := ['a', '⋯', 'd', '¤'],
               tagCodes := [TagCode.len 1, TagCode.openTag "fold-marker".toList, TagCode.len 1,
                 TagCode.closeTag "fold-marker".toList, TagCode.len 1,
                 TagCode.openTag "invisible-character eol".toList, TagCode.len 1,
                 TagCode.closeTag "invisible-character eol".toList] }], 2) := by
  decide

theorem scanFlat_append (a b : List TagCode) (s : RunState) :
    scanFlat s (a ++ b) = (scanFlat s a).bind (fun s1 => scanFlat s1 b) := by
  induction a generalizing s with
  | nil => rfl
  | cons c a ih =>
    simp only [List.cons_append, scanFlat]
    cases flatStep s c with
    | none => rfl
    | some s1 => exact ih s1

theorem openState_zero : openState 0 = RunState.idle := by decide

theorem scanFlat_runCodes (n : Nat) :
    scanFlat RunState.idle (runCodes n) = some RunState.idle := by
  unfold runCodes
  split
  · rename_i h
    simp [scanFlat, flatStep, h]
  · rfl

theorem scanFlat_openCodes (flags : Nat) :
    scanFlat RunState.idle (openCodes (getBasicTag flags)) = some (openState flags) := by
  unfold openCodes openState
  split
  · simp [scanFlat, flatStep]
  · rfl

theorem scanFlat_closeCodes (flags n : Nat) (h : (getBasicTag flags).length > 0 → 0 < n) :
    scanFlat (openState flags) (runCodes n ++ closeCodes (getBasicTag flags)) =
      some RunState.idle := by
  unfold closeCodes openState
  by_cases ht : (getBasicTag flags).length > 0
  · have hn := h ht
    rw [if_pos ht, if_pos ht]
    unfold runCodes
    rw [if_pos hn]
    simp [scanFlat, flatStep, hn]
  · rw [if_neg ht, if_neg ht, List.append_nil]
    exact scanFlat_runCodes n

theorem scanFlat_close (flags : Nat) (st : BuilderState) (h : ScanOpen flags st)
    (hl : LenPos flags st) :
    scanFlat RunState.idle (st.tagCodes ++ runCodes st.currentTokenLength ++
      closeCodes (getBasicTag flags)) = some RunState.idle := by
  unfold ScanOpen at h
  rw [List.append_assoc, scanFlat_append, h]
  exact scanFlat_closeCodes flags _ hl

theorem scanFlat_open (flags : Nat) (codes : List TagCode) (n : Nat)
    (h : scanFlat RunState.idle codes = some RunState.idle) :
    scanFlat RunState.idle (codes ++ runCodes n ++ openCodes (getBasicTag flags)) =
      some (openState flags) := by
  rw [scanFlat_append, scanFlat_append, h]
  simp only [Option.some_bind, scanFlat_runCodes]
  exact scanFlat_openCodes flags

theorem scanFlat_len (codes : List TagCode) (n : Nat)
    (h : scanFlat RunState.idle codes = some RunState.idle) :
    scanFlat RunState.idle (codes ++ runCodes n) = some RunState.idle := by
  rw [scanFlat_append, h]
  exact scanFlat_runCodes n

theorem flat_emitCloseTag (flags : Nat) (st : BuilderState) (h : ScanOpen flags st)
    (hl : LenPos flags st) :
    scanFlat RunState.idle (emitCloseTag (getBasicTag flags) st).tagCodes =
      some RunState.idle := by
  rw [emitCloseTag_eq]
  exact scanFlat_close flags st h hl

theorem scanOpen_emitOpenTag (flags : Nat) (st : BuilderState)
    (h : scanFlat RunState.idle st.tagCodes = some RunState.idle) :
    ScanOpen flags (emitOpenTag (getBasicTag flags) st) := by
  unfold ScanOpen
  rw [emitOpenTag_eq]
  exact scanFlat_open flags _ _ h

theorem scanOpen_applyFold (dl : DisplayLayer) (hk : Hunk) (st : BuilderState)
    (h : ScanOpen st.previousTokenFlags st) (hl : LenPos st.previousTokenFlags st) :
    ScanOpen FOLD (applyFold dl hk st) := by
  have hf := applyFold_fields dl hk st
  unfold ScanOpen
  rw [hf.2.2.2.2.2.2.2.2.2.2.2.2.2]
  split
  · rw [scanFlat_append, scanFlat_close _ st h hl]
    exact scanFlat_openCodes FOLD
  · have h0 : st.previousTokenFlags = 0 := by omega
    unfold ScanOpen at h
    rw [h0, openState_zero] at h
    rw [List.append_nil]
    exact scanFlat_open FOLD _ _ h

theorem wrapFlat_softWrapGuidesStep (dl : DisplayLayer) (st : BuilderState)
    (h : WrapFlat st) : WrapFlat (softWrapGuidesStep dl st) := by
  right
  unfold softWrapGuidesStep
  simp only []
  refine ⟨by omega, by omega, ?_⟩
  unfold ScanOpen
  simp only []
  rcases h with ⟨h1, h2, h3⟩ | ⟨h1, h2, h3⟩
  · rw [onlyIf_pos _ _ (by rw [h1]; exact Nat.zero_mod _), onlyIf_neg _ _ (by omega)]
    exact scanOpen_emitOpenTag _ _ (by rw [h2]; rfl)
  · unfold onlyIf
    split
    · dsimp only
      rw [if_pos h2]
      exact scanOpen_emitOpenTag _ _ (flat_emitCloseTag _ _ h3 (fun _ => h2))
    · exact h3

theorem softWrapGuides_flat (dl : DisplayLayer) (n : Nat) (st : BuilderState)
    (hn : 0 < n) (h1 : st.tagCodes = []) (h2 : st.currentTokenLength = 0)
    (h3 : st.screenColumn = 0) :
    scanFlat RunState.idle
      (emitCloseTag (getBasicTag INDENT_GUIDE) (softWrapGuides dl n n st)).tagCodes =
      some RunState.idle := by
  have hw := softWrapGuides_induct (P := WrapFlat) dl n
    (fun s hs _ => wrapFlat_softWrapGuidesStep dl s hs) n st (Or.inl ⟨h3, h1, h2⟩)
  have hc := (softWrapGuides_screenColumn dl n n st (by omega) (by omega)).1
  rcases hw with ⟨e, _, _⟩ | ⟨_, hp, e⟩
  · omega
  · exact flat_emitCloseTag _ _ e (fun _ => hp)

theorem applySoftWrap_flat (dl : DisplayLayer) (hk : Hunk) (st : BuilderState) :
    scanFlat RunState.idle (applySoftWrap dl hk st).tagCodes = some RunState.idle := by
  unfold applySoftWrap
  simp only []
  split
  · rename_i hc
    apply softWrapGuides_flat dl _ _ hc.2
    · rfl
    · simp [pushScreenLine, emitCloseTag_eq]
    · rfl
  · rfl

theorem applyFold_length (dl : DisplayLayer) (hk : Hunk) (st : BuilderState) :
    (applyFold dl hk st).currentTokenLength = dl.foldCharacter.length :=
  (applyFold_fields dl hk st).2.2.2.2.2.2.2.2.2.1

theorem lenPos_zero (st : BuilderState) : LenPos 0 st := by
  intro h
  exact absurd h (by decide)

theorem flat_applyHunk (dl : DisplayLayer) (hfold : dl.foldCharacter ≠ []) (hk : Hunk)
    (st : BuilderState)
    (h : ScanOpen st.previousTokenFlags st ∧ LenPos st.previousTokenFlags st ∧
      LinesFlat st.screenLines) :
    ScanOpen (applyHunk dl hk st).previousTokenFlags (applyHunk dl hk st) ∧
      LenPos (applyHunk dl hk st).previousTokenFlags (applyHunk dl hk st) ∧
      LinesFlat (applyHunk dl hk st).screenLines := by
  unfold applyHunk
  split
  · have hf := applyFold_fields dl hk st
    rw [hf.1, hf.2.2.2.2.2.2.2.1]
    refine ⟨scanOpen_applyFold dl hk st h.1 h.2.1, ?_, h.2.2⟩
    intro _
    rw [applyFold_length]
    exact List.length_pos.mpr hfold
  · split
    · have hf := applySoftWrap_fields dl hk st
      rw [hf.1, hf.2.2.2.2.2.2.2]
      refine ⟨?_, lenPos_zero _, ?_⟩
      · unfold ScanOpen
        rw [openState_zero]
        exact applySoftWrap_flat dl hk st
      · intro l hmem
        rcases List.mem_append.mp hmem with hm | hm
        · exact h.2.2 l hm
        · simp only [List.mem_singleton] at hm
          subst hm
          right
          unfold isFlat
          exact decide_eq_true (scanFlat_close _ st h.1 h.2.1)
    · exact h

theorem flat_drainHunks (dl : DisplayLayer) (hfold : dl.foldCharacter ≠ []) (hs : List Hunk)
    (st : BuilderState)
    (h : ScanOpen st.previousTokenFlags st ∧ LenPos st.previousTokenFlags st ∧
      LinesFlat st.screenLines) :
    ScanOpen (drainHunks dl hs st).previousTokenFlags (drainHunks dl hs st) ∧
      LenPos (drainHunks dl hs st).previousTokenFlags (drainHunks dl hs st) ∧
      LinesFlat (drainHunks dl hs st).screenLines :=
  drainHunks_induct
    (P := fun _ s => ScanOpen s.previousTokenFlags s ∧ LenPos s.previousTokenFlags s ∧
      LinesFlat s.screenLines)
    (Q := fun s => ScanOpen s.previousTokenFlags s ∧ LenPos s.previousTokenFlags s ∧
      LinesFlat s.screenLines) dl
    (fun hk _ s hp _ _ => flat_applyHunk dl hfold hk s hp)
    (fun _ _ hp => hp) hs st h

/-- Closing the previous token and opening the current one leaves the stream flat up to
the open code of the current token. -/
theorem scanOpen_open_close (st : BuilderState) (h : ScanOpen st.previousTokenFlags st)
    (hl : LenPos st.previousTokenFlags st) :
    ScanOpen st.currentTokenFlags (openCurrentToken (closePreviousToken st)) := by
  have hclose := scanFlat_close _ st h hl
  unfold ScanOpen at h ⊢
  rw [openCurrentToken_eq, closePreviousToken_eq]
  dsimp only
  by_cases hc : st.previousTokenFlags > 0 ∧
      (st.currentTokenFlags ≠ st.previousTokenFlags ∨ st.forceTokenBoundary = true)
  · rw [if_pos hc, if_pos hc, ← List.append_assoc]
    by_cases ho : (st.currentTokenFlags > 0 ∧ st.currentTokenFlags ≠ st.previousTokenFlags) ∨
        st.forceTokenBoundary = true
    · rw [if_pos ho, ← List.append_assoc]
      exact scanFlat_open _ _ _ hclose
    · rw [if_neg ho, List.append_nil, hclose]
      have hz : st.currentTokenFlags = 0 := by
        by_contra hne
        rcases hc.2 with h1 | h1
        · exact ho (Or.inl ⟨by omega, h1⟩)
        · exact ho (Or.inr h1)
      rw [hz, openState_zero]
  · rw [if_neg hc, if_neg hc, List.append_nil]
    by_cases ho : (st.currentTokenFlags > 0 ∧ st.currentTokenFlags ≠ st.previousTokenFlags) ∨
        st.forceTokenBoundary = true
    · rw [if_pos ho, ← List.append_assoc]
      have hp : st.previousTokenFlags = 0 := by
        by_contra hne
        rcases ho with h1 | h1
        · exact hc ⟨by omega, Or.inl h1.2⟩
        · exact hc ⟨by omega, Or.inr h1⟩
      rw [hp, openState_zero] at h
      exact scanFlat_open _ _ _ h
    · rw [if_neg ho, List.append_nil, h]
      by_cases he : st.currentTokenFlags = st.previousTokenFlags
      · rw [he]
      · have hz : st.currentTokenFlags = 0 := by
          by_contra hne
          exact ho (Or.inl ⟨by omega, he⟩)
        have hp : st.previousTokenFlags = 0 := by
          by_contra hne
          exact hc ⟨by omega, Or.inl he⟩
        rw [hz, hp]

theorem emitCharacter_length_pos (dl : DisplayLayer) (st : BuilderState)
    (htab : 0 < dl.tabLength) : 0 < (emitCharacter dl st).currentTokenLength := by
  have hm := Nat.mod_lt st.screenColumn htab
  unfold emitCharacter emitTab emitPlainCharacter
  dsimp only
  split
  · split <;> simp [appendText] <;> omega
  · split <;> simp [appendText]

/-- The state of the column loop after classification: the stream is flat up to the open
code of the previous token and, past the end of the line, the current token carries no
flags. -/
theorem flat_beginColumn (dl : DisplayLayer) (hfold : dl.foldCharacter ≠ [])
    (st : BuilderState) (h : FlatInv st) :
    ∃ c, beginColumn dl st = closePreviousToken c ∧ ScanOpen c.previousTokenFlags c ∧
      LenPos c.previousTokenFlags c ∧ LinesFlat c.screenLines ∧
      (c.bufferLine[c.bufferColumn]? = none → c.currentTokenFlags = 0) := by
  refine ⟨classifyCharacter dl (drainHunks dl (skipHunks st.bufferRow st.hunks)
    { st with previousTokenFlags := st.currentTokenFlags, currentTokenFlags := 0 }), rfl, ?_⟩
  have hd := flat_drainHunks dl hfold (skipHunks st.bufferRow st.hunks)
    { st with previousTokenFlags := st.currentTokenFlags, currentTokenFlags := 0 }
    ⟨h.1, h.2.1, h.2.2.1⟩
  have hz := drainHunks_currentTokenFlags dl (skipHunks st.bufferRow st.hunks)
    { st with previousTokenFlags := st.currentTokenFlags, currentTokenFlags := 0 }
  generalize drainHunks dl (skipHunks st.bufferRow st.hunks)
    { st with previousTokenFlags := st.currentTokenFlags, currentTokenFlags := 0 } = d
    at hd hz ⊢
  have hc := classifyCharacter_fields dl d
  refine ⟨?_, ?_, ?_, ?_⟩
  · unfold ScanOpen at hd ⊢
    rw [hc.1, hc.2.2.2.2.1]
    exact hd.1
  · unfold LenPos at hd ⊢
    rw [hc.2.1, hc.2.2.2.2.1]
    exact hd.2.1
  · rw [hc.2.2.2.2.2.2.2.1]
    exact hd.2.2
  · rw [hc.2.2.2.2.2.1, hc.2.2.2.2.2.2.1]
    intro hn
    rw [classifyCharacter_none dl d hn]
    exact hz

theorem guideFlat_emptyRowGuidesStep (dl : DisplayLayer) (st : BuilderState)
    (h : GuideFlat st) : GuideFlat (emptyRowGuidesStep dl st) := by
  have hne : INDENT_GUIDE ≠ 0 := by decide
  unfold emptyRowGuidesStep onlyIf
  dsimp only
  split
  · right
    unfold startEmptyRowGuide
    dsimp only
    refine ⟨by simp [emitOpenTag_eq, appendText], by simp [appendText], ?_⟩
    have hopen : ScanOpen INDENT_GUIDE (emitOpenTag (getBasicTag INDENT_GUIDE)
        { (onlyIf ((onlyIf (st.currentTokenLength > 0)
            (fun st => pushTagCode (TagCode.len st.currentTokenLength) st) st).currentTokenFlags ≠ 0)
            (fun st => pushTagCode (TagCode.closeTag (getBasicTag st.currentTokenFlags)) st)
            (onlyIf (st.currentTokenLength > 0)
              (fun st => pushTagCode (TagCode.len st.currentTokenLength) st) st)) with
          currentTokenFlags := INDENT_GUIDE, currentTokenLength := 0 }) := by
      apply scanOpen_emitOpenTag
      dsimp only
      rcases h with ⟨h1, h2⟩ | ⟨h1, h2, h3⟩
      · have hs := scanFlat_len _ st.currentTokenLength h2
        unfold onlyIf runCodes at *
        split <;> simp_all [pushTagCode]
      · have hs := scanFlat_close _ st h3 (fun _ => h2)
        unfold onlyIf runCodes closeCodes at *
        rw [if_pos h2, if_pos indentGuide_tag_pos, List.append_assoc] at hs
        simpa [pushTagCode, h1, hne, h2] using hs
    unfold ScanOpen at hopen ⊢
    exact hopen
  · rcases h with ⟨h1, h2⟩ | ⟨h1, h2, h3⟩
    · left
      exact ⟨h1, h2⟩
    · right
      exact ⟨h1, by simp [appendText], h3⟩

theorem flat_emitEmptyRowGuides (dl : DisplayLayer) (st : BuilderState)
    (h : scanFlat RunState.idle st.tagCodes = some RunState.idle) :
    scanFlat RunState.idle (emitEmptyRowGuides dl st).tagCodes = some RunState.idle := by
  unfold emitEmptyRowGuides
  dsimp only
  split
  · have hl := emptyRowGuides_induct (P := GuideFlat) dl
      (dl.leadingWhitespaceLengthForSurroundingLines st.bufferRow)
      (fun s hs _ => guideFlat_emptyRowGuidesStep dl s hs)
      (dl.leadingWhitespaceLengthForSurroundingLines st.bufferRow - st.screenColumn)
      { st with currentTokenFlags := 0, currentTokenLength := 0 }
      (Or.inl ⟨rfl, h⟩)
    generalize emptyRowGuides dl _ _ _ = s at hl ⊢
    have hne : INDENT_GUIDE ≠ 0 := by decide
    rcases hl with ⟨h1, h2⟩ | ⟨h1, h2, h3⟩
    · have hs := scanFlat_len _ s.currentTokenLength h2
      unfold onlyIf runCodes at *
      split <;> simp_all [pushTagCode]
    · have hs := scanFlat_close _ s h3 (fun _ => h2)
      unfold onlyIf runCodes closeCodes at *
      rw [if_pos h2, if_pos indentGuide_tag_pos, List.append_assoc] at hs
      simpa [pushTagCode, h1, hne, h2] using hs
  · exact h

theorem flat_emitEolInvisible (dl : DisplayLayer) (st : BuilderState)
    (h : scanFlat RunState.idle st.tagCodes = some RunState.idle) :
    scanFlat RunState.idle (emitEolInvisible dl st).tagCodes = some RunState.idle := by
  unfold emitEolInvisible
  dsimp only
  split
  · rename_i hne
    have hx : (onlyIf ((orFlags (INVISIBLE_CHARACTER ||| LINE_ENDING)
        (appendText (dl.eolInvisibles st.lineEnding) st)).bufferLine.length = 0 ∧
          dl.showIndentGuides = true) (orFlags INDENT_GUIDE)
        (orFlags (INVISIBLE_CHARACTER ||| LINE_ENDING)
          (appendText (dl.eolInvisibles st.lineEnding) st))).tagCodes = st.tagCodes := by
      unfold onlyIf
      split <;> rfl
    generalize onlyIf ((orFlags (INVISIBLE_CHARACTER ||| LINE_ENDING)
        (appendText (dl.eolInvisibles st.lineEnding) st)).bufferLine.length = 0 ∧
          dl.showIndentGuides = true) (orFlags INDENT_GUIDE)
        (orFlags (INVISIBLE_CHARACTER ||| LINE_ENDING)
          (appendText (dl.eolInvisibles st.lineEnding) st)) = x at hx ⊢
    have hpos : 0 < (dl.eolInvisibles st.lineEnding).length := List.length_pos.mpr hne
    have ho := scanOpen_emitOpenTag x.currentTokenFlags x (by rw [hx]; exact h)
    have hc := flat_emitCloseTag x.currentTokenFlags
      { emitOpenTag (getBasicTag x.currentTokenFlags) x with
        currentTokenLength := (dl.eolInvisibles st.lineEnding).length } ho (fun _ => hpos)
    have hflags : (emitOpenTag (getBasicTag x.currentTokenFlags) x).currentTokenFlags =
        x.currentTokenFlags := by rw [emitOpenTag_eq]
    simp only [hflags]
    simp only [emitCloseTag_eq] at hc ⊢
    exact hc
  · exact h

theorem flat_endOfRow (dl : DisplayLayer) (st : BuilderState)
    (h : scanFlat RunState.idle st.tagCodes = some RunState.idle)
    (h0 : 0 < st.currentTokenLength → getBasicTag st.previousTokenFlags = []) :
    (endOfRow dl st).tagCodes = [TagCode.len 0] ∨
      scanFlat RunState.idle (endOfRow dl st).tagCodes = some RunState.idle := by
  unfold endOfRow
  dsimp only
  have h1 : scanFlat RunState.idle (onlyIf (st.currentTokenLength > 0)
      (fun st => emitCloseTag (getBasicTag st.previousTokenFlags) st) st).tagCodes =
      some RunState.idle := by
    unfold onlyIf
    split
    · rename_i hp
      dsimp only
      rw [h0 hp, emitCloseTag_eq]
      have : closeCodes ([] : List Char) = [] := rfl
      rw [this, List.append_nil]
      exact scanFlat_len _ _ h
    · exact h
  generalize onlyIf (st.currentTokenLength > 0)
      (fun st => emitCloseTag (getBasicTag st.previousTokenFlags) st) st = s1 at h1 ⊢
  have h3 := flat_emitEmptyRowGuides dl _ (flat_emitEolInvisible dl s1 h1)
  generalize emitEmptyRowGuides dl (emitEolInvisible dl s1) = s3 at h3 ⊢
  unfold onlyIf
  split
  · rename_i hz
    left
    simp only [pushTagCode, List.length_eq_zero.mp hz, List.nil_append]
  · exact Or.inr h3

theorem flat_columnStep_cont (dl : DisplayLayer) (htab : 0 < dl.tabLength)
    (hfold : dl.foldCharacter ≠ []) (st : BuilderState)
    (h : FlatInv st) (hcont : (columnStep dl st).2 = false) :
    FlatInv (columnStep dl st).1 := by
  obtain ⟨c, hb, h1, hl, h2, h3⟩ := flat_beginColumn dl hfold st h
  unfold columnStep at hcont ⊢
  rw [hb] at hcont ⊢
  dsimp only at hcont ⊢
  split at hcont
  · simp at hcont
  · rename_i hne
    rw [if_neg hne]
    dsimp only
    rw [closePreviousToken_eq] at hne
    dsimp only at hne
    have hf := emitCharacter_fields dl (openCurrentToken (closePreviousToken c))
    have ht := emitCharacter_tagCodes dl (openCurrentToken (closePreviousToken c))
    have ho := scanOpen_open_close c h1 hl
    have hcur : (openCurrentToken (closePreviousToken c)).currentTokenFlags =
        c.currentTokenFlags := by
      rw [openCurrentToken_eq, closePreviousToken_eq]
    have hline : (openCurrentToken (closePreviousToken c)).bufferLine = c.bufferLine := by
      rw [openCurrentToken_eq, closePreviousToken_eq]
    have hcol : (openCurrentToken (closePreviousToken c)).bufferColumn = c.bufferColumn := by
      rw [openCurrentToken_eq, closePreviousToken_eq]
    have hlines : (openCurrentToken (closePreviousToken c)).screenLines = c.screenLines := by
      rw [openCurrentToken_eq, closePreviousToken_eq]
    refine ⟨?_, ?_, ?_, ?_⟩
    · unfold ScanOpen at ho ⊢
      rw [ht, hf.2.2.2.2.2.2.2.2.2.2, hcur]
      exact ho
    · intro _
      exact emitCharacter_length_pos dl _ htab
    · rw [hf.1, hlines]
      exact h2
    · rw [hf.2.2.2.2.2.2.1, hf.2.2.2.2.2.2.2.2.1, hf.2.2.2.2.2.2.2.2.2.2, hcur, hline, hcol]
      intro hlt
      exact h3 (List.getElem?_eq_none (by omega))

theorem flat_columnStep_break (dl : DisplayLayer) (hfold : dl.foldCharacter ≠ [])
    (st : BuilderState) (h : FlatInv st) (hbreak : (columnStep dl st).2 = true) :
    ((columnStep dl st).1.tagCodes = [TagCode.len 0] ∨
      scanFlat RunState.idle (columnStep dl st).1.tagCodes = some RunState.idle) ∧
      LinesFlat (columnStep dl st).1.screenLines := by
  obtain ⟨c, hb, h1, hl, h2, h3⟩ := flat_beginColumn dl hfold st h
  unfold columnStep at hbreak ⊢
  rw [hb] at hbreak ⊢
  dsimp only at hbreak ⊢
  split at hbreak
  · rename_i heq
    rw [if_pos heq]
    dsimp only
    rw [closePreviousToken_eq] at heq
    dsimp only at heq
    have hz : c.currentTokenFlags = 0 := h3 (List.getElem?_eq_none (by omega))
    have hf := (renderOnly_fields (renderOnly_endOfRow dl (renderOnly_refl (closePreviousToken c))))
    refine ⟨?_, ?_⟩
    · apply flat_endOfRow
      · rw [closePreviousToken_eq]
        dsimp only
        by_cases hp : c.previousTokenFlags > 0
        · have hn : ¬ (0 = c.previousTokenFlags) := by omega
          rw [if_pos ⟨hp, Or.inl (by rw [hz]; exact hn)⟩, ← List.append_assoc]
          exact scanFlat_close _ c h1 hl
        · have hp0 : c.previousTokenFlags = 0 := by omega
          unfold ScanOpen at h1
          rw [hp0, openState_zero] at h1
          rw [if_neg (by omega), List.append_nil]
          exact h1
      · rw [closePreviousToken_eq]
        dsimp only
        by_cases hp : c.previousTokenFlags > 0
        · have hn : ¬ (0 = c.previousTokenFlags) := by omega
          simp [hp, hz, hn]
        · have hp0 : c.previousTokenFlags = 0 := by omega
          intro _
          rw [hp0]
          exact basicTag_zero
    · rw [hf.1, closePreviousToken_eq]
      exact h2
  · simp at hbreak

theorem flat_columnLoop (dl : DisplayLayer) (htab : 0 < dl.tabLength)
    (hfold : dl.foldCharacter ≠ []) (fuel : Nat) (st st' : BuilderState)
    (h : FlatInv st) (hl : columnLoop dl fuel st = some st') :
    (st'.tagCodes = [TagCode.len 0] ∨
      scanFlat RunState.idle st'.tagCodes = some RunState.idle) ∧
      LinesFlat st'.screenLines :=
  columnLoop_induct (P := FlatInv)
    (Q := fun s => (s.tagCodes = [TagCode.len 0] ∨
      scanFlat RunState.idle s.tagCodes = some RunState.idle) ∧ LinesFlat s.screenLines) dl
    (fun s hs _ hc => flat_columnStep_cont dl htab hfold s hs hc)
    (fun s hs _ hc => flat_columnStep_break dl hfold s hs hc)
    (fun s hs hn => by
      have hz := hs.2.2.2 (by omega)
      have h1 := hs.1
      unfold ScanOpen at h1
      rw [hz, openState_zero] at h1
      exact ⟨Or.inr h1, hs.2.2.1⟩) fuel st st' h hl

theorem linesFlat_rowStep (dl : DisplayLayer) (htab : 0 < dl.tabLength)
    (hfold : dl.foldCharacter ≠ []) (st st' : BuilderState)
    (h : LinesFlat st.screenLines) (hr : rowStep dl st = some st') :
    LinesFlat st'.screenLines := by
  obtain ⟨s, hs, rfl⟩ := rowStep_eq_some dl st st' hr
  have h0 : FlatInv (startRow dl st) :=
    ⟨by unfold ScanOpen; exact (congrArg some openState_zero).symm, lenPos_zero _, h,
      fun _ => rfl⟩
  obtain ⟨h1, h2⟩ := flat_columnLoop dl htab hfold _ _ s h0 hs
  intro l hmem
  simp only [pushScreenLine] at hmem
  rcases List.mem_append.mp hmem with hm | hm
  · exact h2 l hm
  · simp only [List.mem_singleton] at hm
    subst hm
    rcases h1 with h1 | h1
    · exact Or.inl h1
    · exact Or.inr (decide_eq_true h1)

theorem linesFlat_buildScreenLines (dl : DisplayLayer) (htab : 0 < dl.tabLength)
    (hfold : dl.foldCharacter ≠ []) (nextId s e : Nat)
    (lines : List ScreenLine) (next : Nat)
    (hb : buildScreenLines dl nextId s e = some (lines, next)) : LinesFlat lines := by
  obtain ⟨st, hst, hbs⟩ := buildScreenLines_eq dl nextId s e
  rw [hbs] at hb
  simp only [Option.some.injEq, Prod.mk.injEq] at hb
  rw [← hb.1]
  exact (rowLoop_induct (P := fun x => LinesFlat x.screenLines) dl _
    (fun x x' hx _ hstep => linesFlat_rowStep dl htab hfold x x' hx hstep) _ _ st
    (by simp [LinesFlat, initialState]) hst).1

/-- C20: for a positive tab length and a non-empty fold character `buildScreenLines`
returns, and the tag stream of every line it returns is `[0]` or is flat: read code by
code, a tag is opened only while no tag is open, every open code is followed by exactly
one run length and then by the close code of the same tag, and every run length is
positive. -/
theorem tagCodes_flat (dl : DisplayLayer)
    (nextScreenLineId screenStartRow screenEndRow : Nat) (htab : 0 < dl.tabLength)
    (hfold : dl.foldCharacter ≠ []) :
    ∃ lines next,
      buildScreenLines dl nextScreenLineId screenStartRow screenEndRow = some (lines, next) ∧
      ∀ line ∈ lines, line.tagCodes = [TagCode.len 0] ∨ isFlat line.tagCodes = true := by
  obtain ⟨st, _, hbs⟩ := buildScreenLines_eq dl nextScreenLineId screenStartRow screenEndRow
  exact ⟨_, _, hbs, linesFlat_buildScreenLines dl htab hfold nextScreenLineId screenStartRow
    screenEndRow _ _ hbs⟩

theorem tagCodes_flat_witness :
    (0 < mixedLayer.tabLength ∧ mixedLayer.foldCharacter ≠ []) ∧
    ∃ lines next, buildScreenLines mixedLayer 1 0 4 = some (lines, next) ∧
      ∀ line ∈ lines, line.tagCodes = [TagCode.len 0] ∨ isFlat line.tagCodes = true :=
  ⟨by decide, tagCodes_flat mixedLayer 1 0 4 (by decide) (by decide)⟩

theorem softWrapGuidesStep_eq (dl : DisplayLayer) (st : BuilderState) :
    softWrapGuidesStep dl st =
      { st with
        tagCodes := st.tagCodes ++
          (if st.screenColumn % dl.tabLength = 0 then
            (if st.currentTokenLength > 0 then
              [TagCode.len st.currentTokenLength, TagCode.closeTag "indent-guide".toList]
             else []) ++ [TagCode.openTag "indent-guide".toList]
           else []),
        screenColumn := st.screenColumn + 1,
        currentTokenLength :=
          (if st.screenColumn % dl.tabLength = 0 then 0 else st.currentTokenLength) + 1 } := by
  unfold softWrapGuidesStep onlyIf
  dsimp only
  split
  · split
    · rename_i h1 h2
      simp [emitOpenTag_eq, emitCloseTag_eq, indentGuide_tag, runCodes, openCodes, closeCodes, h2]
    · rename_i h1 h2
      have h0 : st.currentTokenLength = 0 := by omega
      simp [emitOpenTag_eq, indentGuide_tag, runCodes, openCodes, h0]
  · simp

theorem wrapProgress_step (dl : DisplayLayer) (width : Nat) (st : BuilderState)
    (htab : 0 < dl.tabLength) (h : WrapProgress dl.tabLength width st)
    (hlt : st.screenColumn < width) :
    WrapProgress dl.tabLength width (softWrapGuidesStep dl st) := by
  obtain ⟨_, hcase⟩ := h
  rw [softWrapGuidesStep_eq]
  rcases hcase with ⟨hc, htc, hlen⟩ | ⟨done, hlo, hhi, htc, hlen⟩
  · refine ⟨by dsimp only; omega, Or.inr ⟨0, ?_, ?_, ?_, ?_⟩⟩
    · dsimp only; omega
    · dsimp only; omega
    · simp [hc, htc, hlen]
    · simp [hc]
  · have hsucc : (done + 1) * dl.tabLength = done * dl.tabLength + dl.tabLength :=
      Nat.succ_mul _ _
    have hsucc2 : (done + 1 + 1) * dl.tabLength =
        done * dl.tabLength + dl.tabLength + dl.tabLength := by
      rw [Nat.succ_mul, Nat.succ_mul]
    by_cases htick : st.screenColumn % dl.tabLength = 0
    · have hcol := (tick_iff _ _ _ hlo hhi).mp htick
      refine ⟨by dsimp only; omega, Or.inr ⟨done + 1, ?_, ?_, ?_, ?_⟩⟩
      · dsimp only; omega
      · dsimp only; omega
      · have hmin : min dl.tabLength (width - done * dl.tabLength) = dl.tabLength := by
          omega
        have hl : st.currentTokenLength = dl.tabLength := by omega
        simp [htc, hl, htick, htab, List.range_succ, indentGuideRun, hmin]
      · simp only [if_pos htick]; omega
    · have hcol : st.screenColumn ≠ (done + 1) * dl.tabLength :=
        fun hc => htick ((tick_iff _ _ _ hlo hhi).mpr hc)
      refine ⟨by dsimp only; omega, Or.inr ⟨done, ?_, ?_, ?_, ?_⟩⟩
      · dsimp only; omega
      · dsimp only; omega
      · simp [htc, htick]
      · simp only [if_neg htick]; omega

theorem softWrapGuides_eq (dl : DisplayLayer) (width : Nat) (htab : 0 < dl.tabLength) :
    ∀ fuel st, WrapProgress dl.tabLength width st → width - st.screenColumn ≤ fuel →
      ∃ tc len, softWrapGuides dl width fuel st =
          { st with tagCodes := tc, screenColumn := width, currentTokenLength := len } ∧
        WrapProgress dl.tabLength width
          { st with tagCodes := tc, screenColumn := width, currentTokenLength := len } := by
  intro fuel
  induction fuel with
  | zero =>
    intro st h hf
    have h1 := h.1
    have hw : st.screenColumn = width := by omega
    refine ⟨st.tagCodes, st.currentTokenLength, ?_, ?_⟩
    · subst hw; rfl
    · subst hw; exact h
  | succ k ih =>
    intro st h hf
    unfold softWrapGuides
    split
    · rename_i hlt
      obtain ⟨tc, len, e, hp⟩ := ih _ (wrapProgress_step dl width st htab h hlt)
        (by rw [softWrapGuidesStep_eq]; dsimp only; omega)
      refine ⟨tc, len, ?_, ?_⟩
      · rw [e, softWrapGuidesStep_eq]
      · rw [softWrapGuidesStep_eq] at hp
        exact hp
    · have h1 := h.1
      have hw : st.screenColumn = width := by omega
      refine ⟨st.tagCodes, st.currentTokenLength, ?_, ?_⟩
      · subst hw; rfl
      · subst hw; exact h

/-- The soft-wrap branch in closed form: the line so far is closed and pushed, and the
next line starts with the indent, rendered as the indent-guide runs of the specification
when the guides are on and as a pending token of spaces otherwise. -/
theorem applySoftWrap_eq (dl : DisplayLayer) (hk : Hunk) (st : BuilderState)
    (htab : 0 < dl.tabLength) :
    applySoftWrap dl hk st =
      { st with
        screenLines := st.screenLines ++
          [{ id := st.nextScreenLineId, lineText := st.screenLineText,
             tagCodes := st.tagCodes ++ runCodes st.currentTokenLength ++
               closeCodes (getBasicTag st.previousTokenFlags) }],
        nextScreenLineId := st.nextScreenLineId + 1,
        screenRow := st.screenRow + 1,
        previousTokenFlags := 0,
        screenLineText := List.replicate hk.newEnd.column ' ',
        tagCodes := if dl.showIndentGuides = true ∧ hk.newEnd.column > 0 then
            indentGuideRuns dl.tabLength hk.newEnd.column else [],
        screenColumn := hk.newEnd.column,
        currentTokenLength := if dl.showIndentGuides = true ∧ hk.newEnd.column > 0 then 0
          else hk.newEnd.column } := by
  unfold applySoftWrap
  dsimp only
  split
  · rename_i hc
    obtain ⟨tc, len, e, hp⟩ := softWrapGuides_eq dl hk.newEnd.column htab hk.newEnd.column
      { pushScreenLine { emitCloseTag (getBasicTag st.previousTokenFlags) st with
          previousTokenFlags := 0 } with
        screenLineText := List.replicate hk.newEnd.column ' ', tagCodes := [],
        screenColumn := 0 }
      ⟨Nat.zero_le _, Or.inl ⟨rfl, rfl, by simp [pushScreenLine, emitCloseTag_eq]⟩⟩
      (by dsimp only; omega)
    rw [e, emitCloseTag_eq]
    obtain ⟨_, hcase⟩ := hp
    dsimp only at hcase
    rcases hcase with ⟨hz, _, _⟩ | ⟨done, hlo, hhi, htc, hlen⟩
    · omega
    · have hpos : len > 0 := by omega
      have hruns : tc ++ runCodes len ++ closeCodes (getBasicTag INDENT_GUIDE) =
          indentGuideRuns dl.tabLength hk.newEnd.column := by
        rw [htc, hlen, indentGuide_tag, ← indentGuideRuns_of_progress _ _ done hlo hhi]
        have : hk.newEnd.column - done * dl.tabLength > 0 := by omega
        simp [runCodes, closeCodes, this]
      simp only [pushScreenLine, emitCloseTag_eq, hruns]
  · simp only [pushScreenLine, emitCloseTag_eq]

theorem skipHunks_of_later (row : Nat) (rest : List Hunk)
    (h : ∀ y ∈ rest, row < y.oldStart.row) : skipHunks row rest = rest := by
  cases rest with
  | nil => rfl
  | cons y ys =>
    have := h y (List.mem_cons_self _ _)
    unfold skipHunks
    rw [List.dropWhile_cons, if_neg (by simp; omega)]

theorem columnStep_wrap (dl : DisplayLayer) (hk : Hunk) (rest : List Hunk)
    (x : BuilderState) (htab : 0 < dl.tabLength)
    (hskip : skipHunks x.bufferRow x.hunks = hk :: rest)
    (hrow : hk.oldStart.row = x.bufferRow) (hcol : hk.oldStart.column = x.bufferColumn)
    (hnofold : hk.newText ≠ dl.foldCharacter)
    (hwrap : isEqual hk.oldStart hk.oldEnd = true)
    (hrest : ∀ h ∈ rest, x.bufferRow < h.oldStart.row) :
    columnStep dl x = columnStep dl (afterWrap dl hk rest x) := by
  have hb1 : beginColumn dl x =
      closePreviousToken (classifyCharacter dl (afterWrap dl hk rest x)) := by
    unfold beginColumn
    dsimp only
    rw [hskip]
    unfold drainHunks
    rw [if_pos ⟨hrow, hcol⟩]
    unfold applyHunk
    rw [if_neg hnofold, if_pos hwrap, applySoftWrap_eq _ _ _ htab]
    rw [drainHunks_of_head dl rest _ (fun y hy hc => by
      have := hrest y (List.mem_of_mem_head? hy)
      have h2 := hc.1
      dsimp only at h2
      omega)]
    rfl
  have hb2 : beginColumn dl (afterWrap dl hk rest x) =
      closePreviousToken (classifyCharacter dl (afterWrap dl hk rest x)) := by
    have hs : skipHunks (afterWrap dl hk rest x).bufferRow (afterWrap dl hk rest x).hunks =
        rest := skipHunks_of_later _ _ hrest
    unfold beginColumn
    dsimp only
    rw [hs]
    rw [drainHunks_of_head dl rest _ (fun y hy hc => by
      have := hrest y (List.mem_of_mem_head? hy)
      have h2 := hc.1
      dsimp only [afterWrap] at h2
      omega)]
    rfl
  unfold columnStep
  rw [hb1, hb2]

theorem cellOf_glyphs_plain (dl : DisplayLayer) (tws sc : Nat) (lead trailing : Bool)
    (ch : Char) (hsp : dl.invisibles.space = []) (ht : ch ≠ '\t') :
    (cellOf dl tws sc lead trailing ch).glyphs = [ch] := by
  by_cases h : ch = ' '
  · subst h
    rw [(cellOf_space dl tws sc lead trailing).2.2.2.2.2.2.2.2.2.2, if_neg (by simp [hsp])]
  · rw [cellOf_other dl tws sc lead trailing ch h ht]

theorem wrapBefore_step (dl : DisplayLayer) (st : BuilderState) (hk : Hunk)
    (rest : List Hunk) (x : BuilderState)
    (hrow : hk.oldStart.row = st.bufferRow)
    (hstart : hk.oldStart.column ≤ (dl.lineForRow st.bufferRow).length)
    (htabs : '\t' ∉ dl.lineForRow st.bufferRow) (hspace : dl.invisibles.space = [])
    (hx : WrapBefore dl st hk rest x) (hlt : x.bufferColumn < hk.oldStart.column) :
    (columnStep dl x).2 = false ∧ WrapBefore dl st hk rest (columnStep dl x).1 := by
  obtain ⟨h1, h2, h3, h4, h5, h6, h7, h8, h9, h10⟩ := hx
  have hno : NoHunkHere x := by
    intro y hy hc
    rw [h1, h6] at hy
    simp only [List.head?_cons, Option.some.injEq] at hy
    subst hy
    omega
  have hlen : x.bufferColumn < x.bufferLine.length := by rw [h2]; omega
  have hc : x.bufferLine[x.bufferColumn]? = some (x.bufferLine[x.bufferColumn]) :=
    List.getElem?_eq_getElem hlen
  have hnt : x.bufferLine[x.bufferColumn] ≠ '\t' := by
    intro e
    apply htabs
    rw [← h2, ← e]
    exact List.getElem_mem _
  rw [columnStep_cell dl x _ hno hc h10 _ rfl]
  refine ⟨rfl, h1, h2, h3, by dsimp only; omega, ?_, ?_, h7, h8, h9, ?_⟩
  · dsimp only
    rw [cellOf_glyphs_plain dl _ _ _ _ _ hspace hnt, h5]
    have hlen2 : x.bufferColumn < (dl.lineForRow st.bufferRow).length := by omega
    rw [List.take_succ, List.getElem?_eq_getElem hlen2]
    simp only [h2]
    rfl
  · dsimp only
    rw [h1, h6]
    exact skipHunks_cons_self _ _ _ hrow
  · dsimp only
    intro ht
    have := of_decide_eq_true ht
    omega

/-- The column loop over a row whose only hunk is a wrap hunk: the text is copied up to
the column of the hunk, the wrap is taken there, and the rest of the row is rendered
after the indent as on a row without hunks. -/
theorem columnLoop_wrap (dl : DisplayLayer) (st : BuilderState) (hk : Hunk)
    (rest : List Hunk) (htab : 0 < dl.tabLength)
    (hrow : hk.oldStart.row = st.bufferRow)
    (hwrap : isEqual hk.oldStart hk.oldEnd = true)
    (hnofold : hk.newText ≠ dl.foldCharacter)
    (hstart : hk.oldStart.column ≤ (dl.lineForRow st.bufferRow).length)
    (hrest : ∀ h ∈ rest, st.bufferRow < h.oldStart.row)
    (htabs : '\t' ∉ dl.lineForRow st.bufferRow) (hspace : dl.invisibles.space = [])
    (fuel : Nat) (x y : BuilderState) (hx : WrapBefore dl st hk rest x)
    (hl : columnLoop dl fuel x = some y) :
    ∃ xw, WrapBefore dl st hk rest xw ∧ xw.bufferColumn = hk.oldStart.column ∧
      RowDone dl (afterWrap dl hk rest xw) y := by
  have hafter : ∀ xw, WrapBefore dl st hk rest xw → xw.bufferColumn = hk.oldStart.column →
      columnStep dl xw = columnStep dl (afterWrap dl hk rest xw) ∧
      (∀ h ∈ (afterWrap dl hk rest xw).hunks,
        h.oldStart.row ≠ (afterWrap dl hk rest xw).bufferRow) ∧
      RowInv dl (afterWrap dl hk rest xw) (afterWrap dl hk rest xw) := by
    intro xw hw hcol
    obtain ⟨h1, h2, h3, h4, h5, h6, h7, h8, h9, h10⟩ := hw
    refine ⟨columnStep_wrap dl hk rest xw htab (by rw [h1]; exact h6) (by rw [h1]; exact hrow)
      hcol.symm hnofold hwrap (by rw [h1]; exact hrest), ?_, ?_⟩
    · intro h hh
      have := hrest h hh
      have e : (afterWrap dl hk rest xw).bufferRow = st.bufferRow := h1
      rw [e]
      omega
    · exact rowInv_refl dl _ h10 (by
        have e1 : (afterWrap dl hk rest xw).bufferColumn = xw.bufferColumn := rfl
        have e2 : (afterWrap dl hk rest xw).bufferLine = xw.bufferLine := rfl
        rw [e1, e2, h2, hcol]
        exact hstart)
  refine columnLoop_induct
    (P := fun s => WrapBefore dl st hk rest s ∨
      ∃ xw, WrapBefore dl st hk rest xw ∧ xw.bufferColumn = hk.oldStart.column ∧
        RowInv dl (afterWrap dl hk rest xw) s)
    (Q := fun s => ∃ xw, WrapBefore dl st hk rest xw ∧ xw.bufferColumn = hk.oldStart.column ∧
        RowDone dl (afterWrap dl hk rest xw) s) dl ?_ ?_ ?_ fuel x y (Or.inl hx) hl
  · intro s hs _ hc
    rcases hs with hs | ⟨xw, hw, hcol, hinv⟩
    · by_cases hlt : s.bufferColumn < hk.oldStart.column
      · exact Or.inl (wrapBefore_step dl st hk rest s hrow hstart htabs hspace hs hlt).2
      · have hcol : s.bufferColumn = hk.oldStart.column := by
          have := hs.2.2.2.1
          omega
        obtain ⟨e, hh, hrefl⟩ := hafter s hs hcol
        rw [e] at hc ⊢
        right
        refine ⟨s, hs, hcol, ?_⟩
        by_cases hlt2 : (afterWrap dl hk rest s).bufferColumn <
            (afterWrap dl hk rest s).bufferLine.length
        · exact (rowInv_step dl _ _ hh hrefl hlt2).2
        · have hend : (afterWrap dl hk rest s).bufferColumn =
              (afterWrap dl hk rest s).bufferLine.length := by
            have := hrefl.2.2.2.2.2.2.2.2.1
            omega
          rw [(rowInv_break dl _ _ hh hrefl hend).1] at hc
          exact absurd hc (by simp)
    · obtain ⟨_, hh, _⟩ := hafter xw hw hcol
      right
      refine ⟨xw, hw, hcol, ?_⟩
      by_cases hlt : s.bufferColumn < s.bufferLine.length
      · exact (rowInv_step dl _ s hh hinv hlt).2
      · have hend : s.bufferColumn = s.bufferLine.length := by
          have := hinv.2.2.2.2.2.2.2.2.1
          omega
        rw [(rowInv_break dl _ s hh hinv hend).1] at hc
        exact absurd hc (by simp)
  · intro s hs _ hc
    rcases hs with hs | ⟨xw, hw, hcol, hinv⟩
    · by_cases hlt : s.bufferColumn < hk.oldStart.column
      · rw [(wrapBefore_step dl st hk rest s hrow hstart htabs hspace hs hlt).1] at hc
        exact absurd hc (by simp)
      · have hcol : s.bufferColumn = hk.oldStart.column := by
          have := hs.2.2.2.1
          omega
        obtain ⟨e, hh, hrefl⟩ := hafter s hs hcol
        rw [e] at hc ⊢
        refine ⟨s, hs, hcol, ?_⟩
        by_cases hlt2 : (afterWrap dl hk rest s).bufferColumn <
            (afterWrap dl hk rest s).bufferLine.length
        · rw [(rowInv_step dl _ _ hh hrefl hlt2).1] at hc
          exact absurd hc (by simp)
        · have hend : (afterWrap dl hk rest s).bufferColumn =
              (afterWrap dl hk rest s).bufferLine.length := by
            have := hrefl.2.2.2.2.2.2.2.2.1
            omega
          exact (rowInv_break dl _ _ hh hrefl hend).2
    · obtain ⟨_, hh, _⟩ := hafter xw hw hcol
      refine ⟨xw, hw, hcol, ?_⟩
      by_cases hlt : s.bufferColumn < s.bufferLine.length
      · rw [(rowInv_step dl _ s hh hinv hlt).1] at hc
        exact absurd hc (by simp)
      · have hend : s.bufferColumn = s.bufferLine.length := by
          have := hinv.2.2.2.2.2.2.2.2.1
          omega
        exact (rowInv_break dl _ s hh hinv hend).2
  · intro s hs hn
    rcases hs with hs | ⟨xw, hw, hcol, hinv⟩
    · have := hs.2.2.2.1
      have e := hs.2.1
      rw [e] at hn
      omega
    · exact absurd hinv.2.2.2.2.2.2.2.2.1 hn

theorem getBasicTag_pos (flags : Nat) (hd : flags &&& definedFlags = flags)
    (h0 : flags ≠ 0) : (getBasicTag flags).length > 0 := by
  by_contra hlen
  have he : getBasicTag flags = [] := List.length_eq_zero.mp (by omega)
  have hf := flagsOfTag_getBasicTag flags hd
  rw [he] at hf
  exact h0 (by rw [← hf]; decide)

theorem cellOf_force_flags (dl : DisplayLayer) (tws sc : Nat) (lead trailing : Bool)
    (ch : Char) (h : (cellOf dl tws sc lead trailing ch).force = true) :
    (cellOf dl tws sc lead trailing ch).flags ≠ 0 := by
  by_cases hsp : ch = ' '
  · subst hsp
    have hs := cellOf_space dl tws sc lead trailing
    have hg := hs.2.2.2.2.1.mpr (hs.2.2.2.2.2.2.2.2.1.mp h).1
    intro hz
    rw [hz] at hg
    exact hg (by decide)
  · by_cases htab : ch = '\t'
    · subst htab
      have hs := cellOf_tab dl tws sc lead trailing
      intro hz
      have hg := hs.2.2.1
      rw [hz] at hg
      exact hg (by decide)
    · rw [cellOf_other dl tws sc lead trailing ch hsp htab] at h
      exact absurd h (by simp)

/-- The runs after a pending token without flags: the token goes on over the cells
without flags that follow, and the run after it, if there is one, has flags. -/
theorem groupRuns_plain (cells : List Cell)
    (hcell : ∀ c ∈ cells, c.force = true → c.flags ≠ 0) :
    ∀ n, ∃ m rest, groupRuns 0 n cells = (0, n + m) :: rest ∧
      (rest = [] ∨ ∃ c ∈ cells, ∃ l r, rest = (c.flags, l) :: r ∧ c.flags ≠ 0) := by
  induction cells with
  | nil => intro n; exact ⟨0, [], rfl, Or.inl rfl⟩
  | cons c cs ih =>
    intro n
    have e : groupRuns 0 n (c :: cs) =
        if c.flags = 0 ∧ c.force = false then groupRuns 0 (n + c.width) cs
        else (0, n) :: groupRuns c.flags c.width cs := rfl
    rw [e]
    split
    · obtain ⟨m, rest, h1, h2⟩ := ih (fun d hd => hcell d (List.mem_cons_of_mem _ hd))
        (n + c.width)
      refine ⟨c.width + m, rest, by rw [h1, Nat.add_assoc], ?_⟩
      rcases h2 with h2 | ⟨d, hd, l, r, h2, h3⟩
      · exact Or.inl h2
      · exact Or.inr ⟨d, List.mem_cons_of_mem _ hd, l, r, h2, h3⟩
    · rename_i hm
      obtain ⟨l, r, hr⟩ := groupRuns_ne_nil c.flags c.width cs
      refine ⟨0, _, rfl, Or.inr ⟨c, List.mem_cons_self _ _, l, r, hr, ?_⟩⟩
      intro hz
      cases hf : c.force
      · exact hm ⟨hz, hf⟩
      · exact hcell c (List.mem_cons_self _ _) hf hz

theorem indentGuideRuns_ne_nil (t k : Nat) (ht : 0 < t) (hk : 0 < k) :
    indentGuideRuns t k ≠ [] := by
  have h1 : (k - 1) / t * t < k := by
    have := Nat.div_mul_le_self (k - 1) t
    omega
  have h2 : k ≤ ((k - 1) / t + 1) * t := by
    have := Nat.lt_mul_div_succ (k - 1) ht
    rw [Nat.mul_comm] at this
    omega
  rw [← indentGuideRuns_of_progress t k ((k - 1) / t) h1 h2]
  simp

/-- C11 (as stated): an empty row with a wrap hunk at column 0 and an indent of 2, with
the indent guides on and a surrounding leading-whitespace width of 4: the second screen
line is four spaces, not the two spaces of the indent followed by the (empty) rest of the
row. -/
theorem softWrap_of_empty_row_extends_guides :
    buildScreenLines wrappedEmptyRowLayer 0 0 2 =
      some ([{ id := 0, lineText := [], tagCodes := [] },
             { id := 1, lineText := [' ', ' ', ' ', ' '],
               tagCodes := [TagCode.openTag "indent-guide".toList, TagCode.len 2,
                 TagCode.closeTag "indent-guide".toList, TagCode.len 2] }], 2) ∧
    List.replicate 2 ' ' ++ (wrappedEmptyRowLayer.lineForRow 0).drop 0 = [' ', ' '] := by
  decide

/-- C11 (amended): a buffer row that is not empty or is rendered with the indent guides
off, whose only hunk is a wrap hunk at buffer column `c` of the row with
`newEnd.column = k`, whose text contains no tabs, with a positive tab length and with
space, tab and end-of-line glyphs off, yields two screen lines with consecutive ids: the
first has the first `c` characters of the row as text, the second `k` spaces followed by
the characters of the row from column `c` on. With the indent guides on and `k > 0` the
tag stream of the second line starts with the indent-guide runs of the specification over
the `k` spaces, one starting at each multiple of the tab length below `k`; with the guides
off and `k > 0` it starts with one run length `k + m` without a tag, where the `m`
characters after the indent have no tag either, followed by nothing or by an open code. -/
theorem softWrap_splits_row (dl : DisplayLayer) (st : BuilderState) (hk : Hunk)
    (rest : List Hunk)
    (htab : 0 < dl.tabLength)
    (hskip : skipHunks st.bufferRow st.hunks = hk :: rest)
    (hrow : hk.oldStart.row = st.bufferRow)
    (hwrap : isEqual hk.oldStart hk.oldEnd = true)
    (hnofold : hk.newText ≠ dl.foldCharacter)
    (hstart : hk.oldStart.column ≤ (dl.lineForRow st.bufferRow).length)
    (hrest : ∀ h ∈ rest, st.bufferRow < h.oldStart.row)
    (htabs : '\t' ∉ dl.lineForRow st.bufferRow)
    (hspace : dl.invisibles.space = []) (htabGlyph : dl.invisibles.tab = [])
    (heol : dl.eolInvisibles (dl.lineEndingForRow st.bufferRow) = [])
    (hguides : dl.lineForRow st.bufferRow ≠ [] ∨ dl.showIndentGuides = false) :
    ∃ st' tags1 tags2, rowStep dl st = some st' ∧
      st'.bufferRow = st.bufferRow + 1 ∧
      st'.screenLines = st.screenLines ++
        [{ id := st.nextScreenLineId,
           lineText := (dl.lineForRow st.bufferRow).take hk.oldStart.column,
           tagCodes := tags1 },
         { id := st.nextScreenLineId + 1,
           lineText := List.replicate hk.newEnd.column ' ' ++
             (dl.lineForRow st.bufferRow).drop hk.oldStart.column,
           tagCodes := tags2 }] ∧
      (dl.showIndentGuides = true ∧ 0 < hk.newEnd.column →
        ∃ more, tags2 = indentGuideRuns dl.tabLength hk.newEnd.column ++ more) ∧
      (dl.showIndentGuides = false ∧ 0 < hk.newEnd.column →
        ∃ m more, tags2 = TagCode.len (hk.newEnd.column + m) :: more ∧
          (more = [] ∨ ∃ tag r, more = TagCode.openTag tag :: r)) := by
  obtain ⟨st', hst'⟩ := rowStep_isSome dl st
  obtain ⟨s, hs, rfl⟩ := rowStep_eq_some dl st st' hst'
  have h0 : WrapBefore dl st hk rest (startRow dl st) :=
    ⟨rfl, rfl, rfl, Nat.zero_le _, rfl, hskip, rfl, rfl, rfl,
      fun h => absurd h (by simp [startRow])⟩
  obtain ⟨xw, hw, hcol, hdone⟩ := columnLoop_wrap dl st hk rest htab hrow hwrap hnofold hstart
    hrest htabs hspace _ _ s h0 hs
  obtain ⟨w1, w2, w3, w4, w5, w6, w7, w8, w9, w10⟩ := hw
  obtain ⟨d1, d2, d3, d4, d5, tail, d6, d7, d8, d9, d10⟩ := hdone
  have hline : (afterWrap dl hk rest xw).bufferLine = dl.lineForRow st.bufferRow := w2
  have hending : (afterWrap dl hk rest xw).lineEnding = dl.lineEndingForRow st.bufferRow := w3
  have htail : tail = [] := by
    apply d10
    rw [hline]
    rintro ⟨hl, hg⟩
    rcases hguides with hne | hoff
    · exact hne (List.length_eq_zero.mp hl)
    · rw [hoff] at hg
      exact absurd hg (by simp)
  have hrest2 : rowRest dl (afterWrap dl hk rest xw) =
      rowCells dl xw.trailingWhitespaceStartColumn hk.oldStart.column hk.newEnd.column
        xw.inLeadingWhitespace ((dl.lineForRow st.bufferRow).drop hk.oldStart.column) := by
    unfold rowRest
    rw [hline]
    have e1 : (afterWrap dl hk rest xw).bufferColumn = xw.bufferColumn := rfl
    rw [e1, hcol]
    rfl
  have htext : cellsText (rowRest dl (afterWrap dl hk rest xw)) =
      (dl.lineForRow st.bufferRow).drop hk.oldStart.column := by
    rw [hrest2, cellsText_plain dl _ _ hspace htabGlyph]
    exact expandTabsFrom_of_no_tab _ _ (fun h => htabs (List.mem_of_mem_drop h)) _
  have heolRuns : eolRuns dl (afterWrap dl hk rest xw).bufferLine
      (dl.eolInvisibles (afterWrap dl hk rest xw).lineEnding) = [] := by
    rw [hending, heol]
    rfl
  rw [heolRuns, htail] at d6
  rw [hending, heol, htail, htext] at d7
  refine ⟨_, xw.tagCodes ++ runCodes xw.currentTokenLength ++
    closeCodes (getBasicTag xw.currentTokenFlags), s.tagCodes, hst', ?_, ?_, ?_, ?_⟩
  · simp only [pushScreenLine, d1]
    exact congrArg (· + 1) w1
  · simp only [pushScreenLine, d2, d3, d7]
    simp only [afterWrap, w7, w8, w5, hcol, List.append_assoc, List.cons_append,
      List.nil_append, List.append_nil]
    have hz : runsLength [] = 0 := rfl
    simp [hz]
  · intro hc
    rw [d6]
    have htc : (afterWrap dl hk rest xw).tagCodes =
        indentGuideRuns dl.tabLength hk.newEnd.column := by
      simp only [afterWrap]
      rw [if_pos hc]
    rw [htc, orZeroRun_of_ne_nil]
    · exact ⟨_, by rw [List.append_assoc]⟩
    · intro hnil
      have := indentGuideRuns_ne_nil dl.tabLength hk.newEnd.column htab hc.2
      simp only [List.append_eq_nil] at hnil
      exact this hnil.1.1
  · intro hc
    rw [d6]
    have hno : ¬ (dl.showIndentGuides = true ∧ hk.newEnd.column > 0) := by
      rw [hc.1]
      simp
    have htc : (afterWrap dl hk rest xw).tagCodes = [] := by
      simp only [afterWrap]
      rw [if_neg hno]
    have hfl : (afterWrap dl hk rest xw).currentTokenFlags = 0 := rfl
    have hln : (afterWrap dl hk rest xw).currentTokenLength = hk.newEnd.column := by
      simp only [afterWrap]
      rw [if_neg hno]
    obtain ⟨m, runs, hg, hruns⟩ := groupRuns_plain (rowRest dl (afterWrap dl hk rest xw))
      (fun c hcm hf => by
        rw [hrest2] at hcm
        obtain ⟨sc1, lead1, trailing1, ch, rfl⟩ := rowCells_mem dl _ _ _ _ _ c hcm
        exact cellOf_force_flags dl _ sc1 lead1 trailing1 ch hf) hk.newEnd.column
    have hpos : hk.newEnd.column + m > 0 := by omega
    rw [htc, hfl, hln, hg]
    simp only [finishRuns, closeCodes_zero, runCodes, if_pos hpos, encodeRuns_nil,
      List.nil_append, List.append_nil, List.singleton_append]
    rw [orZeroRun_of_ne_nil _ (by simp)]
    refine ⟨m, _, rfl, ?_⟩
    rcases hruns with hr | ⟨c, hcm, l, r, hr, hne⟩
    · left
      rw [hr]
      rfl
    · right
      rw [hrest2] at hcm
      obtain ⟨sc1, lead1, trailing1, ch, rfl⟩ := rowCells_mem dl _ _ _ _ _ c hcm
      have hd := (cellOf_synthetic dl xw.trailingWhitespaceStartColumn sc1 lead1 trailing1
        ch).2.2.2.2
      have hp := getBasicTag_pos _ hd hne
      rw [hr, encodeRuns_cons]
      unfold encodeRun openCodes
      dsimp only
      rw [if_pos hp]
      exact ⟨_, _, rfl⟩

theorem softWrap_splits_row_witness :
    ∃ st' tags1 tags2,
      rowStep wrapAtTwentyLayer (initialState wrapAtTwentyLayer 1 0 2) = some st' ∧
      st'.screenLines =
        [{ id := 1, lineText := "the quick brown fox ".toList, tagCodes := tags1 },
         { id := 2, lineText := "    jumps over the lazy dog".toList, tagCodes := tags2 }] ∧
      ∃ more, tags2 = indentGuideRuns 4 4 ++ more := by
  obtain ⟨st', tags1, tags2, h1, _, h3, h4, _⟩ :=
    softWrap_splits_row wrapAtTwentyLayer (initialState wrapAtTwentyLayer 1 0 2)
      { oldStart := ⟨0, 20⟩, oldEnd := ⟨0, 20⟩, newStart := ⟨0, 20⟩, newEnd := ⟨1, 4⟩,
        newText := [] } []
      (by decide) (by decide) (by decide) (by decide) (by decide) (by decide)
      (fun _ h => absurd h (List.not_mem_nil _)) (by decide) (by decide) (by decide)
      (by decide) (Or.inl (by decide))
  exact ⟨st', tags1, tags2, h1, h3, h4 ⟨by decide, by decide⟩⟩

end ScreenLineBuilder
